import Mathlib

/-!
Emergency dispatch: graph store, shortest paths, call queue, allocator.

A shallow embedding of `queue.c`, `main.c` and `graph.c`.

Conventions of the embedding
* A C array is a total function `Nat → α`; an assignment `a[i] = x` is
  `Function.update a i x`.  Slots that the program never reads carry
  whatever value they had.
* A finite `double` is the rational it denotes (`ℚ`); comparisons are exact
  and the sentinels `1e18` / `1e9` are the corresponding integers.  The
  functions `dijkstra` are embedded twice: `dijkstra` adds exactly, and
  `dijkstra_fp` rounds every sum to the nearest double as IEEE 754 binary64
  does (`Dbl.add`).  The statements about the values written to `dist[]` and
  about the links of `parent[]` that depend on them are made on
  `dijkstra_fp`.
* An `int` holding an array index is a `Nat`; an `int` that may hold the
  marker `-1` (`head`, `next`, `parent`, a search result) is an `Int`.
* A NUL-terminated string is a `String`, read through its list of characters;
  `tolower` is `Char.toLower` (ASCII letters only).
* A loop whose exit is not structurally evident takes a fuel argument; the
  theorems show that the fuel supplied by the callers is never exhausted.

Part I holds the definitions, Part II the lemmas and theorems.
-/

set_option autoImplicit false

/-! ## Part I. Definitions -/

/-! ### Binary heap in an array whose root sits at index `b`

`queue.c` keeps the root at index `0`, `main.c` and `graph.c` at index `1`.
The three sift loops of the sources are instances of the two loops below;
every source function is embedded literally in its own namespace and shown
equal to its instance. -/

namespace BinHeap

variable {α : Type}

/-- Exchange of two array slots: `t = a[i]; a[i] = a[j]; a[j] = t`. -/
def swap (a : Nat → α) (i j : Nat) : Nat → α :=
  Function.update (Function.update a i (a j)) j (a i)

/-- Parent of slot `i` when the root is slot `b` (`(i-1)/2` for `b = 0`,
`i/2` for `b = 1`). -/
def par (b i : Nat) : Nat := (i - 1 + b) / 2

/-- Sift-up loop: while `i` is not the root and beats its parent, swap. -/
def siftUp (lt : α → α → Bool) (b : Nat) : Nat → (Nat → α) → Nat → (Nat → α)
  | 0, a, _ => a
  | fuel + 1, a, i =>
    if b < i ∧ lt (a i) (a (par b i)) = true then
      siftUp lt b fuel (swap a i (par b i)) (par b i)
    else a

/-- One selection step of sift-down: child `c` replaces the current best `s`
when it lies below `lim` and beats it. -/
def pick (lt : α → α → Bool) (a : Nat → α) (lim c s : Nat) : Nat :=
  if c < lim ∧ lt (a c) (a s) = true then c else s

/-- Sift-down loop on the `n` resident slots `b .. b+n-1`. -/
def siftDown (lt : α → α → Bool) (b : Nat) : Nat → (Nat → α) → Nat → Nat → (Nat → α)
  | 0, a, _, _ => a
  | fuel + 1, a, n, i =>
    if pick lt a (n + b) (2 * i + 2 - b) (pick lt a (n + b) (2 * i + 1 - b) i) = i then a
    else siftDown lt b fuel
      (swap a i (pick lt a (n + b) (2 * i + 2 - b) (pick lt a (n + b) (2 * i + 1 - b) i))) n
      (pick lt a (n + b) (2 * i + 2 - b) (pick lt a (n + b) (2 * i + 1 - b) i))

/-- Heap order: no resident slot beats its parent. -/
def IsHeap (lt : α → α → Bool) (b n : Nat) (a : Nat → α) : Prop :=
  ∀ j, b < j → j < n + b → lt (a j) (a (par b j)) = false

/-- The resident elements `a[b], .., a[b+n-1]` as a multiset. -/
def contents (b n : Nat) (a : Nat → α) : Multiset α :=
  ((List.range' b n).map a : List α)

/-- The comparison is a strict weak order. -/
structure StrictWeak (lt : α → α → Bool) : Prop where
  asymm : ∀ x y, lt x y = true → lt y x = false
  ntrans : ∀ x y z, lt x y = false → lt y z = false → lt x z = false

end BinHeap

/-! ### C strings -/

namespace CStr

/-- Lower-casing loop `for (i = 0; s[i]; ++i) s[i] = tolower(s[i])`. -/
def lower (s : List Char) : List Char := s.map Char.toLower

/-- Does `needle` start at the head of `hay`? -/
def startsWith : List Char → List Char → Bool
  | _, [] => true
  | [], _ :: _ => false
  | h :: hs, n :: ns => h == n && startsWith hs ns

/-- Library `strstr(hay, needle) != NULL`: the needle occurs at some offset. -/
def strstr : List Char → List Char → Bool
  | [], needle => startsWith [] needle
  | h :: hs, needle => startsWith (h :: hs) needle || strstr hs needle

/-- Library `strcasecmp(a, b) == 0`. -/
def strcasecmp_eq (a b : List Char) : Bool := lower a == lower b

/-- Library `snprintf(buf, size, "%s", s)` / `strncpy` followed by a NUL: at
most `size - 1` characters are kept. -/
def bounded (size : Nat) (s : String) : List Char := s.data.take (size - 1)

end CStr

/-! ### queue.c -/

namespace QueueC

def MAX : Nat := 100

structure Call where
  id : Int
  sev : Int
  time : Int
  loc : String
  deriving DecidableEq, Inhabited

/-- The globals `heap[MAX]` and `heapSize`. -/
structure QState where
  heap : Nat → Call
  heapSize : Nat

/-- Zero-initialised globals. -/
def init : QState := { heap := fun _ => ⟨0, 0, 0, ""⟩, heapSize := 0 }

def high_pr (a b : Call) : Bool :=
  if a.sev ≠ b.sev then decide (a.sev > b.sev) else decide (a.time < b.time)

/-- The loop of `up(i)`; `p = (i-1)/2` is recomputed at each round. -/
def up : Nat → (Nat → Call) → Nat → (Nat → Call)
  | 0, heap, _ => heap
  | fuel + 1, heap, i =>
    if i > 0 ∧ high_pr (heap i) (heap ((i - 1) / 2)) = true then
      up fuel (Function.update (Function.update heap i (heap ((i - 1) / 2))) ((i - 1) / 2) (heap i))
        ((i - 1) / 2)
    else heap

/-- The recursive `down(i)`. -/
def down : Nat → (Nat → Call) → Nat → Nat → (Nat → Call)
  | 0, heap, _, _ => heap
  | fuel + 1, heap, heapSize, i =>
    let lar := i
    let l := 2 * i + 1
    let r := 2 * i + 2
    let lar := if l < heapSize ∧ high_pr (heap l) (heap lar) = true then l else lar
    let lar := if r < heapSize ∧ high_pr (heap r) (heap lar) = true then r else lar
    if lar ≠ i then
      down fuel (Function.update (Function.update heap i (heap lar)) lar (heap i)) heapSize lar
    else heap

def insert (q : QState) (c : Call) : QState :=
  if q.heapSize ≥ MAX then q
  else
    { heap := up q.heapSize (Function.update q.heap q.heapSize c) q.heapSize
      heapSize := q.heapSize + 1 }

def empty : Call := ⟨0, 0, 0, ""⟩

def extract (q : QState) : Call × QState :=
  if q.heapSize = 0 then (empty, q)
  else
    let maxCall := q.heap 0
    let heap := Function.update q.heap 0 (q.heap (q.heapSize - 1))
    let heapSize := q.heapSize - 1
    (maxCall,
      { heap := if heapSize > 0 then down heapSize heap heapSize 0 else heap
        heapSize := heapSize })

/-- The function `peek`: the call returned and the globals, which it does not
assign. -/
def peek (q : QState) : Call × QState :=
  (if q.heapSize = 0 then empty else q.heap 0, q)

/-- One operation of a client of the queue. -/
inductive Op where
  | ins (c : Call)
  | ext

/-- State after a sequence of operations. -/
def run : List Op → QState → QState
  | [], q => q
  | Op.ins c :: ops, q => run ops (insert q c)
  | Op.ext :: ops, q => run ops (extract q).2

/-- Heap order of the resident calls `heap[0 .. heapSize-1]`. -/
def Ordered (q : QState) : Prop := BinHeap.IsHeap high_pr 0 q.heapSize q.heap

/-- Calls returned by the extracts of a sequence of operations, in order. -/
def outputs : List Op → QState → List Call
  | [], _ => []
  | Op.ins c :: ops, q => outputs ops (insert q c)
  | Op.ext :: ops, q => (extract q).1 :: outputs ops (extract q).2

/-- The resident calls as a multiset. -/
def resident (q : QState) : Multiset Call := BinHeap.contents 0 q.heapSize q.heap

/-- Two states hold the same resident calls in the same slots. -/
def Same (q q' : QState) : Prop :=
  q.heapSize = q'.heapSize ∧ ∀ k, k < q.heapSize → q.heap k = q'.heap k

end QueueC

/-! ### main.c -/

namespace MainC

def MAX_NODES : Nat := 2000
def INF : ℚ := 1000000000
def HEAP_MAX : Nat := 1000

/-- An adjacency cell; the `next` pointer is the tail of the list holding it. -/
structure Edge where
  dest : Nat
  weight : ℚ
  deriving DecidableEq, Inhabited

structure Node where
  id : Int
  ext_id : Int
  name : String
  type : String
  lat : ℚ
  lon : ℚ
  adj : List Edge
  deriving Inhabited

structure Graph where
  V : Nat
  nodes : Nat → Node

def graph_create : Graph :=
  { V := 0
    nodes := fun i =>
      { id := i, ext_id := 0, name := "", type := "", lat := 0, lon := 0, adj := [] } }

def add_edge (g : Graph) (src dest : Int) (weight : ℚ) : Graph :=
  if src < 0 ∨ src ≥ g.V ∨ dest < 0 ∨ dest ≥ g.V then g
  else
    { g with
      nodes := Function.update g.nodes src.toNat
        { g.nodes src.toNat with
          adj := { dest := dest.toNat, weight := weight } :: (g.nodes src.toNat).adj } }

def add_node (g : Graph) (ext_id : Int) (name type : String) (lat lon : ℚ) : Int × Graph :=
  if g.V ≥ MAX_NODES then (-1, g)
  else
    (g.V,
      { V := g.V + 1
        nodes := Function.update g.nodes g.V
          { id := g.V, ext_id := ext_id
            name := String.mk (CStr.bounded 128 name)
            type := String.mk (CStr.bounded 64 type)
            lat := lat, lon := lon, adj := [] } })

/-- The scan of `find_node_fuzzy` from index `i`, with `k` nodes left. -/
def find_node_fuzzy_from (g : Graph) (low_input : List Char) : Nat → Nat → Int
  | 0, _ => -1
  | k + 1, i =>
    if CStr.strstr (CStr.lower (CStr.bounded 256 (g.nodes i).name)) low_input = true then (i : Int)
    else find_node_fuzzy_from g low_input k (i + 1)

def find_node_fuzzy (g : Graph) (input : String) : Int :=
  find_node_fuzzy_from g (CStr.lower (CStr.bounded 256 input)) g.V 0

/-- The recursive `print_path`: the names written, root first.  `none` when
the recursion is still running after `fuel` nodes. -/
def print_path (g : Graph) (parent : Nat → Int) : Nat → Int → Option (List String)
  | 0, j => if j = -1 then some [] else none
  | fuel + 1, j =>
    if j = -1 then some []
    else (print_path g parent fuel (parent j.toNat)).map (fun names => names ++ [(g.nodes j.toNat).name])

/-- Working arrays of `dijkstra`. -/
structure DState where
  dist : Nat → ℚ
  parent : Nat → Int
  visited : Nat → Bool

/-- The inner scan `for (v = 0; v < n; ++v) if (!visited[v] && dist[v] < min) ..`
as a fold over `v`; the accumulator is `(min, u)`. -/
def select_min (n : Nat) (s : DState) : ℚ × Int :=
  (List.range n).foldl
    (fun (acc : ℚ × Int) v =>
      if s.visited v = false ∧ s.dist v < acc.1 then (s.dist v, (v : Int)) else acc)
    (INF, -1)

/-- Relaxation of one adjacency cell of `u`. -/
def relax_edge (u : Nat) (s : DState) (e : Edge) : DState :=
  if s.visited e.dest = false ∧ s.dist u + e.weight < s.dist e.dest then
    { s with
      dist := Function.update s.dist e.dest (s.dist u + e.weight)
      parent := Function.update s.parent e.dest u }
  else s

/-- The `count` loop of `dijkstra`, with `k` rounds left. -/
def dijkstra_rounds (g : Graph) : Nat → DState → DState
  | 0, s => s
  | k + 1, s =>
    if (select_min g.V s).2 = -1 then s
    else
      dijkstra_rounds g k
        ((g.nodes (select_min g.V s).2.toNat).adj.foldl (relax_edge (select_min g.V s).2.toNat)
          { s with visited := Function.update s.visited (select_min g.V s).2.toNat true })

def dijkstra (g : Graph) (src : Int) : DState :=
  let s0 : DState := { dist := fun _ => INF, parent := fun _ => -1, visited := fun _ => false }
  if src < 0 ∨ src ≥ g.V then s0
  else dijkstra_rounds g (g.V - 1) { s0 with dist := Function.update s0.dist src.toNat 0 }

/-! #### Priority queue of calls -/

structure Call where
  id : Int
  loc : String
  sev : Int
  time : Int
  deriving DecidableEq, Inhabited

/-- The globals `heapQ[HEAP_MAX]` and `heap_size`. -/
structure HeapState where
  heapQ : Nat → Call
  heap_size : Nat

def heap_init : HeapState := { heapQ := fun _ => ⟨0, "", 0, 0⟩, heap_size := 0 }

def compare_calls (a b : Call) : Bool :=
  if a.sev ≠ b.sev then decide (a.sev > b.sev) else decide (a.time < b.time)

/-- The `while` loop of `insert_call`. -/
def insert_loop : Nat → (Nat → Call) → Nat → (Nat → Call)
  | 0, heapQ, _ => heapQ
  | fuel + 1, heapQ, i =>
    if i > 1 ∧ compare_calls (heapQ i) (heapQ (i / 2)) = true then
      insert_loop fuel (Function.update (Function.update heapQ i (heapQ (i / 2))) (i / 2) (heapQ i))
        (i / 2)
    else heapQ

def insert_call (h : HeapState) (c : Call) : HeapState :=
  if h.heap_size + 1 ≥ HEAP_MAX then h
  else
    { heapQ := insert_loop (h.heap_size + 1) (Function.update h.heapQ (h.heap_size + 1) c)
        (h.heap_size + 1)
      heap_size := h.heap_size + 1 }

/-- The `while (1)` loop of `extract_call`. -/
def extract_loop : Nat → (Nat → Call) → Nat → Nat → (Nat → Call)
  | 0, heapQ, _, _ => heapQ
  | fuel + 1, heapQ, heap_size, i =>
    let largest := i
    let l := 2 * i
    let r := 2 * i + 1
    let largest :=
      if l ≤ heap_size ∧ compare_calls (heapQ l) (heapQ largest) = true then l else largest
    let largest :=
      if r ≤ heap_size ∧ compare_calls (heapQ r) (heapQ largest) = true then r else largest
    if largest = i then heapQ
    else
      extract_loop fuel
        (Function.update (Function.update heapQ i (heapQ largest)) largest (heapQ i)) heap_size
        largest

def nullC : Call := ⟨0, "", 0, 0⟩

def extract_call (h : HeapState) : Call × HeapState :=
  if h.heap_size = 0 then (nullC, h)
  else
    (h.heapQ 1,
      { heapQ := extract_loop (h.heap_size - 1)
          (Function.update h.heapQ 1 (h.heapQ h.heap_size)) (h.heap_size - 1) 1
        heap_size := h.heap_size - 1 })

def is_queue_empty (h : HeapState) : Bool := h.heap_size == 0

/-- Calls returned by `extract_call` repeated until `is_queue_empty`. -/
def drain : Nat → HeapState → List Call
  | 0, _ => []
  | fuel + 1, h =>
    if is_queue_empty h = true then []
    else (extract_call h).1 :: drain fuel (extract_call h).2

/-- One operation of a client of the queue. -/
inductive QOp where
  | ins (c : Call)
  | ext

/-- State after a sequence of operations. -/
def qrun : List QOp → HeapState → HeapState
  | [], h => h
  | QOp.ins c :: ops, h => qrun ops (insert_call h c)
  | QOp.ext :: ops, h => qrun ops (extract_call h).2

/-- Calls returned by the extracts of a sequence of operations, in order. -/
def qoutputs : List QOp → HeapState → List Call
  | [], _ => []
  | QOp.ins c :: ops, h => qoutputs ops (insert_call h c)
  | QOp.ext :: ops, h => (extract_call h).1 :: qoutputs ops (extract_call h).2

/-- Two states hold the same resident calls in the same slots. -/
def Same (h h' : HeapState) : Prop :=
  h.heap_size = h'.heap_size ∧ ∀ k, 1 ≤ k → k ≤ h.heap_size → h.heapQ k = h'.heapQ k

/-- Heap order of the resident calls `heapQ[1 .. heap_size]`. -/
def Ordered (h : HeapState) : Prop := BinHeap.IsHeap compare_calls 1 h.heap_size h.heapQ

/-- The resident calls as a multiset. -/
def resident (h : HeapState) : Multiset Call := BinHeap.contents 1 h.heap_size h.heapQ

/-- Severity descending, arrival time ascending among equal severities. -/
def InOrder (a b : Call) : Prop := a.sev > b.sev ∨ (a.sev = b.sev ∧ a.time ≤ b.time)

/-- Scenario C: severities `[2,5,5,3]` arriving at times `[1,2,3,4]`. -/
def scenarioC : List Call := [⟨1, "w", 2, 1⟩, ⟨2, "x", 5, 2⟩, ⟨3, "y", 5, 3⟩, ⟨4, "z", 3, 4⟩]

/-! #### Units -/

structure Unit where
  id : Int
  node_idx : Int
  type : String
  available : Bool
  deriving DecidableEq, Inhabited

/-- The globals `units[200]` and `unit_count`. -/
structure Units where
  units : Nat → Unit
  unit_count : Nat

def add_unit (U : Units) (node_idx : Int) (type : String) (id : Int) : Units :=
  if U.unit_count ≥ 200 then U
  else
    { units := Function.update U.units U.unit_count
        { id := id, node_idx := node_idx, type := String.mk (CStr.bounded 32 type)
          available := true }
      unit_count := U.unit_count + 1 }

def node_matches_type_or_name (g : Graph) (idx : Int) (key : String) : Bool :=
  if idx < 0 ∨ idx ≥ g.V then false
  else
    CStr.strstr (CStr.lower (CStr.bounded 256 (g.nodes idx.toNat).name))
        (CStr.lower (CStr.bounded 256 key))
      || CStr.strstr (CStr.lower (CStr.bounded 256 (g.nodes idx.toNat).type))
        (CStr.lower (CStr.bounded 256 key))

/-- Body of the loop of `init_units_from_graph` for node `i`. -/
def init_units_step (g : Graph) (U : Units) (i : Nat) : Units :=
  let U := if node_matches_type_or_name g i "hospital" = true
    then add_unit U i "ambulance" (1000 + i) else U
  let U := if node_matches_type_or_name g i "fire" = true
    then add_unit U i "fire" (2000 + i) else U
  if node_matches_type_or_name g i "police" = true
    then add_unit U i "police" (3000 + i) else U

def init_units_from_graph (g : Graph) : Units :=
  (List.range g.V).foldl (init_units_step g)
    { units := fun _ => ⟨0, 0, "", false⟩, unit_count := 0 }

/-! #### Dispatch -/

/-- The policy table of `dispatch_all`. -/
def required_type (sev : Int) : String :=
  if sev ≥ 4 then "ambulance" else if sev = 3 then "police" else "fire"

/-- Body of the unit loop of `dispatch_all`; the accumulator is `(best, bestUnit)`. -/
def select_step (g : Graph) (U : Units) (target : Nat) (req : String) (acc : ℚ × Int)
    (i : Nat) : ℚ × Int :=
  if (U.units i).available = false then acc
  else if CStr.strcasecmp_eq (U.units i).type.data req.data = false then acc
  else if (dijkstra g (U.units i).node_idx).dist target < acc.1 then
    ((dijkstra g (U.units i).node_idx).dist target, (i : Int))
  else acc

/-- The unit loop of `dispatch_all`, from `best = INF`, `bestUnit = -1`. -/
def select_unit (g : Graph) (U : Units) (target : Nat) (req : String) : ℚ × Int :=
  (List.range U.unit_count).foldl (select_step g U target req) (INF, -1)

/-- What `dispatch_all` prints for one call. -/
inductive Outcome where
  | not_found (loc : String)
  | busy (required_type : String) (loc : String)
  | dispatched (unit_type : String) (unit_id : Int) (target_name : String)
      (distance : ℚ) (eta_min : ℚ) (route : Option (List String))
  deriving DecidableEq

def set_available (U : Units) (i : Nat) (flag : Bool) : Units :=
  { U with units := Function.update U.units i { U.units i with available := flag } }

/-- Body of the `while` loop of `dispatch_all` after `extract_call`: the report
and the unit registry left behind. -/
def process_call (g : Graph) (U : Units) (inc : Call) : Outcome × Units :=
  if find_node_fuzzy g inc.loc = -1 then (Outcome.not_found inc.loc, U)
  else
    let target := (find_node_fuzzy g inc.loc).toNat
    let sel := select_unit g U target (required_type inc.sev)
    if sel.2 = -1 then (Outcome.busy (required_type inc.sev) inc.loc, U)
    else
      let bestUnit := sel.2.toNat
      let U1 := set_available U bestUnit false
      let eta_min := sel.1 / 40 * 60
      let route := print_path g (dijkstra g (U1.units bestUnit).node_idx).parent g.V target
      (Outcome.dispatched (U1.units bestUnit).type (U1.units bestUnit).id (g.nodes target).name
          sel.1 eta_min route,
        set_available U1 bestUnit true)

/-- The `while (!is_queue_empty())` loop of `dispatch_all`. -/
def dispatch_all (g : Graph) : Nat → HeapState → Units → List Outcome × HeapState × Units
  | 0, h, U => ([], h, U)
  | fuel + 1, h, U =>
    if is_queue_empty h = true then ([], h, U)
    else
      let r := process_call g U (extract_call h).1
      let rest := dispatch_all g fuel (extract_call h).2 r.2
      (r.1 :: rest.1, rest.2)

/-! #### Vocabulary of the statements -/

/-- Every node name fits its field `char name[128]`. -/
def NamesFit (g : Graph) : Prop := ∀ i, i < g.V → (g.nodes i).name.data.length ≤ 127

/-- Graphs that `graph_create`, `add_node` and `add_edge` can produce. -/
inductive Built : Graph → Prop where
  | create : Built graph_create
  | node (g : Graph) (ext_id : Int) (name type : String) (lat lon : ℚ) :
      Built g → Built (add_node g ext_id name type lat lon).2
  | edge (g : Graph) (src dest : Int) (weight : ℚ) : Built g → Built (add_edge g src dest weight)

instance (g : Graph) : Decidable (NamesFit g) := by
  unfold NamesFit; infer_instance

/-- The lower-cased name of node `i` contains the lower-cased query. -/
def NameMatch (g : Graph) (input : String) (i : Nat) : Prop :=
  CStr.lower input.data <:+: CStr.lower (g.nodes i).name.data

/-- Unit `i` is available and of the required type (compared as
`strcasecmp` does). -/
def Eligible (U : Units) (req : String) (i : Nat) : Prop :=
  (U.units i).available = true ∧ CStr.strcasecmp_eq (U.units i).type.data req.data = true

instance (U : Units) (req : String) (i : Nat) : Decidable (Eligible U req i) := by
  unfold Eligible; infer_instance

/-- What `dispatch_all` reads for unit `i`: `dist[target]` after `dijkstra`
from the unit's home node. -/
def dist_to (g : Graph) (U : Units) (target : Nat) (i : Nat) : ℚ :=
  (dijkstra g (U.units i).node_idx).dist target

/-- Scenario A: `A - B - Hospital`, both roads of weight 1. -/
def scenarioA : Graph :=
  add_edge
    (add_edge
      (add_edge
        (add_edge
          (add_node (add_node (add_node graph_create 1 "A" "" 0 0).2 2 "B" "" 1 0).2
            3 "Hospital" "hospital" 2 0).2
          0 1 1)
        1 0 1)
      1 2 1)
    2 1 1

/-- Scenario B: a target `Mall`, fire station `F1` at distance 3 and fire
station `F2` at distance 1. -/
def scenarioB : Graph :=
  add_edge
    (add_edge
      (add_edge
        (add_edge
          (add_node
            (add_node (add_node graph_create 1 "Mall" "" 0 0).2 2 "Fire Station F1" "fire" 3 0).2
            3 "Fire Station F2" "fire" 1 0).2
          0 1 3)
        1 0 3)
      0 2 1)
    2 0 1

/-- The registry of scenario B: the unit of `F2` (index 1) is out. -/
def unitsB : Units := set_available (init_units_from_graph scenarioB) 1 false

/-- Scenario E: a target `Mall` with a hospital and a fire station, one
road each. -/
def scenarioE : Graph :=
  add_edge
    (add_edge
      (add_edge
        (add_edge
          (add_node
            (add_node (add_node graph_create 1 "Mall" "" 0 0).2 2 "City Hospital" "hospital" 2 0).2
            3 "Fire Station" "fire" 5 0).2
          0 1 2)
        1 0 2)
      0 2 5)
    2 0 5

/-- The registry of scenario E: the only ambulance (index 0) is out. -/
def unitsE : Units := set_available (init_units_from_graph scenarioE) 0 false

/-- The queue of scenario E: a severity-5 call, then a severity-1 call. -/
def queueE : HeapState :=
  insert_call (insert_call heap_init ⟨1, "Mall", 5, 1⟩) ⟨2, "Mall", 1, 2⟩

end MainC

/-! ### graph.c -/

namespace GraphC

def INITIAL_NODES : Nat := 1024
def INITIAL_EDGES : Nat := 16384
def INF : ℚ := 1000000000000000000

/-! #### Identifier map (open addressing, linear probing) -/

structure LLMapEntry where
  key : Int
  val : Int
  used : Bool
  deriving DecidableEq, Inhabited

structure LLMap where
  table : Nat → LLMapEntry
  cap : Nat
  size : Nat

def hash_u64 (x : Nat) : Nat :=
  let x := ((x ^^^ (x >>> 30)) * 0xbf58476d1ce4e5b9) % 2 ^ 64
  let x := ((x ^^^ (x >>> 27)) * 0x94d049bb133111eb) % 2 ^ 64
  x ^^^ (x >>> 31)

/-- The cast `(unsigned long long)key`. -/
def to_u64 (key : Int) : Nat := (key % 2 ^ 64).toNat

/-- The loop `while (m->cap < cap) m->cap <<= 1`. -/
def llmap_create_cap : Nat → Nat → Nat → Nat
  | 0, c, _ => c
  | fuel + 1, c, cap => if c < cap then llmap_create_cap fuel (c <<< 1) cap else c

def llmap_create (cap : Nat) : LLMap :=
  { table := fun _ => ⟨0, 0, false⟩, cap := llmap_create_cap cap 1 cap, size := 0 }

/-- The probe loop of `llmap_find` from slot `idx`. -/
def llmap_find_from (m : LLMap) (key : Int) : Nat → Nat → Int
  | 0, _ => -1
  | fuel + 1, idx =>
    if (m.table idx).used = true then
      if (m.table idx).key = key then (m.table idx).val
      else llmap_find_from m key fuel ((idx + 1) &&& (m.cap - 1))
    else -1

def llmap_find (m : LLMap) (key : Int) : Int :=
  llmap_find_from m key m.cap (hash_u64 (to_u64 key) &&& (m.cap - 1))

/-- The loop `while (m->table[idx].used) idx = (idx + 1) & (m->cap - 1)`. -/
def llmap_free_slot (m : LLMap) : Nat → Nat → Nat
  | 0, idx => idx
  | fuel + 1, idx =>
    if (m.table idx).used = true then llmap_free_slot m fuel ((idx + 1) &&& (m.cap - 1)) else idx

/-- Re-insertion of one slot of the old table into the doubled table. -/
def llmap_rehash_step (m : LLMap) (old : LLMapEntry) : LLMap :=
  if old.used = true then
    { m with
      table := Function.update m.table
        (llmap_free_slot m m.cap (hash_u64 (to_u64 old.key) &&& (m.cap - 1)))
        ⟨old.key, old.val, true⟩
      size := m.size + 1 }
  else m

/-- The growth branch of `llmap_put`. -/
def llmap_grow (m : LLMap) : LLMap :=
  if m.size * 2 ≥ m.cap then
    (List.range m.cap).foldl (fun m' i => llmap_rehash_step m' (m.table i))
      { table := fun _ => ⟨0, 0, false⟩, cap := m.cap * 2, size := 0 }
  else m

/-- The probe loop of `llmap_put` from slot `idx`. -/
def llmap_put_from (m : LLMap) (key : Int) (val : Int) : Nat → Nat → LLMap
  | 0, _ => m
  | fuel + 1, idx =>
    if (m.table idx).used = true then
      if (m.table idx).key = key then
        { m with table := Function.update m.table idx { m.table idx with val := val } }
      else llmap_put_from m key val fuel ((idx + 1) &&& (m.cap - 1))
    else
      { m with table := Function.update m.table idx ⟨key, val, true⟩, size := m.size + 1 }

def llmap_put (m : LLMap) (key : Int) (val : Int) : LLMap :=
  llmap_put_from (llmap_grow m) key val (llmap_grow m).cap
    (hash_u64 (to_u64 key) &&& ((llmap_grow m).cap - 1))

/-! #### Graph store -/

structure Edge where
  to_ : Nat
  weight : ℚ
  next : Int
  deriving DecidableEq, Inhabited

/-- The `Graph` record together with the file-level `global_node_cap`. -/
structure Graph where
  V : Nat
  edge_count : Nat
  edge_cap : Nat
  edges : Nat → Edge
  head : Nat → Int
  ext_id : Nat → Int
  lat : Nat → ℚ
  lon : Nat → ℚ
  name : Nat → Option String
  type : Nat → Option String
  idmap : LLMap
  global_node_cap : Nat

def graph_create (node_cap : Nat) : Graph :=
  { V := 0, edge_count := 0, edge_cap := INITIAL_EDGES
    edges := fun _ => ⟨0, 0, 0⟩
    head := fun _ => -1, ext_id := fun _ => 0, lat := fun _ => 0, lon := fun _ => 0
    name := fun _ => none, type := fun _ => none
    idmap := llmap_create (node_cap * 2 + 16)
    global_node_cap := node_cap }

/-- The loop `while (need > cap) cap *= 2`. -/
def grow_cap : Nat → Nat → Nat → Nat
  | 0, cap, _ => cap
  | fuel + 1, cap, need => if need > cap then grow_cap fuel (cap * 2) need else cap

/-- Initialisation of one fresh slot in `graph_ensure_nodecap`. -/
def init_slot (g : Graph) (i : Nat) : Graph :=
  { g with
    head := Function.update g.head i (-1)
    ext_id := Function.update g.ext_id i 0
    lat := Function.update g.lat i 0
    lon := Function.update g.lon i 0
    name := Function.update g.name i none
    type := Function.update g.type i none }

def graph_ensure_nodecap (g : Graph) (need : Nat) : Graph :=
  if need ≤ g.global_node_cap then g
  else
    { (List.range' g.global_node_cap (grow_cap need g.global_node_cap need - g.global_node_cap)).foldl
        init_slot g with
      global_node_cap := grow_cap need g.global_node_cap need }

/-- The test `(s && strlen(s)) ? strdup(s) : NULL`. -/
def dup_nonempty (s : Option String) : Option String :=
  match s with
  | some t => if t.data.length ≠ 0 then some t else none
  | none => none

def graph_add_node (g : Graph) (ext : Int) (lat lon : ℚ) (name type : Option String) :
    Nat × Graph :=
  let idx := g.V
  let g := graph_ensure_nodecap { g with V := g.V + 1 } (g.V + 1)
  (idx,
    { g with
      ext_id := Function.update g.ext_id idx ext
      lat := Function.update g.lat idx lat
      lon := Function.update g.lon idx lon
      name := Function.update g.name idx (dup_nonempty name)
      type := Function.update g.type idx (dup_nonempty type)
      head := Function.update g.head idx (-1)
      idmap := llmap_put g.idmap ext idx })

def graph_add_edge (g : Graph) (u v : Nat) (w : ℚ) : Graph :=
  { g with
    edge_cap := if g.edge_count ≥ g.edge_cap then g.edge_cap * 2 else g.edge_cap
    edges := Function.update g.edges g.edge_count ⟨v, w, g.head u⟩
    head := Function.update g.head u g.edge_count
    edge_count := g.edge_count + 1 }

def graph_get_or_create (g : Graph) (ext : Int) : Int × Graph :=
  if llmap_find g.idmap ext ≠ -1 then (llmap_find g.idmap ext, g)
  else ((graph_add_node g ext 0 0 none none).1, (graph_add_node g ext 0 0 none none).2)

/-! #### Min-heap of tentative distances (root at index 1) -/

structure HNode where
  node : Nat
  dist : ℚ
  deriving DecidableEq, Inhabited

structure MinHeap where
  a : Nat → HNode
  size : Nat
  cap : Nat

def heap_create (cap : Nat) : MinHeap :=
  { a := fun _ => ⟨0, 0⟩, size := 0, cap := if cap > 16 then cap else 16 }

/-- Exchange through pointers: `t = *x; *x = *y; *y = t`. -/
def heap_swap (a : Nat → HNode) (x y : Nat) : Nat → HNode :=
  Function.update (Function.update a x (a y)) y (a x)

/-- The `while (i > 1)` loop of `heap_push`. -/
def heap_push_loop : Nat → (Nat → HNode) → Nat → (Nat → HNode)
  | 0, a, _ => a
  | fuel + 1, a, i =>
    if i > 1 then
      if (a (i >>> 1)).dist ≤ (a i).dist then a
      else heap_push_loop fuel (heap_swap a (i >>> 1) i) (i >>> 1)
    else a

def heap_push (h : MinHeap) (node : Nat) (dist : ℚ) : MinHeap :=
  { a := heap_push_loop (h.size + 1) (Function.update h.a (h.size + 1) ⟨node, dist⟩) (h.size + 1)
    size := h.size + 1
    cap := if h.size + 1 > h.cap then h.cap * 2 else h.cap }

def heap_empty (h : MinHeap) : Bool := h.size == 0

/-- The `while (1)` loop of `heap_pop`. -/
def heap_pop_loop : Nat → (Nat → HNode) → Nat → Nat → (Nat → HNode)
  | 0, a, _, _ => a
  | fuel + 1, a, size, i =>
    let l := i <<< 1
    let r := l + 1
    let s := i
    let s := if l ≤ size ∧ (a l).dist < (a s).dist then l else s
    let s := if r ≤ size ∧ (a r).dist < (a s).dist then r else s
    if s = i then a else heap_pop_loop fuel (heap_swap a i s) size s

def heap_pop (h : MinHeap) : HNode × MinHeap :=
  (h.a 1,
    { a := heap_pop_loop (h.size - 1) (Function.update h.a 1 (h.a h.size)) (h.size - 1) 1
      size := h.size - 1
      cap := h.cap })

/-! #### Dijkstra -/

/-- The arrays `dist`, `parent`, `vis` and the queue `pq`. -/
structure DState where
  dist : Nat → ℚ
  parent : Nat → Int
  pq : MinHeap
  vis : Nat → Bool

/-- Body of the edge loop for edge index `e` out of `u`. -/
def relax_edge (g : Graph) (u : Nat) (s : DState) (e : Nat) : DState :=
  if s.dist u + (g.edges e).weight < s.dist (g.edges e).to_ then
    { s with
      dist := Function.update s.dist (g.edges e).to_ (s.dist u + (g.edges e).weight)
      parent := Function.update s.parent (g.edges e).to_ u
      pq := heap_push s.pq (g.edges e).to_ (s.dist u + (g.edges e).weight) }
  else s

/-- The loop `for (e = head[u]; e != -1; e = edges[e].next)`. -/
def relax_from (g : Graph) (u : Nat) : Nat → Int → DState → DState
  | 0, _, s => s
  | fuel + 1, e, s =>
    if e = -1 then s
    else relax_from g u fuel (g.edges e.toNat).next (relax_edge g u s e.toNat)

/-- The loop `while (!heap_empty(pq))`. -/
def dijkstra_loop (g : Graph) : Nat → DState → DState
  | 0, s => s
  | fuel + 1, s =>
    if heap_empty s.pq = true then s
    else
      let hn := (heap_pop s.pq).1
      let s1 : DState := { s with pq := (heap_pop s.pq).2 }
      if hn.dist > s1.dist hn.node then dijkstra_loop g fuel s1
      else if s1.vis hn.node = true then dijkstra_loop g fuel s1
      else
        dijkstra_loop g fuel
          (relax_from g hn.node g.edge_count (g.head hn.node)
            { s1 with vis := Function.update s1.vis hn.node true })

/-- The function `dijkstra`: the final arrays and queue.  The main loop gets
`V * edge_count + 2` rounds of fuel; it pops one queue entry per round and
pushes at most one entry per edge of each expanded node. -/
def dijkstra (g : Graph) (src : Nat) : DState :=
  dijkstra_loop g (g.V * g.edge_count + 2)
    { dist := Function.update (fun _ => INF) src 0
      parent := fun _ => -1
      pq := heap_push (heap_create (if g.V > 16 then g.V else 16)) src 0
      vis := fun _ => false }

/-- The loop `while (cur != -1) { stack[top++] = cur; cur = parent[cur]; }` on
a stack of `room` slots: the stack bottom first, `none` when the stack would
overflow. -/
def path_stack (parent : Nat → Int) : Nat → Int → Option (List Nat)
  | 0, cur => if cur = -1 then some [] else none
  | room + 1, cur =>
    if cur = -1 then some []
    else (path_stack parent room (parent cur.toNat)).map (fun st => cur.toNat :: st)

/-- Text written for one node: its name, or its external id. -/
def node_label (g : Graph) (idx : Nat) : String :=
  match g.name idx with
  | some s => s
  | none => toString (g.ext_id idx)

/-- The node sequence of `print_path`: the stack read from the top down. -/
def path_nodes (g : Graph) (parent : Nat → Int) (dest : Int) : Option (List Nat) :=
  if dest < 0 ∨ dest ≥ g.V then none
  else (path_stack parent g.V dest).map List.reverse

/-- The labels `print_path` writes, in order. -/
def print_path (g : Graph) (parent : Nat → Int) (dest : Int) : Option (List String) :=
  (path_nodes g parent dest).map (fun l => l.map (node_label g))

/-! #### Vocabulary of the statements -/

/-- Edge indices met by the loop `for (e = start; e != -1; e = edges[e].next)`. -/
def chain (g : Graph) : Nat → Int → List Nat
  | 0, _ => []
  | fuel + 1, e => if e = -1 then [] else e.toNat :: chain g fuel (g.edges e.toNat).next

/-- Indices of the stored edges leaving `u`, most recent first. -/
def out_edges (g : Graph) (u : Nat) : List Nat := chain g g.edge_count (g.head u)

/-- The index structure `graph_add_node` and `graph_add_edge` maintain: list
heads and links point to earlier edges, edge targets are nodes. -/
def WF (g : Graph) : Prop :=
  (∀ u, u < g.V → g.head u = -1 ∨ (0 ≤ g.head u ∧ g.head u < g.edge_count)) ∧
  (∀ e, e < g.edge_count →
    (g.edges e).to_ < g.V ∧ ((g.edges e).next = -1 ∨ (0 ≤ (g.edges e).next ∧ (g.edges e).next < e)))

/-- Graphs that `graph_create`, `graph_add_node` and `graph_add_edge` (between
existing nodes) can produce. -/
inductive Built : Graph → Prop where
  | create (node_cap : Nat) : Built (graph_create node_cap)
  | node (g : Graph) (ext : Int) (lat lon : ℚ) (name type : Option String) :
      Built g → Built (graph_add_node g ext lat lon name type).2
  | edge (g : Graph) (u v : Nat) (w : ℚ) :
      Built g → u < g.V → v < g.V → Built (graph_add_edge g u v w)

instance (g : Graph) : Decidable (WF g) := by
  unfold WF; infer_instance

/-- Every stored edge has a nonnegative weight. -/
def NonNeg (g : Graph) : Prop := ∀ e, e < g.edge_count → 0 ≤ (g.edges e).weight

instance (g : Graph) : Decidable (NonNeg g) := by
  unfold NonNeg; infer_instance

/-- Paths: `IsPath g src v d` holds when some directed path of stored edges
leads from `src` to `v` with total weight `d`. -/
inductive IsPath (g : Graph) (src : Nat) : Nat → ℚ → Prop where
  | nil : IsPath g src src 0
  | snoc {x : Nat} {d : ℚ} (e : Nat) :
      IsPath g src x d → e ∈ out_edges g x → IsPath g src (g.edges e).to_ (d + (g.edges e).weight)

/-- Node `v` can be reached from `src`. -/
def Reachable (g : Graph) (src v : Nat) : Prop := ∃ d, IsPath g src v d

/-- The value `x` is the minimum total weight over all paths from `src` to `v`. -/
def IsMinWeight (g : Graph) (src v : Nat) (x : ℚ) : Prop :=
  IsPath g src v x ∧ ∀ d, IsPath g src v d → x ≤ d

/-- Routes: `IsRoute g st d` holds when the node list `st`, read from its last
element to its first, follows stored edges whose weights add up to `d`. -/
inductive IsRoute (g : Graph) : List Nat → ℚ → Prop where
  | single (a : Nat) : IsRoute g [a] 0
  | step {a : Nat} {st : List Nat} {d : ℚ} (e : Nat) :
      IsRoute g (a :: st) d → e ∈ out_edges g a →
      IsRoute g ((g.edges e).to_ :: a :: st) (d + (g.edges e).weight)

/-- Order of the priority queue: the smaller tentative distance wins. -/
def hlt (x y : HNode) : Bool := decide (x.dist < y.dist)

/-- Heap order of the resident entries `a[1 .. size]`. -/
def HeapOK (h : MinHeap) : Prop := BinHeap.IsHeap hlt 1 h.size h.a

/-- The resident entries of the queue as a multiset. -/
def entries (h : MinHeap) : Multiset HNode := BinHeap.contents 1 h.size h.a

/-- Branches: `Branch g src dist parent v st` holds when the list `st` starts
at `v`, follows `parent` down to `src`, and each link `parent[b] = a` is backed
by a stored edge `a -> b` whose weight is `dist[b] - dist[a]`. -/
inductive Branch (g : Graph) (src : Nat) (dist : Nat → ℚ) (parent : Nat → Int) :
    Nat → List Nat → Prop where
  | root : Branch g src dist parent src [src]
  | step {u v : Nat} {st : List Nat} (e : Nat) :
      Branch g src dist parent u (u :: st) → parent v = (u : Int) → e ∈ out_edges g u →
      (g.edges e).to_ = v → dist u + (g.edges e).weight = dist v →
      Branch g src dist parent v (v :: u :: st)

/-- Number of nodes not yet expanded. -/
def unvisited (g : Graph) (s : DState) : Nat :=
  ((Finset.range g.V).filter (fun v => s.vis v = false)).card

/-- Invariant of `dijkstra` while the edges of `u₀` are being relaxed, `done`
being those already treated.  With `done = out_edges g u₀` it is the invariant
at the head of the main loop. -/
structure Inv (g : Graph) (src : Nat) (s : DState) (u₀ : Nat) (done : List Nat) : Prop where
  dist_src : s.dist src = 0
  dist_le : ∀ v, s.dist v ≤ INF
  parent_src : s.parent src = -1
  parent_inf : ∀ v, s.dist v = INF → s.parent v = -1
  vis_lt : ∀ u, s.vis u = true → u < g.V
  vis_fin : ∀ u, s.vis u = true → s.dist u < INF
  vis_min : ∀ u, s.vis u = true → ∀ d, IsPath g src u d → s.dist u ≤ d
  relaxed : ∀ u, s.vis u = true → ∀ e, e ∈ out_edges g u → (u ≠ u₀ ∨ e ∈ done) →
    s.dist (g.edges e).to_ ≤ s.dist u + (g.edges e).weight
  queued : ∀ v, s.vis v = false → s.dist v < INF → (⟨v, s.dist v⟩ : HNode) ∈ entries s.pq
  entry_ge : ∀ x, x ∈ entries s.pq → s.dist x.node ≤ x.dist
  entry_lt : ∀ x, x ∈ entries s.pq → x.node < g.V
  entry_fin : ∀ x, x ∈ entries s.pq → x.dist < INF
  heap_ok : HeapOK s.pq
  tree : ∀ v, s.dist v < INF →
    ∃ st, Branch g src s.dist s.parent v st ∧ st.Nodup ∧ (∀ x, x ∈ st → x < g.V) ∧
      ∀ x, x ∈ st.tail → s.vis x = true

/-- Outgoing edges of `u` as pairs (target, weight), most recent first. -/
def out_list (g : Graph) (u : Nat) : List (Nat × ℚ) :=
  (out_edges g u).map (fun e => ((g.edges e).to_, (g.edges e).weight))

/-- The copy loop of `str_to_lower`. -/
def str_to_lower (src : String) : List Char := CStr.lower src.data

/-- The function `node_matches_type_or_name`; a null `requested` is `none`. -/
def node_matches_type_or_name (g : Graph) (idx : Nat) (requested : Option String) : Bool :=
  match requested with
  | none => false
  | some r =>
    (match g.type idx with
      | some t => CStr.strstr (str_to_lower t) (str_to_lower r)
      | none => false) ||
    (match g.name idx with
      | some n => CStr.strstr (str_to_lower n) (str_to_lower r)
      | none => false)

/-- Body of the scan of `find_nearest_of_type_from`; the accumulator is
`(best, best_idx)`. -/
def nearest_step (g : Graph) (dist : Nat → ℚ) (requested : Option String) (acc : ℚ × Int)
    (i : Nat) : ℚ × Int :=
  if node_matches_type_or_name g i requested = true then
    if dist i < acc.1 then (dist i, (i : Int)) else acc
  else acc

def find_nearest_of_type_from (g : Graph) (start_idx : Int) (requested_type : Option String) :
    Int :=
  if start_idx < 0 ∨ start_idx ≥ g.V then -1
  else
    ((List.range g.V).foldl
      (nearest_step g (dijkstra g start_idx.toNat).dist requested_type) (INF, -1)).2

/-- Node `v` has a path from `src` lighter than the sentinel. -/
def Light (g : Graph) (src v : Nat) : Prop := ∃ d, IsPath g src v d ∧ d < INF

/-! #### Vocabulary for the identifier map -/

/-- Number of used slots of the table. -/
def used_count (m : LLMap) : Nat :=
  ((Finset.range m.cap).filter (fun j => (m.table j).used = true)).card

/-- Key `k` is stored with value `v`. -/
def Holds (m : LLMap) (k v : Int) : Prop :=
  ∃ j, j < m.cap ∧ (m.table j).used = true ∧ (m.table j).key = k ∧ (m.table j).val = v

/-- Key `k` is stored in no slot. -/
def Absent (m : LLMap) (k : Int) : Prop :=
  ∀ j, j < m.cap → (m.table j).used = true → (m.table j).key ≠ k

/-- Slot examined after `t` steps of the probe for `key`. -/
def probe_slot (m : LLMap) (key : Int) (t : Nat) : Nat := (hash_u64 (to_u64 key) + t) % m.cap

/-- Shape of a table on which the probe loops work: the capacity is a power
of two, `size` counts the used slots, one slot at least is unused, and every
stored key is reached from its home slot through used slots holding other
keys. -/
structure MapCore (m : LLMap) : Prop where
  pow : ∃ n, 1 ≤ n ∧ m.cap = 2 ^ n
  count : m.size = used_count m
  room : m.size < m.cap
  path : ∀ j, j < m.cap → (m.table j).used = true →
    ∃ t, t < m.cap ∧ probe_slot m (m.table j).key t = j ∧
      ∀ t', t' < t → (m.table (probe_slot m (m.table j).key t')).used = true ∧
        (m.table (probe_slot m (m.table j).key t')).key ≠ (m.table j).key

/-- The invariant of the identifier map between two calls of `llmap_put`. -/
def MapOK (m : LLMap) : Prop := MapCore m ∧ 2 * m.size ≤ m.cap

/-- The invariant of the node store: the slot arrays cover the nodes and the
identifier map is well formed. -/
def StoreOK (g : Graph) : Prop :=
  0 < g.global_node_cap ∧ g.V ≤ g.global_node_cap ∧ MapOK g.idmap

/-- Node `j` has the same attributes and the same edge list head in `g'` as in `g`. -/
def SameNode (g g' : Graph) (j : Nat) : Prop :=
  g'.ext_id j = g.ext_id j ∧ g'.lat j = g.lat j ∧ g'.lon j = g.lon j ∧
  g'.name j = g.name j ∧ g'.type j = g.type j ∧ g'.head j = g.head j

/-- Two nodes joined by one edge `0 -> 1` heavier than the sentinel. -/
def heavyGraph : Graph :=
  graph_add_edge
    (graph_add_node (graph_add_node (graph_create 4096) 10 0 0 (some "A") none).2
      20 0 0 (some "B") none).2
    0 1 2000000000000000000

/-- Scenario A: nodes `A`, `B`, `Hospital` with roads `A - B` and
`B - Hospital` of weight 1, each stored in both directions. -/
def lineGraph : Graph :=
  graph_add_edge
    (graph_add_edge
      (graph_add_edge
        (graph_add_edge
          (graph_add_node
            (graph_add_node (graph_add_node (graph_create 4096) 1 0 0 (some "A") none).2
              2 1 0 (some "B") none).2
            3 2 0 (some "Hospital") (some "hospital")).2
          0 1 1)
        1 0 1)
      1 2 1)
    2 1 1

end GraphC

/-! ### graph.c: loader step, reachable stores, generic-type queries -/

namespace GraphC

/-- The body of the loop of `load_nodes` for one parsed record: the identifier
`ext`, the coordinates and the trimmed buffers `namebuf`, `typebuf`. -/
def load_nodes_record (g : Graph) (ext : Int) (lat lon : ℚ) (namebuf typebuf : String) : Graph :=
  if llmap_find g.idmap ext = -1 then
    (graph_add_node g ext lat lon (some namebuf) (some typebuf)).2
  else
    { g with
      lat := Function.update g.lat (llmap_find g.idmap ext).toNat lat
      lon := Function.update g.lon (llmap_find g.idmap ext).toNat lon
      name := Function.update g.name (llmap_find g.idmap ext).toNat
        (if namebuf.data.length ≠ 0 then some namebuf else none)
      type := Function.update g.type (llmap_find g.idmap ext).toNat
        (if typebuf.data.length ≠ 0 then some typebuf else none) }

/-- Stores reachable from `graph_create` (with room for one node at least)
by calls of `graph_get_or_create` and `graph_add_edge`. -/
inductive Reach : Graph → Prop where
  | create (node_cap : Nat) : 0 < node_cap → Reach (graph_create node_cap)
  | get (g : Graph) (e : Int) : Reach g → Reach (graph_get_or_create g e).2
  | edge (g : Graph) (u v : Nat) (w : ℚ) : Reach g → Reach (graph_add_edge g u v w)

/-- Stores reached from `g` by further calls of `graph_get_or_create` and
`graph_add_edge`. -/
inductive Later (g : Graph) : Graph → Prop where
  | refl : Later g g
  | get (g' : Graph) (e : Int) : Later g g' → Later g (graph_get_or_create g' e).2
  | edge (g' : Graph) (u v : Nat) (w : ℚ) : Later g g' → Later g (graph_add_edge g' u v w)

/-- The identifier map stores exactly the pairs `ext_id[i] -> i` of the nodes. -/
def IdsOK (g : Graph) : Prop :=
  StoreOK g ∧ ∀ k v, Holds g.idmap k v ↔ ∃ i, i < g.V ∧ v = (i : Int) ∧ g.ext_id i = k

/-- The third block of `parse_any_keyword_strict`, entered when the string
begins with `from any `. -/
def parse_from_any (low : List Char) : Option String :=
  if low.take 9 = "from any ".data then
    if CStr.strstr low "hospital".data = true then some "hospital"
    else if CStr.strstr low "fire".data = true then some "fire"
    else if CStr.strstr low "police".data = true then some "police"
    else none
  else none

/-- The tests of `parse_any_keyword_strict` on the lower-cased copy `low`:
`some T` when the function writes `T` to `out_type` and returns 1, `none`
when it returns 0. -/
def parse_low (low : List Char) : Option String :=
  if low = "hospital".data ∨ low = "any hospital".data ∨ low = "from hospital".data then
    some "hospital"
  else if low = "fire".data ∨ low = "firestation".data ∨ low = "fire station".data ∨
      low = "any fire".data ∨ low = "any fire station".data ∨ low = "from fire".data then
    some "fire"
  else if low = "police".data ∨ low = "police station".data ∨ low = "any police".data ∨
      low = "from police".data then
    some "police"
  else if low.take 4 = "any ".data then
    if CStr.strstr low "hospital".data = true then some "hospital"
    else if CStr.strstr low "fire".data = true then some "fire"
    else if CStr.strstr low "police".data = true then some "police"
    else parse_from_any low
  else parse_from_any low

/-- The copy loop of `str_to_lower` into a destination of `size` bytes: the
lower-cased characters, or `none` when they and the terminating zero do not
fit, in which case the loop writes past the end of the destination. -/
def str_to_lower_into (size : Nat) (src : String) : Option (List Char) :=
  if src.data.length < size then some (str_to_lower src) else none

/-- The function `parse_any_keyword_strict`, which lower-cases its argument
into `char low[256]`: `none` when the copy overruns `low`, else `some r` with
`r` the result of the tests on `low`. -/
def parse_any_keyword_strict (s : String) : Option (Option String) :=
  (str_to_lower_into 256 s).map parse_low

/-- A query line of 300 characters: `any hospital` followed by 288 times `x`. -/
def longQuery : String := String.mk ("any hospital".data ++ List.replicate 288 'x')

/-- The lower-cased query `low` is one of the fixed keywords of the type `T`. -/
def KeywordOf (T : String) (low : List Char) : Prop :=
  (T = "hospital" ∧
    (low = "hospital".data ∨ low = "any hospital".data ∨ low = "from hospital".data)) ∨
  (T = "fire" ∧
    (low = "fire".data ∨ low = "firestation".data ∨ low = "fire station".data ∨
      low = "any fire".data ∨ low = "any fire station".data ∨ low = "from fire".data)) ∨
  (T = "police" ∧
    (low = "police".data ∨ low = "police station".data ∨ low = "any police".data ∨
      low = "from police".data))

/-- The type `T` is the first of hospital, fire, police that occurs in `low`
as a contiguous part. -/
def FirstOccurring (T : String) (low : List Char) : Prop :=
  (T = "hospital" ∧ "hospital".data <:+: low) ∨
  (T = "fire" ∧ ¬ "hospital".data <:+: low ∧ "fire".data <:+: low) ∨
  (T = "police" ∧ ¬ "hospital".data <:+: low ∧ ¬ "fire".data <:+: low ∧
    "police".data <:+: low)

/-- The query begins with `any ` or with `from any `. -/
def GenericPrefix (low : List Char) : Prop := "any ".data <+: low ∨ "from any ".data <+: low

end GraphC

/-! ### main.c: the unit registry -/

namespace MainC

/-- The units of the registry in slot order. -/
def registry (U : Units) : List Unit := (List.range U.unit_count).map U.units

/-- The units that the body of the loop of `init_units_from_graph` asks for at
node `i`: one per matching keyword, in the order hospital, fire, police. -/
def wanted_at (g : Graph) (i : Nat) : List Unit :=
  (if node_matches_type_or_name g i "hospital" = true
    then [⟨1000 + i, i, "ambulance", true⟩] else []) ++
  (if node_matches_type_or_name g i "fire" = true
    then [⟨2000 + i, i, "fire", true⟩] else []) ++
  (if node_matches_type_or_name g i "police" = true
    then [⟨3000 + i, i, "police", true⟩] else [])

/-- One unit per (node, keyword) match, in increasing node index. -/
def wanted (g : Graph) : List Unit := (List.range g.V).flatMap (wanted_at g)

/-- A store of 1001 nodes: a fire station at index 0, a hospital at index
1000 and plain streets between them. -/
def wideGraph : Graph :=
  (List.range 1001).foldl
    (fun (g : Graph) (i : Nat) =>
      (add_node g (i : Int)
        (if i = 0 then "Fire Station" else if i = 1000 then "Hospital" else "Street")
        (if i = 0 then "fire" else if i = 1000 then "hospital" else "") 0 0).2)
    graph_create

end MainC

/-! ### queue.c and main.c: the two call heaps side by side -/

namespace MainC

/-- The call of queue.c read as a call of main.c (same id, location, severity
and time). -/
def conv (c : QueueC.Call) : Call := ⟨c.id, c.loc, c.sev, c.time⟩

/-- The operation of queue.c read as an operation of main.c. -/
def qop : QueueC.Op → QOp
  | QueueC.Op.ins c => QOp.ins (conv c)
  | QueueC.Op.ext => QOp.ext

/-- The array of main.c is the array of queue.c moved up by one index. -/
def Shifted (q : QueueC.QState) (h : HeapState) : Prop :=
  h.heap_size = q.heapSize ∧ ∀ k, h.heapQ (k + 1) = conv (q.heap k)

end MainC

/-! ### main.c: vocabulary for `dijkstra` and the routes -/

namespace MainC

/-- Every stored road ends at a node of the store (`add_edge` checks it). -/
def WF (g : Graph) : Prop := ∀ u, u < g.V → ∀ e ∈ (g.nodes u).adj, e.dest < g.V

/-- Every stored road has a nonnegative weight. -/
def NonNeg (g : Graph) : Prop := ∀ u, u < g.V → ∀ e ∈ (g.nodes u).adj, 0 ≤ e.weight

/-- Paths: `IsPath g src v d` holds when some directed path of stored roads
leads from `src` to `v` with total weight `d`. -/
inductive IsPath (g : Graph) (src : Nat) : Nat → ℚ → Prop where
  | nil : IsPath g src src 0
  | snoc {x : Nat} {d : ℚ} (e : Edge) :
      IsPath g src x d → e ∈ (g.nodes x).adj → IsPath g src e.dest (d + e.weight)

/-- The value `x` is the minimum total weight over all paths from `src` to `v`. -/
def IsMinWeight (g : Graph) (src v : Nat) (x : ℚ) : Prop :=
  IsPath g src v x ∧ ∀ d, IsPath g src v d → x ≤ d

/-- What the rounds of `dijkstra` keep true of `visited[]` and `parent[]`:
`k` nodes are visited, each with a distance below the sentinel; `r` ranks the
nodes by the round of their visit (`k` for the nodes not yet visited); a
parent is a visited node of lower rank; and a node without parent whose
distance is below the sentinel is the source. -/
structure RankInv (g : Graph) (src : Nat) (s : DState) (k : Nat) (r : Nat → Nat) : Prop where
  count : ((Finset.range g.V).filter (fun v => s.visited v = true)).card = k
  vis_lt : ∀ v, s.visited v = true → v < g.V ∧ s.dist v < INF
  rank_vis : ∀ v, s.visited v = true → r v < k
  rank_new : ∀ v, s.visited v = false → r v = k
  parent_ok : ∀ v, s.parent v ≠ -1 →
    ∃ u : Nat, s.parent v = (u : Int) ∧ s.visited u = true ∧ r u < r v
  parent_root : ∀ v, s.parent v = -1 → s.dist v < INF → v = src

/-- The two stores hold the same nodes and the same roads, listed in the same
order at every node. -/
def SameRoads (gm : Graph) (gc : GraphC.Graph) : Prop :=
  gm.V = gc.V ∧
  ∀ u, u < gm.V → (gm.nodes u).adj.map (fun e => (e.dest, e.weight)) = GraphC.out_list gc u

/-- The route written in a report (none in a report of a failure). -/
def reported_route : Outcome → Option (List String)
  | Outcome.not_found _ => none
  | Outcome.busy _ _ => none
  | Outcome.dispatched _ _ _ _ _ route => route

end MainC

/-! ### Vocabulary for the bounds and termination statements -/

namespace GraphC

/-- Every stored edge has a strictly positive weight. -/
def Positive (g : Graph) : Prop := ∀ e, e < g.edge_count → 0 < (g.edges e).weight

instance (g : Graph) : Decidable (Positive g) := by
  unfold Positive; infer_instance

/-- Three nodes on a cycle `0 -> 1 -> 0` of weight-0 edges, with a weight-0
edge `1 -> 2` leaving it. -/
def zeroCycleGraph : Graph :=
  graph_add_edge
    (graph_add_edge
      (graph_add_edge
        (graph_add_node
          (graph_add_node (graph_add_node (graph_create 4096) 1 0 0 (some "A") none).2
            2 0 0 (some "B") none).2
          3 0 0 (some "C") none).2
        0 1 0)
      1 0 0)
    1 2 0

/-- The identifier map after `llmap_create(cap)` followed by the calls
`llmap_put(m, key, val)` for the pairs of `l`, in order. -/
def llmap_puts (cap : Nat) (l : List (Int × Int)) : LLMap :=
  l.foldl (fun m p => llmap_put m p.1 p.2) (llmap_create cap)

/-- The probe loop of `llmap_find` run for at most `fuel` rounds: `none` when
the rounds are used up before the loop is left. -/
def llmap_find_run (m : LLMap) (key : Int) : Nat → Nat → Option Int
  | 0, _ => none
  | fuel + 1, idx =>
    if (m.table idx).used = true then
      if (m.table idx).key = key then some (m.table idx).val
      else llmap_find_run m key fuel ((idx + 1) &&& (m.cap - 1))
    else some (-1)

/-- The loop `while (m->table[idx].used) idx = (idx + 1) & (m->cap - 1)` run
for at most `fuel` rounds. -/
def llmap_free_slot_run (m : LLMap) : Nat → Nat → Option Nat
  | 0, _ => none
  | fuel + 1, idx =>
    if (m.table idx).used = true then llmap_free_slot_run m fuel ((idx + 1) &&& (m.cap - 1))
    else some idx

/-- Re-insertion of one slot of the old table, its probe loop bounded by
`cap` rounds. -/
def llmap_rehash_step_run (m : LLMap) (old : LLMapEntry) : Option LLMap :=
  if old.used = true then
    (llmap_free_slot_run m m.cap (hash_u64 (to_u64 old.key) &&& (m.cap - 1))).map
      (fun idx =>
        { m with
          table := Function.update m.table idx ⟨old.key, old.val, true⟩
          size := m.size + 1 })
  else some m

/-- The growth branch of `llmap_put`, every probe loop bounded. -/
def llmap_grow_run (m : LLMap) : Option LLMap :=
  if m.size * 2 ≥ m.cap then
    (List.range m.cap).foldl
      (fun r i => r.bind (fun m' => llmap_rehash_step_run m' (m.table i)))
      (some { table := fun _ => ⟨0, 0, false⟩, cap := m.cap * 2, size := 0 })
  else some m

/-- The probe loop of `llmap_put` run for at most `fuel` rounds. -/
def llmap_put_from_run (m : LLMap) (key : Int) (val : Int) : Nat → Nat → Option LLMap
  | 0, _ => none
  | fuel + 1, idx =>
    if (m.table idx).used = true then
      if (m.table idx).key = key then
        some { m with table := Function.update m.table idx { m.table idx with val := val } }
      else llmap_put_from_run m key val fuel ((idx + 1) &&& (m.cap - 1))
    else
      some { m with table := Function.update m.table idx ⟨key, val, true⟩, size := m.size + 1 }

/-- The function `llmap_put` with every probe loop bounded by the capacity of
the table it scans: `none` when one of them is not left within that bound. -/
def llmap_put_run (m : LLMap) (key : Int) (val : Int) : Option LLMap :=
  (llmap_grow_run m).bind (fun m' =>
    llmap_put_from_run m' key val m'.cap (hash_u64 (to_u64 key) &&& (m'.cap - 1)))

end GraphC

namespace MainC

/-- Slots of `heapQ` read or written by the `while` loop of `insert_call`;
the test `compare_calls(&heapQ[i], &heapQ[i/2])` is reached only when
`i > 1`. -/
def insert_loop_slots : Nat → (Nat → Call) → Nat → List Nat
  | 0, _, _ => []
  | fuel + 1, heapQ, i =>
    if i > 1 then
      i :: i / 2 ::
        (if compare_calls (heapQ i) (heapQ (i / 2)) = true then
          insert_loop_slots fuel
            (Function.update (Function.update heapQ i (heapQ (i / 2))) (i / 2) (heapQ i)) (i / 2)
        else [])
    else []

/-- Slots of `heapQ` read or written by `insert_call`, its loop run for at
most `fuel` rounds. -/
def insert_call_slots (fuel : Nat) (h : HeapState) (c : Call) : List Nat :=
  if h.heap_size + 1 ≥ HEAP_MAX then []
  else
    (h.heap_size + 1) ::
      insert_loop_slots fuel (Function.update h.heapQ (h.heap_size + 1) c) (h.heap_size + 1)

/-- Slots of `heapQ` read or written by the `while (1)` loop of
`extract_call`; a child is compared only after its bound test
`l <= heap_size` (`r <= heap_size`) has passed. -/
def extract_loop_slots : Nat → (Nat → Call) → Nat → Nat → List Nat
  | 0, _, _, _ => []
  | fuel + 1, heapQ, heap_size, i =>
    let largest := i
    let l := 2 * i
    let r := 2 * i + 1
    let largest1 :=
      if l ≤ heap_size ∧ compare_calls (heapQ l) (heapQ largest) = true then l else largest
    let largest2 :=
      if r ≤ heap_size ∧ compare_calls (heapQ r) (heapQ largest1) = true then r else largest1
    (if l ≤ heap_size then [l, largest] else []) ++
      ((if r ≤ heap_size then [r, largest1] else []) ++
        (if largest2 = i then []
          else
            i :: largest2 ::
              extract_loop_slots fuel
                (Function.update (Function.update heapQ i (heapQ largest2)) largest2 (heapQ i))
                heap_size largest2))

/-- Slots of `heapQ` read or written by `extract_call`, its loop run for at
most `fuel` rounds. -/
def extract_call_slots (fuel : Nat) (h : HeapState) : List Nat :=
  if h.heap_size = 0 then []
  else
    1 :: h.heap_size ::
      extract_loop_slots fuel (Function.update h.heapQ 1 (h.heapQ h.heap_size))
        (h.heap_size - 1) 1

end MainC

/-! ### Double arithmetic

The C type `double` is taken as IEEE 754 binary64 with the default rounding
(to nearest, ties to even): a finite double is the rational it denotes, and
an addition returns the exact sum rounded.  The sums formed by the two
`dijkstra` functions stay far below the overflow threshold `2^1024` for
finite weights (one operand is below `1e18`), so no infinity arises. -/

namespace Dbl

/-- Rounding to the nearest integer, ties to the even one. -/
def round_even (m : ℚ) : Int :=
  if m - ⌊m⌋ < 1 / 2 then ⌊m⌋
  else if 1 / 2 < m - ⌊m⌋ then ⌊m⌋ + 1
  else if ⌊m⌋ % 2 = 0 then ⌊m⌋ else ⌊m⌋ + 1

/-- Halving loop for the position of the leading bit. -/
def log2_loop : Nat → Nat → Nat
  | 0, _ => 0
  | fuel + 1, n => if 2 ≤ n then log2_loop fuel (n / 2) + 1 else 0

/-- Position of the leading bit of `n`. -/
def nlog2 (n : Nat) : Nat := log2_loop n n

/-- The binary exponent of a positive rational `x`: the `e` with
`2^e <= x < 2^(e+1)`. -/
def ilog2 (x : ℚ) : Int :=
  if (2 : ℚ) ^ ((nlog2 x.num.natAbs : Int) - (nlog2 x.den : Int)) ≤ x then
    (nlog2 x.num.natAbs : Int) - (nlog2 x.den : Int)
  else (nlog2 x.num.natAbs : Int) - (nlog2 x.den : Int) - 1

/-- Exponent of the spacing of the doubles around `x`: 53 significant bits,
and `2^-1074` in the subnormal range. -/
def quantum (x : ℚ) : Int := max (ilog2 |x| - 52) (-1074)

/-- The double nearest to `x`, ties to the even significand. -/
def round_double (x : ℚ) : ℚ :=
  if x = 0 then 0 else (round_even (x / (2 : ℚ) ^ quantum x) : ℚ) * (2 : ℚ) ^ quantum x

/-- The sum `x + y` of two doubles as the machine returns it. -/
def add (x y : ℚ) : ℚ := round_double (x + y)

/-- The rational `x` is a double. -/
def IsDouble (x : ℚ) : Prop := round_double x = x

instance (x : ℚ) : Decidable (IsDouble x) := by
  unfold IsDouble; infer_instance

end Dbl

namespace GraphC

/-! #### graph.c: `dijkstra` in double arithmetic -/

/-- Body of the edge loop for edge index `e` out of `u`; the candidate
`nd = dist[u] + w` is the machine sum. -/
def relax_edge_fp (g : Graph) (u : Nat) (s : DState) (e : Nat) : DState :=
  if Dbl.add (s.dist u) (g.edges e).weight < s.dist (g.edges e).to_ then
    { s with
      dist := Function.update s.dist (g.edges e).to_ (Dbl.add (s.dist u) (g.edges e).weight)
      parent := Function.update s.parent (g.edges e).to_ u
      pq := heap_push s.pq (g.edges e).to_ (Dbl.add (s.dist u) (g.edges e).weight) }
  else s

/-- The loop `for (e = head[u]; e != -1; e = edges[e].next)`. -/
def relax_from_fp (g : Graph) (u : Nat) : Nat → Int → DState → DState
  | 0, _, s => s
  | fuel + 1, e, s =>
    if e = -1 then s
    else relax_from_fp g u fuel (g.edges e.toNat).next (relax_edge_fp g u s e.toNat)

/-- The loop `while (!heap_empty(pq))`. -/
def dijkstra_loop_fp (g : Graph) : Nat → DState → DState
  | 0, s => s
  | fuel + 1, s =>
    if heap_empty s.pq = true then s
    else
      let hn := (heap_pop s.pq).1
      let s1 : DState := { s with pq := (heap_pop s.pq).2 }
      if hn.dist > s1.dist hn.node then dijkstra_loop_fp g fuel s1
      else if s1.vis hn.node = true then dijkstra_loop_fp g fuel s1
      else
        dijkstra_loop_fp g fuel
          (relax_from_fp g hn.node g.edge_count (g.head hn.node)
            { s1 with vis := Function.update s1.vis hn.node true })

/-- The function `dijkstra` with its sums in double arithmetic: the final
arrays and queue.  The main loop gets `V * edge_count + 2` rounds of fuel; it
pops one queue entry per round and pushes at most one entry per edge of each
expanded node. -/
def dijkstra_fp (g : Graph) (src : Nat) : DState :=
  dijkstra_loop_fp g (g.V * g.edge_count + 2)
    { dist := Function.update (fun _ => INF) src 0
      parent := fun _ => -1
      pq := heap_push (heap_create (if g.V > 16 then g.V else 16)) src 0
      vis := fun _ => false }

/-- The function `find_nearest_of_type_from` over `dijkstra_fp`. -/
def find_nearest_of_type_from_fp (g : Graph) (start_idx : Int)
    (requested_type : Option String) : Int :=
  if start_idx < 0 ∨ start_idx ≥ g.V then -1
  else
    ((List.range g.V).foldl
      (nearest_step g (dijkstra_fp g start_idx.toNat).dist requested_type) (INF, -1)).2

/-- Every stored weight is a double. -/
def Doubles (g : Graph) : Prop := ∀ e, e < g.edge_count → Dbl.IsDouble (g.edges e).weight

instance (g : Graph) : Decidable (Doubles g) := by
  unfold Doubles; infer_instance

/-- Paths with the weight the machine accumulates: `IsPathFp g src v d` holds
when some directed path of stored edges leads from `src` to `v` and `d` is
the result of adding its weights to `0.0` one by one, in path order, each sum
rounded to a double. -/
inductive IsPathFp (g : Graph) (src : Nat) : Nat → ℚ → Prop where
  | nil : IsPathFp g src src 0
  | snoc {x : Nat} {d : ℚ} (e : Nat) :
      IsPathFp g src x d → e ∈ out_edges g x →
      IsPathFp g src (g.edges e).to_ (Dbl.add d (g.edges e).weight)

/-- The value `x` is the minimum accumulated weight over all paths from `src`
to `v`. -/
def IsMinWeightFp (g : Graph) (src v : Nat) (x : ℚ) : Prop :=
  IsPathFp g src v x ∧ ∀ d, IsPathFp g src v d → x ≤ d

/-- Node `v` has a path from `src` whose accumulated weight is below the
sentinel. -/
def LightFp (g : Graph) (src v : Nat) : Prop := ∃ d, IsPathFp g src v d ∧ d < INF

/-- Routes with accumulated weight: the node list `st`, read from its last
element to its first, follows stored edges whose weights, added one by one in
double arithmetic, give `d`. -/
inductive IsRouteFp (g : Graph) : List Nat → ℚ → Prop where
  | single (a : Nat) : IsRouteFp g [a] 0
  | step {a : Nat} {st : List Nat} {d : ℚ} (e : Nat) :
      IsRouteFp g (a :: st) d → e ∈ out_edges g a →
      IsRouteFp g ((g.edges e).to_ :: a :: st) (Dbl.add d (g.edges e).weight)

/-- Branches: the list `st` starts at `v`, follows `parent` down to `src`,
and each link `parent[b] = a` is backed by a stored edge `a -> b` of weight
`w` with `dist[b]` the machine sum `dist[a] + w`. -/
inductive BranchFp (g : Graph) (src : Nat) (dist : Nat → ℚ) (parent : Nat → Int) :
    Nat → List Nat → Prop where
  | root : BranchFp g src dist parent src [src]
  | step {u v : Nat} {st : List Nat} (e : Nat) :
      BranchFp g src dist parent u (u :: st) → parent v = (u : Int) → e ∈ out_edges g u →
      (g.edges e).to_ = v → Dbl.add (dist u) (g.edges e).weight = dist v →
      BranchFp g src dist parent v (v :: u :: st)

/-- Invariant of `dijkstra_fp` while the edges of `u₀` are being relaxed,
`done` being those already treated. -/
structure InvFp (g : Graph) (src : Nat) (s : DState) (u₀ : Nat) (done : List Nat) : Prop where
  dist_src : s.dist src = 0
  dist_le : ∀ v, s.dist v ≤ INF
  parent_src : s.parent src = -1
  parent_inf : ∀ v, s.dist v = INF → s.parent v = -1
  vis_lt : ∀ u, s.vis u = true → u < g.V
  vis_fin : ∀ u, s.vis u = true → s.dist u < INF
  vis_min : ∀ u, s.vis u = true → ∀ d, IsPathFp g src u d → s.dist u ≤ d
  relaxed : ∀ u, s.vis u = true → ∀ e, e ∈ out_edges g u → (u ≠ u₀ ∨ e ∈ done) →
    s.dist (g.edges e).to_ ≤ Dbl.add (s.dist u) (g.edges e).weight
  queued : ∀ v, s.vis v = false → s.dist v < INF → (⟨v, s.dist v⟩ : HNode) ∈ entries s.pq
  entry_ge : ∀ x, x ∈ entries s.pq → s.dist x.node ≤ x.dist
  entry_lt : ∀ x, x ∈ entries s.pq → x.node < g.V
  entry_fin : ∀ x, x ∈ entries s.pq → x.dist < INF
  heap_ok : HeapOK s.pq
  tree : ∀ v, s.dist v < INF →
    ∃ st, BranchFp g src s.dist s.parent v st ∧ st.Nodup ∧ (∀ x, x ∈ st → x < g.V) ∧
      ∀ x, x ∈ st.tail → s.vis x = true

/-- Three nodes `A -> B -> C` with weights 999999999999999872 and 65: the
exact total is below `1e18`, the machine sum is `1e18`. -/
def roundGraph : Graph :=
  graph_add_edge
    (graph_add_edge
      (graph_add_node
        (graph_add_node (graph_add_node (graph_create 4096) 1 0 0 (some "A") none).2
          2 0 0 (some "B") none).2
        3 0 0 (some "C") none).2
      0 1 999999999999999872)
    1 2 65

/-- Three nodes `A -> B -> C` whose weights are the doubles nearest to 0.1
and 0.2: their machine sum is the double 0.30000000000000004. -/
def tenthsGraph : Graph :=
  graph_add_edge
    (graph_add_edge
      (graph_add_node
        (graph_add_node (graph_add_node (graph_create 4096) 1 0 0 (some "A") none).2
          2 0 0 (some "B") none).2
        3 0 0 (some "C") none).2
      0 1 (3602879701896397 / 36028797018963968))
    1 2 (3602879701896397 / 18014398509481984)

end GraphC

namespace MainC

/-! #### main.c: `dijkstra` in double arithmetic -/

/-- Relaxation of one adjacency cell of `u`; `dist[u] + e->weight` is the
machine sum. -/
def relax_edge_fp (u : Nat) (s : DState) (e : Edge) : DState :=
  if s.visited e.dest = false ∧ Dbl.add (s.dist u) e.weight < s.dist e.dest then
    { s with
      dist := Function.update s.dist e.dest (Dbl.add (s.dist u) e.weight)
      parent := Function.update s.parent e.dest u }
  else s

/-- The `count` loop of `dijkstra`, with `k` rounds left. -/
def dijkstra_rounds_fp (g : Graph) : Nat → DState → DState
  | 0, s => s
  | k + 1, s =>
    if (select_min g.V s).2 = -1 then s
    else
      dijkstra_rounds_fp g k
        ((g.nodes (select_min g.V s).2.toNat).adj.foldl
          (relax_edge_fp (select_min g.V s).2.toNat)
          { s with visited := Function.update s.visited (select_min g.V s).2.toNat true })

/-- The function `dijkstra` of main.c with its sums in double arithmetic. -/
def dijkstra_fp (g : Graph) (src : Int) : DState :=
  let s0 : DState := { dist := fun _ => INF, parent := fun _ => -1, visited := fun _ => false }
  if src < 0 ∨ src ≥ g.V then s0
  else dijkstra_rounds_fp g (g.V - 1) { s0 with dist := Function.update s0.dist src.toNat 0 }

/-- Paths with the weight the machine accumulates: the weights of the roads
are added to `0.0` one by one, in path order, each sum rounded to a double. -/
inductive IsPathFp (g : Graph) (src : Nat) : Nat → ℚ → Prop where
  | nil : IsPathFp g src src 0
  | snoc {x : Nat} {d : ℚ} (e : Edge) :
      IsPathFp g src x d → e ∈ (g.nodes x).adj → IsPathFp g src e.dest (Dbl.add d e.weight)

/-- What the rounds of `dijkstra_fp` keep true of `dist[]` on a store with
nonnegative weights: values below the sentinel are accumulated path weights,
the value of a visited node is minimal, and the roads leaving a visited node
are relaxed. -/
structure DistInvFp (g : Graph) (src : Nat) (s : DState) : Prop where
  dist_src : s.dist src = 0
  dist_le : ∀ v, s.dist v ≤ INF
  reach : ∀ v, s.dist v < INF → IsPathFp g src v (s.dist v)
  vis_min : ∀ v, s.visited v = true → ∀ d, IsPathFp g src v d → s.dist v ≤ d
  relaxed : ∀ u, s.visited u = true → ∀ e ∈ (g.nodes u).adj,
    s.dist e.dest ≤ Dbl.add (s.dist u) e.weight

/-- Five places on a one-way chain `0 -> 1 -> 2 -> 3 -> 4`: the first road
weighs `1e9 - 2^-22`, each of the others `9 * 2^-27`.  The exact total is
below `1e9`; the machine sums reach `1e9` at place 3. -/
def chainM : Graph :=
  add_edge
    (add_edge
      (add_edge
        (add_edge
          (add_node
            (add_node
              (add_node (add_node (add_node graph_create 1 "P0" "" 0 0).2 2 "P1" "" 0 0).2
                3 "P2" "" 0 0).2
              4 "P3" "" 0 0).2
            5 "P4" "" 0 0).2
          0 1 (1000000000 - 1 / 4194304))
        1 2 (9 / 134217728))
      2 3 (9 / 134217728))
    3 4 (9 / 134217728)

/-- The places and roads of `GraphC.tenthsGraph` in the store of main.c. -/
def tenthsM : Graph :=
  add_edge
    (add_edge
      (add_node (add_node (add_node graph_create 1 "A" "" 0 0).2 2 "B" "" 0 0).2
        3 "C" "" 0 0).2
      0 1 (3602879701896397 / 36028797018963968))
    1 2 (3602879701896397 / 18014398509481984)

end MainC

namespace GraphC

/-- The chain of `MainC.chainM` in the store of graph.c. -/
def chainC : Graph :=
  graph_add_edge
    (graph_add_edge
      (graph_add_edge
        (graph_add_edge
          (graph_add_node
            (graph_add_node
              (graph_add_node
                (graph_add_node
                  (graph_add_node (graph_create 4096) 1 0 0 (some "P0") none).2
                  2 0 0 (some "P1") none).2
                3 0 0 (some "P2") none).2
              4 0 0 (some "P3") none).2
            5 0 0 (some "P4") none).2
          0 1 (1000000000 - 1 / 4194304))
        1 2 (9 / 134217728))
      2 3 (9 / 134217728))
    3 4 (9 / 134217728)

end GraphC

/-! ## Part II. Lemmas and theorems -/

/-! ### Binary heap: order and contents are kept by the sift loops -/

namespace BinHeap
variable {α : Type}

theorem swap_left (a : Nat → α) (i j : Nat) : swap a i j i = a j := by
  unfold swap
  by_cases h : i = j
  · subst h; simp
  · rw [Function.update_noteq h, Function.update_same]

theorem swap_right (a : Nat → α) (i j : Nat) : swap a i j j = a i := by
  unfold swap; rw [Function.update_same]

theorem swap_other (a : Nat → α) (i j k : Nat) (h1 : k ≠ i) (h2 : k ≠ j) : swap a i j k = a k := by
  unfold swap; rw [Function.update_noteq h2, Function.update_noteq h1]

theorem StrictWeak.irrefl {lt : α → α → Bool} (h : StrictWeak lt) (x : α) : lt x x = false := by
  cases hx : lt x x
  · rfl
  · have := h.asymm x x hx; rw [hx] at this; exact this

theorem siftUp_heap {lt : α → α → Bool} (hlt : StrictWeak lt) {b n : Nat} (hb : b ≤ 1) :
    ∀ (fuel : Nat) (a : Nat → α) (i : Nat), i ≤ fuel → i < n + b →
      (∀ j, b < j → j < n + b → j ≠ i → lt (a j) (a (par b j)) = false) →
      (∀ j, b < j → j < n + b → par b j = i → b < i → lt (a j) (a (par b i)) = false) →
      IsHeap lt b n (siftUp lt b fuel a i) := by
  intro fuel
  induction fuel with
  | zero =>
    intro a i hi _ h1 _ j hj1 hj2
    exact h1 j hj1 hj2 (by omega)
  | succ fuel ih =>
    intro a i hi hin h1 h2
    unfold siftUp
    by_cases hc : b < i ∧ lt (a i) (a (par b i)) = true
    · rw [if_pos hc]
      obtain ⟨hbi, hlti⟩ := hc
      have hp : par b i < i := by unfold par; omega
      have hpi : lt (a (par b i)) (a i) = false := hlt.asymm _ _ hlti
      apply ih
      · omega
      · omega
      · intro j hj1 hj2 hjp
        by_cases hji : j = i
        · subst hji
          rw [swap_left, swap_right]; exact hpi
        · rw [swap_other a _ _ j hji hjp]
          by_cases hq : par b j = i
          · rw [hq, swap_left]
            exact h2 j hj1 hj2 hq hbi
          · by_cases hq2 : par b j = par b i
            · rw [hq2, swap_right]
              exact hlt.ntrans _ _ _ (hq2 ▸ h1 j hj1 hj2 hji) hpi
            · rw [swap_other a _ _ _ hq hq2]
              exact h1 j hj1 hj2 hji
      · intro j hj1 hj2 hjq hbp
        have hpp : par b (par b i) < par b i := by unfold par; unfold par at hbp; omega
        have hjne : j ≠ par b i := by
          intro h; rw [h] at hjq; omega
        rw [swap_other a _ _ (par b (par b i)) (by omega) (by omega)]
        have hpar : lt (a (par b i)) (a (par b (par b i))) = false :=
          h1 (par b i) hbp (by omega) (by omega)
        by_cases hji : j = i
        · subst hji; rw [swap_left]; exact hpar
        · rw [swap_other a _ _ j hji hjne]
          exact hlt.ntrans _ _ _ (hjq ▸ h1 j hj1 hj2 hji) hpar
    · rw [if_neg hc]
      intro j hj1 hj2
      by_cases hji : j = i
      · subst hji
        cases hl : lt (a j) (a (par b j))
        · rfl
        · exact absurd ⟨hj1, hl⟩ hc
      · exact h1 j hj1 hj2 hji

theorem swap_eq_comp (a : Nat → α) (i j : Nat) : swap a i j = a ∘ (Equiv.swap i j) := by
  funext k
  simp only [swap, Function.comp, Function.update_apply, Equiv.swap_apply_def]
  by_cases h2 : k = i
  · subst h2
    by_cases h1 : k = j
    · subst h1; simp
    · simp [h1]
  · by_cases h1 : k = j
    · subst h1; simp [h2]
    · simp [h1, h2]

theorem range_eq_Ico (b n : Nat) : ((List.range' b n : List Nat) : Multiset Nat) = (Finset.Ico b (b + n)).val := by
  have : b + n - b = n := by omega
  show _ = ((List.range' b (b + n - b) : List Nat) : Multiset Nat)
  rw [this]

theorem contents_swap (b n : Nat) (a : Nat → α) (i j : Nat)
    (hi : b ≤ i ∧ i < n + b) (hj : b ≤ j ∧ j < n + b) :
    contents b n (swap a i j) = contents b n a := by
  unfold contents
  rw [swap_eq_comp, ← List.map_map, ← Multiset.map_coe, ← Multiset.map_coe,  ← Multiset.map_coe, range_eq_Ico]
  congr 1
  have h := @Finset.map_perm Nat (Finset.Ico b (b + n)) (Equiv.swap i j) (by
    intro x hx
    simp only [Set.mem_setOf_eq] at hx
    simp only [Finset.coe_Ico, Set.mem_Ico]
    by_cases h1 : x = i
    · omega
    · by_cases h2 : x = j
      · omega
      · exact absurd (Equiv.swap_apply_of_ne_of_ne h1 h2) hx)
  have h2 := congrArg Finset.val h
  rw [Finset.map_val] at h2
  exact h2

theorem contents_succ (b n : Nat) (a : Nat → α) :
    contents b (n + 1) a = a (b + n) ::ₘ contents b n a := by
  unfold contents
  rw [List.range'_concat, List.map_append]
  rw [← Multiset.coe_add]
  simp only [List.map_cons, List.map_nil, one_mul, Multiset.coe_singleton]
  rw [add_comm, Multiset.singleton_add]

theorem contents_update_out (b n : Nat) (a : Nat → α) (k : Nat) (x : α) (hk : k < b ∨ b + n ≤ k) :
    contents b n (Function.update a k x) = contents b n a := by
  unfold contents
  congr 1
  apply List.map_congr_left
  intro i hi
  rw [List.mem_range'_1] at hi
  rw [Function.update_apply, if_neg (by omega)]

theorem mem_contents (b n : Nat) (a : Nat → α) (x : α) :
    x ∈ contents b n a ↔ ∃ k, b ≤ k ∧ k < b + n ∧ a k = x := by
  unfold contents
  simp [List.mem_range'_1]
  constructor
  · rintro ⟨k, h, rfl⟩; exact ⟨k, h.1, h.2, rfl⟩
  · rintro ⟨k, h1, h2, rfl⟩; exact ⟨k, ⟨h1, h2⟩, rfl⟩


theorem pick_spec {lt : α → α → Bool} (hlt : StrictWeak lt) (a : Nat → α) (lim l r i : Nat) :
    (pick lt a lim r (pick lt a lim l i) = i ∨
      (pick lt a lim r (pick lt a lim l i) = l ∧ l < lim) ∨
      (pick lt a lim r (pick lt a lim l i) = r ∧ r < lim)) ∧
    lt (a i) (a (pick lt a lim r (pick lt a lim l i))) = false ∧
    (l < lim → lt (a l) (a (pick lt a lim r (pick lt a lim l i))) = false) ∧
    (r < lim → lt (a r) (a (pick lt a lim r (pick lt a lim l i))) = false) := by
  have hs1 : (pick lt a lim l i = i ∨ (pick lt a lim l i = l ∧ l < lim)) ∧
      lt (a i) (a (pick lt a lim l i)) = false ∧
      (l < lim → lt (a l) (a (pick lt a lim l i)) = false) := by
    unfold pick
    by_cases hc : l < lim ∧ lt (a l) (a i) = true
    · rw [if_pos hc]
      exact ⟨Or.inr ⟨rfl, hc.1⟩, hlt.asymm _ _ hc.2, fun _ => hlt.irrefl _⟩
    · rw [if_neg hc]
      refine ⟨Or.inl rfl, hlt.irrefl _, fun hl => ?_⟩
      cases h : lt (a l) (a i)
      · rfl
      · exact absurd ⟨hl, h⟩ hc
  obtain ⟨hA, hB, hC⟩ := hs1
  generalize pick lt a lim l i = s1 at hA hB hC
  unfold pick
  by_cases hc : r < lim ∧ lt (a r) (a s1) = true
  · rw [if_pos hc]
    have h1 : lt (a s1) (a r) = false := hlt.asymm _ _ hc.2
    exact ⟨Or.inr (Or.inr ⟨rfl, hc.1⟩), hlt.ntrans _ _ _ hB h1,
      fun hl => hlt.ntrans _ _ _ (hC hl) h1, fun _ => hlt.irrefl _⟩
  · rw [if_neg hc]
    refine ⟨?_, hB, hC, fun hr => ?_⟩
    · rcases hA with h | h
      · exact Or.inl h
      · exact Or.inr (Or.inl h)
    · cases h : lt (a r) (a s1)
      · rfl
      · exact absurd ⟨hr, h⟩ hc

theorem siftDown_heap {lt : α → α → Bool} (hlt : StrictWeak lt) {b n : Nat} (hb : b ≤ 1) :
    ∀ (fuel : Nat) (a : Nat → α) (i : Nat), n + b ≤ fuel + i → b ≤ i →
      (∀ j, b < j → j < n + b → par b j ≠ i → lt (a j) (a (par b j)) = false) →
      (∀ j, b < j → j < n + b → par b j = i → b < i → lt (a j) (a (par b i)) = false) →
      IsHeap lt b n (siftDown lt b fuel a n i) := by
  intro fuel
  induction fuel with
  | zero =>
    intro a i hi _ h1 _ j hj1 hj2
    exact h1 j hj1 hj2 (by unfold par; omega)
  | succ fuel ih =>
    intro a i hi hbi h1 h2
    unfold siftDown
    obtain ⟨hS, hI, hL, hR⟩ := pick_spec hlt a (n + b) (2 * i + 1 - b) (2 * i + 2 - b) i
    generalize pick lt a (n + b) (2 * i + 2 - b) (pick lt a (n + b) (2 * i + 1 - b) i) = s
      at hS hI hL hR
    by_cases hs : s = i
    · rw [if_pos hs]
      subst hs
      intro j hj1 hj2
      by_cases hq : par b j = s
      · rw [hq]
        have : j = 2 * s + 1 - b ∨ j = 2 * s + 2 - b := by unfold par at hq; omega
        rcases this with h | h
        · rw [h]; exact hL (by omega)
        · rw [h]; exact hR (by omega)
      · exact h1 j hj1 hj2 hq
    · rw [if_neg hs]
      have hsr : i < s ∧ s < n + b ∧ par b s = i := by
        rcases hS with h | h | h
        · exact absurd h hs
        · unfold par; omega
        · unfold par; omega
      obtain ⟨his, hsn, hps⟩ := hsr
      apply ih
      · omega
      · omega
      · intro j hj1 hj2 hjp
        by_cases hjs : j = s
        · subst hjs
          rw [hps, swap_right, swap_left]; exact hI
        · by_cases hji : j = i
          · subst hji
            have hpj : par b j < j := by unfold par; omega
            rw [swap_left, swap_other a _ _ (par b j) (by omega) (by omega)]
            exact h2 s (by omega) hsn hps hj1
          · rw [swap_other a _ _ j hji hjs]
            by_cases hq : par b j = i
            · rw [hq, swap_left]
              have : j = 2 * i + 1 - b ∨ j = 2 * i + 2 - b := by unfold par at hq; omega
              rcases this with h | h
              · rw [h]; exact hL (by omega)
              · rw [h]; exact hR (by omega)
            · rw [swap_other a _ _ (par b j) hq hjp]
              exact h1 j hj1 hj2 hq
      · intro j hj1 hj2 hjq _
        have hjs : s < j := by unfold par at hjq; omega
        rw [hps, swap_left, swap_other a _ _ j (by omega) (by omega)]
        have := h1 j hj1 hj2 (by omega)
        rw [hjq] at this
        exact this

theorem siftUp_contents (lt : α → α → Bool) {b n : Nat} (hb : b ≤ 1) :
    ∀ (fuel : Nat) (a : Nat → α) (i : Nat), i < n + b →
      contents b n (siftUp lt b fuel a i) = contents b n a := by
  intro fuel
  induction fuel with
  | zero => intro a i _; rfl
  | succ fuel ih =>
    intro a i hin
    unfold siftUp
    by_cases hc : b < i ∧ lt (a i) (a (par b i)) = true
    · rw [if_pos hc]
      have hp : par b i < i ∧ b ≤ par b i := by unfold par; omega
      rw [ih _ _ (by omega), contents_swap b n a i (par b i) ⟨by omega, hin⟩ ⟨hp.2, by omega⟩]
    · rw [if_neg hc]

theorem siftDown_contents {lt : α → α → Bool} (hlt : StrictWeak lt) {b n : Nat} :
    ∀ (fuel : Nat) (a : Nat → α) (i : Nat), b ≤ i →
      contents b n (siftDown lt b fuel a n i) = contents b n a := by
  intro fuel
  induction fuel with
  | zero => intro a i _; rfl
  | succ fuel ih =>
    intro a i hbi
    unfold siftDown
    obtain ⟨hS, _, _, _⟩ := pick_spec hlt a (n + b) (2 * i + 1 - b) (2 * i + 2 - b) i
    generalize pick lt a (n + b) (2 * i + 2 - b) (pick lt a (n + b) (2 * i + 1 - b) i) = s at hS
    by_cases hs : s = i
    · rw [if_pos hs]
    · rw [if_neg hs]
      have hsr : i < s ∧ s < n + b := by
        rcases hS with h | h | h
        · exact absurd h hs
        · omega
        · omega
      rw [ih _ _ (by omega), contents_swap b n a i s ⟨hbi, by omega⟩ ⟨by omega, hsr.2⟩]

theorem root_max {lt : α → α → Bool} (hlt : StrictWeak lt) {b n : Nat} (hb : b ≤ 1)
    (a : Nat → α) (h : IsHeap lt b n a) :
    ∀ j, b ≤ j → j < n + b → lt (a j) (a b) = false := by
  intro j
  induction j using Nat.strong_induction_on with
  | _ j ih =>
    intro hj1 hj2
    by_cases hjb : j = b
    · subst hjb; exact hlt.irrefl _
    · have hp : par b j < j := by unfold par; omega
      have hpb : b ≤ par b j := by unfold par; omega
      exact hlt.ntrans _ _ _ (h j (by omega) hj2) (ih (par b j) hp hpb (by omega))


theorem contents_congr (b n : Nat) (a a' : Nat → α)
    (h : ∀ k, b ≤ k → k < b + n → a k = a' k) : contents b n a = contents b n a' := by
  unfold contents
  congr 1
  apply List.map_congr_left
  intro i hi
  rw [List.mem_range'_1] at hi
  exact h i hi.1 hi.2

/-- Removing the root: the last resident takes its place. -/
theorem contents_pop (b n : Nat) (a : Nat → α) :
    contents b (n + 1) a = a b ::ₘ contents b n (Function.update a b (a (b + n))) := by
  rw [← contents_swap b (n + 1) a b (b + n) ⟨le_refl _, by omega⟩ ⟨by omega, by omega⟩,
    contents_succ, swap_right]
  congr 1
  apply contents_congr
  intro k hk1 hk2
  by_cases hkb : k = b
  · subst hkb; rw [swap_left, Function.update_same]
  · rw [swap_other a _ _ k hkb (by omega), Function.update_noteq hkb]

/-- Appending `x` behind the residents and sifting it up keeps the heap order
and adds exactly `x`. -/
theorem push_spec {lt : α → α → Bool} (hlt : StrictWeak lt) {b n : Nat} (hb : b ≤ 1)
    (a : Nat → α) (x : α) (fuel : Nat) (hf : b + n ≤ fuel) (h : IsHeap lt b n a) :
    IsHeap lt b (n + 1) (siftUp lt b fuel (Function.update a (b + n) x) (b + n)) ∧
    contents b (n + 1) (siftUp lt b fuel (Function.update a (b + n) x) (b + n)) =
      x ::ₘ contents b n a := by
  constructor
  · apply siftUp_heap hlt hb _ _ _ hf (by omega)
    · intro j hj1 hj2 hj3
      have hp : par b j < b + n := by unfold par; omega
      rw [Function.update_noteq hj3, Function.update_noteq (by omega)]
      exact h j hj1 (by omega)
    · intro j _ hj2 hj3 _
      unfold par at hj3; omega
  · rw [siftUp_contents lt hb _ _ _ (by omega), contents_succ, Function.update_same,
      contents_update_out b n a (b + n) x (Or.inr (le_refl _))]

/-- Moving the last resident to the root and sifting it down keeps the heap
order, removes exactly the old root, and the old root is beaten by nobody. -/
theorem pop_spec {lt : α → α → Bool} (hlt : StrictWeak lt) {b n : Nat} (hb : b ≤ 1)
    (a : Nat → α) (fuel : Nat) (hf : n ≤ fuel) (h : IsHeap lt b (n + 1) a) :
    IsHeap lt b n (siftDown lt b fuel (Function.update a b (a (b + n))) n b) ∧
    contents b (n + 1) a =
      a b ::ₘ contents b n (siftDown lt b fuel (Function.update a b (a (b + n))) n b) ∧
    ∀ x ∈ contents b (n + 1) a, lt x (a b) = false := by
  refine ⟨?_, ?_, ?_⟩
  · apply siftDown_heap hlt hb _ _ _ (by omega) (le_refl _)
    · intro j hj1 hj2 hj3
      rw [Function.update_noteq (by omega), Function.update_noteq hj3]
      exact h j hj1 (by omega)
    · intro j _ _ _ hlt'; omega
  · rw [siftDown_contents hlt _ _ _ (le_refl _)]
    exact contents_pop b n a
  · intro x hx
    rw [mem_contents] at hx
    obtain ⟨k, hk1, hk2, rfl⟩ := hx
    exact root_max hlt hb a h k hk1 (by omega)

end BinHeap

/-! ### queue.c: the heap of calls -/

namespace QueueC

theorem up_eq_siftUp : ∀ (fuel : Nat) (heap : Nat → Call) (i : Nat),
    up fuel heap i = BinHeap.siftUp high_pr 0 fuel heap i := by
  intro fuel
  induction fuel with
  | zero => intro heap i; rfl
  | succ fuel ih =>
    intro heap i
    unfold up BinHeap.siftUp
    have hp : BinHeap.par 0 i = (i - 1) / 2 := by unfold BinHeap.par; simp
    rw [hp]
    by_cases hc : i > 0 ∧ high_pr (heap i) (heap ((i - 1) / 2)) = true
    · rw [if_pos hc, if_pos hc, ih]; rfl
    · rw [if_neg hc, if_neg hc]

theorem down_eq_siftDown : ∀ (fuel : Nat) (heap : Nat → Call) (n i : Nat),
    down fuel heap n i = BinHeap.siftDown high_pr 0 fuel heap n i := by
  intro fuel
  induction fuel with
  | zero => intro heap n i; rfl
  | succ fuel ih =>
    intro heap n i
    unfold down BinHeap.siftDown
    simp only [BinHeap.pick, BinHeap.swap, Nat.add_zero, Nat.sub_zero, ne_eq, ite_not, ih]

theorem high_pr_iff (a b : Call) :
    high_pr a b = true ↔ (a.sev > b.sev ∨ (a.sev = b.sev ∧ a.time < b.time)) := by
  unfold high_pr
  split_ifs with h
  · simp only [decide_eq_true_eq]; omega
  · simp only [decide_eq_true_eq]; omega

theorem high_pr_false_iff (a b : Call) :
    high_pr a b = false ↔ ¬ (a.sev > b.sev ∨ (a.sev = b.sev ∧ a.time < b.time)) := by
  rw [← high_pr_iff, Bool.not_eq_true]

theorem high_pr_strictWeak : BinHeap.StrictWeak high_pr := by
  constructor
  · intro x y h
    rw [high_pr_iff] at h
    rw [high_pr_false_iff]
    omega
  · intro x y z h1 h2
    rw [high_pr_false_iff] at *
    omega

theorem init_ordered : Ordered init := by
  intro j _ hj; simp [init] at hj

theorem insert_ordered (q : QState) (c : Call) (h : Ordered q) : Ordered (insert q c) := by
  unfold insert
  by_cases hfull : q.heapSize ≥ MAX
  · rw [if_pos hfull]; exact h
  · rw [if_neg hfull]
    unfold Ordered
    simp only
    rw [up_eq_siftUp]
    apply BinHeap.siftUp_heap high_pr_strictWeak (by omega) _ _ _ (le_refl _) (by omega)
    · intro j hj1 hj2 hj3
      have hjn : j < q.heapSize := by omega
      have hp : BinHeap.par 0 j < q.heapSize := by unfold BinHeap.par; omega
      rw [Function.update_noteq (by omega), Function.update_noteq (by omega)]
      exact h j hj1 (by omega)
    · intro j _ hj2 hj3 _
      unfold BinHeap.par at hj3; omega

theorem extract_ordered (q : QState) (h : Ordered q) : Ordered (extract q).2 := by
  unfold extract
  by_cases hz : q.heapSize = 0
  · rw [if_pos hz]; exact h
  · rw [if_neg hz]
    unfold Ordered
    simp only
    by_cases hpos : q.heapSize - 1 > 0
    · rw [if_pos hpos, down_eq_siftDown]
      apply BinHeap.siftDown_heap high_pr_strictWeak (by omega) _ _ _ (by omega) (by omega)
      · intro j hj1 hj2 hj3
        rw [Function.update_noteq (by omega), Function.update_noteq hj3]
        exact h j hj1 (by omega)
      · intro j _ _ _ hlt; omega
    · rw [if_neg hpos]
      intro j hj1 hj2; omega

theorem run_ordered : ∀ (ops : List Op) (q : QState), Ordered q → Ordered (run ops q) := by
  intro ops
  induction ops with
  | nil => intro q h; exact h
  | cons op ops ih =>
    intro q h
    cases op with
    | ins c => exact ih _ (insert_ordered q c h)
    | ext => exact ih _ (extract_ordered q h)

/-- Every call resident after an extraction from a non-empty ordered heap was
resident before it. -/
theorem extract_resident (q : QState) (hz : q.heapSize ≠ 0) (k : Nat)
    (hk : k < (extract q).2.heapSize) :
    ∃ j, j < q.heapSize ∧ (extract q).2.heap k = q.heap j := by
  unfold extract at hk ⊢
  rw [if_neg hz] at hk ⊢
  simp only at hk ⊢
  have hmem : (if q.heapSize - 1 > 0 then
        down (q.heapSize - 1) (Function.update q.heap 0 (q.heap (q.heapSize - 1)))
          (q.heapSize - 1) 0
      else Function.update q.heap 0 (q.heap (q.heapSize - 1))) k ∈
      BinHeap.contents 0 (q.heapSize - 1)
        (Function.update q.heap 0 (q.heap (q.heapSize - 1))) := by
    have hpos : q.heapSize - 1 > 0 := by omega
    rw [if_pos hpos, down_eq_siftDown,
      ← BinHeap.siftDown_contents high_pr_strictWeak (q.heapSize - 1) _ 0 (le_refl _)]
    rw [BinHeap.mem_contents]
    exact ⟨k, by omega, by omega, rfl⟩
  rw [BinHeap.mem_contents] at hmem
  obtain ⟨j, _, hj2, hj3⟩ := hmem
  rw [← hj3]
  by_cases hj0 : j = 0
  · subst hj0
    rw [Function.update_same]
    exact ⟨q.heapSize - 1, by omega, rfl⟩
  · rw [Function.update_noteq hj0]
    exact ⟨j, by omega, rfl⟩

/-- C4. After any sequence of inserts and extracts from the empty heap, an
extract on a non-empty heap returns a call that no call left in the heap
beats under `high_pr`: none has greater severity, or equal severity and an
earlier arrival time. -/
theorem extract_returns_top (ops : List Op) (hne : (run ops init).heapSize ≠ 0) :
    ∀ k, k < (extract (run ops init)).2.heapSize →
      high_pr ((extract (run ops init)).2.heap k) (extract (run ops init)).1 = false := by
  intro k hk
  obtain ⟨j, hj, hjk⟩ := extract_resident (run ops init) hne k hk
  have hroot : (extract (run ops init)).1 = (run ops init).heap 0 := by
    unfold extract; rw [if_neg hne]
  rw [hjk, hroot]
  exact BinHeap.root_max high_pr_strictWeak (by omega) _ (run_ordered ops init init_ordered) j
    (by omega) (by omega)

theorem extract_returns_top_witness :
    (run [Op.ins ⟨1, 2, 1, "a"⟩, Op.ins ⟨2, 5, 2, "b"⟩, Op.ins ⟨3, 5, 3, "c"⟩] init).heapSize ≠ 0 ∧
    ∀ k, k < (extract (run [Op.ins ⟨1, 2, 1, "a"⟩, Op.ins ⟨2, 5, 2, "b"⟩, Op.ins ⟨3, 5, 3, "c"⟩]
        init)).2.heapSize →
      high_pr ((extract (run [Op.ins ⟨1, 2, 1, "a"⟩, Op.ins ⟨2, 5, 2, "b"⟩, Op.ins ⟨3, 5, 3, "c"⟩]
        init)).2.heap k)
        (extract (run [Op.ins ⟨1, 2, 1, "a"⟩, Op.ins ⟨2, 5, 2, "b"⟩, Op.ins ⟨3, 5, 3, "c"⟩]
          init)).1 = false :=
  ⟨by decide, extract_returns_top _ (by decide)⟩

end QueueC

/-! ### main.c: the heap of calls -/

namespace MainC

theorem insert_loop_eq_siftUp : ∀ (fuel : Nat) (heapQ : Nat → Call) (i : Nat),
    insert_loop fuel heapQ i = BinHeap.siftUp compare_calls 1 fuel heapQ i := by
  intro fuel
  induction fuel with
  | zero => intro heapQ i; rfl
  | succ fuel ih =>
    intro heapQ i
    unfold insert_loop BinHeap.siftUp
    have hp : BinHeap.par 1 i = i / 2 := by unfold BinHeap.par; omega
    rw [hp]
    by_cases hc : i > 1 ∧ compare_calls (heapQ i) (heapQ (i / 2)) = true
    · rw [if_pos hc, if_pos hc, ih]; rfl
    · rw [if_neg hc, if_neg hc]

theorem extract_loop_eq_siftDown : ∀ (fuel : Nat) (heapQ : Nat → Call) (n i : Nat),
    extract_loop fuel heapQ n i = BinHeap.siftDown compare_calls 1 fuel heapQ n i := by
  intro fuel
  induction fuel with
  | zero => intro heapQ n i; rfl
  | succ fuel ih =>
    intro heapQ n i
    unfold extract_loop BinHeap.siftDown
    have e1 : 2 * i + 1 - 1 = 2 * i := by omega
    have e2 : 2 * i + 2 - 1 = 2 * i + 1 := by omega
    simp only [BinHeap.pick, BinHeap.swap, e1, e2, Nat.lt_succ_iff, ih]

theorem compare_calls_iff (a b : Call) :
    compare_calls a b = true ↔ (a.sev > b.sev ∨ (a.sev = b.sev ∧ a.time < b.time)) := by
  unfold compare_calls
  split_ifs with h
  · simp only [decide_eq_true_eq]; omega
  · simp only [decide_eq_true_eq]; omega

theorem compare_calls_false_iff (a b : Call) : compare_calls a b = false ↔ InOrder b a := by
  rw [← Bool.not_eq_true, compare_calls_iff]
  unfold InOrder
  omega

theorem compare_calls_strictWeak : BinHeap.StrictWeak compare_calls := by
  constructor
  · intro x y h
    rw [compare_calls_iff] at h
    rw [compare_calls_false_iff]; unfold InOrder
    omega
  · intro x y z h1 h2
    rw [compare_calls_false_iff] at *
    unfold InOrder at *
    omega

theorem heap_init_ordered : Ordered heap_init := by
  intro j _ hj; simp [heap_init] at hj; omega

theorem insert_call_spec (h : HeapState) (c : Call) (hroom : h.heap_size + 1 < HEAP_MAX)
    (ho : Ordered h) :
    Ordered (insert_call h c) ∧ resident (insert_call h c) = c ::ₘ resident h ∧
      (insert_call h c).heap_size = h.heap_size + 1 := by
  unfold insert_call
  rw [if_neg (by omega)]
  unfold Ordered resident
  simp only [insert_loop_eq_siftUp]
  have := BinHeap.push_spec compare_calls_strictWeak (le_refl 1) h.heapQ c (h.heap_size + 1)
    (by omega) ho
  rw [Nat.add_comm 1 h.heap_size] at this
  exact ⟨this.1, this.2, trivial⟩

theorem extract_call_spec (h : HeapState) (hne : h.heap_size ≠ 0) (ho : Ordered h) :
    Ordered (extract_call h).2 ∧ resident h = (extract_call h).1 ::ₘ resident (extract_call h).2 ∧
      (extract_call h).2.heap_size = h.heap_size - 1 ∧
      ∀ x ∈ resident h, compare_calls x (extract_call h).1 = false := by
  unfold extract_call
  rw [if_neg hne]
  unfold Ordered resident at *
  simp only [extract_loop_eq_siftDown]
  obtain ⟨n, hn⟩ : ∃ n, h.heap_size = n + 1 := ⟨h.heap_size - 1, by omega⟩
  rw [hn] at ho ⊢
  have := BinHeap.pop_spec compare_calls_strictWeak (le_refl 1) h.heapQ n (le_refl n) ho
  rw [Nat.add_comm 1 n] at this
  simp only [Nat.add_sub_cancel]
  exact ⟨this.1, this.2.1, trivial, this.2.2⟩

theorem insert_all_spec : ∀ (calls : List Call) (h : HeapState),
    h.heap_size + calls.length < HEAP_MAX → Ordered h →
    Ordered (calls.foldl insert_call h) ∧
      resident (calls.foldl insert_call h) = (calls : Multiset Call) + resident h ∧
      (calls.foldl insert_call h).heap_size = h.heap_size + calls.length := by
  intro calls
  induction calls with
  | nil => intro h _ ho; exact ⟨ho, by simp, rfl⟩
  | cons c cs ih =>
    intro h hlen ho
    simp only [List.length_cons] at hlen
    obtain ⟨h1, h2, h3⟩ := insert_call_spec h c (by omega) ho
    obtain ⟨i1, i2, i3⟩ := ih (insert_call h c) (by omega) h1
    simp only [List.foldl_cons, List.length_cons]
    refine ⟨i1, ?_, by omega⟩
    rw [i2, h2, ← Multiset.cons_coe, Multiset.cons_add, Multiset.add_cons]

theorem drain_spec : ∀ (fuel : Nat) (h : HeapState), h.heap_size ≤ fuel → Ordered h →
    ((drain fuel h : List Call) : Multiset Call) = resident h ∧
      (drain fuel h).Pairwise InOrder := by
  intro fuel
  induction fuel with
  | zero =>
    intro h hf _
    have : h.heap_size = 0 := by omega
    simp [drain, resident, this, BinHeap.contents]
  | succ fuel ih =>
    intro h hf ho
    unfold drain
    by_cases he : h.heap_size = 0
    · simp [is_queue_empty, he, resident, BinHeap.contents]
    · have hq : ¬ (is_queue_empty h = true) := by simp [is_queue_empty, he]
      rw [if_neg hq]
      obtain ⟨e1, e2, e3, e4⟩ := extract_call_spec h he ho
      obtain ⟨d1, d2⟩ := ih (extract_call h).2 (by omega) e1
      constructor
      · rw [e2, ← d1]; rfl
      · rw [List.pairwise_cons]
        refine ⟨fun x hx => ?_, d2⟩
        rw [← compare_calls_false_iff]
        apply e4
        rw [e2, ← d1]
        exact Multiset.mem_cons_of_mem (by simpa using hx)

theorem drain_insert_sorted (calls : List Call) (hlen : calls.length ≤ 999) :
    (drain (calls.foldl insert_call heap_init).heap_size (calls.foldl insert_call heap_init)).Perm
      calls ∧
    (drain (calls.foldl insert_call heap_init).heap_size
      (calls.foldl insert_call heap_init)).Pairwise InOrder := by
  obtain ⟨h1, h2, _⟩ := insert_all_spec calls heap_init
    (by simp only [heap_init, HEAP_MAX]; omega) heap_init_ordered
  obtain ⟨d1, d2⟩ := drain_spec _ _ (le_refl _) h1
  refine ⟨?_, d2⟩
  rw [h2] at d1
  have hz : resident heap_init = 0 := by simp [resident, heap_init, BinHeap.contents]
  rw [hz, add_zero] at d1
  exact Multiset.coe_eq_coe.mp d1

/-- C5. Any list of at most 999 calls put into the empty heap with
`insert_call` comes back from repeated `extract_call` as a permutation of
itself (each call exactly once), by severity descending and, among equal
severities, arrival time ascending.  Severities `[2,5,5,3]` arriving at times
`[1,2,3,4]` come back as `(5,2), (5,3), (3,4), (2,1)`. -/
theorem extract_all_sorted :
    (∀ calls : List Call, calls.length ≤ 999 →
      (drain (calls.foldl insert_call heap_init).heap_size
        (calls.foldl insert_call heap_init)).Perm calls ∧
      (drain (calls.foldl insert_call heap_init).heap_size
        (calls.foldl insert_call heap_init)).Pairwise InOrder) ∧
    (drain (scenarioC.foldl insert_call heap_init).heap_size
      (scenarioC.foldl insert_call heap_init)).map (fun c => (c.sev, c.time)) =
      [(5, 2), (5, 3), (3, 4), (2, 1)] :=
  ⟨drain_insert_sorted, by decide⟩

theorem extract_all_sorted_witness :
    scenarioC.length ≤ 999 ∧
    (drain (scenarioC.foldl insert_call heap_init).heap_size
      (scenarioC.foldl insert_call heap_init)).Perm scenarioC ∧
    (drain (scenarioC.foldl insert_call heap_init).heap_size
      (scenarioC.foldl insert_call heap_init)).Pairwise InOrder :=
  ⟨by decide, extract_all_sorted.1 scenarioC (by decide)⟩

end MainC

/-! ### C strings: `strstr` finds exactly the contiguous sublists -/

namespace CStr

theorem startsWith_iff : ∀ (hay needle : List Char), startsWith hay needle = true ↔ needle <+: hay := by
  intro hay
  induction hay with
  | nil =>
    intro needle
    cases needle with
    | nil => simp [startsWith]
    | cons n ns => simp [startsWith]
  | cons h hs ih =>
    intro needle
    cases needle with
    | nil => simp [startsWith]
    | cons n ns =>
      simp only [startsWith, Bool.and_eq_true, beq_iff_eq, ih, List.cons_prefix_cons]
      constructor
      · rintro ⟨h1, h2⟩; exact ⟨h1.symm, h2⟩
      · rintro ⟨h1, h2⟩; exact ⟨h1.symm, h2⟩

theorem strstr_iff : ∀ (hay needle : List Char), strstr hay needle = true ↔ needle <:+: hay := by
  intro hay
  induction hay with
  | nil =>
    intro needle
    unfold strstr
    rw [startsWith_iff, List.prefix_nil, List.infix_nil]
  | cons h hs ih =>
    intro needle
    unfold strstr
    rw [Bool.or_eq_true, startsWith_iff, ih, List.infix_cons_iff]

theorem lower_length (s : List Char) : (lower s).length = s.length := by
  unfold lower; simp

/-- Cutting the query at 255 characters does not change whether a name of at
most 127 characters contains it. -/
theorem bounded_query (name input : String) (hn : name.data.length ≤ 127) :
    strstr (lower (bounded 256 name)) (lower (bounded 256 input)) = true ↔
      lower input.data <:+: lower name.data := by
  rw [strstr_iff]
  unfold bounded
  have hname : List.take (256 - 1) name.data = name.data := List.take_of_length_le (by omega)
  rw [hname]
  by_cases hi : input.data.length ≤ 255
  · rw [List.take_of_length_le (by omega)]
  · constructor
    · intro h
      have := h.length_le
      rw [lower_length, lower_length, List.length_take] at this
      omega
    · intro h
      have := h.length_le
      rw [lower_length, lower_length] at this
      omega

end CStr

/-! ### main.c: location lookup -/

namespace MainC

theorem find_from_none (g : Graph) (low : List Char) : ∀ (k i : Nat),
    find_node_fuzzy_from g low k i = -1 ↔
      ∀ j, i ≤ j → j < i + k →
        CStr.strstr (CStr.lower (CStr.bounded 256 (g.nodes j).name)) low = false := by
  intro k
  induction k with
  | zero =>
    intro i
    simp only [find_node_fuzzy_from, true_iff]
    intro j h1 h2; omega
  | succ k ih =>
    intro i
    unfold find_node_fuzzy_from
    by_cases hm : CStr.strstr (CStr.lower (CStr.bounded 256 (g.nodes i).name)) low = true
    · rw [if_pos hm]
      constructor
      · intro h; omega
      · intro h
        have := h i (le_refl _) (by omega)
        rw [hm] at this; cases this
    · rw [if_neg hm, ih]
      constructor
      · intro h j h1 h2
        by_cases hji : j = i
        · subst hji; simpa using hm
        · exact h j (by omega) (by omega)
      · intro h j h1 h2
        exact h j (by omega) (by omega)

theorem find_from_least (g : Graph) (low : List Char) : ∀ (k i n : Nat), i ≤ n → n < i + k →
    CStr.strstr (CStr.lower (CStr.bounded 256 (g.nodes n).name)) low = true →
    (∀ j, i ≤ j → j < n →
      CStr.strstr (CStr.lower (CStr.bounded 256 (g.nodes j).name)) low = false) →
    find_node_fuzzy_from g low k i = (n : Int) := by
  intro k
  induction k with
  | zero => intro i n h1 h2; omega
  | succ k ih =>
    intro i n h1 h2 hn hless
    unfold find_node_fuzzy_from
    by_cases hin : i = n
    · subst hin; rw [if_pos hn]
    · have := hless i (le_refl _) (by omega)
      rw [if_neg (by rw [this]; simp)]
      exact ih (i + 1) n (by omega) (by omega) hn (fun j hj1 hj2 => hless j (by omega) hj2)

theorem find_node_fuzzy_none (g : Graph) (hfit : NamesFit g) (input : String) :
    find_node_fuzzy g input = -1 ↔ ∀ i, i < g.V → ¬ NameMatch g input i := by
  unfold find_node_fuzzy
  rw [find_from_none]
  constructor
  · intro h i hi hm
    have := h i (Nat.zero_le _) (by omega)
    rw [(CStr.bounded_query _ input (hfit i hi)).mpr hm] at this
    cases this
  · intro h j _ hj
    have hj' : j < g.V := by omega
    cases hs : CStr.strstr (CStr.lower (CStr.bounded 256 (g.nodes j).name))
        (CStr.lower (CStr.bounded 256 input))
    · rfl
    · exact absurd ((CStr.bounded_query _ input (hfit j hj')).mp hs) (h j hj')

theorem find_node_fuzzy_least (g : Graph) (hfit : NamesFit g) (input : String) (n : Nat)
    (hn : n < g.V) (hm : NameMatch g input n) (hless : ∀ j, j < n → ¬ NameMatch g input j) :
    find_node_fuzzy g input = (n : Int) := by
  unfold find_node_fuzzy
  apply find_from_least g _ g.V 0 n (Nat.zero_le _) (by omega)
  · exact (CStr.bounded_query _ input (hfit n hn)).mpr hm
  · intro j _ hj
    cases hs : CStr.strstr (CStr.lower (CStr.bounded 256 (g.nodes j).name))
        (CStr.lower (CStr.bounded 256 input))
    · rfl
    · exact absurd ((CStr.bounded_query _ input (hfit j (by omega))).mp hs) (hless j hj)

/-- Names written by `add_node` fit their field. -/
theorem add_node_namesFit (g : Graph) (ext_id : Int) (name type : String) (lat lon : ℚ)
    (h : NamesFit g) : NamesFit (add_node g ext_id name type lat lon).2 := by
  unfold add_node
  split_ifs with hfull
  · exact h
  · intro i hi
    simp only at hi ⊢
    by_cases hiv : i = g.V
    · subst hiv
      simp only [Function.update_same, CStr.bounded, List.length_take]
      omega
    · rw [Function.update_noteq hiv]
      exact h i (by omega)

theorem add_edge_namesFit (g : Graph) (src dest : Int) (w : ℚ) (h : NamesFit g) :
    NamesFit (add_edge g src dest w) := by
  unfold add_edge
  split_ifs with hbad
  · exact h
  · intro i hi
    simp only at hi ⊢
    by_cases his : i = src.toNat
    · subst his; simp only [Function.update_same]; exact h _ hi
    · rw [Function.update_noteq his]; exact h i hi

theorem graph_create_namesFit : NamesFit graph_create := by
  intro i hi; simp [graph_create] at hi

/-- Every graph the program can build has names that fit their field. -/
theorem built_namesFit (g : Graph) (h : Built g) : NamesFit g := by
  induction h with
  | create => exact graph_create_namesFit
  | node g ext_id name type lat lon _ ih => exact add_node_namesFit g ext_id name type lat lon ih
  | edge g src dest weight _ ih => exact add_edge_namesFit g src dest weight ih

theorem process_call_not_found (g : Graph) (U : Units) (inc : Call) :
    (process_call g U inc).1 = Outcome.not_found inc.loc ↔ find_node_fuzzy g inc.loc = -1 := by
  unfold process_call
  by_cases h : find_node_fuzzy g inc.loc = -1
  · simp [h]
  · simp only [h, if_false, iff_false]
    split_ifs <;> simp

theorem dispatch_all_succ (g : Graph) (fuel : Nat) (h : HeapState) (U : Units)
    (hne : is_queue_empty h = false) :
    dispatch_all g (fuel + 1) h U =
      ((process_call g U (extract_call h).1).1 ::
          (dispatch_all g fuel (extract_call h).2 (process_call g U (extract_call h).1).2).1,
        (dispatch_all g fuel (extract_call h).2 (process_call g U (extract_call h).1).2).2) := by
  conv_lhs => unfold dispatch_all
  rw [if_neg (by rw [hne]; simp)]

/-- C9. `find_node_fuzzy` returns `-1` exactly when no node `0 .. V-1` has a
name whose lower-cased form contains the lower-cased query, and otherwise the
lowest such index; `dispatch_all` reports "location not found" exactly when
`find_node_fuzzy` returns `-1`, and then leaves the unit registry as it was
and goes on with the queue left by `extract_call` (the call is not put back). -/
theorem location_not_found (g : Graph) (hfit : NamesFit g) (input : String) :
    (find_node_fuzzy g input = -1 ↔ ∀ i, i < g.V → ¬ NameMatch g input i) ∧
    (∀ n, n < g.V → NameMatch g input n → (∀ j, j < n → ¬ NameMatch g input j) →
      find_node_fuzzy g input = (n : Int)) ∧
    (∀ (U : Units) (inc : Call),
      ((process_call g U inc).1 = Outcome.not_found inc.loc ↔ find_node_fuzzy g inc.loc = -1) ∧
      (find_node_fuzzy g inc.loc = -1 → (process_call g U inc).2 = U)) ∧
    (∀ (fuel : Nat) (h : HeapState) (U : Units), is_queue_empty h = false →
      find_node_fuzzy g (extract_call h).1.loc = -1 →
      dispatch_all g (fuel + 1) h U =
        (Outcome.not_found (extract_call h).1.loc :: (dispatch_all g fuel (extract_call h).2 U).1,
          (dispatch_all g fuel (extract_call h).2 U).2)) := by
  refine ⟨find_node_fuzzy_none g hfit input, find_node_fuzzy_least g hfit input, ?_, ?_⟩
  · intro U inc
    refine ⟨process_call_not_found g U inc, fun h => ?_⟩
    unfold process_call; rw [if_pos h]
  · intro fuel h U hne hnf
    rw [dispatch_all_succ g fuel h U hne]
    have h1 : process_call g U (extract_call h).1 = (Outcome.not_found (extract_call h).1.loc, U) := by
      unfold process_call; rw [if_pos hnf]
    rw [h1]

theorem location_not_found_witness :
    NamesFit scenarioA ∧
    (find_node_fuzzy scenarioA "Zoo" = -1 ↔ ∀ i, i < scenarioA.V → ¬ NameMatch scenarioA "Zoo" i) ∧
    find_node_fuzzy scenarioA "Zoo" = -1 ∧
    find_node_fuzzy scenarioA "hosp" = 2 :=
  ⟨by decide!,
    (location_not_found scenarioA (by decide!) "Zoo").1, by decide!, by decide!⟩

end MainC

/-! ### main.c: the allocation decision of `dispatch_all` -/

namespace MainC

/-- State of the unit loop after the units `0 .. n-1`. -/
theorem select_prefix (g : Graph) (U : Units) (target : Nat) (req : String) : ∀ (n : Nat),
    (((List.range n).foldl (select_step g U target req) (INF, -1)).2 = -1 ∧
      ((List.range n).foldl (select_step g U target req) (INF, -1)).1 = INF ∧
      ∀ i, i < n → Eligible U req i → INF ≤ dist_to g U target i) ∨
    (∃ k : Nat, ((List.range n).foldl (select_step g U target req) (INF, -1)).2 = (k : Int) ∧
      k < n ∧ Eligible U req k ∧
      ((List.range n).foldl (select_step g U target req) (INF, -1)).1 = dist_to g U target k ∧
      dist_to g U target k < INF ∧
      (∀ i, i < n → Eligible U req i → dist_to g U target k ≤ dist_to g U target i) ∧
      (∀ i, i < k → Eligible U req i → dist_to g U target k < dist_to g U target i)) := by
  intro n
  induction n with
  | zero =>
    left
    refine ⟨rfl, rfl, ?_⟩
    intro i hi; omega
  | succ n ih =>
    rw [List.range_succ, List.foldl_append]
    simp only [List.foldl_cons, List.foldl_nil]
    generalize (List.range n).foldl (select_step g U target req) (INF, -1) = acc at ih
    have hext : ∀ (P : Nat → Prop), (∀ i, i < n → Eligible U req i → P i) →
        (Eligible U req n → P n) → ∀ i, i < n + 1 → Eligible U req i → P i := by
      intro P h1 h2 i hi he
      by_cases hin : i = n
      · subst hin; exact h2 he
      · exact h1 i (by omega) he
    unfold select_step
    by_cases ha : (U.units n).available = false
    · rw [if_pos ha]
      have hne : ¬ Eligible U req n := fun h => by rw [h.1] at ha; cases ha
      rcases ih with ⟨h1, h2, h3⟩ | ⟨k, h1, h2, h3, h4, h5, h6, h7⟩
      · left; exact ⟨h1, h2, hext _ h3 (fun h => absurd h hne)⟩
      · right; exact ⟨k, h1, by omega, h3, h4, h5, hext _ h6 (fun h => absurd h hne), h7⟩
    · rw [if_neg ha]
      by_cases hty : CStr.strcasecmp_eq (U.units n).type.data req.data = false
      · rw [if_pos hty]
        have hne : ¬ Eligible U req n := fun h => by rw [h.2] at hty; cases hty
        rcases ih with ⟨h1, h2, h3⟩ | ⟨k, h1, h2, h3, h4, h5, h6, h7⟩
        · left; exact ⟨h1, h2, hext _ h3 (fun h => absurd h hne)⟩
        · right; exact ⟨k, h1, by omega, h3, h4, h5, hext _ h6 (fun h => absurd h hne), h7⟩
      · rw [if_neg hty]
        have hel : Eligible U req n := ⟨by simpa using ha, by simpa using hty⟩
        have hdt : (dijkstra g (U.units n).node_idx).dist target = dist_to g U target n := rfl
        rw [hdt]
        by_cases hlt : dist_to g U target n < acc.1
        · rw [if_pos hlt]
          right
          rcases ih with ⟨_, h2, h3⟩ | ⟨k, _, _, _, h4, h5, h6, _⟩
          · rw [h2] at hlt
            refine ⟨n, rfl, by omega, hel, rfl, hlt,
              hext _ (fun i hi he => le_trans (le_of_lt hlt) (h3 i hi he)) (fun _ => le_refl _),
              fun i hi he => lt_of_lt_of_le hlt (h3 i hi he)⟩
          · rw [h4] at hlt
            refine ⟨n, rfl, by omega, hel, rfl, lt_trans hlt h5,
              hext _ (fun i hi he => le_trans (le_of_lt hlt) (h6 i hi he)) (fun _ => le_refl _),
              fun i hi he => lt_of_lt_of_le hlt (h6 i hi he)⟩
        · rw [if_neg hlt]
          rcases ih with ⟨h1, h2, h3⟩ | ⟨k, h1, h2, h3, h4, h5, h6, h7⟩
          · left
            rw [h2] at hlt
            exact ⟨h1, h2, hext _ h3 (fun _ => not_lt.mp hlt)⟩
          · right
            rw [h4] at hlt
            exact ⟨k, h1, by omega, h3, h4, h5, hext _ h6 (fun _ => not_lt.mp hlt), h7⟩

/-- The unit chosen by the loop of `dispatch_all`. -/
theorem select_unit_some (g : Graph) (U : Units) (target : Nat) (req : String) (k : Nat)
    (hk : (select_unit g U target req).2 = (k : Int)) :
    k < U.unit_count ∧ Eligible U req k ∧
      (select_unit g U target req).1 = dist_to g U target k ∧
      dist_to g U target k < INF ∧
      (∀ i, i < U.unit_count → Eligible U req i → dist_to g U target k ≤ dist_to g U target i) ∧
      (∀ i, i < k → Eligible U req i → dist_to g U target k < dist_to g U target i) := by
  unfold select_unit at hk ⊢
  rcases select_prefix g U target req U.unit_count with ⟨h1, _, _⟩ | ⟨k', h1, h2, h3, h4, h5, h6, h7⟩
  · rw [h1] at hk; omega
  · rw [h1] at hk
    have : k' = k := by omega
    subst this
    exact ⟨h2, h3, h4, h5, h6, h7⟩

/-- The report of `dispatch_all` for a call whose location is node `target`
and for which unit `k` is chosen. -/
theorem process_call_dispatched (g : Graph) (U : Units) (inc : Call) (target k : Nat)
    (ht : find_node_fuzzy g inc.loc = (target : Int))
    (hk : (select_unit g U target (required_type inc.sev)).2 = (k : Int)) :
    (process_call g U inc).1 =
      Outcome.dispatched (U.units k).type (U.units k).id (g.nodes target).name
        (dist_to g U target k) (dist_to g U target k / 40 * 60)
        (print_path g (dijkstra g (U.units k).node_idx).parent g.V target) := by
  have hd := (select_unit_some g U target (required_type inc.sev) k hk).2.2.1
  unfold process_call
  rw [if_neg (by rw [ht]; omega)]
  simp only [ht, Int.toNat_ofNat]
  rw [if_neg (by rw [hk]; omega)]
  simp only [hk, hd, Int.toNat_ofNat, set_available, Function.update_same]

/-- C7. The unit chosen by `dispatch_all` always has its availability flag
set, whatever the distances.  In scenario B the fire unit of `F2` is at
distance 1 but out, and the severity-1 call gets the unit of `F1` (id 2001)
at distance 3. -/
theorem unavailable_never_selected :
    (∀ (g : Graph) (U : Units) (target : Nat) (req : String) (k : Nat),
      (select_unit g U target req).2 = (k : Int) → (U.units k).available = true) ∧
    ((unitsB.units 1).available = false ∧ Eligible unitsB (required_type 1) 0 ∧
      dist_to scenarioB unitsB 0 1 = 1 ∧ dist_to scenarioB unitsB 0 0 = 3 ∧
      (process_call scenarioB unitsB ⟨1, "Mall", 1, 1⟩).1 =
        Outcome.dispatched "fire" 2001 "Mall" 3 (9 / 2) (some ["Fire Station F1", "Mall"])) := by
  constructor
  · intro g U target req k hk
    exact (select_unit_some g U target req k hk).2.1.1
  · decide!

theorem unavailable_never_selected_witness :
    (select_unit scenarioB unitsB 0 "fire").2 = ((0 : Nat) : Int) ∧
    (unitsB.units 0).available = true :=
  ⟨by decide!, unavailable_never_selected.1 scenarioB unitsB 0 "fire" 0 (by decide!)⟩

/-- C8. For a severity between 1 and 5 the required unit type is
"ambulance" for 4 and 5, "police" for 3, "fire" for 1 and 2. -/
theorem required_type_policy (s : Int) (h1 : 1 ≤ s) (h5 : s ≤ 5) :
    ((s = 4 ∨ s = 5) → required_type s = "ambulance") ∧
    (s = 3 → required_type s = "police") ∧
    ((s = 1 ∨ s = 2) → required_type s = "fire") := by
  refine ⟨?_, ?_, ?_⟩
  · intro h; unfold required_type; rw [if_pos (by omega)]
  · intro h; unfold required_type; rw [if_neg (by omega), if_pos h]
  · intro h; unfold required_type; rw [if_neg (by omega), if_neg (by omega)]

theorem required_type_policy_witness :
    (1 : Int) ≤ 3 ∧ (3 : Int) ≤ 5 ∧
    (((3 : Int) = 4 ∨ (3 : Int) = 5) → required_type 3 = "ambulance") ∧
    ((3 : Int) = 3 → required_type 3 = "police") ∧
    (((3 : Int) = 1 ∨ (3 : Int) = 2) → required_type 3 = "fire") :=
  ⟨by decide, by decide, required_type_policy 3 (by decide) (by decide)⟩

end MainC

/-! ### graph.c: the queue of tentative distances -/

namespace GraphC

theorem heap_swap_eq (a : Nat → HNode) (x y : Nat) : heap_swap a x y = BinHeap.swap a y x := by
  funext k
  unfold heap_swap BinHeap.swap
  simp only [Function.update_apply]
  by_cases h1 : k = x
  · subst h1
    by_cases h2 : k = y
    · subst h2; simp
    · simp [h2]
  · by_cases h2 : k = y
    · subst h2; simp [h1]
    · simp [h1, h2]

theorem hlt_iff (x y : HNode) : hlt x y = true ↔ x.dist < y.dist := by
  unfold hlt; simp

theorem hlt_false_iff (x y : HNode) : hlt x y = false ↔ y.dist ≤ x.dist := by
  unfold hlt; simp

theorem hlt_strictWeak : BinHeap.StrictWeak hlt := by
  constructor
  · intro x y h
    rw [hlt_iff] at h; rw [hlt_false_iff]; exact le_of_lt h
  · intro x y z h1 h2
    rw [hlt_false_iff] at *; exact le_trans h2 h1

theorem heap_push_loop_eq_siftUp : ∀ (fuel : Nat) (a : Nat → HNode) (i : Nat),
    heap_push_loop fuel a i = BinHeap.siftUp hlt 1 fuel a i := by
  intro fuel
  induction fuel with
  | zero => intro a i; rfl
  | succ fuel ih =>
    intro a i
    unfold heap_push_loop BinHeap.siftUp
    have hp : BinHeap.par 1 i = i / 2 := by unfold BinHeap.par; omega
    have hs : i >>> 1 = i / 2 := by simp [Nat.shiftRight_eq_div_pow]
    rw [hp, hs]
    by_cases h1 : i > 1
    · by_cases h2 : (a (i / 2)).dist ≤ (a i).dist
      · rw [if_pos h1, if_pos h2, if_neg]
        rintro ⟨_, h3⟩
        rw [hlt_iff] at h3
        exact absurd h2 (not_le.mpr h3)
      · rw [if_pos h1, if_neg h2, if_pos ⟨h1, (hlt_iff _ _).mpr (not_le.mp h2)⟩, ih, heap_swap_eq]
    · rw [if_neg h1, if_neg (fun h => h1 h.1)]

theorem heap_pop_loop_eq_siftDown : ∀ (fuel : Nat) (a : Nat → HNode) (n i : Nat),
    heap_pop_loop fuel a n i = BinHeap.siftDown hlt 1 fuel a n i := by
  intro fuel
  induction fuel with
  | zero => intro a n i; rfl
  | succ fuel ih =>
    intro a n i
    unfold heap_pop_loop BinHeap.siftDown
    have e1 : 2 * i + 1 - 1 = 2 * i := by omega
    have e2 : 2 * i + 2 - 1 = 2 * i + 1 := by omega
    have e3 : i <<< 1 = 2 * i := by simp [Nat.shiftLeft_eq, Nat.mul_comm]
    simp only [BinHeap.pick, e1, e2, e3, Nat.lt_succ_iff, ih, hlt_iff]
    split_ifs <;> rfl

theorem heap_create_ok (cap : Nat) : HeapOK (heap_create cap) ∧ entries (heap_create cap) = 0 := by
  constructor
  · intro j hj1 hj2; simp [heap_create] at hj2; omega
  · simp [entries, heap_create, BinHeap.contents]

theorem heap_push_spec (h : MinHeap) (v : Nat) (d : ℚ) (ho : HeapOK h) :
    HeapOK (heap_push h v d) ∧ entries (heap_push h v d) = ⟨v, d⟩ ::ₘ entries h ∧
      (heap_push h v d).size = h.size + 1 := by
  unfold heap_push HeapOK entries
  simp only [heap_push_loop_eq_siftUp]
  have := BinHeap.push_spec hlt_strictWeak (le_refl 1) h.a ⟨v, d⟩ (h.size + 1) (by omega) ho
  rw [Nat.add_comm 1 h.size] at this
  exact ⟨this.1, this.2, trivial⟩

theorem heap_pop_spec (h : MinHeap) (hne : h.size ≠ 0) (ho : HeapOK h) :
    HeapOK (heap_pop h).2 ∧ entries h = (heap_pop h).1 ::ₘ entries (heap_pop h).2 ∧
      (heap_pop h).2.size = h.size - 1 ∧
      ∀ x, x ∈ entries h → (heap_pop h).1.dist ≤ x.dist := by
  unfold heap_pop HeapOK entries at *
  simp only [heap_pop_loop_eq_siftDown]
  obtain ⟨n, hn⟩ : ∃ n, h.size = n + 1 := ⟨h.size - 1, by omega⟩
  rw [hn] at ho ⊢
  have := BinHeap.pop_spec hlt_strictWeak (le_refl 1) h.a n (le_refl n) ho
  rw [Nat.add_comm 1 n] at this
  simp only [Nat.add_sub_cancel]
  refine ⟨this.1, this.2.1, trivial, fun x hx => ?_⟩
  exact (hlt_false_iff _ _).mp (this.2.2 x hx)

end GraphC

/-! ### graph.c: the store operations keep the index structure -/

namespace GraphC

theorem graph_create_WF (node_cap : Nat) : WF (graph_create node_cap) := by
  constructor
  · intro u hu; simp [graph_create] at hu
  · intro e he; simp [graph_create] at he

theorem init_slots_frame : ∀ (l : List Nat) (g : Graph),
    (l.foldl init_slot g).V = g.V ∧ (l.foldl init_slot g).edge_count = g.edge_count ∧
      (l.foldl init_slot g).edges = g.edges ∧
      ∀ u, (l.foldl init_slot g).head u = -1 ∨ (l.foldl init_slot g).head u = g.head u := by
  intro l
  induction l with
  | nil => intro g; exact ⟨rfl, rfl, rfl, fun _ => Or.inr rfl⟩
  | cons i l ih =>
    intro g
    obtain ⟨h1, h2, h3, h4⟩ := ih (init_slot g i)
    simp only [List.foldl_cons]
    refine ⟨h1, h2, h3, fun u => ?_⟩
    rcases h4 u with h | h
    · left; exact h
    · rw [h]
      unfold init_slot
      by_cases hui : u = i
      · left; subst hui; simp
      · right; simp [Function.update_noteq hui]

theorem graph_add_node_WF (g : Graph) (ext : Int) (lat lon : ℚ) (name type : Option String)
    (h : WF g) : WF (graph_add_node g ext lat lon name type).2 := by
  have hframe : (graph_ensure_nodecap { g with V := g.V + 1 } (g.V + 1)).V = g.V + 1 ∧
      (graph_ensure_nodecap { g with V := g.V + 1 } (g.V + 1)).edge_count = g.edge_count ∧
      (graph_ensure_nodecap { g with V := g.V + 1 } (g.V + 1)).edges = g.edges ∧
      ∀ u, (graph_ensure_nodecap { g with V := g.V + 1 } (g.V + 1)).head u = -1 ∨
        (graph_ensure_nodecap { g with V := g.V + 1 } (g.V + 1)).head u = g.head u := by
    unfold graph_ensure_nodecap
    split_ifs
    · exact ⟨rfl, rfl, rfl, fun _ => Or.inr rfl⟩
    · exact init_slots_frame _ { g with V := g.V + 1 }
  obtain ⟨f1, f2, f3, f4⟩ := hframe
  unfold graph_add_node
  constructor
  · intro u hu
    simp only [f1, f2] at hu ⊢
    by_cases huv : u = g.V
    · left; subst huv; simp
    · rw [Function.update_noteq huv]
      rcases f4 u with h' | h'
      · left; exact h'
      · rw [h']; exact h.1 u (by omega)
  · intro e he
    simp only [f1, f2, f3] at he ⊢
    have := h.2 e he
    exact ⟨by omega, this.2⟩

theorem graph_add_edge_WF (g : Graph) (u v : Nat) (w : ℚ) (hu : u < g.V) (hv : v < g.V)
    (h : WF g) : WF (graph_add_edge g u v w) := by
  unfold graph_add_edge
  constructor
  · intro x hx
    simp only at hx ⊢
    by_cases hxu : x = u
    · right; subst hxu; simp
    · rw [Function.update_noteq hxu]
      rcases h.1 x hx with h' | h'
      · left; exact h'
      · right; omega
  · intro e he
    simp only at he ⊢
    by_cases hee : e = g.edge_count
    · subst hee
      simp only [Function.update_same]
      refine ⟨hv, ?_⟩
      rcases h.1 u hu with h' | h'
      · left; exact h'
      · right; exact h'
    · rw [Function.update_noteq hee]
      exact h.2 e (by omega)

/-- Every graph the store can build has the index structure `WF`. -/
theorem built_WF (g : Graph) (h : Built g) : WF g := by
  induction h with
  | create node_cap => exact graph_create_WF node_cap
  | node g ext lat lon name type _ ih => exact graph_add_node_WF g ext lat lon name type ih
  | edge g u v w _ hu hv ih => exact graph_add_edge_WF g u v w hu hv ih

end GraphC

/-! ### graph.c: correctness of `dijkstra` -/

namespace GraphC

theorem chain_lt (g : Graph) (hwf : WF g) : ∀ (fuel : Nat) (e : Int),
    (e = -1 ∨ (0 ≤ e ∧ e < g.edge_count)) → ∀ x, x ∈ chain g fuel e → x < g.edge_count := by
  intro fuel
  induction fuel with
  | zero => intro e _ x hx; simp [chain] at hx
  | succ fuel ih =>
    intro e he x hx
    unfold chain at hx
    by_cases h1 : e = -1
    · rw [if_pos h1] at hx; simp at hx
    · rw [if_neg h1] at hx
      have hlt : e.toNat < g.edge_count := by omega
      rcases List.mem_cons.mp hx with h | h
      · rw [h]; exact hlt
      · apply ih _ _ x h
        have := (hwf.2 e.toNat hlt).2
        omega

theorem out_edges_lt (g : Graph) (hwf : WF g) (u : Nat) (hu : u < g.V) :
    ∀ e, e ∈ out_edges g u → e < g.edge_count :=
  chain_lt g hwf _ _ (hwf.1 u hu)

/-- The fuel of `out_edges` is never exhausted: more fuel gives the same list. -/
theorem chain_fuel (g : Graph) (hwf : WF g) : ∀ (fuel : Nat) (e : Int),
    (e = -1 ∨ (0 ≤ e ∧ e < g.edge_count)) → e < fuel → ∀ k, chain g (fuel + k) e = chain g fuel e := by
  intro fuel
  induction fuel with
  | zero =>
    intro e he hlt k
    have : e = -1 := by omega
    subst this
    cases k <;> simp [chain]
  | succ fuel ih =>
    intro e he hlt k
    have hk : fuel + 1 + k = (fuel + k) + 1 := by omega
    rw [hk]
    unfold chain
    by_cases h1 : e = -1
    · rw [if_pos h1, if_pos h1]
    · rw [if_neg h1, if_neg h1]
      have hl : e.toNat < g.edge_count := by omega
      have := (hwf.2 e.toNat hl).2
      rw [ih _ (by omega) (by omega) k]

/-- The walk along the edge list of a node ends on the marker `-1`: the list
of `out_edges` is the same with any larger fuel. -/
theorem out_edges_fuel (g : Graph) (hwf : WF g) (u : Nat) (hu : u < g.V) (k : Nat) :
    chain g (g.edge_count + k) (g.head u) = out_edges g u := by
  have h := hwf.1 u hu
  exact chain_fuel g hwf g.edge_count (g.head u) h (by omega) k

theorem chain_length (g : Graph) : ∀ (fuel : Nat) (e : Int), (chain g fuel e).length ≤ fuel := by
  intro fuel
  induction fuel with
  | zero => intro e; simp [chain]
  | succ fuel ih =>
    intro e
    unfold chain
    split_ifs
    · simp
    · simp only [List.length_cons]; have := ih (g.edges e.toNat).next; omega

theorem relax_from_eq_foldl (g : Graph) (u : Nat) : ∀ (fuel : Nat) (e : Int) (s : DState),
    relax_from g u fuel e s = (chain g fuel e).foldl (relax_edge g u) s := by
  intro fuel
  induction fuel with
  | zero => intro e s; rfl
  | succ fuel ih =>
    intro e s
    unfold relax_from chain
    split_ifs
    · rfl
    · rw [ih]; rfl

theorem isPath_facts (g : Graph) (hwf : WF g) (hnn : NonNeg g) (src : Nat) (hsrc : src < g.V) :
    ∀ v d, IsPath g src v d → v < g.V ∧ 0 ≤ d := by
  intro v d h
  induction h with
  | nil => exact ⟨hsrc, le_refl _⟩
  | snoc e _ he ih =>
    have helt := out_edges_lt g hwf _ ih.1 e he
    exact ⟨(hwf.2 e helt).1, add_nonneg ih.2 (hnn e helt)⟩

theorem relax_edge_vis (g : Graph) (u : Nat) (s : DState) (e : Nat) :
    (relax_edge g u s e).vis = s.vis := by
  unfold relax_edge; split_ifs <;> rfl

theorem relax_edge_size (g : Graph) (u : Nat) (s : DState) (e : Nat) :
    (relax_edge g u s e).pq.size ≤ s.pq.size + 1 := by
  unfold relax_edge
  split_ifs
  · simp [heap_push]
  · omega

theorem relax_list_measure (g : Graph) (u : Nat) : ∀ (l : List Nat) (s : DState),
    (l.foldl (relax_edge g u) s).vis = s.vis ∧
      (l.foldl (relax_edge g u) s).pq.size ≤ s.pq.size + l.length := by
  intro l
  induction l with
  | nil => intro s; exact ⟨rfl, le_refl _⟩
  | cons e l ih =>
    intro s
    obtain ⟨h1, h2⟩ := ih (relax_edge g u s e)
    simp only [List.foldl_cons, List.length_cons]
    refine ⟨by rw [h1, relax_edge_vis], ?_⟩
    have := relax_edge_size g u s e
    omega

theorem branch_congr (g : Graph) (src : Nat) (dist dist' : Nat → ℚ) (parent parent' : Nat → Int) :
    ∀ v st, Branch g src dist parent v st →
      (∀ x, x ∈ st → dist' x = dist x ∧ parent' x = parent x) →
      Branch g src dist' parent' v st := by
  intro v st h
  induction h with
  | root => intro _; exact Branch.root
  | step e _ hp he ht hd ih =>
    intro hx
    have hv := hx _ (List.mem_cons_self _ _)
    have hu := hx _ (List.mem_cons_of_mem _ (List.mem_cons_self _ _))
    refine Branch.step e (ih (fun x hm => hx x (List.mem_cons_of_mem _ hm))) ?_ he ht ?_
    · rw [hv.2]; exact hp
    · rw [hv.1, hu.1]; exact hd

theorem branch_head (g : Graph) (src : Nat) (dist : Nat → ℚ) (parent : Nat → Int) :
    ∀ v st, Branch g src dist parent v st → ∃ tl, st = v :: tl := by
  intro v st h
  cases h with
  | root => exact ⟨[], rfl⟩
  | step e _ _ _ _ _ => exact ⟨_, rfl⟩

theorem branch_isPath (g : Graph) (src : Nat) (dist : Nat → ℚ) (parent : Nat → Int)
    (h0 : dist src = 0) : ∀ v st, Branch g src dist parent v st → IsPath g src v (dist v) := by
  intro v st h
  induction h with
  | root => rw [h0]; exact IsPath.nil
  | step e _ _ he ht hd ih =>
    have := IsPath.snoc e ih he
    rw [ht, hd] at this
    exact this

theorem branch_isRoute (g : Graph) (src : Nat) (dist : Nat → ℚ) (parent : Nat → Int)
    (h0 : dist src = 0) : ∀ v st, Branch g src dist parent v st → IsRoute g st (dist v) := by
  intro v st h
  induction h with
  | root => rw [h0]; exact IsRoute.single src
  | step e _ _ he ht hd ih =>
    have := IsRoute.step e ih he
    rw [ht, hd] at this
    exact this

theorem branch_last (g : Graph) (src : Nat) (dist : Nat → ℚ) (parent : Nat → Int) :
    ∀ v st, Branch g src dist parent v st → st.getLast? = some src := by
  intro v st h
  induction h with
  | root => rfl
  | step e _ _ _ _ _ ih =>
    rw [List.getLast?_cons_cons]; exact ih

theorem branch_stack (g : Graph) (src : Nat) (dist : Nat → ℚ) (parent : Nat → Int)
    (hps : parent src = -1) :
    ∀ v st, Branch g src dist parent v st →
      ∀ room, st.length ≤ room → path_stack parent room (v : Int) = some st := by
  intro v st h
  induction h with
  | root =>
    intro room hr
    obtain ⟨r, rfl⟩ : ∃ r, room = r + 1 := ⟨room - 1, by simp at hr; omega⟩
    unfold path_stack
    rw [if_neg (by omega), Int.toNat_ofNat, hps]
    cases r <;> simp [path_stack]
  | step e _ hp _ _ _ ih =>
    intro room hr
    obtain ⟨r, rfl⟩ : ∃ r, room = r + 1 := ⟨room - 1, by simp at hr; omega⟩
    unfold path_stack
    rw [if_neg (by omega), Int.toNat_ofNat, hp, ih r (by simp at hr ⊢; omega)]
    rfl

end GraphC

namespace GraphC

theorem INF_pos : (0 : ℚ) < INF := by unfold INF; norm_num

theorem inv_rehead {g : Graph} {src : Nat} {s : DState} {u : Nat}
    (h : Inv g src s u (out_edges g u)) (u' : Nat) (done : List Nat) :
    Inv g src s u' done :=
  { h with
    relaxed := fun x hx e he _ => by
      apply h.relaxed x hx e he
      by_cases hxu : x = u
      · right; rw [← hxu]; exact he
      · left; exact hxu }

theorem inv_init (g : Graph) (src : Nat) (hsrc : src < g.V) (pq : MinHeap) (hpq : HeapOK pq)
    (hent : entries pq = 0) :
    Inv g src
      { dist := Function.update (fun _ => INF) src 0
        parent := fun _ => -1
        pq := heap_push pq src 0
        vis := fun _ => false } src (out_edges g src) := by
  obtain ⟨hpo, hpe, _⟩ := heap_push_spec pq src 0 hpq
  rw [hent] at hpe
  have hfin : ∀ v, Function.update (fun _ => INF) src (0 : ℚ) v < INF → v = src := by
    intro v hv
    by_contra hne
    rw [Function.update_noteq hne] at hv
    exact lt_irrefl _ hv
  constructor
  · simp
  · intro v
    by_cases hv : v = src
    · subst hv; simp only [Function.update_same]; exact le_of_lt INF_pos
    · simp only [Function.update_noteq hv]; exact le_refl _
  · rfl
  · intro _ _; rfl
  · intro u hu; simp at hu
  · intro u hu; simp at hu
  · intro u hu; simp at hu
  · intro u hu; simp at hu
  · intro v _ hv
    have := hfin v hv
    subst this
    simp only [Function.update_same, hpe]
    exact Multiset.mem_cons_self _ _
  · intro x hx
    simp only [hpe, Multiset.cons_zero, Multiset.mem_singleton] at hx
    subst hx; simp
  · intro x hx
    simp only [hpe, Multiset.cons_zero, Multiset.mem_singleton] at hx
    subst hx; exact hsrc
  · intro x hx
    simp only [hpe, Multiset.cons_zero, Multiset.mem_singleton] at hx
    subst hx; exact INF_pos
  · exact hpo
  · intro v hv
    have := hfin v hv
    subst this
    refine ⟨[v], Branch.root, by simp, ?_, by simp⟩
    intro x hx
    simp only [List.mem_singleton] at hx
    rw [hx]; exact hsrc

theorem inv_relax_edge (g : Graph) (hwf : WF g) (hnn : NonNeg g) (src : Nat) (hsrc : src < g.V)
    (s : DState) (u : Nat) (done : List Nat) (e : Nat)
    (hinv : Inv g src s u done) (hu : s.vis u = true) (he : e ∈ out_edges g u) :
    Inv g src (relax_edge g u s e) u (done ++ [e]) := by
  have hultV := hinv.vis_lt u hu
  have helt := out_edges_lt g hwf u hultV e he
  have hvV := (hwf.2 e helt).1
  have hw := hnn e helt
  obtain ⟨stu, hbu, hndu, hltu, hvisu⟩ := hinv.tree u (hinv.vis_fin u hu)
  have hpu : IsPath g src u (s.dist u) := branch_isPath g src _ _ hinv.dist_src u stu hbu
  have hdu0 : 0 ≤ s.dist u := (isPath_facts g hwf hnn src hsrc u _ hpu).2
  have hstu_vis : ∀ y, y ∈ stu → s.vis y = true := by
    intro y hy
    obtain ⟨tl, htl⟩ := branch_head g src _ _ u stu hbu
    rw [htl] at hy hvisu
    rcases List.mem_cons.mp hy with h | h
    · rw [h]; exact hu
    · exact hvisu y h
  unfold relax_edge
  by_cases hc : s.dist u + (g.edges e).weight < s.dist (g.edges e).to_
  · rw [if_pos hc]
    have hvnv : s.vis (g.edges e).to_ = false := by
      cases hv : s.vis (g.edges e).to_
      · rfl
      · have := hinv.vis_min _ hv _ (IsPath.snoc e hpu he)
        linarith
    have hvsrc : src ≠ (g.edges e).to_ := by
      intro h; rw [← h, hinv.dist_src] at hc; linarith
    have hvis_ne : ∀ y, s.vis y = true → y ≠ (g.edges e).to_ := by
      intro y hy h; rw [h, hvnv] at hy; cases hy
    have hle := hinv.dist_le (g.edges e).to_
    have hdle : ∀ x, Function.update s.dist (g.edges e).to_ (s.dist u + (g.edges e).weight) x
        ≤ s.dist x := by
      intro x
      by_cases hx : x = (g.edges e).to_
      · rw [hx, Function.update_same]; exact le_of_lt hc
      · rw [Function.update_noteq hx]
    obtain ⟨hpo, hpe, _⟩ := heap_push_spec s.pq (g.edges e).to_
      (s.dist u + (g.edges e).weight) hinv.heap_ok
    constructor
    · simp only [Function.update_noteq hvsrc]; exact hinv.dist_src
    · intro x; exact le_trans (hdle x) (hinv.dist_le x)
    · simp only [Function.update_noteq hvsrc]; exact hinv.parent_src
    · intro x hx
      by_cases hxv : x = (g.edges e).to_
      · exfalso
        subst hxv
        simp only [Function.update_same] at hx
        linarith
      · simp only [Function.update_noteq hxv] at hx ⊢; exact hinv.parent_inf x hx
    · exact hinv.vis_lt
    · intro y hy
      simp only [Function.update_noteq (hvis_ne y hy)]; exact hinv.vis_fin y hy
    · intro y hy
      simp only [Function.update_noteq (hvis_ne y hy)]; exact hinv.vis_min y hy
    · intro y hy e' he' hcond
      simp only [Function.update_noteq (hvis_ne y hy)]
      by_cases hold : y ≠ u ∨ e' ∈ done
      · exact le_trans (hdle _) (hinv.relaxed y hy e' he' hold)
      · have hyu : y = u := by by_contra h; exact hold (Or.inl h)
        have he'e : e' = e := by
          rcases hcond with h | h
          · exact absurd hyu h
          · rcases List.mem_append.mp h with h | h
            · exact absurd (Or.inr h) hold
            · simpa using h
        subst hyu; subst he'e
        simp only [Function.update_same]; exact le_refl _
    · intro x hx hfin
      simp only at hx hfin ⊢
      rw [hpe]
      by_cases hxv : x = (g.edges e).to_
      · rw [hxv, Function.update_same]; exact Multiset.mem_cons_self _ _
      · rw [Function.update_noteq hxv] at hfin ⊢
        exact Multiset.mem_cons_of_mem (hinv.queued x hx hfin)
    · intro x hx
      simp only at hx ⊢
      rw [hpe] at hx
      rcases Multiset.mem_cons.mp hx with h | h
      · rw [h]; simp only [Function.update_same]; exact le_refl _
      · exact le_trans (hdle _) (hinv.entry_ge x h)
    · intro x hx
      simp only at hx
      rw [hpe] at hx
      rcases Multiset.mem_cons.mp hx with h | h
      · rw [h]; exact hvV
      · exact hinv.entry_lt x h
    · intro x hx
      simp only at hx
      rw [hpe] at hx
      rcases Multiset.mem_cons.mp hx with h | h
      · rw [h]; exact lt_of_lt_of_le hc hle
      · exact hinv.entry_fin x h
    · exact hpo
    · intro x hx
      simp only at hx ⊢
      by_cases hxv : x = (g.edges e).to_
      · obtain ⟨tl, htl⟩ := branch_head g src _ _ u stu hbu
        subst htl
        refine ⟨(g.edges e).to_ :: u :: tl, ?_, ?_, ?_, ?_⟩
        · rw [hxv]
          refine Branch.step e ?_ (Function.update_same _ _ _) he rfl ?_
          · apply branch_congr g src _ _ _ _ u _ hbu
            intro y hy
            have := hvis_ne y (hstu_vis y hy)
            exact ⟨Function.update_noteq this _ _, Function.update_noteq this _ _⟩
          · rw [Function.update_same, Function.update_noteq (hvis_ne u hu)]
        · rw [List.nodup_cons]
          exact ⟨fun hm => hvis_ne _ (hstu_vis _ hm) rfl, hndu⟩
        · intro y hy
          rcases List.mem_cons.mp hy with h | h
          · rw [h]; exact hvV
          · exact hltu y h
        · intro y hy
          exact hstu_vis y hy
      · rw [Function.update_noteq hxv] at hx
        obtain ⟨st, hb, hnd, hlt, hvis⟩ := hinv.tree x hx
        refine ⟨st, ?_, hnd, hlt, hvis⟩
        apply branch_congr g src _ _ _ _ x _ hb
        intro y hy
        obtain ⟨tl, htl⟩ := branch_head g src _ _ x st hb
        have hyv : y ≠ (g.edges e).to_ := by
          rw [htl] at hy hvis
          rcases List.mem_cons.mp hy with h | h
          · rw [h]; exact hxv
          · exact hvis_ne y (hvis y h)
        exact ⟨Function.update_noteq hyv _ _, Function.update_noteq hyv _ _⟩
  · rw [if_neg hc]
    exact
      { hinv with
        relaxed := fun y hy e' he' hcond => by
          by_cases hold : y ≠ u ∨ e' ∈ done
          · exact hinv.relaxed y hy e' he' hold
          · have hyu : y = u := by by_contra h; exact hold (Or.inl h)
            have he'e : e' = e := by
              rcases hcond with h | h
              · exact absurd hyu h
              · rcases List.mem_append.mp h with h | h
                · exact absurd (Or.inr h) hold
                · simpa using h
            subst hyu; subst he'e
            exact not_lt.mp hc }

theorem inv_relax_list (g : Graph) (hwf : WF g) (hnn : NonNeg g) (src : Nat) (hsrc : src < g.V)
    (u : Nat) : ∀ (todo done : List Nat) (s : DState),
    Inv g src s u done → s.vis u = true → (∀ e, e ∈ todo → e ∈ out_edges g u) →
    Inv g src (todo.foldl (relax_edge g u) s) u (done ++ todo) := by
  intro todo
  induction todo with
  | nil => intro done s h _ _; simpa using h
  | cons e todo ih =>
    intro done s h hu hsub
    have h1 := inv_relax_edge g hwf hnn src hsrc s u done e h hu (hsub e (List.mem_cons_self _ _))
    have h2 := ih (done ++ [e]) (relax_edge g u s e) h1 (by rw [relax_edge_vis]; exact hu)
      (fun e' he' => hsub e' (List.mem_cons_of_mem _ he'))
    simpa using h2

end GraphC

namespace GraphC

/-- Every path either ends at an expanded node whose `dist` it does not
undercut, or passes a node that is not yet expanded and whose `dist` it does
not undercut. -/
theorem cut (g : Graph) (hwf : WF g) (hnn : NonNeg g) (src : Nat) (hsrc : src < g.V)
    (s : DState) (hinv : Inv g src s src (out_edges g src)) :
    ∀ v d, IsPath g src v d →
      (s.vis v = true ∧ s.dist v ≤ d) ∨ (∃ y, s.vis y = false ∧ s.dist y ≤ d) := by
  intro v d h
  induction h with
  | nil =>
    cases hv : s.vis src
    · right; exact ⟨src, hv, le_of_eq hinv.dist_src⟩
    · left; exact ⟨rfl, le_of_eq hinv.dist_src⟩
  | @snoc x d1 e hp he ih =>
    have hx := isPath_facts g hwf hnn src hsrc x d1 hp
    have hw := hnn e (out_edges_lt g hwf x hx.1 e he)
    rcases ih with ⟨hvx, hdx⟩ | ⟨y, hy1, hy2⟩
    · have hr := hinv.relaxed x hvx e he (by
        by_cases hxs : x = src
        · right; rw [← hxs]; exact he
        · left; exact hxs)
      cases hv : s.vis (g.edges e).to_
      · right; exact ⟨_, hv, by linarith⟩
      · left; exact ⟨rfl, by linarith⟩
    · right; exact ⟨y, hy1, by linarith⟩

theorem inv_skip (g : Graph) (src : Nat) (s : DState)
    (hinv : Inv g src s src (out_edges g src)) (hne : s.pq.size ≠ 0)
    (hskip : (heap_pop s.pq).1.dist > s.dist (heap_pop s.pq).1.node ∨
      s.vis (heap_pop s.pq).1.node = true) :
    Inv g src { s with pq := (heap_pop s.pq).2 } src (out_edges g src) := by
  obtain ⟨hpo, hpe, _, _⟩ := heap_pop_spec s.pq hne hinv.heap_ok
  have hsub : ∀ x, x ∈ entries (heap_pop s.pq).2 → x ∈ entries s.pq := by
    intro x hx; rw [hpe]; exact Multiset.mem_cons_of_mem hx
  exact
    { hinv with
      queued := fun x hx hfin => by
        have hm := hinv.queued x hx hfin
        rw [hpe] at hm
        rcases Multiset.mem_cons.mp hm with h | h
        · exfalso
          rw [← h] at hskip
          simp only at hskip
          rcases hskip with h1 | h1
          · exact lt_irrefl _ h1
          · rw [hx] at h1; cases h1
        · exact h
      entry_ge := fun x hx => hinv.entry_ge x (hsub x hx)
      entry_lt := fun x hx => hinv.entry_lt x (hsub x hx)
      entry_fin := fun x hx => hinv.entry_fin x (hsub x hx)
      heap_ok := hpo }

theorem inv_visit (g : Graph) (hwf : WF g) (hnn : NonNeg g) (src : Nat) (hsrc : src < g.V)
    (s : DState) (hinv : Inv g src s src (out_edges g src)) (hne : s.pq.size ≠ 0)
    (h1 : ¬ (heap_pop s.pq).1.dist > s.dist (heap_pop s.pq).1.node)
    (h2 : s.vis (heap_pop s.pq).1.node = false) :
    Inv g src
      { s with pq := (heap_pop s.pq).2, vis := Function.update s.vis (heap_pop s.pq).1.node true }
      (heap_pop s.pq).1.node [] := by
  obtain ⟨hpo, hpe, _, hmin⟩ := heap_pop_spec s.pq hne hinv.heap_ok
  have hsub : ∀ x, x ∈ entries (heap_pop s.pq).2 → x ∈ entries s.pq := by
    intro x hx; rw [hpe]; exact Multiset.mem_cons_of_mem hx
  have hmem : (heap_pop s.pq).1 ∈ entries s.pq := by rw [hpe]; exact Multiset.mem_cons_self _ _
  have hd : (heap_pop s.pq).1.dist = s.dist (heap_pop s.pq).1.node :=
    le_antisymm (not_lt.mp h1) (hinv.entry_ge _ hmem)
  have hfin : s.dist (heap_pop s.pq).1.node < INF := by rw [← hd]; exact hinv.entry_fin _ hmem
  have hvis : ∀ y, Function.update s.vis (heap_pop s.pq).1.node true y = true →
      y = (heap_pop s.pq).1.node ∨ s.vis y = true := by
    intro y hy
    by_cases hyu : y = (heap_pop s.pq).1.node
    · left; exact hyu
    · right; rw [Function.update_noteq hyu] at hy; exact hy
  constructor
  · exact hinv.dist_src
  · exact hinv.dist_le
  · exact hinv.parent_src
  · exact hinv.parent_inf
  · intro y hy
    rcases hvis y hy with h | h
    · rw [h]; exact hinv.entry_lt _ hmem
    · exact hinv.vis_lt y h
  · intro y hy
    rcases hvis y hy with h | h
    · rw [h]; exact hfin
    · exact hinv.vis_fin y h
  · intro y hy d hp
    rcases hvis y hy with h | h
    · subst h
      by_contra hlt
      have hlt' : d < s.dist (heap_pop s.pq).1.node := not_le.mp hlt
      rcases cut g hwf hnn src hsrc s hinv _ d hp with ⟨hv, _⟩ | ⟨z, hz1, hz2⟩
      · rw [h2] at hv; cases hv
      · have hzq := hinv.queued z hz1 (by linarith)
        have := hmin _ hzq
        simp only at this
        linarith
    · exact hinv.vis_min y h d hp
  · intro y hy e he hcond
    rcases hcond with h | h
    · rcases hvis y hy with h' | h'
      · exact absurd h' h
      · apply hinv.relaxed y h' e he
        by_cases hys : y = src
        · right; rw [← hys]; exact he
        · left; exact hys
    · simp at h
  · intro x hx hxfin
    simp only at hx hxfin ⊢
    have hxu : x ≠ (heap_pop s.pq).1.node := by
      intro h; rw [h, Function.update_same] at hx; cases hx
    rw [Function.update_noteq hxu] at hx
    have hm := hinv.queued x hx hxfin
    rw [hpe] at hm
    rcases Multiset.mem_cons.mp hm with h | h
    · exfalso; apply hxu; rw [← h]
    · exact h
  · exact fun x hx => hinv.entry_ge x (hsub x hx)
  · exact fun x hx => hinv.entry_lt x (hsub x hx)
  · exact fun x hx => hinv.entry_fin x (hsub x hx)
  · exact hpo
  · intro v hv
    obtain ⟨st, hb, hnd, hlt, hvs⟩ := hinv.tree v hv
    refine ⟨st, hb, hnd, hlt, fun x hx => ?_⟩
    simp only
    by_cases hxu : x = (heap_pop s.pq).1.node
    · rw [hxu, Function.update_same]
    · rw [Function.update_noteq hxu]; exact hvs x hx

theorem unvisited_visit (g : Graph) (s : DState) (pq : MinHeap) (u : Nat) (hu : u < g.V)
    (hv : s.vis u = false) :
    unvisited g { s with pq := pq, vis := Function.update s.vis u true } + 1 = unvisited g s := by
  unfold unvisited
  simp only
  have hmem : u ∈ (Finset.range g.V).filter (fun v => s.vis v = false) := by
    simp [hu, hv]
  have heq : (Finset.range g.V).filter (fun v => Function.update s.vis u true v = false) =
      ((Finset.range g.V).filter (fun v => s.vis v = false)).erase u := by
    ext x
    simp only [Finset.mem_filter, Finset.mem_range, Finset.mem_erase]
    by_cases hxu : x = u
    · subst hxu; simp
    · rw [Function.update_noteq hxu]; tauto
  rw [heq, Finset.card_erase_of_mem hmem]
  have := Finset.card_pos.mpr ⟨u, hmem⟩
  omega

/-- The main loop stops on the empty queue before its fuel runs out, and the
invariant holds at that point. -/
theorem dijkstra_loop_spec (g : Graph) (hwf : WF g) (hnn : NonNeg g) (src : Nat)
    (hsrc : src < g.V) : ∀ (fuel : Nat) (s : DState),
    Inv g src s src (out_edges g src) →
    s.pq.size + g.edge_count * unvisited g s < fuel →
    Inv g src (dijkstra_loop g fuel s) src (out_edges g src) ∧
      (dijkstra_loop g fuel s).pq.size = 0 := by
  intro fuel
  induction fuel with
  | zero => intro s _ h; omega
  | succ fuel ih =>
    intro s hinv hm
    unfold dijkstra_loop
    by_cases hemp : s.pq.size = 0
    · have : heap_empty s.pq = true := by simp [heap_empty, hemp]
      rw [if_pos this]
      exact ⟨hinv, hemp⟩
    · have : ¬ heap_empty s.pq = true := by simp [heap_empty, hemp]
      rw [if_neg this]
      obtain ⟨_, _, hsz, _⟩ := heap_pop_spec s.pq hemp hinv.heap_ok
      simp only
      by_cases h1 : (heap_pop s.pq).1.dist > s.dist (heap_pop s.pq).1.node
      · rw [if_pos h1]
        apply ih _ (inv_skip g src s hinv hemp (Or.inl h1))
        have : unvisited g { s with pq := (heap_pop s.pq).2 } = unvisited g s := rfl
        rw [this]; simp only [hsz]; omega
      · rw [if_neg h1]
        by_cases h2 : s.vis (heap_pop s.pq).1.node = true
        · rw [if_pos h2]
          apply ih _ (inv_skip g src s hinv hemp (Or.inr h2))
          have : unvisited g { s with pq := (heap_pop s.pq).2 } = unvisited g s := rfl
          rw [this]; simp only [hsz]; omega
        · rw [if_neg h2]
          have h2' : s.vis (heap_pop s.pq).1.node = false := by simpa using h2
          have hv := inv_visit g hwf hnn src hsrc s hinv hemp h1 h2'
          have huV : (heap_pop s.pq).1.node < g.V :=
            hv.vis_lt _ (by simp)
          rw [relax_from_eq_foldl]
          have hr := inv_relax_list g hwf hnn src hsrc (heap_pop s.pq).1.node
            (chain g g.edge_count (g.head (heap_pop s.pq).1.node)) [] _ hv (by simp)
            (fun e he => he)
          obtain ⟨m1, m2⟩ := relax_list_measure g (heap_pop s.pq).1.node
            (chain g g.edge_count (g.head (heap_pop s.pq).1.node))
            { s with pq := (heap_pop s.pq).2, vis := Function.update s.vis (heap_pop s.pq).1.node true }
          apply ih _ (inv_rehead (by simpa [out_edges] using hr) src _)
          have hu := unvisited_visit g s (heap_pop s.pq).2 (heap_pop s.pq).1.node huV h2'
          have hcl := chain_length g g.edge_count (g.head (heap_pop s.pq).1.node)
          have huv : unvisited g
              (List.foldl (relax_edge g (heap_pop s.pq).1.node)
                { s with pq := (heap_pop s.pq).2, vis := Function.update s.vis (heap_pop s.pq).1.node true }
                (chain g g.edge_count (g.head (heap_pop s.pq).1.node))) =
              unvisited g { s with pq := (heap_pop s.pq).2, vis := Function.update s.vis (heap_pop s.pq).1.node true } := by
            unfold unvisited; rw [m1]
          rw [huv]
          simp only [hsz] at m2
          have hmul : g.edge_count * unvisited g s =
              g.edge_count * unvisited g { s with pq := (heap_pop s.pq).2, vis := Function.update s.vis (heap_pop s.pq).1.node true } +
              g.edge_count := by
            rw [← hu, Nat.mul_add, Nat.mul_one]
          omega

/-- The loop of `dijkstra` is left on the empty queue, with the invariant. -/
theorem dijkstra_final (g : Graph) (hwf : WF g) (hnn : NonNeg g) (src : Nat) (hsrc : src < g.V) :
    Inv g src (dijkstra g src) src (out_edges g src) ∧ (dijkstra g src).pq.size = 0 := by
  unfold dijkstra
  obtain ⟨hc1, hc2⟩ := heap_create_ok (if g.V > 16 then g.V else 16)
  apply dijkstra_loop_spec g hwf hnn src hsrc _ _ (inv_init g src hsrc _ hc1 hc2)
  have hsz : (heap_push (heap_create (if g.V > 16 then g.V else 16)) src 0).size = 1 := rfl
  have hun : unvisited g
      { dist := Function.update (fun _ => INF) src 0
        parent := fun _ => -1
        pq := heap_push (heap_create (if g.V > 16 then g.V else 16)) src 0
        vis := fun _ => false } = g.V := by
    unfold unvisited; simp
  rw [hun]
  simp only [hsz]
  rw [Nat.mul_comm]
  omega

end GraphC

namespace GraphC

/-- After `dijkstra`, a node with a finite `dist` has been expanded. -/
theorem dijkstra_settled (g : Graph) (hwf : WF g) (hnn : NonNeg g) (src : Nat) (hsrc : src < g.V)
    (v : Nat) (h : (dijkstra g src).dist v < INF) : (dijkstra g src).vis v = true := by
  obtain ⟨hinv, hsz⟩ := dijkstra_final g hwf hnn src hsrc
  cases hv : (dijkstra g src).vis v
  · have := hinv.queued v hv h
    have he : entries (dijkstra g src).pq = 0 := by
      unfold entries; rw [hsz]; simp [BinHeap.contents]
    rw [he] at this
    exact absurd this (Multiset.not_mem_zero _)
  · rfl

/-- After `dijkstra`, `dist[v]` does not exceed the weight of any path to `v`. -/
theorem dijkstra_le_path (g : Graph) (hwf : WF g) (hnn : NonNeg g) (src : Nat) (hsrc : src < g.V)
    (v : Nat) (d : ℚ) (hp : IsPath g src v d) : (dijkstra g src).dist v ≤ d := by
  obtain ⟨hinv, _⟩ := dijkstra_final g hwf hnn src hsrc
  by_cases hd : (dijkstra g src).dist v < INF
  · exact hinv.vis_min v (dijkstra_settled g hwf hnn src hsrc v hd) d hp
  · have hvI : (dijkstra g src).dist v = INF := le_antisymm (hinv.dist_le v) (not_lt.mp hd)
    rcases cut g hwf hnn src hsrc _ hinv v d hp with ⟨_, h⟩ | ⟨y, hy1, hy2⟩
    · exact h
    · have hyI : ¬ (dijkstra g src).dist y < INF := by
        intro h
        rw [dijkstra_settled g hwf hnn src hsrc y h] at hy1
        cases hy1
      rw [hvI]
      exact le_trans (not_lt.mp hyI) hy2

/-- After `dijkstra`, a finite `dist[v]` is the weight of a path to `v`. -/
theorem dijkstra_isPath (g : Graph) (hwf : WF g) (hnn : NonNeg g) (src : Nat) (hsrc : src < g.V)
    (v : Nat) (h : (dijkstra g src).dist v < INF) : IsPath g src v ((dijkstra g src).dist v) := by
  obtain ⟨hinv, _⟩ := dijkstra_final g hwf hnn src hsrc
  obtain ⟨st, hb, _⟩ := hinv.tree v h
  exact branch_isPath g src _ _ hinv.dist_src v st hb

theorem nodup_length_le (l : List Nat) (n : Nat) (hnd : l.Nodup) (hlt : ∀ x, x ∈ l → x < n) :
    l.length ≤ n := by
  have h1 : l.toFinset ⊆ Finset.range n := by
    intro x hx
    rw [List.mem_toFinset] at hx
    exact Finset.mem_range.mpr (hlt x hx)
  have h2 := Finset.card_le_card h1
  rw [List.toFinset_card_of_nodup hnd, Finset.card_range] at h2
  exact h2

/-- All paths of `heavyGraph` from node 0. -/
theorem heavy_paths : ∀ v d, IsPath heavyGraph 0 v d →
    (v = 0 ∧ d = 0) ∨ (v = 1 ∧ d = 2000000000000000000) := by
  intro v d h
  induction h with
  | nil => left; exact ⟨rfl, rfl⟩
  | @snoc x d1 e _ he ih =>
    have h0 : out_edges heavyGraph 0 = [0] := by decide!
    have h1 : out_edges heavyGraph 1 = [] := by decide!
    have ht : (heavyGraph.edges 0).to_ = 1 := by decide!
    have hw : (heavyGraph.edges 0).weight = 2000000000000000000 := by decide!
    rcases ih with ⟨hx, hd⟩ | ⟨hx, _⟩
    · subst hx
      rw [h0, List.mem_singleton] at he
      subst he
      right
      rw [ht, hw, hd]
      exact ⟨rfl, by norm_num⟩
    · subst hx
      rw [h1] at he
      exact absurd he (List.not_mem_nil _)

theorem heavy_reachable : Reachable heavyGraph 0 1 := by
  have h : IsPath heavyGraph 0 (heavyGraph.edges 0).to_ (0 + (heavyGraph.edges 0).weight) :=
    IsPath.snoc 0 IsPath.nil (by decide!)
  have ht : (heavyGraph.edges 0).to_ = 1 := by decide!
  rw [ht] at h
  exact ⟨_, h⟩

end GraphC

/-! ### Binary heap: the sift loops read and write resident slots only -/

namespace BinHeap
variable {α : Type}

theorem siftUp_agree (lt : α → α → Bool) {b N : Nat} (hb : b ≤ 1) :
    ∀ (fuel : Nat) (a a' : Nat → α) (i : Nat), i < N →
      (∀ k, b ≤ k → k < N → a k = a' k) →
      ∀ k, b ≤ k → k < N → siftUp lt b fuel a i k = siftUp lt b fuel a' i k := by
  intro fuel
  induction fuel with
  | zero => intro a a' i _ h k hk1 hk2; exact h k hk1 hk2
  | succ fuel ih =>
    intro a a' i hi h
    unfold siftUp
    by_cases hbi : b < i
    · have hp : b ≤ par b i ∧ par b i < i := by unfold par; omega
      have e1 : a i = a' i := h i (by omega) hi
      have e2 : a (par b i) = a' (par b i) := h _ hp.1 (by omega)
      rw [← e1, ← e2]
      by_cases hc : b < i ∧ lt (a i) (a (par b i)) = true
      · rw [if_pos hc, if_pos hc]
        apply ih _ _ _ (by omega)
        intro k hk1 hk2
        unfold swap
        simp only [Function.update_apply, ← e1, ← e2]
        split_ifs
        · rfl
        · rfl
        · exact h k hk1 hk2
      · rw [if_neg hc, if_neg hc]; exact h
    · rw [if_neg (fun hc => hbi hc.1), if_neg (fun hc => hbi hc.1)]; exact h

theorem pick_agree (lt : α → α → Bool) (a a' : Nat → α) (lim c s : Nat)
    (hc : c < lim → a c = a' c) (hs : c < lim → a s = a' s) :
    pick lt a lim c s = pick lt a' lim c s := by
  unfold pick
  by_cases hl : c < lim
  · rw [hc hl, hs hl]
  · rw [if_neg (fun h => hl h.1), if_neg (fun h => hl h.1)]

theorem pick_cases (lt : α → α → Bool) (a : Nat → α) (lim c s : Nat) :
    pick lt a lim c s = s ∨ (pick lt a lim c s = c ∧ c < lim) := by
  unfold pick
  split_ifs with h
  · right; exact ⟨rfl, h.1⟩
  · left; rfl

theorem siftDown_agree (lt : α → α → Bool) {b n : Nat} :
    ∀ (fuel : Nat) (a a' : Nat → α) (i : Nat), b ≤ i →
      (∀ k, b ≤ k → k < n + b → a k = a' k) →
      ∀ k, b ≤ k → k < n + b → siftDown lt b fuel a n i k = siftDown lt b fuel a' n i k := by
  intro fuel
  induction fuel with
  | zero => intro a a' i _ h k hk1 hk2; exact h k hk1 hk2
  | succ fuel ih =>
    intro a a' i hbi h
    unfold siftDown
    have p1 : pick lt a (n + b) (2 * i + 1 - b) i = pick lt a' (n + b) (2 * i + 1 - b) i :=
      pick_agree lt a a' _ _ _ (fun hl => h _ (by omega) hl) (fun hl => h _ hbi (by omega))
    have p2 : pick lt a (n + b) (2 * i + 2 - b) (pick lt a (n + b) (2 * i + 1 - b) i) =
        pick lt a' (n + b) (2 * i + 2 - b) (pick lt a' (n + b) (2 * i + 1 - b) i) := by
      rw [← p1]
      apply pick_agree lt a a' _ _ _ (fun hl => h _ (by omega) hl)
      intro hl
      rcases pick_cases lt a (n + b) (2 * i + 1 - b) i with hs | ⟨hs, hs2⟩
      · rw [hs]; exact h _ hbi (by omega)
      · rw [hs]; exact h _ (by omega) hs2
    rw [← p2]
    generalize hsd : pick lt a (n + b) (2 * i + 2 - b) (pick lt a (n + b) (2 * i + 1 - b) i) = s
    have hs : s = i ∨ (b ≤ s ∧ i < s ∧ s < n + b) := by
      rw [← hsd]
      rcases pick_cases lt a (n + b) (2 * i + 2 - b) (pick lt a (n + b) (2 * i + 1 - b) i)
        with h2 | ⟨h2, h3⟩
      · rw [h2]
        rcases pick_cases lt a (n + b) (2 * i + 1 - b) i with h1 | ⟨h1, h4⟩
        · left; exact h1
        · right; rw [h1]; omega
      · right; rw [h2]; omega
    by_cases hsi : s = i
    · rw [if_pos hsi, if_pos hsi]; exact h
    · rw [if_neg hsi, if_neg hsi]
      have hs' : b ≤ s ∧ i < s ∧ s < n + b := by
        rcases hs with h0 | h0
        · exact absurd h0 hsi
        · exact h0
      apply ih _ _ _ hs'.1
      intro k hk1 hk2
      have e1 : a i = a' i := h i hbi (by omega)
      have e2 : a s = a' s := h s hs'.1 hs'.2.2
      unfold swap
      simp only [Function.update_apply, ← e1, ← e2]
      split_ifs
      · rfl
      · rfl
      · exact h k hk1 hk2

end BinHeap

/-! ### queue.c: empty heap, `peek`, capacity -/

namespace QueueC

theorem same_refl (q : QState) : Same q q := ⟨rfl, fun _ _ => rfl⟩

theorem insert_same (q q' : QState) (c : Call) (h : Same q q') :
    Same (insert q c) (insert q' c) := by
  obtain ⟨hs, ha⟩ := h
  unfold insert
  rw [← hs]
  by_cases hfull : q.heapSize ≥ MAX
  · rw [if_pos hfull, if_pos hfull]; exact ⟨hs, ha⟩
  · rw [if_neg hfull, if_neg hfull]
    refine ⟨rfl, fun k hk => ?_⟩
    simp only at hk ⊢
    rw [up_eq_siftUp, up_eq_siftUp]
    apply BinHeap.siftUp_agree high_pr (Nat.zero_le 1) _ _ _ _ (Nat.lt_succ_self _) _ k
      (Nat.zero_le _) hk
    intro j _ hj
    by_cases hjn : j = q.heapSize
    · subst hjn; simp
    · rw [Function.update_noteq hjn, Function.update_noteq hjn]
      exact ha j (by omega)

theorem extract_same (q q' : QState) (h : Same q q') :
    (extract q).1 = (extract q').1 ∧ Same (extract q).2 (extract q').2 := by
  obtain ⟨hs, ha⟩ := h
  unfold extract
  rw [← hs]
  by_cases hz : q.heapSize = 0
  · rw [if_pos hz, if_pos hz]
    exact ⟨rfl, hs, ha⟩
  · rw [if_neg hz, if_neg hz]
    have hup : ∀ j, 0 ≤ j → j < q.heapSize - 1 + 0 →
        Function.update q.heap 0 (q.heap (q.heapSize - 1)) j =
          Function.update q'.heap 0 (q'.heap (q.heapSize - 1)) j := by
      intro j _ hj
      by_cases hj0 : j = 0
      · subst hj0; simp only [Function.update_same]; exact ha _ (by omega)
      · rw [Function.update_noteq hj0, Function.update_noteq hj0]; exact ha j (by omega)
    refine ⟨ha 0 (by omega), rfl, fun k hk => ?_⟩
    simp only at hk ⊢
    by_cases hpos : q.heapSize - 1 > 0
    · rw [if_pos hpos, if_pos hpos, down_eq_siftDown, down_eq_siftDown]
      exact BinHeap.siftDown_agree high_pr _ _ _ 0 (le_refl _) hup k
        (Nat.zero_le _) (by omega)
    · omega

theorem outputs_same : ∀ (ops : List Op) (q q' : QState), Same q q' →
    outputs ops q = outputs ops q' ∧ Same (run ops q) (run ops q') := by
  intro ops
  induction ops with
  | nil => intro q q' h; exact ⟨rfl, h⟩
  | cons op ops ih =>
    intro q q' h
    cases op with
    | ins c => exact ih _ _ (insert_same q q' c h)
    | ext =>
      obtain ⟨h1, h2⟩ := extract_same q q' h
      obtain ⟨i1, i2⟩ := ih _ _ h2
      exact ⟨by simp only [outputs]; rw [h1, i1], i2⟩

theorem run_size_le : ∀ (ops : List Op) (q : QState), q.heapSize ≤ MAX →
    (run ops q).heapSize ≤ MAX := by
  intro ops
  induction ops with
  | nil => intro q h; exact h
  | cons op ops ih =>
    intro q h
    cases op with
    | ins c =>
      apply ih
      unfold insert
      split_ifs with hf
      · exact h
      · simp only; omega
    | ext =>
      apply ih
      unfold extract
      split_ifs with hz
      · exact h
      · simp only; omega

/-- On a heap of size 0, `extract` returns the sentinel call and leaves the
globals as they are; later operations behave as on the fresh heap. -/
theorem extract_empty_queue (q : QState) (hz : q.heapSize = 0) :
    extract q = (⟨0, 0, 0, ""⟩, q) ∧ (extract q).2.heapSize = 0 ∧
    ∀ ops : List Op, outputs ops (extract q).2 = outputs ops init ∧
      (run ops (extract q).2).heapSize = (run ops init).heapSize := by
  have he : extract q = (⟨0, 0, 0, ""⟩, q) := by unfold extract; rw [if_pos hz]; rfl
  refine ⟨he, by rw [he]; exact hz, fun ops => ?_⟩
  rw [he]
  have hs : Same q init := ⟨by rw [hz]; rfl, fun k hk => by omega⟩
  obtain ⟨h1, h2⟩ := outputs_same ops q init hs
  exact ⟨h1, h2.1⟩

/-- C17. In every state reached by inserts and extracts, `peek` leaves the
globals as they are and returns the call an `extract` done right after would
return; on the empty heap that is the sentinel call, whose id is 0. -/
theorem peek_is_next (ops : List Op) :
    (peek (run ops init)).2 = run ops init ∧
    (peek (run ops init)).1 = (extract (run ops init)).1 ∧
    ((run ops init).heapSize = 0 →
      (peek (run ops init)).1 = ⟨0, 0, 0, ""⟩ ∧ (peek (run ops init)).1.id = 0) := by
  refine ⟨rfl, ?_, ?_⟩
  · unfold peek extract
    split_ifs <;> rfl
  · intro hz
    unfold peek
    simp only [if_pos hz]
    exact ⟨rfl, rfl⟩

theorem peek_is_next_witness :
    (run [] init).heapSize = 0 ∧ (peek (run [] init)).1 = ⟨0, 0, 0, ""⟩ ∧
    (peek (run [] init)).1.id = 0 :=
  ⟨by decide, (peek_is_next []).2.2 (by decide)⟩

/-- C18. In every state reached by inserts and extracts the heap holds at
most `MAX = 100` calls; `insert` leaves the globals as they are exactly when
it holds `MAX`, and otherwise the size grows by one and the resident calls
gain exactly the given call. -/
theorem insert_capacity (ops : List Op) (c : Call) :
    (run ops init).heapSize ≤ MAX ∧ MAX = 100 ∧
    (insert (run ops init) c = run ops init ↔ (run ops init).heapSize = MAX) ∧
    ((run ops init).heapSize = MAX →
      (insert (run ops init) c).heapSize = (run ops init).heapSize ∧
      resident (insert (run ops init) c) = resident (run ops init)) ∧
    ((run ops init).heapSize ≠ MAX →
      (insert (run ops init) c).heapSize = (run ops init).heapSize + 1 ∧
      resident (insert (run ops init) c) = c ::ₘ resident (run ops init)) := by
  have hle := run_size_le ops init (by decide)
  have hord := run_ordered ops init init_ordered
  generalize run ops init = q at hle hord
  have hrej : q.heapSize = MAX → insert q c = q := by
    intro h; unfold insert; rw [if_pos (by omega)]
  have hacc : q.heapSize ≠ MAX →
      (insert q c).heapSize = q.heapSize + 1 ∧ resident (insert q c) = c ::ₘ resident q := by
    intro h
    unfold insert resident
    rw [if_neg (by omega)]
    refine ⟨rfl, ?_⟩
    simp only [up_eq_siftUp]
    have := (BinHeap.push_spec high_pr_strictWeak (Nat.zero_le 1) q.heap c q.heapSize
      (by omega) hord).2
    simpa using this
  refine ⟨hle, rfl, ⟨fun h => ?_, hrej⟩, fun h => ?_, hacc⟩
  · by_contra hne
    have := (hacc hne).1
    rw [h] at this
    omega
  · rw [hrej h]; exact ⟨rfl, rfl⟩

theorem insert_capacity_witness :
    (run [Op.ins ⟨1, 2, 1, "a"⟩] init).heapSize ≠ MAX ∧
    (insert (run [Op.ins ⟨1, 2, 1, "a"⟩] init) ⟨2, 5, 2, "b"⟩).heapSize =
      (run [Op.ins ⟨1, 2, 1, "a"⟩] init).heapSize + 1 ∧
    resident (insert (run [Op.ins ⟨1, 2, 1, "a"⟩] init) ⟨2, 5, 2, "b"⟩) =
      ⟨2, 5, 2, "b"⟩ ::ₘ resident (run [Op.ins ⟨1, 2, 1, "a"⟩] init) :=
  ⟨by decide, (insert_capacity [Op.ins ⟨1, 2, 1, "a"⟩] ⟨2, 5, 2, "b"⟩).2.2.2.2 (by decide)⟩

end QueueC

/-! ### main.c: empty heap, ETA, release of the assigned unit -/

namespace MainC

theorem insert_call_same (h h' : HeapState) (c : Call) (hs : Same h h') :
    Same (insert_call h c) (insert_call h' c) := by
  obtain ⟨hsz, ha⟩ := hs
  unfold insert_call
  rw [← hsz]
  by_cases hfull : h.heap_size + 1 ≥ HEAP_MAX
  · rw [if_pos hfull, if_pos hfull]; exact ⟨hsz, ha⟩
  · rw [if_neg hfull, if_neg hfull]
    refine ⟨rfl, fun k hk1 hk2 => ?_⟩
    simp only at hk2 ⊢
    rw [insert_loop_eq_siftUp, insert_loop_eq_siftUp]
    apply BinHeap.siftUp_agree compare_calls (le_refl 1) _ _ _ _
      (Nat.lt_succ_self (h.heap_size + 1)) _ k hk1 (by omega)
    intro j hj1 hj2
    by_cases hjn : j = h.heap_size + 1
    · subst hjn; simp
    · rw [Function.update_noteq hjn, Function.update_noteq hjn]
      exact ha j hj1 (by omega)

theorem extract_call_same (h h' : HeapState) (hs : Same h h') :
    (extract_call h).1 = (extract_call h').1 ∧ Same (extract_call h).2 (extract_call h').2 := by
  obtain ⟨hsz, ha⟩ := hs
  unfold extract_call
  rw [← hsz]
  by_cases hz : h.heap_size = 0
  · rw [if_pos hz, if_pos hz]
    exact ⟨rfl, hsz, ha⟩
  · rw [if_neg hz, if_neg hz]
    have hup : ∀ j, 1 ≤ j → j < h.heap_size - 1 + 1 →
        Function.update h.heapQ 1 (h.heapQ h.heap_size) j =
          Function.update h'.heapQ 1 (h'.heapQ h.heap_size) j := by
      intro j hj1 hj
      by_cases hj0 : j = 1
      · subst hj0; simp only [Function.update_same]; exact ha _ (by omega) (le_refl _)
      · rw [Function.update_noteq hj0, Function.update_noteq hj0]; exact ha j hj1 (by omega)
    refine ⟨ha 1 (le_refl _) (by omega), rfl, fun k hk1 hk2 => ?_⟩
    simp only at hk2 ⊢
    rw [extract_loop_eq_siftDown, extract_loop_eq_siftDown]
    exact BinHeap.siftDown_agree compare_calls _ _ _ 1 (le_refl _) hup k hk1 (by omega)

theorem qoutputs_same : ∀ (ops : List QOp) (h h' : HeapState), Same h h' →
    qoutputs ops h = qoutputs ops h' ∧ Same (qrun ops h) (qrun ops h') := by
  intro ops
  induction ops with
  | nil => intro h h' hs; exact ⟨rfl, hs⟩
  | cons op ops ih =>
    intro h h' hs
    cases op with
    | ins c => exact ih _ _ (insert_call_same h h' c hs)
    | ext =>
      obtain ⟨h1, h2⟩ := extract_call_same h h' hs
      obtain ⟨i1, i2⟩ := ih _ _ h2
      exact ⟨by simp only [qoutputs]; rw [h1, i1], i2⟩

/-- On a heap of size 0, `extract_call` returns the sentinel call and leaves
the globals as they are; later operations behave as on the fresh heap. -/
theorem extract_empty_heap (h : HeapState) (hz : h.heap_size = 0) :
    extract_call h = (⟨0, "", 0, 0⟩, h) ∧ (extract_call h).2.heap_size = 0 ∧
    ∀ ops : List QOp, qoutputs ops (extract_call h).2 = qoutputs ops heap_init ∧
      (qrun ops (extract_call h).2).heap_size = (qrun ops heap_init).heap_size := by
  have he : extract_call h = (⟨0, "", 0, 0⟩, h) := by unfold extract_call; rw [if_pos hz]; rfl
  refine ⟨he, by rw [he]; exact hz, fun ops => ?_⟩
  rw [he]
  have hs : Same h heap_init := ⟨by rw [hz]; rfl, fun k hk1 hk2 => by omega⟩
  obtain ⟨h1, h2⟩ := qoutputs_same ops h heap_init hs
  exact ⟨h1, h2.1⟩

/-- C16. On a call heap of size 0, `extract` of queue.c and `extract_call` of
main.c return the sentinel call (id, severity and time 0, empty location) and
leave the globals as they are, size 0 included; whatever the array still
holds, every later sequence of inserts and extracts returns the same calls
and reaches the same sizes as on the fresh heap. -/
theorem extract_on_empty (q : QueueC.QState) (h : HeapState) (hq : q.heapSize = 0)
    (hh : h.heap_size = 0) :
    (QueueC.extract q = (⟨0, 0, 0, ""⟩, q) ∧ (QueueC.extract q).2.heapSize = 0 ∧
      ∀ ops : List QueueC.Op,
        QueueC.outputs ops (QueueC.extract q).2 = QueueC.outputs ops QueueC.init ∧
        (QueueC.run ops (QueueC.extract q).2).heapSize =
          (QueueC.run ops QueueC.init).heapSize) ∧
    (extract_call h = (⟨0, "", 0, 0⟩, h) ∧ (extract_call h).2.heap_size = 0 ∧
      ∀ ops : List QOp, qoutputs ops (extract_call h).2 = qoutputs ops heap_init ∧
        (qrun ops (extract_call h).2).heap_size = (qrun ops heap_init).heap_size) :=
  ⟨QueueC.extract_empty_queue q hq, extract_empty_heap h hh⟩

theorem extract_on_empty_witness :
    (QueueC.run [QueueC.Op.ins ⟨7, 3, 1, "x"⟩, QueueC.Op.ext] QueueC.init).heapSize = 0 ∧
    (qrun [QOp.ins ⟨7, "x", 3, 1⟩, QOp.ext] heap_init).heap_size = 0 ∧
    QueueC.extract (QueueC.run [QueueC.Op.ins ⟨7, 3, 1, "x"⟩, QueueC.Op.ext] QueueC.init) =
      (⟨0, 0, 0, ""⟩, QueueC.run [QueueC.Op.ins ⟨7, 3, 1, "x"⟩, QueueC.Op.ext] QueueC.init) ∧
    extract_call (qrun [QOp.ins ⟨7, "x", 3, 1⟩, QOp.ext] heap_init) =
      (⟨0, "", 0, 0⟩, qrun [QOp.ins ⟨7, "x", 3, 1⟩, QOp.ext] heap_init) :=
  ⟨by decide, by decide,
    (extract_on_empty (QueueC.run [QueueC.Op.ins ⟨7, 3, 1, "x"⟩, QueueC.Op.ext] QueueC.init)
      (qrun [QOp.ins ⟨7, "x", 3, 1⟩, QOp.ext] heap_init) (by decide) (by decide)).1.1,
    (extract_on_empty (QueueC.run [QueueC.Op.ins ⟨7, 3, 1, "x"⟩, QueueC.Op.ext] QueueC.init)
      (qrun [QOp.ins ⟨7, "x", 3, 1⟩, QOp.ext] heap_init) (by decide) (by decide)).2.1⟩

/-- C19. Whenever `dispatch_all` reports an assignment with distance `d`, the
reported ETA in minutes is `d / 40 * 60`, that is `3/2 * d`, in exact
arithmetic; for distance 2 it is 3. -/
theorem eta_minutes (g : Graph) (U : Units) (inc : Call) (ty : String) (id : Int)
    (name : String) (d eta : ℚ) (route : Option (List String))
    (h : (process_call g U inc).1 = Outcome.dispatched ty id name d eta route) :
    eta = d / 40 * 60 ∧ eta = 3 / 2 * d ∧ (d = 2 → eta = 3) := by
  have key : eta = d / 40 * 60 := by
    unfold process_call at h
    by_cases h1 : find_node_fuzzy g inc.loc = -1
    · rw [if_pos h1] at h; cases h
    · rw [if_neg h1] at h
      simp only at h
      by_cases h2 : (select_unit g U (find_node_fuzzy g inc.loc).toNat (required_type inc.sev)).2 = -1
      · rw [if_pos h2] at h; cases h
      · rw [if_neg h2] at h
        simp only [Outcome.dispatched.injEq] at h
        obtain ⟨_, _, _, hd, he, _⟩ := h
        rw [← he, ← hd]
  refine ⟨key, ?_, ?_⟩
  · rw [key]; ring
  · intro hd; rw [key, hd]; norm_num

theorem eta_minutes_witness :
    (process_call scenarioA (init_units_from_graph scenarioA) ⟨1, "A", 5, 1⟩).1 =
      Outcome.dispatched "ambulance" 1002 "A" 2 3 (some ["Hospital", "B", "A"]) ∧
    (3 : ℚ) = 2 / 40 * 60 :=
  ⟨by decide!,
    (eta_minutes scenarioA (init_units_from_graph scenarioA) ⟨1, "A", 5, 1⟩ "ambulance" 1002 "A"
      2 3 (some ["Hospital", "B", "A"]) (by decide!)).1⟩

/-- Handling one call gives back the unit registry it was given. -/
theorem process_call_units (g : Graph) (U : Units) (inc : Call) :
    (process_call g U inc).2 = U := by
  unfold process_call
  by_cases h1 : find_node_fuzzy g inc.loc = -1
  · rw [if_pos h1]
  · rw [if_neg h1]
    simp only
    by_cases h2 : (select_unit g U (find_node_fuzzy g inc.loc).toNat (required_type inc.sev)).2 = -1
    · rw [if_pos h2]
    · rw [if_neg h2]
      simp only
      have hk : ∃ k : Nat,
          (select_unit g U (find_node_fuzzy g inc.loc).toNat (required_type inc.sev)).2 = (k : Int) := by
        rcases select_prefix g U (find_node_fuzzy g inc.loc).toNat (required_type inc.sev)
          U.unit_count with ⟨h, _⟩ | ⟨k, h, _⟩
        · exact absurd h h2
        · exact ⟨k, h⟩
      obtain ⟨k, hk⟩ := hk
      have hav := (select_unit_some g U _ _ k hk).2.1.1
      rw [hk, Int.toNat_ofNat]
      unfold set_available
      simp only [Function.update_same, Function.update_idem]
      have hu : ({ U.units k with available := true } : Unit) = U.units k := by
        cases hu' : U.units k with
        | mk id node_idx type available =>
          rw [hu'] at hav
          simp only at hav
          rw [hav]
      rw [hu, Function.update_eq_self]

theorem dispatch_all_units (g : Graph) : ∀ (fuel : Nat) (h : HeapState) (U : Units),
    (dispatch_all g fuel h U).2.2 = U := by
  intro fuel
  induction fuel with
  | zero => intro h U; rfl
  | succ fuel ih =>
    intro h U
    by_cases he : is_queue_empty h = true
    · unfold dispatch_all; rw [if_pos he]
    · rw [dispatch_all_succ g fuel h U (by simpa using he)]
      simp only
      rw [ih, process_call_units]

/-- C20. Handling one call in `dispatch_all` leaves every availability flag
as it was before that call (the assigned unit is marked busy and released
again), so the registry after `dispatch_all` is the registry before it; in
scenario A two consecutive severity-5 calls both get unit 1002. -/
theorem units_released :
    (∀ (g : Graph) (U : Units) (inc : Call) (i : Nat),
      ((process_call g U inc).2.units i).available = (U.units i).available) ∧
    (∀ (g : Graph) (fuel : Nat) (h : HeapState) (U : Units) (i : Nat),
      ((dispatch_all g fuel h U).2.2.units i).available = (U.units i).available) ∧
    (dispatch_all scenarioA 2
        (insert_call (insert_call heap_init ⟨1, "A", 5, 1⟩) ⟨2, "B", 5, 2⟩)
        (init_units_from_graph scenarioA)).1 =
      [Outcome.dispatched "ambulance" 1002 "A" 2 3 (some ["Hospital", "B", "A"]),
        Outcome.dispatched "ambulance" 1002 "B" 1 (3 / 2) (some ["Hospital", "B"])] := by
  refine ⟨fun g U inc i => by rw [process_call_units], fun g fuel h U i => by
    rw [dispatch_all_units], by decide!⟩

end MainC

/-! ### graph.c: adding an edge, matching a node, the nearest facility -/

namespace GraphC

theorem chain_congr (g g' : Graph) (hwf : WF g)
    (he : ∀ i, i < g.edge_count → g'.edges i = g.edges i) : ∀ (fuel : Nat) (e : Int),
    (e = -1 ∨ (0 ≤ e ∧ e < g.edge_count)) → chain g' fuel e = chain g fuel e := by
  intro fuel
  induction fuel with
  | zero => intro e _; rfl
  | succ fuel ih =>
    intro e hv
    unfold chain
    by_cases h1 : e = -1
    · rw [if_pos h1, if_pos h1]
    · rw [if_neg h1, if_neg h1]
      have hlt : e.toNat < g.edge_count := by omega
      rw [he _ hlt, ih _ (by have := (hwf.2 _ hlt).2; omega)]

/-- C15. For a valid node index `u` (and whatever `v`), `graph_add_edge(g, u, v, w)`
adds one to the edge count, puts `(v, w)` in front of the outgoing edges of `u`,
and leaves the outgoing edges of every other node (so no edge `v -> u`
appears), the node count and all node attributes as they were. -/
theorem add_edge_directed (g : Graph) (u v : Nat) (w : ℚ) (hwf : WF g) (hu : u < g.V) :
    (graph_add_edge g u v w).edge_count = g.edge_count + 1 ∧
    out_list (graph_add_edge g u v w) u = (v, w) :: out_list g u ∧
    (∀ x, x < g.V → x ≠ u → out_list (graph_add_edge g u v w) x = out_list g x) ∧
    (graph_add_edge g u v w).V = g.V ∧
    (graph_add_edge g u v w).ext_id = g.ext_id ∧
    (graph_add_edge g u v w).lat = g.lat ∧ (graph_add_edge g u v w).lon = g.lon ∧
    (graph_add_edge g u v w).name = g.name ∧ (graph_add_edge g u v w).type = g.type ∧
    (graph_add_edge g u v w).idmap = g.idmap := by
  have hedges : ∀ i, i < g.edge_count → (graph_add_edge g u v w).edges i = g.edges i := by
    intro i hi
    unfold graph_add_edge
    simp only
    rw [Function.update_noteq (by omega)]
  have hmap : ∀ l : List Nat, (∀ e, e ∈ l → e < g.edge_count) →
      l.map (fun e => (((graph_add_edge g u v w).edges e).to_,
        ((graph_add_edge g u v w).edges e).weight)) =
      l.map (fun e => ((g.edges e).to_, (g.edges e).weight)) := by
    intro l hl
    apply List.map_congr_left
    intro e he
    rw [hedges e (hl e he)]
  have hnew : (graph_add_edge g u v w).edges g.edge_count = ⟨v, w, g.head u⟩ := by
    unfold graph_add_edge; simp
  have hout_u : out_edges (graph_add_edge g u v w) u = g.edge_count :: out_edges g u := by
    have hh : (graph_add_edge g u v w).head u = (g.edge_count : Int) := by
      unfold graph_add_edge; simp
    have hc : (graph_add_edge g u v w).edge_count = g.edge_count + 1 := rfl
    have hch : chain (graph_add_edge g u v w) (g.edge_count + 1) (g.edge_count : Int) =
        g.edge_count :: chain (graph_add_edge g u v w) g.edge_count (g.head u) := by
      conv_lhs => unfold chain
      rw [if_neg (by omega), Int.toNat_ofNat, hnew]
    unfold out_edges
    rw [hh, hc, hch, chain_congr g _ hwf hedges _ _ (hwf.1 u hu)]
  have hout_x : ∀ x, x < g.V → x ≠ u → out_edges (graph_add_edge g u v w) x = out_edges g x := by
    intro x hx hxu
    have hh : (graph_add_edge g u v w).head x = g.head x := by
      unfold graph_add_edge; simp [Function.update_noteq hxu]
    have hc : (graph_add_edge g u v w).edge_count = g.edge_count + 1 := rfl
    unfold out_edges
    rw [hh, hc, chain_congr g _ hwf hedges _ _ (hwf.1 x hx)]
    exact chain_fuel g hwf g.edge_count (g.head x) (hwf.1 x hx)
      (by have := hwf.1 x hx; omega) 1
  refine ⟨rfl, ?_, ?_, rfl, rfl, rfl, rfl, rfl, rfl, rfl⟩
  · unfold out_list
    rw [hout_u, List.map_cons, hnew, hmap _ (out_edges_lt g hwf u hu)]
  · intro x hx hxu
    unfold out_list
    rw [hout_x x hx hxu, hmap _ (out_edges_lt g hwf x hx)]

theorem add_edge_directed_witness :
    WF lineGraph ∧ 0 < lineGraph.V ∧
    out_list (graph_add_edge lineGraph 0 2 7) 0 = (2, 7) :: out_list lineGraph 0 ∧
    out_list (graph_add_edge lineGraph 0 2 7) 2 = out_list lineGraph 2 :=
  ⟨by decide!, by decide!,
    (add_edge_directed lineGraph 0 2 7 (by decide!) (by decide!)).2.1,
    (add_edge_directed lineGraph 0 2 7 (by decide!) (by decide!)).2.2.1 2
      (by decide!) (by decide)⟩

theorem node_matches_iff (g : Graph) (idx : Nat) (r : String) :
    node_matches_type_or_name g idx (some r) = true ↔
      (∃ t, g.type idx = some t ∧ CStr.lower r.data <:+: CStr.lower t.data) ∨
      (∃ n, g.name idx = some n ∧ CStr.lower r.data <:+: CStr.lower n.data) := by
  unfold node_matches_type_or_name str_to_lower
  simp only [Bool.or_eq_true]
  constructor
  · rintro (h | h)
    · left
      cases ht : g.type idx with
      | none => rw [ht] at h; cases h
      | some t => rw [ht] at h; exact ⟨t, rfl, (CStr.strstr_iff _ _).mp h⟩
    · right
      cases hn : g.name idx with
      | none => rw [hn] at h; cases h
      | some n => rw [hn] at h; exact ⟨n, rfl, (CStr.strstr_iff _ _).mp h⟩
  · rintro (⟨t, ht, h⟩ | ⟨n, hn, h⟩)
    · left; rw [ht]; exact (CStr.strstr_iff _ _).mpr h
    · right; rw [hn]; exact (CStr.strstr_iff _ _).mpr h

theorem opt_strstr (o o' : Option String) (x : List Char) :
    o.map (fun t => CStr.lower t.data) = o'.map (fun t => CStr.lower t.data) →
    (match o with
      | some t => CStr.strstr (CStr.lower t.data) x
      | none => false) =
    (match o' with
      | some t => CStr.strstr (CStr.lower t.data) x
      | none => false) := by
  intro h
  cases o with
  | none =>
    cases o' with
    | none => rfl
    | some t' => simp at h
  | some t =>
    cases o' with
    | none => simp at h
    | some t' =>
      simp only [Option.map_some', Option.some.injEq] at h
      simp only [h]

/-- C12. For a non-null request, `node_matches_type_or_name` returns 1 exactly
when the lower-cased request is a contiguous part of the lower-cased type of
the node (if it has one) or of its lower-cased name (if it has one); so the
result is the same for requests, types and names that differ in letter case
only. -/
theorem node_matches_case_insensitive :
    (∀ (g : Graph) (idx : Nat) (r : String),
      node_matches_type_or_name g idx (some r) = true ↔
        (∃ t, g.type idx = some t ∧ CStr.lower r.data <:+: CStr.lower t.data) ∨
        (∃ n, g.name idx = some n ∧ CStr.lower r.data <:+: CStr.lower n.data)) ∧
    (∀ (g g' : Graph) (idx idx' : Nat) (r r' : String),
      CStr.lower r.data = CStr.lower r'.data →
      (g.type idx).map (fun t => CStr.lower t.data) =
        (g'.type idx').map (fun t => CStr.lower t.data) →
      (g.name idx).map (fun n => CStr.lower n.data) =
        (g'.name idx').map (fun n => CStr.lower n.data) →
      node_matches_type_or_name g idx (some r) = node_matches_type_or_name g' idx' (some r')) := by
  refine ⟨node_matches_iff, ?_⟩
  intro g g' idx idx' r r' hr ht hn
  unfold node_matches_type_or_name str_to_lower
  simp only
  rw [hr]
  exact congrArg₂ (fun x y => x || y) (opt_strstr _ _ _ ht) (opt_strstr _ _ _ hn)

theorem node_matches_case_insensitive_witness :
    CStr.lower "HOSPital".data = CStr.lower "hospital".data ∧
    node_matches_type_or_name lineGraph 2 (some "HOSPital") =
      node_matches_type_or_name lineGraph 2 (some "hospital") ∧
    node_matches_type_or_name lineGraph 2 (some "HOSPital") = true :=
  ⟨by decide, node_matches_case_insensitive.2 lineGraph lineGraph 2 2 "HOSPital" "hospital"
    (by decide) rfl rfl, by decide!⟩

end GraphC

namespace GraphC

/-- The scan of `find_nearest_of_type_from` over the first `n` nodes: either
nothing below the sentinel matched, or the pair is the first strict minimum of
`dist` over the matching nodes. -/
theorem nearest_scan (g : Graph) (dist : Nat → ℚ) (r : Option String) : ∀ n : Nat,
    (((List.range n).foldl (nearest_step g dist r) (INF, -1)).2 = -1 ∧
      ((List.range n).foldl (nearest_step g dist r) (INF, -1)).1 = INF ∧
      ∀ i, i < n → node_matches_type_or_name g i r = true → INF ≤ dist i) ∨
    (∃ k : Nat, k < n ∧
      ((List.range n).foldl (nearest_step g dist r) (INF, -1)).2 = (k : Int) ∧
      ((List.range n).foldl (nearest_step g dist r) (INF, -1)).1 = dist k ∧
      node_matches_type_or_name g k r = true ∧ dist k < INF ∧
      (∀ i, i < n → node_matches_type_or_name g i r = true → dist k ≤ dist i) ∧
      (∀ i, i < k → node_matches_type_or_name g i r = true → dist k < dist i)) := by
  intro n
  induction n with
  | zero =>
    left
    exact ⟨rfl, rfl, fun i hi => absurd hi (Nat.not_lt_zero i)⟩
  | succ n ih =>
    rw [List.range_succ, List.foldl_append, List.foldl_cons, List.foldl_nil]
    generalize (List.range n).foldl (nearest_step g dist r) (INF, -1) = acc at ih
    unfold nearest_step
    by_cases hm : node_matches_type_or_name g n r = true
    · rw [if_pos hm]
      by_cases hlt : dist n < acc.1
      · rw [if_pos hlt]
        right
        refine ⟨n, Nat.lt_succ_self n, rfl, rfl, hm, ?_, ?_, ?_⟩
        · rcases ih with ⟨_, h1, _⟩ | ⟨k, _, _, h1, _, h2, _⟩
          · rw [h1] at hlt; exact hlt
          · rw [h1] at hlt; exact lt_trans hlt h2
        · intro i hi hmi
          rcases Nat.lt_succ_iff_lt_or_eq.mp hi with hi | hi
          · rcases ih with ⟨_, h1, h2⟩ | ⟨k, _, _, h1, _, _, h2, _⟩
            · rw [h1] at hlt; exact le_trans (le_of_lt hlt) (h2 i hi hmi)
            · rw [h1] at hlt; exact le_trans (le_of_lt hlt) (h2 i hi hmi)
          · rw [hi]
        · intro i hi hmi
          rcases ih with ⟨_, h1, h2⟩ | ⟨k, _, _, h1, _, _, h2, _⟩
          · rw [h1] at hlt; exact lt_of_lt_of_le hlt (h2 i hi hmi)
          · rw [h1] at hlt; exact lt_of_lt_of_le hlt (h2 i hi hmi)
      · rw [if_neg hlt]
        rcases ih with ⟨h0, h1, h2⟩ | ⟨k, hk, h0, h1, hmk, hkI, h2, h3⟩
        · left
          refine ⟨h0, h1, ?_⟩
          intro i hi hmi
          rcases Nat.lt_succ_iff_lt_or_eq.mp hi with hi | hi
          · exact h2 i hi hmi
          · rw [hi, ← h1]; exact not_lt.mp hlt
        · right
          refine ⟨k, Nat.lt_succ_of_lt hk, h0, h1, hmk, hkI, ?_, h3⟩
          intro i hi hmi
          rcases Nat.lt_succ_iff_lt_or_eq.mp hi with hi | hi
          · exact h2 i hi hmi
          · rw [hi, ← h1]; exact not_lt.mp hlt
    · rw [if_neg hm]
      rcases ih with ⟨h0, h1, h2⟩ | ⟨k, hk, h0, h1, hmk, hkI, h2, h3⟩
      · left
        refine ⟨h0, h1, ?_⟩
        intro i hi hmi
        rcases Nat.lt_succ_iff_lt_or_eq.mp hi with hi | hi
        · exact h2 i hi hmi
        · rw [hi] at hmi; exact absurd hmi hm
      · right
        refine ⟨k, Nat.lt_succ_of_lt hk, h0, h1, hmk, hkI, ?_, h3⟩
        intro i hi hmi
        rcases Nat.lt_succ_iff_lt_or_eq.mp hi with hi | hi
        · exact h2 i hi hmi
        · rw [hi] at hmi; exact absurd hmi hm

/-- After `dijkstra`, `dist[v]` is below the sentinel exactly when `v` has a
path lighter than the sentinel. -/
theorem dijkstra_light (g : Graph) (hwf : WF g) (hnn : NonNeg g) (src : Nat) (hsrc : src < g.V)
    (v : Nat) : (dijkstra g src).dist v < INF ↔ Light g src v := by
  constructor
  · intro h
    exact ⟨_, dijkstra_isPath g hwf hnn src hsrc v h, h⟩
  · rintro ⟨d, hp, hd⟩
    exact lt_of_le_of_lt (dijkstra_le_path g hwf hnn src hsrc v d hp) hd

end GraphC

namespace GraphC

/-! ### The identifier map of graph.c -/

theorem mask_eq_mod (m : LLMap) (hp : ∃ n, 1 ≤ n ∧ m.cap = 2 ^ n) (x : Nat) :
    x &&& (m.cap - 1) = x % m.cap := by
  obtain ⟨n, _, hn⟩ := hp
  rw [hn]
  exact Nat.and_pow_two_sub_one_eq_mod x n

theorem cap_pos (m : LLMap) (hp : ∃ n, 1 ≤ n ∧ m.cap = 2 ^ n) : 0 < m.cap := by
  obtain ⟨n, _, hn⟩ := hp
  rw [hn]
  exact Nat.pos_pow_of_pos n (by decide)

theorem cap_even (m : LLMap) (hp : ∃ n, 1 ≤ n ∧ m.cap = 2 ^ n) : ∃ c, m.cap = 2 * c ∧ 0 < c := by
  obtain ⟨n, h1, hn⟩ := hp
  obtain ⟨k, rfl⟩ : ∃ k, n = k + 1 := ⟨n - 1, by omega⟩
  exact ⟨2 ^ k, by rw [hn, pow_succ]; ring, Nat.pos_pow_of_pos k (by decide)⟩

theorem probe_start (m : LLMap) (hp : ∃ n, 1 ≤ n ∧ m.cap = 2 ^ n) (k : Int) :
    hash_u64 (to_u64 k) &&& (m.cap - 1) = probe_slot m k 0 := by
  rw [mask_eq_mod m hp]
  rfl

theorem probe_next (m : LLMap) (hp : ∃ n, 1 ≤ n ∧ m.cap = 2 ^ n) (k : Int) (t : Nat) :
    (probe_slot m k t + 1) &&& (m.cap - 1) = probe_slot m k (t + 1) := by
  rw [mask_eq_mod m hp]
  unfold probe_slot
  rw [Nat.add_mod, Nat.mod_mod, ← Nat.add_mod]
  rfl

theorem probe_lt (m : LLMap) (hp : ∃ n, 1 ≤ n ∧ m.cap = 2 ^ n) (k : Int) (t : Nat) :
    probe_slot m k t < m.cap := Nat.mod_lt _ (cap_pos m hp)

/-- Every slot is met by the probe of every key within `cap` steps. -/
theorem probe_surj (m : LLMap) (hp : ∃ n, 1 ≤ n ∧ m.cap = 2 ^ n) (k : Int) (j : Nat)
    (hj : j < m.cap) : ∃ t, t < m.cap ∧ probe_slot m k t = j := by
  have hc := cap_pos m hp
  refine ⟨(j + (m.cap - hash_u64 (to_u64 k) % m.cap)) % m.cap, Nat.mod_lt _ hc, ?_⟩
  unfold probe_slot
  have ha : hash_u64 (to_u64 k) % m.cap < m.cap := Nat.mod_lt _ hc
  rw [Nat.add_mod (hash_u64 (to_u64 k)), Nat.mod_mod,
    ← Nat.mod_mod (hash_u64 (to_u64 k)) m.cap, ← Nat.add_mod, Nat.mod_mod]
  have : hash_u64 (to_u64 k) % m.cap + (j + (m.cap - hash_u64 (to_u64 k) % m.cap)) = j + m.cap := by
    omega
  rw [this, Nat.add_mod_right, Nat.mod_eq_of_lt hj]

/-- The probe of `llmap_find` walks over used slots that hold other keys. -/
theorem find_from_walk (m : LLMap) (hp : ∃ n, 1 ≤ n ∧ m.cap = 2 ^ n) (k : Int) :
    ∀ (d t fuel : Nat),
    (∀ t', t ≤ t' → t' < t + d →
      (m.table (probe_slot m k t')).used = true ∧ (m.table (probe_slot m k t')).key ≠ k) →
    llmap_find_from m k (fuel + d) (probe_slot m k t) =
      llmap_find_from m k fuel (probe_slot m k (t + d)) := by
  intro d
  induction d with
  | zero => intro t fuel _; rfl
  | succ d ih =>
    intro t fuel hw
    have h0 := hw t (le_refl _) (by omega)
    have hf : fuel + (d + 1) = (fuel + d) + 1 := by omega
    rw [hf, llmap_find_from, if_pos h0.1, if_neg h0.2, probe_next m hp,
      ih (t + 1) fuel (fun t' h1 h2 => hw t' (by omega) (by omega))]
    have : t + 1 + d = t + (d + 1) := by omega
    rw [this]

/-- The probe of `llmap_put` walks over used slots that hold other keys. -/
theorem put_from_walk (m : LLMap) (hp : ∃ n, 1 ≤ n ∧ m.cap = 2 ^ n) (k v : Int) :
    ∀ (d t fuel : Nat),
    (∀ t', t ≤ t' → t' < t + d →
      (m.table (probe_slot m k t')).used = true ∧ (m.table (probe_slot m k t')).key ≠ k) →
    llmap_put_from m k v (fuel + d) (probe_slot m k t) =
      llmap_put_from m k v fuel (probe_slot m k (t + d)) := by
  intro d
  induction d with
  | zero => intro t fuel _; rfl
  | succ d ih =>
    intro t fuel hw
    have h0 := hw t (le_refl _) (by omega)
    have hf : fuel + (d + 1) = (fuel + d) + 1 := by omega
    rw [hf, llmap_put_from, if_pos h0.1, if_neg h0.2, probe_next m hp,
      ih (t + 1) fuel (fun t' h1 h2 => hw t' (by omega) (by omega))]
    have : t + 1 + d = t + (d + 1) := by omega
    rw [this]

/-- The scan for a free slot walks over used slots. -/
theorem free_slot_walk (m : LLMap) (hp : ∃ n, 1 ≤ n ∧ m.cap = 2 ^ n) (k : Int) :
    ∀ (d t fuel : Nat),
    (∀ t', t ≤ t' → t' < t + d → (m.table (probe_slot m k t')).used = true) →
    llmap_free_slot m (fuel + d) (probe_slot m k t) =
      llmap_free_slot m fuel (probe_slot m k (t + d)) := by
  intro d
  induction d with
  | zero => intro t fuel _; rfl
  | succ d ih =>
    intro t fuel hw
    have h0 := hw t (le_refl _) (by omega)
    have hf : fuel + (d + 1) = (fuel + d) + 1 := by omega
    rw [hf, llmap_free_slot, if_pos h0, probe_next m hp,
      ih (t + 1) fuel (fun t' h1 h2 => hw t' (by omega) (by omega))]
    have : t + 1 + d = t + (d + 1) := by omega
    rw [this]

/-- A table with room has a first unused slot on the probe of every key. -/
theorem exists_free (m : LLMap) (hc : MapCore m) (k : Int) :
    ∃ t, t < m.cap ∧ (m.table (probe_slot m k t)).used = false ∧
      ∀ t', t' < t → (m.table (probe_slot m k t')).used = true := by
  have hex : ∃ j, j < m.cap ∧ (m.table j).used = false := by
    by_contra hno
    have hall : ∀ x ∈ Finset.range m.cap, (m.table x).used = true := by
      intro x hx
      by_contra hx'
      exact hno ⟨x, Finset.mem_range.mp hx, by simpa using hx'⟩
    have := hc.count
    unfold used_count at this
    rw [Finset.filter_true_of_mem hall, Finset.card_range] at this
    have := hc.room
    omega
  obtain ⟨j, hj, hju⟩ := hex
  obtain ⟨t, ht, htj⟩ := probe_surj m hc.pow k j hj
  have hP : ∃ t, (m.table (probe_slot m k t)).used = false := ⟨t, by rw [htj]; exact hju⟩
  refine ⟨Nat.find hP, lt_of_le_of_lt (Nat.find_min' hP (by rw [htj]; exact hju)) ht,
    Nat.find_spec hP, ?_⟩
  intro t' ht'
  have := Nat.find_min hP ht'
  simpa using this

/-- Result of `llmap_find` when the probe meets the key at step `t0`. -/
theorem find_hit_at (m : LLMap) (hp : ∃ n, 1 ≤ n ∧ m.cap = 2 ^ n) (k : Int) (t0 : Nat)
    (ht0 : t0 < m.cap)
    (hw : ∀ t', t' < t0 →
      (m.table (probe_slot m k t')).used = true ∧ (m.table (probe_slot m k t')).key ≠ k)
    (hu : (m.table (probe_slot m k t0)).used = true)
    (hk : (m.table (probe_slot m k t0)).key = k) :
    llmap_find m k = (m.table (probe_slot m k t0)).val := by
  unfold llmap_find
  rw [probe_start m hp]
  have hwalk := find_from_walk m hp k t0 0 (m.cap - t0 - 1 + 1) (fun t' _ h2 => hw t' (by omega))
  have hf : m.cap - t0 - 1 + 1 + t0 = m.cap := by omega
  rw [hf, Nat.zero_add] at hwalk
  rw [hwalk, llmap_find_from, if_pos hu, if_pos hk]

/-- Result of `llmap_find` when the probe meets an unused slot at step `t0`. -/
theorem find_miss_at (m : LLMap) (hp : ∃ n, 1 ≤ n ∧ m.cap = 2 ^ n) (k : Int) (t0 : Nat)
    (ht0 : t0 < m.cap)
    (hw : ∀ t', t' < t0 →
      (m.table (probe_slot m k t')).used = true ∧ (m.table (probe_slot m k t')).key ≠ k)
    (hu : (m.table (probe_slot m k t0)).used = false) :
    llmap_find m k = -1 := by
  unfold llmap_find
  rw [probe_start m hp]
  have hwalk := find_from_walk m hp k t0 0 (m.cap - t0 - 1 + 1) (fun t' _ h2 => hw t' (by omega))
  have hf : m.cap - t0 - 1 + 1 + t0 = m.cap := by omega
  rw [hf, Nat.zero_add] at hwalk
  rw [hwalk, llmap_find_from, if_neg (by rw [hu]; decide)]

/-- A stored key is found with its value. -/
theorem find_holds (m : LLMap) (hc : MapCore m) (k v : Int) (h : Holds m k v) :
    llmap_find m k = v := by
  obtain ⟨j, hj, hu, hk, hv⟩ := h
  obtain ⟨t, ht, htj, hw⟩ := hc.path j hj hu
  rw [hk] at htj hw
  rw [find_hit_at m hc.pow k t ht hw (by rw [htj]; exact hu) (by rw [htj]; exact hk), htj, hv]

/-- A key stored nowhere is not found. -/
theorem find_absent (m : LLMap) (hc : MapCore m) (k : Int) (h : Absent m k) :
    llmap_find m k = -1 := by
  obtain ⟨t, ht, hu, hw⟩ := exists_free m hc k
  exact find_miss_at m hc.pow k t ht
    (fun t' ht' => ⟨hw t' ht', h _ (probe_lt m hc.pow k t') (hw t' ht')⟩) hu

/-- Two used slots with the same key are the same slot. -/
theorem key_unique (m : LLMap) (hc : MapCore m) (j1 j2 : Nat) (h1 : j1 < m.cap) (h2 : j2 < m.cap)
    (hu1 : (m.table j1).used = true) (hu2 : (m.table j2).used = true)
    (hk : (m.table j1).key = (m.table j2).key) : j1 = j2 := by
  obtain ⟨t1, _, hs1, hw1⟩ := hc.path j1 h1 hu1
  obtain ⟨t2, _, hs2, hw2⟩ := hc.path j2 h2 hu2
  rw [hk] at hs1 hw1
  rcases Nat.lt_trichotomy t1 t2 with h | h | h
  · have := (hw2 t1 h).2
    rw [hs1] at this
    exact absurd hk this
  · subst h
    exact hs1.symm.trans hs2
  · have := (hw1 t2 h).2
    rw [hs2] at this
    exact absurd rfl this

/-- Either a key is stored with some value, or it is stored nowhere. -/
theorem holds_or_absent (m : LLMap) (k : Int) : (∃ v, Holds m k v) ∨ Absent m k := by
  by_cases h : ∃ j, j < m.cap ∧ (m.table j).used = true ∧ (m.table j).key = k
  · obtain ⟨j, hj, hu, hk⟩ := h
    exact Or.inl ⟨_, j, hj, hu, hk, rfl⟩
  · right
    intro j hj hu hk
    exact h ⟨j, hj, hu, hk⟩

/-- Result of `llmap_put` on a table that stores the key in slot `j`. -/
theorem put_from_hit (m : LLMap) (hc : MapCore m) (k v : Int) (j : Nat) (hj : j < m.cap)
    (hu : (m.table j).used = true) (hk : (m.table j).key = k) :
    llmap_put_from m k v m.cap (hash_u64 (to_u64 k) &&& (m.cap - 1)) =
      { m with table := Function.update m.table j { m.table j with val := v } } := by
  obtain ⟨t, ht, htj, hw⟩ := hc.path j hj hu
  rw [hk] at htj hw
  rw [probe_start m hc.pow]
  have hwalk := put_from_walk m hc.pow k v t 0 (m.cap - t - 1 + 1) (fun t' _ h2 => hw t' (by omega))
  have hf : m.cap - t - 1 + 1 + t = m.cap := by omega
  rw [hf, Nat.zero_add] at hwalk
  rw [hwalk, llmap_put_from, htj, if_pos hu, if_pos hk]

/-- Result of `llmap_put` when the probe meets an unused slot at step `t0`. -/
theorem put_from_miss (m : LLMap) (hp : ∃ n, 1 ≤ n ∧ m.cap = 2 ^ n) (k v : Int) (t0 : Nat)
    (ht0 : t0 < m.cap)
    (hw : ∀ t', t' < t0 →
      (m.table (probe_slot m k t')).used = true ∧ (m.table (probe_slot m k t')).key ≠ k)
    (hu : (m.table (probe_slot m k t0)).used = false) :
    llmap_put_from m k v m.cap (hash_u64 (to_u64 k) &&& (m.cap - 1)) =
      { m with
        table := Function.update m.table (probe_slot m k t0) ⟨k, v, true⟩
        size := m.size + 1 } := by
  rw [probe_start m hp]
  have hwalk := put_from_walk m hp k v t0 0 (m.cap - t0 - 1 + 1) (fun t' _ h2 => hw t' (by omega))
  have hf : m.cap - t0 - 1 + 1 + t0 = m.cap := by omega
  rw [hf, Nat.zero_add] at hwalk
  rw [hwalk, llmap_put_from, if_neg (by rw [hu]; decide)]

/-- Result of the free-slot scan when the first unused slot is met at step `t0`. -/
theorem free_slot_at (m : LLMap) (hp : ∃ n, 1 ≤ n ∧ m.cap = 2 ^ n) (k : Int) (t0 : Nat)
    (ht0 : t0 < m.cap)
    (hw : ∀ t', t' < t0 → (m.table (probe_slot m k t')).used = true)
    (hu : (m.table (probe_slot m k t0)).used = false) :
    llmap_free_slot m m.cap (hash_u64 (to_u64 k) &&& (m.cap - 1)) = probe_slot m k t0 := by
  rw [probe_start m hp]
  have hwalk := free_slot_walk m hp k t0 0 (m.cap - t0 - 1 + 1) (fun t' _ h2 => hw t' (by omega))
  have hf : m.cap - t0 - 1 + 1 + t0 = m.cap := by omega
  rw [hf, Nat.zero_add] at hwalk
  rw [hwalk, llmap_free_slot, if_neg (by rw [hu]; decide)]

/-- Overwriting the value of a used slot keeps the shape of the table. -/
theorem core_update_val (m : LLMap) (hc : MapCore m) (j : Nat) (v : Int) :
    MapCore { m with table := Function.update m.table j { m.table j with val := v } } := by
  have hused : ∀ x, ((Function.update m.table j { m.table j with val := v }) x).used =
      (m.table x).used := by
    intro x
    by_cases hx : x = j
    · subst hx; rw [Function.update_same]
    · rw [Function.update_noteq hx]
  have hkey : ∀ x, ((Function.update m.table j { m.table j with val := v }) x).key =
      (m.table x).key := by
    intro x
    by_cases hx : x = j
    · subst hx; rw [Function.update_same]
    · rw [Function.update_noteq hx]
  refine ⟨hc.pow, ?_, hc.room, ?_⟩
  · show m.size = _
    rw [hc.count]
    unfold used_count
    simp only [hused]
  · intro x hx hux
    simp only [hused, hkey] at hux ⊢
    obtain ⟨t, ht, hs, hw⟩ := hc.path x hx hux
    refine ⟨t, ht, hs, ?_⟩
    intro t' ht'
    have := hw t' ht'
    unfold probe_slot at this ⊢
    simp only [hused, hkey]
    exact this

theorem probe_slot_cap (m m' : LLMap) (hcap : m'.cap = m.cap) (k : Int) (t : Nat) :
    probe_slot m' k t = probe_slot m k t := by
  unfold probe_slot
  rw [hcap]

/-- Filling the first unused slot on the probe of an absent key keeps the
shape of the table, as long as a slot stays unused. -/
theorem core_insert_of (m m' : LLMap) (hc : MapCore m) (k v : Int) (t0 : Nat)
    (hw : ∀ t', t' < t0 →
      (m.table (probe_slot m k t')).used = true ∧ (m.table (probe_slot m k t')).key ≠ k)
    (hu : (m.table (probe_slot m k t0)).used = false) (ht0 : t0 < m.cap)
    (hroom : m.size + 1 < m.cap) (hcap : m'.cap = m.cap)
    (htab : m'.table = Function.update m.table (probe_slot m k t0) ⟨k, v, true⟩)
    (hsize : m'.size = m.size + 1) : MapCore m' := by
  have hs0 : probe_slot m k t0 < m.cap := probe_lt m hc.pow k t0
  have hold : ∀ x, (m.table x).used = true → m'.table x = m.table x := by
    intro x hx
    have : x ≠ probe_slot m k t0 := by
      intro h
      rw [h, hu] at hx
      cases hx
    rw [htab, Function.update_noteq this]
  have hnew : m'.table (probe_slot m k t0) = ⟨k, v, true⟩ := by
    rw [htab, Function.update_same]
  have hother : ∀ x, x ≠ probe_slot m k t0 → m'.table x = m.table x := by
    intro x hx
    rw [htab, Function.update_noteq hx]
  refine ⟨by rw [hcap]; exact hc.pow, ?_, by rw [hsize, hcap]; exact hroom, ?_⟩
  · rw [hsize]
    unfold used_count
    rw [hcap]
    have hset : (Finset.range m.cap).filter (fun j => (m'.table j).used = true) =
        insert (probe_slot m k t0)
          ((Finset.range m.cap).filter (fun j => (m.table j).used = true)) := by
      ext x
      simp only [Finset.mem_filter, Finset.mem_range, Finset.mem_insert]
      by_cases hx : x = probe_slot m k t0
      · rw [hx, hnew]
        simp [hs0]
      · rw [hother x hx]
        simp [hx]
    rw [hset, Finset.card_insert_of_not_mem, hc.count]
    · rfl
    · simp [hu]
  · intro x hx hux
    rw [hcap] at hx
    simp only [probe_slot_cap m m' hcap, hcap]
    by_cases hxs : x = probe_slot m k t0
    · rw [hxs, hnew]
      refine ⟨t0, ht0, rfl, ?_⟩
      intro t' ht'
      rw [hold _ (hw t' ht').1]
      exact hw t' ht'
    · rw [hother x hxs] at hux ⊢
      obtain ⟨t, ht, hs, hwx⟩ := hc.path x hx hux
      refine ⟨t, ht, hs, ?_⟩
      intro t' ht'
      rw [hold _ (hwx t' ht').1]
      exact hwx t' ht'

theorem core_insert (m : LLMap) (hc : MapCore m) (k v : Int) (t0 : Nat)
    (hw : ∀ t', t' < t0 →
      (m.table (probe_slot m k t')).used = true ∧ (m.table (probe_slot m k t')).key ≠ k)
    (hu : (m.table (probe_slot m k t0)).used = false) (ht0 : t0 < m.cap)
    (hroom : m.size + 1 < m.cap) :
    MapCore { m with
      table := Function.update m.table (probe_slot m k t0) ⟨k, v, true⟩
      size := m.size + 1 } :=
  core_insert_of m _ hc k v t0 hw hu ht0 hroom rfl rfl rfl

/-- Contents after the value of the slot holding `k` is overwritten. -/
theorem holds_update_val (m : LLMap) (hc : MapCore m) (k v : Int) (j : Nat) (hj : j < m.cap)
    (hu : (m.table j).used = true) (hk : (m.table j).key = k) (k' v' : Int) :
    Holds { m with table := Function.update m.table j { m.table j with val := v } } k' v' ↔
      (k' = k ∧ v' = v) ∨ (k' ≠ k ∧ Holds m k' v') := by
  constructor
  · rintro ⟨x, hx, hux, hkx, hvx⟩
    by_cases hxj : x = j
    · subst hxj
      simp only [Function.update_same] at hkx hvx
      left
      exact ⟨by rw [← hkx, hk], hvx.symm⟩
    · simp only [Function.update_noteq hxj] at hux hkx hvx
      right
      refine ⟨?_, x, hx, hux, hkx, hvx⟩
      intro hkk
      exact hxj (key_unique m hc x j hx hj hux hu (by rw [hkx, hk, hkk]))
  · rintro (⟨h1, h2⟩ | ⟨h1, x, hx, hux, hkx, hvx⟩)
    · refine ⟨j, hj, ?_, ?_, ?_⟩
      · simp only [Function.update_same]; exact hu
      · simp only [Function.update_same]; rw [h1]; exact hk
      · simp only [Function.update_same]; exact h2.symm
    · have hxj : x ≠ j := by
        intro h
        rw [h, hk] at hkx
        exact h1 hkx.symm
      refine ⟨x, hx, ?_, ?_, ?_⟩
      · simp only [Function.update_noteq hxj]; exact hux
      · simp only [Function.update_noteq hxj]; exact hkx
      · simp only [Function.update_noteq hxj]; exact hvx

/-- Contents after an absent key is written to an unused slot. -/
theorem holds_insert (m : LLMap) (k v : Int) (s : Nat) (hs : s < m.cap)
    (hu : (m.table s).used = false) (habs : Absent m k) (k' v' : Int) :
    Holds { m with table := Function.update m.table s ⟨k, v, true⟩, size := m.size + 1 } k' v' ↔
      (k' = k ∧ v' = v) ∨ (k' ≠ k ∧ Holds m k' v') := by
  constructor
  · rintro ⟨x, hx, hux, hkx, hvx⟩
    by_cases hxs : x = s
    · subst hxs
      simp only [Function.update_same] at hkx hvx
      left
      exact ⟨hkx.symm, hvx.symm⟩
    · simp only [Function.update_noteq hxs] at hux hkx hvx
      right
      refine ⟨?_, x, hx, hux, hkx, hvx⟩
      intro hkk
      exact habs x hx hux (by rw [hkx, hkk])
  · rintro (⟨h1, h2⟩ | ⟨_, x, hx, hux, hkx, hvx⟩)
    · refine ⟨s, hs, ?_, ?_, ?_⟩
      · simp only [Function.update_same]
      · simp only [Function.update_same]; exact h1.symm
      · simp only [Function.update_same]; exact h2.symm
    · have hxs : x ≠ s := by
        intro h
        rw [h, hu] at hux
        cases hux
      refine ⟨x, hx, ?_, ?_, ?_⟩
      · simp only [Function.update_noteq hxs]; exact hux
      · simp only [Function.update_noteq hxs]; exact hkx
      · simp only [Function.update_noteq hxs]; exact hvx

/-- The probe of `llmap_put` on a table with room for one more key: the shape
is kept, the key is stored with the value, every other key keeps its value,
and `size` grows by one exactly when the key was absent. -/
theorem put_from_spec (m : LLMap) (hc : MapCore m) (k v : Int) (hroom : m.size + 1 < m.cap) :
    MapCore (llmap_put_from m k v m.cap (hash_u64 (to_u64 k) &&& (m.cap - 1))) ∧
    (llmap_put_from m k v m.cap (hash_u64 (to_u64 k) &&& (m.cap - 1))).cap = m.cap ∧
    (∀ k' v', Holds (llmap_put_from m k v m.cap (hash_u64 (to_u64 k) &&& (m.cap - 1))) k' v' ↔
      (k' = k ∧ v' = v) ∨ (k' ≠ k ∧ Holds m k' v')) ∧
    (Absent m k →
      (llmap_put_from m k v m.cap (hash_u64 (to_u64 k) &&& (m.cap - 1))).size = m.size + 1) ∧
    ((∃ v0, Holds m k v0) →
      (llmap_put_from m k v m.cap (hash_u64 (to_u64 k) &&& (m.cap - 1))).size = m.size) := by
  rcases holds_or_absent m k with ⟨v0, j, hj, hu, hk, _⟩ | habs
  · rw [put_from_hit m hc k v j hj hu hk]
    refine ⟨core_update_val m hc j v, rfl, holds_update_val m hc k v j hj hu hk, ?_, fun _ => rfl⟩
    intro habs
    exact absurd hk (habs j hj hu)
  · obtain ⟨t, ht, hu, hw⟩ := exists_free m hc k
    have hw' : ∀ t', t' < t →
        (m.table (probe_slot m k t')).used = true ∧ (m.table (probe_slot m k t')).key ≠ k :=
      fun t' ht' => ⟨hw t' ht', habs _ (probe_lt m hc.pow k t') (hw t' ht')⟩
    rw [put_from_miss m hc.pow k v t ht hw' hu]
    refine ⟨core_insert m hc k v t hw' hu ht hroom, rfl,
      holds_insert m k v _ (probe_lt m hc.pow k t) hu habs, fun _ => rfl, ?_⟩
    rintro ⟨v0, j, hj, hju, hjk, _⟩
    exact absurd hjk (habs j hj hju)

/-- Re-insertion of a used entry whose key is absent from the new table is
the insertion done by the probe of `llmap_put`. -/
theorem rehash_step_eq_put (m : LLMap) (hc : MapCore m) (old : LLMapEntry)
    (hu : old.used = true) (habs : Absent m old.key) :
    llmap_rehash_step m old =
      llmap_put_from m old.key old.val m.cap (hash_u64 (to_u64 old.key) &&& (m.cap - 1)) := by
  obtain ⟨t, ht, hfree, hw⟩ := exists_free m hc old.key
  have hw' : ∀ t', t' < t → (m.table (probe_slot m old.key t')).used = true ∧
      (m.table (probe_slot m old.key t')).key ≠ old.key :=
    fun t' ht' => ⟨hw t' ht', habs _ (probe_lt m hc.pow old.key t') (hw t' ht')⟩
  unfold llmap_rehash_step
  rw [if_pos hu, free_slot_at m hc.pow old.key t ht hw hfree,
    put_from_miss m hc.pow old.key old.val t ht hw' hfree]

/-- The empty table of doubled capacity that `llmap_put` allocates. -/
theorem core_fresh (cap : Nat) (hp : ∃ n, 1 ≤ n ∧ cap = 2 ^ n) :
    MapCore { table := fun _ => ⟨0, 0, false⟩, cap := cap, size := 0 } := by
  refine ⟨hp, ?_, ?_, ?_⟩
  · unfold used_count
    simp
  · obtain ⟨n, _, hn⟩ := hp
    show 0 < cap
    rw [hn]
    exact Nat.pos_pow_of_pos n (by decide)
  · intro j _ hu
    cases hu

theorem card_used_le (m : LLMap) (n : Nat) (hn : n ≤ m.cap) :
    ((Finset.range n).filter (fun j => (m.table j).used = true)).card ≤ used_count m := by
  unfold used_count
  apply Finset.card_le_card
  apply Finset.filter_subset_filter
  exact Finset.range_mono hn

/-- The rehash loop after the first `n` slots of the old table. -/
theorem grow_fold (m : LLMap) (hc : MapCore m) : ∀ n, n ≤ m.cap →
    MapCore ((List.range n).foldl (fun m' i => llmap_rehash_step m' (m.table i))
      { table := fun _ => ⟨0, 0, false⟩, cap := m.cap * 2, size := 0 }) ∧
    ((List.range n).foldl (fun m' i => llmap_rehash_step m' (m.table i))
      { table := fun _ => ⟨0, 0, false⟩, cap := m.cap * 2, size := 0 }).cap = m.cap * 2 ∧
    ((List.range n).foldl (fun m' i => llmap_rehash_step m' (m.table i))
      { table := fun _ => ⟨0, 0, false⟩, cap := m.cap * 2, size := 0 }).size =
      ((Finset.range n).filter (fun j => (m.table j).used = true)).card ∧
    ∀ k v, Holds ((List.range n).foldl (fun m' i => llmap_rehash_step m' (m.table i))
      { table := fun _ => ⟨0, 0, false⟩, cap := m.cap * 2, size := 0 }) k v ↔
      ∃ j, j < n ∧ (m.table j).used = true ∧ (m.table j).key = k ∧ (m.table j).val = v := by
  intro n
  induction n with
  | zero =>
    intro _
    refine ⟨?_, rfl, ?_, ?_⟩
    · apply core_fresh
      obtain ⟨n, h1, hn⟩ := hc.pow
      exact ⟨n + 1, by omega, by rw [hn, pow_succ]⟩
    · simp
    · intro k v
      constructor
      · rintro ⟨j, _, hu, _⟩
        cases hu
      · rintro ⟨j, hj, _⟩
        exact absurd hj (Nat.not_lt_zero j)
  | succ n ih =>
    intro hn
    obtain ⟨hcore, hcap, hsize, hholds⟩ := ih (by omega)
    rw [List.range_succ, List.foldl_append, List.foldl_cons, List.foldl_nil]
    generalize (List.range n).foldl (fun m' i => llmap_rehash_step m' (m.table i))
      { table := fun _ => ⟨0, 0, false⟩, cap := m.cap * 2, size := 0 } = acc
      at hcore hcap hsize hholds
    cases hun : (m.table n).used
    · have hstep : llmap_rehash_step acc (m.table n) = acc := by
        unfold llmap_rehash_step
        rw [if_neg (by rw [hun]; decide)]
      rw [hstep]
      refine ⟨hcore, hcap, ?_, ?_⟩
      · rw [hsize, Finset.range_succ, Finset.filter_insert, if_neg (by rw [hun]; decide)]
      · intro k v
        rw [hholds k v]
        constructor
        · rintro ⟨j, hj, h⟩
          exact ⟨j, by omega, h⟩
        · rintro ⟨j, hj, hu, h⟩
          have hjn : j ≠ n := by
            intro h'
            rw [h', hun] at hu
            cases hu
          exact ⟨j, by omega, hu, h⟩
    · have hfresh : ∀ j, j < n → (m.table j).used = true → (m.table j).key ≠ (m.table n).key := by
        intro j hj hu hk
        have := key_unique m hc j n (by omega) (by omega) hu hun hk
        omega
      have habs : Absent acc (m.table n).key := by
        intro x hx hux hkx
        obtain ⟨j, hj, hu, hk, _⟩ := (hholds (m.table n).key (acc.table x).val).mp
          ⟨x, hx, hux, hkx, rfl⟩
        exact hfresh j hj hu hk
      have hle := card_used_le m n (by omega)
      have hroom : acc.size + 1 < acc.cap := by
        have h1 := hc.count
        have h2 := hc.room
        rw [hsize, hcap]
        omega
      rw [rehash_step_eq_put acc hcore (m.table n) hun habs]
      obtain ⟨p1, p2, p3, p4, _⟩ := put_from_spec acc hcore (m.table n).key (m.table n).val hroom
      refine ⟨p1, by rw [p2, hcap], ?_, ?_⟩
      · rw [p4 habs, hsize, Finset.range_succ, Finset.filter_insert, if_pos hun,
          Finset.card_insert_of_not_mem]
        simp
      · intro k v
        rw [p3 k v]
        constructor
        · rintro (⟨h1, h2⟩ | ⟨_, h2⟩)
          · exact ⟨n, by omega, hun, h1.symm, h2.symm⟩
          · obtain ⟨j, hj, h⟩ := (hholds k v).mp h2
            exact ⟨j, by omega, h⟩
        · rintro ⟨j, hj, hu, hk, hv⟩
          rcases Nat.lt_succ_iff_lt_or_eq.mp hj with hj | hj
          · right
            refine ⟨?_, (hholds k v).mpr ⟨j, hj, hu, hk, hv⟩⟩
            intro hkk
            exact hfresh j hj hu (by rw [hk, hkk])
          · left
            rw [hj] at hk hv
            exact ⟨hk.symm, hv.symm⟩

/-- The growth branch of `llmap_put` keeps the contents and the invariant and
leaves room for one more key. -/
theorem grow_spec (m : LLMap) (hok : MapOK m) :
    MapCore (llmap_grow m) ∧ (llmap_grow m).size = m.size ∧
    (∀ k v, Holds (llmap_grow m) k v ↔ Holds m k v) ∧
    2 * ((llmap_grow m).size + 1) ≤ (llmap_grow m).cap ∧
    ((llmap_grow m).cap = m.cap ∨ (llmap_grow m).cap = m.cap * 2) := by
  obtain ⟨hc, h2⟩ := hok
  obtain ⟨c, hce, hcp⟩ := cap_even m hc.pow
  unfold llmap_grow
  by_cases hg : m.size * 2 ≥ m.cap
  · rw [if_pos hg]
    obtain ⟨q1, q2, q3, q4⟩ := grow_fold m hc m.cap (le_refl _)
    refine ⟨q1, ?_, ?_, ?_, Or.inr q2⟩
    · rw [q3, hc.count]
      rfl
    · intro k v
      rw [q4 k v]
      rfl
    · rw [q2, q3]
      have : ((Finset.range m.cap).filter (fun j => (m.table j).used = true)).card = m.size :=
        hc.count.symm
      rw [this]
      omega
  · rw [if_neg hg]
    refine ⟨hc, rfl, fun k v => Iff.rfl, ?_, Or.inl rfl⟩
    omega

/-- What `llmap_put` does: the invariant is kept, the key is stored with the
value, and every other key keeps its value. -/
theorem put_holds (m : LLMap) (hok : MapOK m) (k v : Int) :
    MapOK (llmap_put m k v) ∧
    (∀ k' v', Holds (llmap_put m k v) k' v' ↔ (k' = k ∧ v' = v) ∨ (k' ≠ k ∧ Holds m k' v')) ∧
    (Absent m k → (llmap_put m k v).size = m.size + 1) ∧
    ((∃ v0, Holds m k v0) → (llmap_put m k v).size = m.size) := by
  obtain ⟨g1, g2, g3, g4, _⟩ := grow_spec m hok
  obtain ⟨c, hce, hcp⟩ := cap_even (llmap_grow m) g1.pow
  obtain ⟨p1, p2, p3, p4, p5⟩ := put_from_spec (llmap_grow m) g1 k v (by omega)
  have habs : Absent (llmap_grow m) k ↔ Absent m k := by
    constructor
    · intro h j hj hu hk
      obtain ⟨x, hx, hux, hkx, _⟩ := (g3 k (m.table j).val).mpr ⟨j, hj, hu, hk, rfl⟩
      exact h x hx hux hkx
    · intro h j hj hu hk
      obtain ⟨x, hx, hux, hkx, _⟩ := (g3 k ((llmap_grow m).table j).val).mp ⟨j, hj, hu, hk, rfl⟩
      exact h x hx hux hkx
  unfold llmap_put
  refine ⟨⟨p1, ?_⟩, ?_, ?_, ?_⟩
  · rw [p2]
    rcases holds_or_absent (llmap_grow m) k with hh | ha
    · rw [p5 hh]; omega
    · rw [p4 ha]; omega
  · intro k' v'
    rw [p3 k' v', g3 k' v']
  · intro ha
    rw [p4 (habs.mpr ha), g2]
  · rintro ⟨v0, hv0⟩
    rw [p5 ⟨v0, (g3 k v0).mpr hv0⟩, g2]

/-- After `llmap_put(m, k, v)`, `llmap_find(m, k)` is `v`. -/
theorem find_put_same (m : LLMap) (hok : MapOK m) (k v : Int) :
    llmap_find (llmap_put m k v) k = v := by
  obtain ⟨h1, h2, _⟩ := put_holds m hok k v
  exact find_holds _ h1.1 k v ((h2 k v).mpr (Or.inl ⟨rfl, rfl⟩))

/-- After `llmap_put(m, k, v)`, `llmap_find` of every other key is as before. -/
theorem find_put_other (m : LLMap) (hok : MapOK m) (k v k' : Int) (hne : k' ≠ k) :
    llmap_find (llmap_put m k v) k' = llmap_find m k' := by
  obtain ⟨h1, h2, _⟩ := put_holds m hok k v
  rcases holds_or_absent m k' with ⟨v', hv'⟩ | ha
  · rw [find_holds m hok.1 k' v' hv']
    exact find_holds _ h1.1 k' v' ((h2 k' v').mpr (Or.inr ⟨hne, hv'⟩))
  · rw [find_absent m hok.1 k' ha]
    apply find_absent _ h1.1
    intro j hj hu hk
    rcases (h2 k' ((llmap_put m k v).table j).val).mp ⟨j, hj, hu, hk, rfl⟩ with ⟨h, _⟩ | ⟨_, x, hx, hux, hkx, _⟩
    · exact hne h
    · exact ha x hx hux hkx

/-- The doubling loop of `llmap_create` stops at a power of two that covers
the request. -/
theorem create_cap_spec : ∀ (fuel i cap : Nat), cap ≤ 2 ^ (i + fuel) →
    ∃ n, i ≤ n ∧ llmap_create_cap fuel (2 ^ i) cap = 2 ^ n ∧ cap ≤ 2 ^ n := by
  intro fuel
  induction fuel with
  | zero =>
    intro i cap h
    exact ⟨i, le_refl _, rfl, h⟩
  | succ fuel ih =>
    intro i cap h
    unfold llmap_create_cap
    by_cases hlt : 2 ^ i < cap
    · rw [if_pos hlt, Nat.shiftLeft_eq, pow_one, ← pow_succ]
      obtain ⟨n, h1, h2, h3⟩ := ih (i + 1) cap (by rw [show i + 1 + fuel = i + (fuel + 1) by omega]; exact h)
      exact ⟨n, by omega, h2, h3⟩
    · rw [if_neg hlt]
      exact ⟨i, le_refl _, rfl, not_lt.mp hlt⟩

/-- A map made by `llmap_create` with a request of 2 or more satisfies the
invariant and stores no key. -/
theorem create_ok (cap : Nat) (h2 : 2 ≤ cap) :
    MapOK (llmap_create cap) ∧ ∀ k, Absent (llmap_create cap) k := by
  obtain ⟨n, _, hn, hle⟩ := create_cap_spec cap 0 cap (by
    rw [Nat.zero_add]
    exact le_of_lt (Nat.lt_two_pow cap))
  rw [pow_zero] at hn
  have hn1 : 1 ≤ n := by
    rcases Nat.eq_zero_or_pos n with h | h
    · rw [h, pow_zero] at hle
      omega
    · exact h
  have hcore : MapCore (llmap_create cap) := by
    unfold llmap_create
    rw [hn]
    exact core_fresh _ ⟨n, hn1, rfl⟩
  refine ⟨⟨hcore, ?_⟩, ?_⟩
  · show 2 * 0 ≤ _
    omega
  · intro k j _ hu
    cases hu

end GraphC

namespace GraphC

/-! ### graph.c: node store and identifier map together -/

/-- The doubling loop of `graph_ensure_nodecap` reaches the needed capacity. -/
theorem grow_cap_ge : ∀ (fuel cap need : Nat), 0 < cap → need ≤ cap * 2 ^ fuel →
    need ≤ grow_cap fuel cap need ∧ cap ≤ grow_cap fuel cap need := by
  intro fuel
  induction fuel with
  | zero =>
    intro cap need _ h
    rw [pow_zero, Nat.mul_one] at h
    exact ⟨h, le_refl _⟩
  | succ fuel ih =>
    intro cap need hc h
    unfold grow_cap
    by_cases hgt : need > cap
    · rw [if_pos hgt]
      obtain ⟨h1, h2⟩ := ih (cap * 2) need (by omega) (by rw [pow_succ] at h; linarith)
      exact ⟨h1, by omega⟩
    · rw [if_neg hgt]
      exact ⟨by omega, le_refl _⟩

/-- Slot initialisation touches the listed slots only. -/
theorem init_slots_same : ∀ (l : List Nat) (g : Graph),
    (l.foldl init_slot g).idmap = g.idmap ∧
    (l.foldl init_slot g).global_node_cap = g.global_node_cap ∧
    ∀ j, j ∉ l → SameNode g (l.foldl init_slot g) j := by
  intro l
  induction l with
  | nil => intro g; exact ⟨rfl, rfl, fun _ _ => ⟨rfl, rfl, rfl, rfl, rfl, rfl⟩⟩
  | cons i l ih =>
    intro g
    obtain ⟨h1, h2, h3⟩ := ih (init_slot g i)
    simp only [List.foldl_cons]
    refine ⟨h1, h2, fun j hj => ?_⟩
    have hji : j ≠ i := fun h => hj (by rw [h]; exact List.mem_cons_self _ _)
    have hjl : j ∉ l := fun h => hj (List.mem_cons_of_mem _ h)
    obtain ⟨a1, a2, a3, a4, a5, a6⟩ := h3 j hjl
    unfold init_slot at a1 a2 a3 a4 a5 a6
    simp only [Function.update_noteq hji] at a1 a2 a3 a4 a5 a6
    exact ⟨a1, a2, a3, a4, a5, a6⟩

/-- What `graph_ensure_nodecap` does: it leaves the counters, the edges, the
map and every slot below the old capacity as they were, and the capacity
covers the need afterwards. -/
theorem ensure_nodecap_spec (g : Graph) (need : Nat) (hc : 0 < g.global_node_cap) :
    (graph_ensure_nodecap g need).V = g.V ∧
    (graph_ensure_nodecap g need).edge_count = g.edge_count ∧
    (graph_ensure_nodecap g need).edges = g.edges ∧
    (graph_ensure_nodecap g need).idmap = g.idmap ∧
    need ≤ (graph_ensure_nodecap g need).global_node_cap ∧
    0 < (graph_ensure_nodecap g need).global_node_cap ∧
    ∀ j, j < g.global_node_cap → SameNode g (graph_ensure_nodecap g need) j := by
  unfold graph_ensure_nodecap
  by_cases h : need ≤ g.global_node_cap
  · rw [if_pos h]
    exact ⟨rfl, rfl, rfl, rfl, h, hc, fun _ _ => ⟨rfl, rfl, rfl, rfl, rfl, rfl⟩⟩
  · rw [if_neg h]
    obtain ⟨f1, f2, f3, _⟩ := init_slots_frame
      (List.range' g.global_node_cap (grow_cap need g.global_node_cap need - g.global_node_cap)) g
    obtain ⟨s1, _, s3⟩ := init_slots_same
      (List.range' g.global_node_cap (grow_cap need g.global_node_cap need - g.global_node_cap)) g
    have hpow : need ≤ g.global_node_cap * 2 ^ need := by
      have h1 : need < 2 ^ need := Nat.lt_two_pow need
      have h2 : 2 ^ need ≤ g.global_node_cap * 2 ^ need := Nat.le_mul_of_pos_left _ hc
      omega
    obtain ⟨g1, g2⟩ := grow_cap_ge need g.global_node_cap need hc hpow
    refine ⟨f1, f2, f3, s1, g1, lt_of_lt_of_le hc g2, ?_⟩
    intro j hj
    have hjl : j ∉ List.range' g.global_node_cap
        (grow_cap need g.global_node_cap need - g.global_node_cap) := by
      rw [List.mem_range']
      rintro ⟨i, _, hi⟩
      omega
    exact s3 j hjl

/-- What `graph_add_node` does, whatever the identifier: it appends. -/
theorem add_node_spec (g : Graph) (e : Int) (lat lon : ℚ) (name type : Option String)
    (hok : StoreOK g) :
    (graph_add_node g e lat lon name type).1 = g.V ∧
    (graph_add_node g e lat lon name type).2.V = g.V + 1 ∧
    (graph_add_node g e lat lon name type).2.edge_count = g.edge_count ∧
    (graph_add_node g e lat lon name type).2.edges = g.edges ∧
    (graph_add_node g e lat lon name type).2.idmap = llmap_put g.idmap e g.V ∧
    ((graph_add_node g e lat lon name type).2.ext_id g.V = e ∧
      (graph_add_node g e lat lon name type).2.lat g.V = lat ∧
      (graph_add_node g e lat lon name type).2.lon g.V = lon ∧
      (graph_add_node g e lat lon name type).2.name g.V = dup_nonempty name ∧
      (graph_add_node g e lat lon name type).2.type g.V = dup_nonempty type ∧
      (graph_add_node g e lat lon name type).2.head g.V = -1) ∧
    (∀ j, j < g.V → SameNode g (graph_add_node g e lat lon name type).2 j) ∧
    StoreOK (graph_add_node g e lat lon name type).2 := by
  obtain ⟨hc, hv, hm⟩ := hok
  obtain ⟨e1, e2, e3, e4, e5, e6, e7⟩ :=
    ensure_nodecap_spec { g with V := g.V + 1 } (g.V + 1) hc
  unfold graph_add_node
  dsimp only
  refine ⟨rfl, e1, e2, e3, congrArg (fun m => llmap_put m e g.V) e4,
    ⟨Function.update_same _ _ _, Function.update_same _ _ _, Function.update_same _ _ _,
      Function.update_same _ _ _, Function.update_same _ _ _, Function.update_same _ _ _⟩,
    ?_, ?_⟩
  · intro j hj
    have hne : j ≠ g.V := by omega
    obtain ⟨a1, a2, a3, a4, a5, a6⟩ := e7 j (by show j < g.global_node_cap; omega)
    unfold SameNode
    simp only [Function.update_noteq hne]
    exact ⟨a1, a2, a3, a4, a5, a6⟩
  · refine ⟨e6, ?_, ?_⟩
    · show (graph_ensure_nodecap { g with V := g.V + 1 } (g.V + 1)).V ≤ _
      rw [e1]
      exact e5
    · show MapOK (llmap_put (graph_ensure_nodecap { g with V := g.V + 1 } (g.V + 1)).idmap e g.V)
      rw [e4]
      exact (put_holds g.idmap hm e g.V).1

/-- The store made by `graph_create` with room for one node at least
satisfies the invariant. -/
theorem graph_create_ok (node_cap : Nat) (h : 0 < node_cap) : StoreOK (graph_create node_cap) :=
  ⟨h, Nat.zero_le _, (create_ok (node_cap * 2 + 16) (by omega)).1⟩

theorem graph_add_edge_ok (g : Graph) (u v : Nat) (w : ℚ) (hok : StoreOK g) :
    StoreOK (graph_add_edge g u v w) := hok

/-- C13 (amended). When the identifier `e` is already mapped to node `i`,
`graph_add_node` with `e` still appends: it returns the old node count, which
is not `i`, the node count grows by one, the new node carries the given
attributes, every earlier node (node `i` included) keeps its attributes and
edges, and `e` is now mapped to the new node while every other identifier
keeps its index.  `add_node` of main.c appends in the same way whenever the
store is not full. -/
theorem add_node_appends (g : Graph) (e : Int) (lat lon : ℚ) (name type : Option String)
    (i : Nat) (hok : StoreOK g) (hi : i < g.V) (hmap : llmap_find g.idmap e = (i : Int)) :
    ((graph_add_node g e lat lon name type).1 = g.V ∧
      (graph_add_node g e lat lon name type).1 ≠ i ∧
      (graph_add_node g e lat lon name type).2.V = g.V + 1) ∧
    ((graph_add_node g e lat lon name type).2.ext_id g.V = e ∧
      (graph_add_node g e lat lon name type).2.lat g.V = lat ∧
      (graph_add_node g e lat lon name type).2.lon g.V = lon ∧
      (graph_add_node g e lat lon name type).2.name g.V = dup_nonempty name ∧
      (graph_add_node g e lat lon name type).2.type g.V = dup_nonempty type) ∧
    (∀ j, j < g.V → SameNode g (graph_add_node g e lat lon name type).2 j) ∧
    (llmap_find (graph_add_node g e lat lon name type).2.idmap e = (g.V : Int) ∧
      llmap_find (graph_add_node g e lat lon name type).2.idmap e ≠ llmap_find g.idmap e) ∧
    (∀ e', e' ≠ e →
      llmap_find (graph_add_node g e lat lon name type).2.idmap e' = llmap_find g.idmap e') ∧
    StoreOK (graph_add_node g e lat lon name type).2 ∧
    (∀ (G : MainC.Graph) (ext : Int) (nm ty : String) (la lo : ℚ), G.V < MainC.MAX_NODES →
      (MainC.add_node G ext nm ty la lo).1 = (G.V : Int) ∧
      (MainC.add_node G ext nm ty la lo).2.V = G.V + 1 ∧
      ((MainC.add_node G ext nm ty la lo).2.nodes G.V).ext_id = ext ∧
      ∀ j, j < G.V → (MainC.add_node G ext nm ty la lo).2.nodes j = G.nodes j) := by
  obtain ⟨s1, s2, _, _, s5, ⟨a1, a2, a3, a4, a5, _⟩, s7, s8⟩ :=
    add_node_spec g e lat lon name type hok
  have hfind : llmap_find (graph_add_node g e lat lon name type).2.idmap e = (g.V : Int) := by
    rw [s5]
    exact find_put_same g.idmap hok.2.2 e g.V
  refine ⟨⟨s1, by rw [s1]; omega, s2⟩, ⟨a1, a2, a3, a4, a5⟩, s7, ⟨hfind, ?_⟩, ?_, s8, ?_⟩
  · rw [hfind, hmap]
    omega
  · intro e' he'
    rw [s5]
    exact find_put_other g.idmap hok.2.2 e g.V e' he'
  · intro G ext nm ty la lo hV
    unfold MainC.add_node
    rw [if_neg (by omega)]
    refine ⟨rfl, rfl, ?_, ?_⟩
    · simp only [Function.update_same]
    · intro j hj
      have hne : j ≠ G.V := by omega
      simp only [Function.update_noteq hne]

theorem add_node_appends_witness :
    StoreOK (graph_add_node (graph_create 4096) 10 0 0 (some "A") none).2 ∧
    llmap_find (graph_add_node (graph_create 4096) 10 0 0 (some "A") none).2.idmap 10 =
      ((0 : Nat) : Int) ∧
    (graph_add_node (graph_add_node (graph_create 4096) 10 0 0 (some "A") none).2
      10 1 1 (some "B") none).1 = 1 ∧
    llmap_find (graph_add_node (graph_add_node (graph_create 4096) 10 0 0 (some "A") none).2
      10 1 1 (some "B") none).2.idmap 10 = 1 :=
  ⟨(add_node_spec (graph_create 4096) 10 0 0 (some "A") none
      (graph_create_ok 4096 (by decide))).2.2.2.2.2.2.2,
    by decide!,
    (add_node_appends (graph_add_node (graph_create 4096) 10 0 0 (some "A") none).2
      10 1 1 (some "B") none 0
      (add_node_spec (graph_create 4096) 10 0 0 (some "A") none
        (graph_create_ok 4096 (by decide))).2.2.2.2.2.2.2
      (by decide!) (by decide!)).1.1,
    (add_node_appends (graph_add_node (graph_create 4096) 10 0 0 (some "A") none).2
      10 1 1 (some "B") none 0
      (add_node_spec (graph_create 4096) 10 0 0 (some "A") none
        (graph_create_ok 4096 (by decide))).2.2.2.2.2.2.2
      (by decide!) (by decide!)).2.2.2.1.1⟩

/-- Counterexample to C13 as stated: in the store holding the one node `A` with identifier
10 at index 0, `graph_add_node` with identifier 10 again returns 1, makes the node count 2,
leaves the name of node 0 as it was and maps 10 to the second node. -/
theorem add_node_twice :
    llmap_find (graph_add_node (graph_create 4096) 10 0 0 (some "A") none).2.idmap 10 = 0 ∧
    (graph_add_node (graph_create 4096) 10 0 0 (some "A") none).2.V = 1 ∧
    (graph_add_node (graph_add_node (graph_create 4096) 10 0 0 (some "A") none).2
      10 1 1 (some "B") none).1 = 1 ∧
    (graph_add_node (graph_add_node (graph_create 4096) 10 0 0 (some "A") none).2
      10 1 1 (some "B") none).2.V = 2 ∧
    (graph_add_node (graph_add_node (graph_create 4096) 10 0 0 (some "A") none).2
      10 1 1 (some "B") none).2.name 0 = some "A" ∧
    (graph_add_node (graph_add_node (graph_create 4096) 10 0 0 (some "A") none).2
      10 1 1 (some "B") none).2.name 1 = some "B" ∧
    llmap_find (graph_add_node (graph_add_node (graph_create 4096) 10 0 0 (some "A") none).2
      10 1 1 (some "B") none).2.idmap 10 = 1 := by
  decide!

/-- C14. On a store that satisfies its invariant, `graph_get_or_create(g, e)`
returns the mapped index and leaves the graph as it is when `e` is mapped;
otherwise it returns the old node count, the node count grows by one, the
new node has identifier `e`, no name, no type, coordinates 0 and no outgoing
edge, the edges and the earlier nodes are as before and `e` is mapped to the
new node; a second call with `e` returns the same index and leaves the graph
of the first call as it is. -/
theorem get_or_create_spec (g : Graph) (e : Int) (hok : StoreOK g) :
    (llmap_find g.idmap e ≠ -1 → graph_get_or_create g e = (llmap_find g.idmap e, g)) ∧
    (llmap_find g.idmap e = -1 →
      (graph_get_or_create g e).1 = (g.V : Int) ∧
      (graph_get_or_create g e).2.V = g.V + 1 ∧
      ((graph_get_or_create g e).2.ext_id g.V = e ∧
        (graph_get_or_create g e).2.name g.V = none ∧
        (graph_get_or_create g e).2.type g.V = none ∧
        (graph_get_or_create g e).2.lat g.V = 0 ∧
        (graph_get_or_create g e).2.lon g.V = 0 ∧
        out_edges (graph_get_or_create g e).2 g.V = []) ∧
      (graph_get_or_create g e).2.edge_count = g.edge_count ∧
      (graph_get_or_create g e).2.edges = g.edges ∧
      (∀ j, j < g.V → SameNode g (graph_get_or_create g e).2 j) ∧
      llmap_find (graph_get_or_create g e).2.idmap e = (g.V : Int)) ∧
    graph_get_or_create (graph_get_or_create g e).2 e =
      ((graph_get_or_create g e).1, (graph_get_or_create g e).2) ∧
    StoreOK (graph_get_or_create g e).2 := by
  obtain ⟨s1, s2, s3, s4, s5, ⟨a1, a2, a3, a4, a5, a6⟩, s7, s8⟩ :=
    add_node_spec g e 0 0 none none hok
  have hfind : llmap_find (graph_add_node g e 0 0 none none).2.idmap e = (g.V : Int) := by
    rw [s5]
    exact find_put_same g.idmap hok.2.2 e g.V
  by_cases hm : llmap_find g.idmap e ≠ -1
  · have hr : graph_get_or_create g e = (llmap_find g.idmap e, g) := by
      unfold graph_get_or_create
      rw [if_pos hm]
    refine ⟨fun _ => hr, fun h => absurd h hm, ?_, by rw [hr]; exact hok⟩
    rw [hr]
    exact hr
  · have hr : graph_get_or_create g e =
        (((graph_add_node g e 0 0 none none).1 : Int), (graph_add_node g e 0 0 none none).2) := by
      unfold graph_get_or_create
      rw [if_neg hm]
    have hne : llmap_find (graph_add_node g e 0 0 none none).2.idmap e ≠ -1 := by
      rw [hfind]
      omega
    refine ⟨fun h => absurd h hm, fun _ => ?_, ?_, by rw [hr]; exact s8⟩
    · rw [hr]
      refine ⟨by rw [s1], s2, ⟨a1, a4, a5, a2, a3, ?_⟩, s3, s4, s7, hfind⟩
      unfold out_edges
      show chain _ _ ((graph_add_node g e 0 0 none none).2.head g.V) = []
      rw [a6]
      unfold chain
      split
      · rfl
      · rw [if_pos rfl]
    · rw [hr]
      show graph_get_or_create (graph_add_node g e 0 0 none none).2 e = _
      unfold graph_get_or_create
      rw [if_pos hne, hfind, s1]

theorem get_or_create_spec_witness :
    StoreOK (graph_create 4096) ∧
    llmap_find (graph_create 4096).idmap 7 = -1 ∧
    (graph_get_or_create (graph_create 4096) 7).1 = 0 ∧
    graph_get_or_create (graph_get_or_create (graph_create 4096) 7).2 7 =
      ((graph_get_or_create (graph_create 4096) 7).1,
        (graph_get_or_create (graph_create 4096) 7).2) :=
  ⟨graph_create_ok 4096 (by decide), by decide!, by decide!,
    (get_or_create_spec (graph_create 4096) 7 (graph_create_ok 4096 (by decide))).2.2.1⟩

end GraphC

namespace GraphC

/-! ### graph.c: the loader step and the stability of node indices -/

/-- C24. When the identifier of a parsed record is already mapped to node `i`,
the loader step of `load_nodes` writes the record's coordinates, name and
type to node `i` (an empty name or type becoming unset) and leaves the node
count, the identifier map (so the index mapped to the identifier), the
identifier of node `i`, every other node and all edges as they were. -/
theorem load_nodes_upsert (g : Graph) (ext : Int) (lat lon : ℚ) (namebuf typebuf : String)
    (i : Nat) (hmap : llmap_find g.idmap ext = (i : Int)) :
    ((load_nodes_record g ext lat lon namebuf typebuf).lat i = lat ∧
      (load_nodes_record g ext lat lon namebuf typebuf).lon i = lon ∧
      (namebuf.data ≠ [] → (load_nodes_record g ext lat lon namebuf typebuf).name i = some namebuf) ∧
      (namebuf.data = [] → (load_nodes_record g ext lat lon namebuf typebuf).name i = none) ∧
      (typebuf.data ≠ [] → (load_nodes_record g ext lat lon namebuf typebuf).type i = some typebuf) ∧
      (typebuf.data = [] → (load_nodes_record g ext lat lon namebuf typebuf).type i = none)) ∧
    ((load_nodes_record g ext lat lon namebuf typebuf).V = g.V ∧
      (load_nodes_record g ext lat lon namebuf typebuf).idmap = g.idmap ∧
      llmap_find (load_nodes_record g ext lat lon namebuf typebuf).idmap ext = (i : Int) ∧
      (load_nodes_record g ext lat lon namebuf typebuf).ext_id = g.ext_id) ∧
    (∀ j, j ≠ i → SameNode g (load_nodes_record g ext lat lon namebuf typebuf) j) ∧
    ((load_nodes_record g ext lat lon namebuf typebuf).head = g.head ∧
      (load_nodes_record g ext lat lon namebuf typebuf).edges = g.edges ∧
      (load_nodes_record g ext lat lon namebuf typebuf).edge_count = g.edge_count) := by
  have hne : llmap_find g.idmap ext ≠ -1 := by rw [hmap]; omega
  have hr : load_nodes_record g ext lat lon namebuf typebuf =
      { g with
        lat := Function.update g.lat i lat
        lon := Function.update g.lon i lon
        name := Function.update g.name i (if namebuf.data.length ≠ 0 then some namebuf else none)
        type := Function.update g.type i (if typebuf.data.length ≠ 0 then some typebuf else none) } := by
    unfold load_nodes_record
    rw [if_neg hne, hmap, Int.toNat_ofNat]
  rw [hr]
  refine ⟨⟨Function.update_same _ _ _, Function.update_same _ _ _, ?_, ?_, ?_, ?_⟩,
    ⟨rfl, rfl, hmap, rfl⟩, ?_, ⟨rfl, rfl, rfl⟩⟩
  · intro h
    show Function.update g.name i _ i = _
    rw [Function.update_same, if_pos (fun h0 => h (List.length_eq_zero.mp h0))]
  · intro h
    show Function.update g.name i _ i = _
    rw [Function.update_same, if_neg (fun h0 => h0 (by rw [h]; rfl))]
  · intro h
    show Function.update g.type i _ i = _
    rw [Function.update_same, if_pos (fun h0 => h (List.length_eq_zero.mp h0))]
  · intro h
    show Function.update g.type i _ i = _
    rw [Function.update_same, if_neg (fun h0 => h0 (by rw [h]; rfl))]
  · intro j hj
    exact ⟨rfl, Function.update_noteq hj _ _, Function.update_noteq hj _ _,
      Function.update_noteq hj _ _, Function.update_noteq hj _ _, rfl⟩

theorem load_nodes_upsert_witness :
    llmap_find (graph_add_node (graph_create 4096) 10 0 0 (some "A") none).2.idmap 10 =
      ((0 : Nat) : Int) ∧
    (load_nodes_record (graph_add_node (graph_create 4096) 10 0 0 (some "A") none).2
      10 1 2 "B" "").name 0 = some "B" ∧
    (load_nodes_record (graph_add_node (graph_create 4096) 10 0 0 (some "A") none).2
      10 1 2 "B" "").V = 1 :=
  ⟨by decide!,
    (load_nodes_upsert (graph_add_node (graph_create 4096) 10 0 0 (some "A") none).2
      10 1 2 "B" "" 0 (by decide!)).1.2.2.1 (by decide),
    (load_nodes_upsert (graph_add_node (graph_create 4096) 10 0 0 (some "A") none).2
      10 1 2 "B" "" 0 (by decide!)).2.1.1⟩

/-- Under the invariant, `llmap_find` returns the index of the node that
carries the identifier, or `-1` when no node carries it. -/
theorem idsOK_find (g : Graph) (h : IdsOK g) (e : Int) :
    (llmap_find g.idmap e = -1 ∧ Absent g.idmap e) ∨
    ∃ i, i < g.V ∧ llmap_find g.idmap e = (i : Int) ∧ g.ext_id i = e ∧ Holds g.idmap e i := by
  rcases holds_or_absent g.idmap e with ⟨v, hv⟩ | ha
  · right
    obtain ⟨i, hi, hvi, hei⟩ := (h.2 e v).mp hv
    rw [hvi] at hv
    exact ⟨i, hi, find_holds g.idmap h.1.2.2.1 e i hv, hei, hv⟩
  · left
    exact ⟨find_absent g.idmap h.1.2.2.1 e ha, ha⟩

theorem idsOK_create (node_cap : Nat) (h : 0 < node_cap) : IdsOK (graph_create node_cap) := by
  refine ⟨graph_create_ok node_cap h, ?_⟩
  intro k v
  constructor
  · rintro ⟨j, hj, hu, hk, _⟩
    exact absurd hk ((create_ok (node_cap * 2 + 16) (by omega)).2 k j hj hu)
  · rintro ⟨i, hi, _⟩
    exact absurd hi (Nat.not_lt_zero i)

theorem idsOK_get (g : Graph) (e : Int) (h : IdsOK g) : IdsOK (graph_get_or_create g e).2 := by
  obtain ⟨c1, c2, _, c4⟩ := get_or_create_spec g e h.1
  rcases idsOK_find g h e with ⟨hm, ha⟩ | ⟨i, _, hfi, _, _⟩
  · obtain ⟨_, s2, _, _, s5, ⟨a1, _⟩, s7, _⟩ := add_node_spec g e 0 0 none none h.1
    have hr : graph_get_or_create g e =
        (((graph_add_node g e 0 0 none none).1 : Int), (graph_add_node g e 0 0 none none).2) := by
      unfold graph_get_or_create
      rw [if_neg (by rw [hm]; exact fun h' => h' rfl)]
    refine ⟨c4, ?_⟩
    rw [hr]
    show ∀ k v, Holds (graph_add_node g e 0 0 none none).2.idmap k v ↔
      ∃ i, i < (graph_add_node g e 0 0 none none).2.V ∧ v = (i : Int) ∧
        (graph_add_node g e 0 0 none none).2.ext_id i = k
    intro k v
    rw [s5, (put_holds g.idmap h.1.2.2 e g.V).2.1 k v, s2]
    constructor
    · rintro (⟨h1, h2⟩ | ⟨_, h2⟩)
      · exact ⟨g.V, by omega, h2, by rw [a1, h1]⟩
      · obtain ⟨i, hi, hv, hk⟩ := (h.2 k v).mp h2
        exact ⟨i, by omega, hv, by rw [(s7 i hi).1, hk]⟩
    · rintro ⟨i, hi, hv, hk⟩
      rcases Nat.lt_succ_iff_lt_or_eq.mp hi with hi | hi
      · rw [(s7 i hi).1] at hk
        right
        refine ⟨?_, (h.2 k v).mpr ⟨i, hi, hv, hk⟩⟩
        intro hke
        obtain ⟨j, hj, hu, hkj, _⟩ := (h.2 k v).mpr ⟨i, hi, hv, hk⟩
        exact ha j hj hu (by rw [hkj, hke])
      · left
        rw [hi, a1] at hk
        rw [hi] at hv
        exact ⟨hk.symm, hv⟩
  · have hne : llmap_find g.idmap e ≠ -1 := by rw [hfi]; omega
    rw [c1 hne]
    exact h

theorem idsOK_edge (g : Graph) (u v : Nat) (w : ℚ) (h : IdsOK g) :
    IdsOK (graph_add_edge g u v w) := h

theorem reach_idsOK (g : Graph) (h : Reach g) : IdsOK g := by
  induction h with
  | create node_cap hc => exact idsOK_create node_cap hc
  | get g e _ ih => exact idsOK_get g e ih
  | edge g u v w _ ih => exact idsOK_edge g u v w ih

/-- Later stores keep the nodes and their identifiers. -/
theorem later_keeps (g g' : Graph) (h : IdsOK g) (hl : Later g g') :
    IdsOK g' ∧ g.V ≤ g'.V ∧ ∀ i, i < g.V → g'.ext_id i = g.ext_id i := by
  induction hl with
  | refl => exact ⟨h, le_refl _, fun _ _ => rfl⟩
  | get g1 e _ ih =>
    obtain ⟨i1, i2, i3⟩ := ih
    refine ⟨idsOK_get g1 e i1, ?_, ?_⟩
    · obtain ⟨c1, c2, _, _⟩ := get_or_create_spec g1 e i1.1
      by_cases hm : llmap_find g1.idmap e = -1
      · rw [(c2 hm).2.1]; omega
      · rw [c1 hm]; exact i2
    · intro i hi
      obtain ⟨c1, c2, _, _⟩ := get_or_create_spec g1 e i1.1
      by_cases hm : llmap_find g1.idmap e = -1
      · rw [((c2 hm).2.2.2.2.2.1 i (by omega)).1]
        exact i3 i hi
      · rw [c1 hm]; exact i3 i hi
  | edge g1 u v w _ ih =>
    obtain ⟨i1, i2, i3⟩ := ih
    exact ⟨idsOK_edge g1 u v w i1, i2, i3⟩

/-- C25. In every store reached from `graph_create` by calls of
`graph_get_or_create` and `graph_add_edge`: the identifier of node `i < V` is
mapped to `i`; the identifiers of the nodes are pairwise distinct; every
identifier is unmapped or mapped to the node below `V` that carries it;
`graph_get_or_create` returns the index of a node that carries the
identifier; and an identifier mapped to an index stays mapped to that index,
and is answered with it, in every later store. -/
theorem index_stable (g : Graph) (h : Reach g) :
    (∀ i, i < g.V → llmap_find g.idmap (g.ext_id i) = (i : Int)) ∧
    (∀ i j, i < g.V → j < g.V → g.ext_id i = g.ext_id j → i = j) ∧
    (∀ e, llmap_find g.idmap e = -1 ∨
      ∃ i, i < g.V ∧ llmap_find g.idmap e = (i : Int) ∧ g.ext_id i = e) ∧
    (∀ e, ∃ i : Nat, (graph_get_or_create g e).1 = (i : Int) ∧ i < (graph_get_or_create g e).2.V ∧
      (graph_get_or_create g e).2.ext_id i = e) ∧
    (∀ g', Later g g' → ∀ e, llmap_find g.idmap e ≠ -1 →
      llmap_find g'.idmap e = llmap_find g.idmap e ∧
      (graph_get_or_create g' e).1 = llmap_find g.idmap e) := by
  have hok := reach_idsOK g h
  have hfind : ∀ (g0 : Graph), IdsOK g0 → ∀ i, i < g0.V →
      llmap_find g0.idmap (g0.ext_id i) = (i : Int) := by
    intro g0 h0 i hi
    exact find_holds g0.idmap h0.1.2.2.1 _ _ ((h0.2 _ _).mpr ⟨i, hi, rfl, rfl⟩)
  refine ⟨hfind g hok, ?_, ?_, ?_, ?_⟩
  · intro i j hi hj hij
    have h1 := hfind g hok i hi
    have h2 := hfind g hok j hj
    rw [hij, h2] at h1
    omega
  · intro e
    rcases idsOK_find g hok e with ⟨hm, _⟩ | ⟨i, hi, hfi, hei, _⟩
    · left; exact hm
    · right; exact ⟨i, hi, hfi, hei⟩
  · intro e
    obtain ⟨c1, c2, _, _⟩ := get_or_create_spec g e hok.1
    rcases idsOK_find g hok e with ⟨hm, _⟩ | ⟨i, hi, hfi, hei, _⟩
    · obtain ⟨d1, d2, ⟨d3, _⟩, _⟩ := c2 hm
      exact ⟨g.V, d1, by rw [d2]; omega, d3⟩
    · have hne : llmap_find g.idmap e ≠ -1 := by rw [hfi]; omega
      rw [c1 hne]
      exact ⟨i, hfi, hi, hei⟩
  · intro g' hl e hne
    obtain ⟨l1, l2, l3⟩ := later_keeps g g' hok hl
    rcases idsOK_find g hok e with ⟨hm, _⟩ | ⟨i, hi, hfi, hei, _⟩
    · exact absurd hm hne
    · have hf' : llmap_find g'.idmap e = (i : Int) := by
        have := hfind g' l1 i (by omega)
        rw [l3 i hi, hei] at this
        exact this
      refine ⟨by rw [hf', hfi], ?_⟩
      have hne' : llmap_find g'.idmap e ≠ -1 := by rw [hf']; omega
      rw [(get_or_create_spec g' e l1.1).1 hne', hf', hfi]

theorem index_stable_witness :
    Reach (graph_get_or_create (graph_create 4096) 7).2 ∧
    llmap_find (graph_get_or_create (graph_create 4096) 7).2.idmap
      ((graph_get_or_create (graph_create 4096) 7).2.ext_id 0) = ((0 : Nat) : Int) :=
  ⟨Reach.get _ 7 (Reach.create 4096 (by decide)),
    (index_stable (graph_get_or_create (graph_create 4096) 7).2
      (Reach.get _ 7 (Reach.create 4096 (by decide)))).1 0 (by decide!)⟩

end GraphC

namespace GraphC

/-! ### graph.c: generic-type queries -/

theorem take_eq_iff_starts (p low : List Char) : low.take p.length = p ↔ p <+: low := by
  rw [List.prefix_iff_eq_take]
  exact eq_comm

/-- What `parse_low` returns is a keyword type of the query or the first
type occurring in a query with a generic beginning. -/
theorem parse_low_sound (low : List Char) (T : String) (h : parse_low low = some T) :
    KeywordOf T low ∨ (GenericPrefix low ∧ FirstOccurring T low) := by
  have hany : low.take 4 = "any ".data ↔ "any ".data <+: low := take_eq_iff_starts "any ".data low
  have hfrom : low.take 9 = "from any ".data ↔ "from any ".data <+: low :=
    take_eq_iff_starts "from any ".data low
  have hfa : ∀ T, parse_from_any low = some T → GenericPrefix low ∧ FirstOccurring T low := by
    intro T h
    unfold parse_from_any at h
    split_ifs at h with c1 c2 c3 c4
    · cases h
      exact ⟨Or.inr (hfrom.mp c1), Or.inl ⟨rfl, (CStr.strstr_iff _ _).mp c2⟩⟩
    · cases h
      exact ⟨Or.inr (hfrom.mp c1), Or.inr (Or.inl ⟨rfl,
        fun h' => c2 ((CStr.strstr_iff _ _).mpr h'), (CStr.strstr_iff _ _).mp c3⟩)⟩
    · cases h
      exact ⟨Or.inr (hfrom.mp c1), Or.inr (Or.inr ⟨rfl,
        fun h' => c2 ((CStr.strstr_iff _ _).mpr h'), fun h' => c3 ((CStr.strstr_iff _ _).mpr h'),
        (CStr.strstr_iff _ _).mp c4⟩)⟩
  unfold parse_low at h
  split_ifs at h with k1 k2 k3 c1 c2 c3 c4
  · cases h; exact Or.inl (Or.inl ⟨rfl, k1⟩)
  · cases h; exact Or.inl (Or.inr (Or.inl ⟨rfl, k2⟩))
  · cases h; exact Or.inl (Or.inr (Or.inr ⟨rfl, k3⟩))
  · cases h
    exact Or.inr ⟨Or.inl (hany.mp c1), Or.inl ⟨rfl, (CStr.strstr_iff _ _).mp c2⟩⟩
  · cases h
    exact Or.inr ⟨Or.inl (hany.mp c1), Or.inr (Or.inl ⟨rfl,
      fun h' => c2 ((CStr.strstr_iff _ _).mpr h'), (CStr.strstr_iff _ _).mp c3⟩)⟩
  · cases h
    exact Or.inr ⟨Or.inl (hany.mp c1), Or.inr (Or.inr ⟨rfl,
      fun h' => c2 ((CStr.strstr_iff _ _).mpr h'), fun h' => c3 ((CStr.strstr_iff _ _).mpr h'),
      (CStr.strstr_iff _ _).mp c4⟩)⟩
  · exact Or.inr (hfa T h)
  · exact Or.inr (hfa T h)

/-- A query with a keyword type, or with a generic beginning and an occurring
type, makes `parse_low` return some type. -/
theorem parse_low_defined (low : List Char) (T : String)
    (h : KeywordOf T low ∨ (GenericPrefix low ∧ FirstOccurring T low)) :
    ∃ T', parse_low low = some T' := by
  have hany : low.take 4 = "any ".data ↔ "any ".data <+: low := take_eq_iff_starts "any ".data low
  have hfrom : low.take 9 = "from any ".data ↔ "from any ".data <+: low :=
    take_eq_iff_starts "from any ".data low
  have hocc : FirstOccurring T low → CStr.strstr low "hospital".data = true ∨
      CStr.strstr low "fire".data = true ∨ CStr.strstr low "police".data = true := by
    rintro (⟨_, h1⟩ | ⟨_, _, h1⟩ | ⟨_, _, _, h1⟩)
    · exact Or.inl ((CStr.strstr_iff _ _).mpr h1)
    · exact Or.inr (Or.inl ((CStr.strstr_iff _ _).mpr h1))
    · exact Or.inr (Or.inr ((CStr.strstr_iff _ _).mpr h1))
  have hfa : "from any ".data <+: low → FirstOccurring T low →
      ∃ T', parse_from_any low = some T' := by
    intro hp ho
    unfold parse_from_any
    rw [if_pos (hfrom.mpr hp)]
    split_ifs with c2 c3 c4
    · exact ⟨_, rfl⟩
    · exact ⟨_, rfl⟩
    · exact ⟨_, rfl⟩
    · rcases hocc ho with h1 | h1 | h1
      · exact absurd h1 c2
      · exact absurd h1 c3
      · exact absurd h1 c4
  unfold parse_low
  split_ifs with k1 k2 k3 c1 c2 c3 c4
  · exact ⟨_, rfl⟩
  · exact ⟨_, rfl⟩
  · exact ⟨_, rfl⟩
  · exact ⟨_, rfl⟩
  · exact ⟨_, rfl⟩
  · exact ⟨_, rfl⟩
  · rcases h with (⟨_, hk⟩ | ⟨_, hk⟩ | ⟨_, hk⟩) | ⟨hp, ho⟩
    · exact absurd hk k1
    · exact absurd hk k2
    · exact absurd hk k3
    · rcases hocc ho with h1 | h1 | h1
      · exact absurd h1 c2
      · exact absurd h1 c3
      · exact absurd h1 c4
  · rcases h with (⟨_, hk⟩ | ⟨_, hk⟩ | ⟨_, hk⟩) | ⟨hp, ho⟩
    · exact absurd hk k1
    · exact absurd hk k2
    · exact absurd hk k3
    · rcases hp with hp | hp
      · exact absurd (hany.mpr hp) c1
      · exact hfa hp ho

/-- The first occurring type is determined by the query. -/
theorem firstOccurring_unique (low : List Char) (T T' : String) (h : FirstOccurring T low)
    (h' : FirstOccurring T' low) : T = T' := by
  rcases h with ⟨rfl, a1⟩ | ⟨rfl, a1, a2⟩ | ⟨rfl, a1, a2, a3⟩ <;>
    rcases h' with ⟨rfl, b1⟩ | ⟨rfl, b1, b2⟩ | ⟨rfl, b1, b2, b3⟩ <;>
    first | rfl | exact absurd b1 a1 | exact absurd a1 b1 | exact absurd b2 a2 | exact absurd a2 b2

/-- The keyword type is determined by the query. -/
theorem keywordOf_unique (low : List Char) (T T' : String) (h : KeywordOf T low)
    (h' : KeywordOf T' low) : T = T' := by
  rcases h with ⟨rfl, a⟩ | ⟨rfl, a⟩ | ⟨rfl, a⟩ <;>
    rcases h' with ⟨rfl, b⟩ | ⟨rfl, b⟩ | ⟨rfl, b⟩ <;>
    first
    | rfl
    | (exfalso
       rcases a with a | a | a | a | a | a <;> subst a <;> revert b <;> decide)
    | (exfalso
       rcases a with a | a | a | a <;> subst a <;> revert b <;> decide)
    | (exfalso
       rcases a with a | a | a <;> subst a <;> revert b <;> decide)

/-- A keyword with a generic beginning names the first type occurring in it. -/
theorem keyword_generic_agree (low : List Char) (T T' : String) (h : KeywordOf T low)
    (hp : GenericPrefix low) (h' : FirstOccurring T' low) : T = T' := by
  have key : FirstOccurring T low := by
    rcases h with ⟨rfl, a⟩ | ⟨rfl, a⟩ | ⟨rfl, a⟩
    · rcases a with a | a | a <;> subst a <;> revert hp <;> unfold GenericPrefix FirstOccurring <;>
        decide
    · rcases a with a | a | a | a | a | a <;> subst a <;> revert hp <;>
        unfold GenericPrefix FirstOccurring <;> decide
    · rcases a with a | a | a | a <;> subst a <;> revert hp <;>
        unfold GenericPrefix FirstOccurring <;> decide
  exact firstOccurring_unique low T T' key h'

/-- C26. The function `parse_any_keyword_strict` copies its argument into
`char low[256]` without a bound.  For every query of at most 255 characters
it reads the argument through the lower-cased copy only and returns 1 with
type `T` exactly when the lower-cased query is one of the fixed keywords of
`T`, or begins with `any ` or `from any ` and `T` is the first of hospital,
fire, police occurring in it; otherwise it returns 0, as for the name
`City Hospital`.  On the query `longQuery` of 300 characters, which begins
with `any ` and contains `hospital`, the copy overruns `low`. -/
theorem parse_generic_overrun :
    (∀ (s : String), s.data.length < 256 →
      ∃ r, parse_any_keyword_strict s = some r ∧
        ∀ T : String, r = some T ↔
          KeywordOf T (CStr.lower s.data) ∨
            (GenericPrefix (CStr.lower s.data) ∧ FirstOccurring T (CStr.lower s.data))) ∧
    (∀ s s' : String, s.data.length < 256 → s'.data.length < 256 →
      CStr.lower s.data = CStr.lower s'.data →
      parse_any_keyword_strict s = parse_any_keyword_strict s') ∧
    parse_any_keyword_strict "City Hospital" = some none ∧
    parse_any_keyword_strict "Any Hospital" = some (some "hospital") ∧
    parse_any_keyword_strict "from any FIRE station" = some (some "fire") ∧
    parse_any_keyword_strict "any police or hospital" = some (some "hospital") ∧
    longQuery.data.length = 300 ∧
    GenericPrefix (CStr.lower longQuery.data) ∧
    FirstOccurring "hospital" (CStr.lower longQuery.data) ∧
    parse_any_keyword_strict longQuery = none := by
  have hfit : ∀ s : String, s.data.length < 256 →
      parse_any_keyword_strict s = some (parse_low (CStr.lower s.data)) := by
    intro s hs
    unfold parse_any_keyword_strict str_to_lower_into
    rw [if_pos hs]
    rfl
  refine ⟨?_, ?_, by decide, by decide, by decide, by decide, by decide!, ?_, ?_, by decide!⟩
  · intro s hs
    refine ⟨_, hfit s hs, ?_⟩
    intro T
    constructor
    · exact parse_low_sound _ T
    · intro h
      obtain ⟨T', hT'⟩ := parse_low_defined _ T h
      have h' := parse_low_sound _ T' hT'
      have : T = T' := by
        rcases h with h | ⟨hp, h⟩
        · rcases h' with h' | ⟨hp', h'⟩
          · exact keywordOf_unique _ T T' h h'
          · exact keyword_generic_agree _ T T' h hp' h'
        · rcases h' with h' | ⟨_, h'⟩
          · exact (keyword_generic_agree _ T' T h' hp h).symm
          · exact firstOccurring_unique _ T T' h h'
      rw [this]
      exact hT'
  · intro s s' hs hs' h
    rw [hfit s hs, hfit s' hs', h]
  · left
    exact ⟨"hospital".data ++ List.replicate 288 'x', by decide!⟩
  · left
    refine ⟨rfl, ?_⟩
    exact ⟨"any ".data, List.replicate 288 'x', by decide!⟩

end GraphC

namespace MainC

/-! ### main.c: the registry built by `init_units_from_graph` -/

theorem take_take_append {α : Type} (n : Nat) (l m : List α) :
    ((l.take n) ++ m).take n = (l ++ m).take n := by
  by_cases h : n ≤ l.length
  · rw [List.take_append_of_le_length (by rw [List.length_take]; omega),
      List.take_append_of_le_length h, List.take_take, min_self]
  · have : l.take n = l := List.take_of_length_le (by omega)
    rw [this]

theorem registry_length (U : Units) : (registry U).length = U.unit_count := by
  unfold registry
  rw [List.length_map, List.length_range]

/-- What `add_unit` does to the registry: the unit is appended unless 200
units are stored. -/
theorem add_unit_registry (U : Units) (node_idx : Int) (type : String) (id : Int)
    (h : U.unit_count ≤ 200) :
    registry (add_unit U node_idx type id) =
      (registry U ++
        [(⟨id, node_idx, String.mk (CStr.bounded 32 type), true⟩ : Unit)]).take 200 ∧
    (add_unit U node_idx type id).unit_count ≤ 200 := by
  unfold add_unit
  by_cases hc : U.unit_count ≥ 200
  · rw [if_pos hc]
    refine ⟨?_, h⟩
    rw [List.take_append_of_le_length (by rw [registry_length]; omega),
      List.take_of_length_le (by rw [registry_length]; omega)]
  · rw [if_neg hc]
    refine ⟨?_, by show U.unit_count + 1 ≤ 200; omega⟩
    rw [List.take_of_length_le (by rw [List.length_append, registry_length]; simp; omega)]
    unfold registry
    show (List.range (U.unit_count + 1)).map _ = _
    rw [List.range_succ, List.map_append, List.map_singleton]
    dsimp only
    rw [Function.update_same]
    congr 1
    apply List.map_congr_left
    intro i hi
    rw [List.mem_range] at hi
    rw [Function.update_noteq (by omega)]

/-- One round of the loop of `init_units_from_graph` appends the units wanted
at node `i`, as far as the registry has room. -/
theorem init_units_step_registry (g : Graph) (U : Units) (i : Nat) (h : U.unit_count ≤ 200) :
    registry (init_units_step g U i) = (registry U ++ wanted_at g i).take 200 ∧
    (init_units_step g U i).unit_count ≤ 200 := by
  have t1 : String.mk (CStr.bounded 32 "ambulance") = "ambulance" := by decide
  have t2 : String.mk (CStr.bounded 32 "fire") = "fire" := by decide
  have t3 : String.mk (CStr.bounded 32 "police") = "police" := by decide
  have hfull : (registry U).take 200 = registry U :=
    List.take_of_length_le (by rw [registry_length]; exact h)
  have s1 : ∀ (U1 : Units) (R : List Unit), U1.unit_count ≤ 200 →
      registry U1 = R.take 200 →
      registry (if node_matches_type_or_name g i "hospital" = true
          then add_unit U1 i "ambulance" (1000 + i) else U1) =
        (R ++ (if node_matches_type_or_name g i "hospital" = true
          then [(⟨1000 + i, i, "ambulance", true⟩ : Unit)] else [])).take 200 ∧
      (if node_matches_type_or_name g i "hospital" = true
          then add_unit U1 i "ambulance" (1000 + i) else U1).unit_count ≤ 200 := by
    intro U1 R h1 hR
    split_ifs
    · obtain ⟨a, b⟩ := add_unit_registry U1 i "ambulance" (1000 + i) h1
      rw [a, t1, hR, take_take_append]
      exact ⟨rfl, b⟩
    · rw [List.append_nil]
      exact ⟨hR, h1⟩
  have s2 : ∀ (U1 : Units) (R : List Unit), U1.unit_count ≤ 200 →
      registry U1 = R.take 200 →
      registry (if node_matches_type_or_name g i "fire" = true
          then add_unit U1 i "fire" (2000 + i) else U1) =
        (R ++ (if node_matches_type_or_name g i "fire" = true
          then [(⟨2000 + i, i, "fire", true⟩ : Unit)] else [])).take 200 ∧
      (if node_matches_type_or_name g i "fire" = true
          then add_unit U1 i "fire" (2000 + i) else U1).unit_count ≤ 200 := by
    intro U1 R h1 hR
    split_ifs
    · obtain ⟨a, b⟩ := add_unit_registry U1 i "fire" (2000 + i) h1
      rw [a, t2, hR, take_take_append]
      exact ⟨rfl, b⟩
    · rw [List.append_nil]
      exact ⟨hR, h1⟩
  have s3 : ∀ (U1 : Units) (R : List Unit), U1.unit_count ≤ 200 →
      registry U1 = R.take 200 →
      registry (if node_matches_type_or_name g i "police" = true
          then add_unit U1 i "police" (3000 + i) else U1) =
        (R ++ (if node_matches_type_or_name g i "police" = true
          then [(⟨3000 + i, i, "police", true⟩ : Unit)] else [])).take 200 ∧
      (if node_matches_type_or_name g i "police" = true
          then add_unit U1 i "police" (3000 + i) else U1).unit_count ≤ 200 := by
    intro U1 R h1 hR
    split_ifs
    · obtain ⟨a, b⟩ := add_unit_registry U1 i "police" (3000 + i) h1
      rw [a, t3, hR, take_take_append]
      exact ⟨rfl, b⟩
    · rw [List.append_nil]
      exact ⟨hR, h1⟩
  obtain ⟨a1, b1⟩ := s1 U (registry U) h hfull.symm
  obtain ⟨a2, b2⟩ := s2 _ _ b1 a1
  obtain ⟨a3, b3⟩ := s3 _ _ b2 a2
  unfold init_units_step wanted_at
  dsimp only
  rw [← List.append_assoc, ← List.append_assoc]
  exact ⟨a3, b3⟩

theorem init_units_fold_registry (g : Graph) : ∀ (l : List Nat) (U : Units),
    U.unit_count ≤ 200 →
    registry (l.foldl (init_units_step g) U) = (registry U ++ l.flatMap (wanted_at g)).take 200 ∧
    (l.foldl (init_units_step g) U).unit_count ≤ 200 := by
  intro l
  induction l with
  | nil =>
    intro U h
    rw [List.foldl_nil, List.flatMap_nil, List.append_nil,
      List.take_of_length_le (by rw [registry_length]; exact h)]
    exact ⟨rfl, h⟩
  | cons i l ih =>
    intro U h
    obtain ⟨a, b⟩ := init_units_step_registry g U i h
    obtain ⟨c, d⟩ := ih (init_units_step g U i) b
    rw [List.foldl_cons, List.flatMap_cons, ← List.append_assoc]
    refine ⟨?_, d⟩
    rw [c, a, take_take_append]

/-- The registry after `init_units_from_graph` is the list of the wanted units
cut after 200 units. -/
theorem init_registry (g : Graph) :
    registry (init_units_from_graph g) = (wanted g).take 200 := by
  have := (init_units_fold_registry g (List.range g.V)
    { units := fun _ => ⟨0, 0, "", false⟩, unit_count := 0 } (Nat.zero_le _)).1
  unfold init_units_from_graph wanted
  rw [this]
  rfl

/-- C27. The registry built by `init_units_from_graph` is the list of the
wanted units (one per node and matching keyword, in increasing node index
and in the order hospital, fire, police within a node, each with its home
node, its type, the id 1000+i / 2000+i / 3000+i and the available flag) cut
after 200 units; with at most 200 matches it is the whole list; and
`add_unit` on a full registry changes nothing. -/
theorem registry_wanted :
    (∀ g : Graph, registry (init_units_from_graph g) = (wanted g).take 200 ∧
      (init_units_from_graph g).unit_count = min 200 (wanted g).length) ∧
    (∀ g : Graph, (wanted g).length ≤ 200 →
      registry (init_units_from_graph g) = wanted g ∧
      ∀ u ∈ registry (init_units_from_graph g), u.available = true ∧
        ∃ i : Nat, i < g.V ∧ u.node_idx = (i : Int) ∧
          ((u.type = "ambulance" ∧ u.id = 1000 + (i : Int) ∧
              node_matches_type_or_name g i "hospital" = true) ∨
            (u.type = "fire" ∧ u.id = 2000 + (i : Int) ∧
              node_matches_type_or_name g i "fire" = true) ∨
            (u.type = "police" ∧ u.id = 3000 + (i : Int) ∧
              node_matches_type_or_name g i "police" = true))) ∧
    (∀ (U : Units) (node_idx : Int) (type : String) (id : Int), U.unit_count ≥ 200 →
      add_unit U node_idx type id = U) := by
  have hreg : ∀ g : Graph, registry (init_units_from_graph g) = (wanted g).take 200 :=
    init_registry
  refine ⟨fun g => ⟨hreg g, ?_⟩, ?_, ?_⟩
  · have := congrArg List.length (hreg g)
    rw [registry_length, List.length_take] at this
    exact this
  · intro g hle
    have hw : registry (init_units_from_graph g) = wanted g := by
      rw [hreg g, List.take_of_length_le hle]
    refine ⟨hw, ?_⟩
    intro u hu
    rw [hw] at hu
    unfold wanted at hu
    rw [List.mem_flatMap] at hu
    obtain ⟨i, hi, hui⟩ := hu
    rw [List.mem_range] at hi
    unfold wanted_at at hui
    rw [List.mem_append, List.mem_append] at hui
    rcases hui with (hui | hui) | hui
    · split_ifs at hui with hm
      · rw [List.mem_singleton] at hui
        subst hui
        exact ⟨rfl, i, hi, rfl, Or.inl ⟨rfl, rfl, hm⟩⟩
      · exact absurd hui (List.not_mem_nil _)
    · split_ifs at hui with hm
      · rw [List.mem_singleton] at hui
        subst hui
        exact ⟨rfl, i, hi, rfl, Or.inr (Or.inl ⟨rfl, rfl, hm⟩)⟩
      · exact absurd hui (List.not_mem_nil _)
    · split_ifs at hui with hm
      · rw [List.mem_singleton] at hui
        subst hui
        exact ⟨rfl, i, hi, rfl, Or.inr (Or.inr ⟨rfl, rfl, hm⟩)⟩
      · exact absurd hui (List.not_mem_nil _)
  · intro U node_idx type id h
    unfold add_unit
    rw [if_pos h]

end MainC

namespace MainC

/-! ### main.c: unit ids -/

/-- A store filled by `add_node` from the empty store, node by node. -/
theorem add_node_fold (nm ty : Nat → String) : ∀ n, n ≤ MAX_NODES →
    ((List.range n).foldl (fun (g : Graph) (i : Nat) => (add_node g (i : Int) (nm i) (ty i) 0 0).2) graph_create).V
      = n ∧
    (∀ i, i < n →
      ((List.range n).foldl (fun (g : Graph) (i : Nat) => (add_node g (i : Int) (nm i) (ty i) 0 0).2)
        graph_create).nodes i =
        { id := (i : Int), ext_id := (i : Int), name := String.mk (CStr.bounded 128 (nm i)),
          type := String.mk (CStr.bounded 64 (ty i)), lat := 0, lon := 0, adj := [] }) ∧
    Built ((List.range n).foldl (fun (g : Graph) (i : Nat) => (add_node g (i : Int) (nm i) (ty i) 0 0).2)
      graph_create) := by
  intro n
  induction n with
  | zero =>
    intro _
    exact ⟨rfl, fun i hi => absurd hi (Nat.not_lt_zero i), Built.create⟩
  | succ n ih =>
    intro hn
    obtain ⟨hV, hnodes, hb⟩ := ih (by omega)
    rw [List.range_succ, List.foldl_append, List.foldl_cons, List.foldl_nil]
    generalize (List.range n).foldl (fun (g : Graph) (i : Nat) => (add_node g (i : Int) (nm i) (ty i) 0 0).2)
      graph_create = G at hV hnodes hb
    have hr : add_node G (n : Int) (nm n) (ty n) 0 0 =
        ((G.V : Int),
          { V := G.V + 1
            nodes := Function.update G.nodes G.V
              { id := G.V, ext_id := (n : Int), name := String.mk (CStr.bounded 128 (nm n))
                type := String.mk (CStr.bounded 64 (ty n)), lat := 0, lon := 0, adj := [] } }) := by
      unfold add_node
      rw [if_neg (by rw [hV]; omega)]
    refine ⟨by rw [hr, hV], ?_, Built.node G n (nm n) (ty n) 0 0 hb⟩
    intro i hi
    rw [hr]
    show Function.update G.nodes G.V _ i = _
    rcases Nat.lt_succ_iff_lt_or_eq.mp hi with hi | hi
    · rw [Function.update_noteq (by omega), hnodes i hi]
    · rw [hi, hV, Function.update_same]

theorem wide_nodes :
    wideGraph.V = 1001 ∧ Built wideGraph ∧
    (wideGraph.nodes 0).name = "Fire Station" ∧ (wideGraph.nodes 0).type = "fire" ∧
    (wideGraph.nodes 1000).name = "Hospital" ∧ (wideGraph.nodes 1000).type = "hospital" ∧
    ∀ i, 0 < i → i < 1000 → (wideGraph.nodes i).name = "Street" ∧ (wideGraph.nodes i).type = "" := by
  obtain ⟨h1, h2, h3⟩ := add_node_fold
    (fun i => if i = 0 then "Fire Station" else if i = 1000 then "Hospital" else "Street")
    (fun i => if i = 0 then "fire" else if i = 1000 then "hospital" else "") 1001 (by decide)
  refine ⟨h1, h3, ?_, ?_, ?_, ?_, ?_⟩
  · unfold wideGraph; rw [h2 0 (by decide)]; decide
  · unfold wideGraph; rw [h2 0 (by decide)]; decide
  · unfold wideGraph; rw [h2 1000 (by decide)]; decide
  · unfold wideGraph; rw [h2 1000 (by decide)]; decide
  · intro i hi0 hi1
    unfold wideGraph
    rw [h2 i (by omega)]
    dsimp only
    simp only [if_neg (show ¬ i = 0 by omega), if_neg (show ¬ i = 1000 by omega)]
    exact ⟨by decide, by decide⟩

theorem wide_wanted :
    wanted wideGraph = [⟨2000, 0, "fire", true⟩, ⟨2000, 1000, "ambulance", true⟩] := by
  obtain ⟨hV, _, n0, t0, n1, t1, hmid⟩ := wide_nodes
  have hm : ∀ (i : Nat) (key : String), i < 1001 →
      node_matches_type_or_name wideGraph (i : Int) key =
        (CStr.strstr (CStr.lower (CStr.bounded 256 (wideGraph.nodes i).name))
            (CStr.lower (CStr.bounded 256 key))
          || CStr.strstr (CStr.lower (CStr.bounded 256 (wideGraph.nodes i).type))
            (CStr.lower (CStr.bounded 256 key))) := by
    intro i key hi
    unfold node_matches_type_or_name
    rw [if_neg (by rw [hV]; omega), Int.toNat_ofNat]
  have w0 : wanted_at wideGraph 0 = [⟨2000, 0, "fire", true⟩] := by
    unfold wanted_at
    rw [hm 0 _ (by decide), hm 0 _ (by decide), hm 0 _ (by decide), n0, t0]
    decide
  have w1 : wanted_at wideGraph 1000 = [⟨2000, 1000, "ambulance", true⟩] := by
    unfold wanted_at
    rw [hm 1000 _ (by decide), hm 1000 _ (by decide), hm 1000 _ (by decide), n1, t1]
    decide
  have wmid : ∀ i, 0 < i → i < 1000 → wanted_at wideGraph i = [] := by
    intro i h0 h1
    unfold wanted_at
    rw [hm i _ (by omega), hm i _ (by omega), hm i _ (by omega), (hmid i h0 h1).1,
      (hmid i h0 h1).2, if_neg (by decide), if_neg (by decide), if_neg (by decide)]
    rfl
  unfold wanted
  rw [hV, show (1001 : Nat) = 1000 + 1 from rfl, List.range_succ, List.flatMap_append,
    List.range_eq_range', show (1000 : Nat) = 999 + 1 from rfl, List.range'_succ,
    List.flatMap_cons, w0]
  have hnil : (List.range' (0 + 1) 999).flatMap (wanted_at wideGraph) = [] := by
    rw [List.flatMap_eq_nil_iff]
    intro i hi
    rw [List.mem_range'_1] at hi
    exact wmid i (by omega) (by omega)
  rw [hnil]
  simp only [List.flatMap_cons, List.flatMap_nil, List.append_nil, List.nil_append,
    List.singleton_append]
  rw [w1]

/-- With at most 1000 nodes the ids of the wanted units are pairwise distinct. -/
theorem wanted_ids_nodup (g : Graph) (h : g.V ≤ 1000) : ((wanted g).map Unit.id).Nodup := by
  have hsub : ∀ i : Nat, ((wanted_at g i).map Unit.id).Sublist
      [1000 + (i : Int), 2000 + (i : Int), 3000 + (i : Int)] := by
    intro i
    unfold wanted_at
    split_ifs <;> simp
  unfold wanted
  rw [List.map_flatMap, List.nodup_flatMap]
  constructor
  · intro i _
    apply List.Nodup.sublist (hsub i)
    refine List.nodup_cons.mpr ⟨?_, List.nodup_cons.mpr ⟨?_, List.nodup_singleton _⟩⟩
    · simp only [List.mem_cons, List.mem_singleton, List.not_mem_nil, or_false]
      omega
    · simp only [List.mem_singleton]
      omega
  · apply List.Pairwise.imp_of_mem _ (List.nodup_range g.V)
    intro a b ha hb hab
    rw [List.mem_range] at ha hb
    show List.Disjoint _ _
    intro x hxa hxb
    have h1 := (hsub a).subset hxa
    have h2 := (hsub b).subset hxb
    simp only [List.mem_cons, List.mem_singleton, List.not_mem_nil, or_false] at h1 h2
    omega

/-- C30, evaluated. On the store `wideGraph` (1001 nodes, built by `add_node`)
the registry holds the fire unit of node 0 and the ambulance of node 1000,
both with id 2000; on every store of at most 1000 nodes the ids in the
registry are pairwise distinct. -/
theorem unit_ids_collide :
    (Built wideGraph ∧ wideGraph.V = 1001 ∧ wideGraph.V ≤ MAX_NODES ∧
      registry (init_units_from_graph wideGraph) =
        [⟨2000, 0, "fire", true⟩, ⟨2000, 1000, "ambulance", true⟩] ∧
      ¬ ((registry (init_units_from_graph wideGraph)).map Unit.id).Nodup) ∧
    (∀ g : Graph, g.V ≤ 1000 → ((registry (init_units_from_graph g)).map Unit.id).Nodup) := by
  obtain ⟨hV, hb, _⟩ := wide_nodes
  have hreg : registry (init_units_from_graph wideGraph) =
      [⟨2000, 0, "fire", true⟩, ⟨2000, 1000, "ambulance", true⟩] := by
    rw [init_registry wideGraph, wide_wanted]
    rfl
  refine ⟨⟨hb, hV, by rw [hV]; decide, hreg, ?_⟩, ?_⟩
  · rw [hreg]
    decide
  · intro g hg
    rw [init_registry g]
    exact List.Nodup.sublist ((List.take_sublist 200 (wanted g)).map Unit.id)
      (wanted_ids_nodup g hg)

end MainC

namespace BinHeap

variable {α β : Type}

/-! ### The same heap with the root at index 0 and at index 1 -/

theorem par_shift (i : Nat) (h : 0 < i) : par 1 (i + 1) = par 0 i + 1 := by
  unfold par
  omega

theorem swap_shift (f : α → β) (a : Nat → α) (a' : Nat → β) (h : ∀ k, a' (k + 1) = f (a k))
    (i j : Nat) : ∀ k, swap a' (i + 1) (j + 1) (k + 1) = f (swap a i j k) := by
  intro k
  by_cases hkj : k = j
  · subst hkj
    rw [swap_right, swap_right, h]
  · by_cases hki : k = i
    · subst hki
      rw [swap_left, swap_left, h]
    · rw [swap_other a' _ _ _ (by omega) (by omega), swap_other a _ _ _ hki hkj, h]

/-- Sift-up with the root at 1 is sift-up with the root at 0, one index up. -/
theorem siftUp_shift (lt : α → α → Bool) (lt' : β → β → Bool) (f : α → β)
    (hlt : ∀ x y, lt' (f x) (f y) = lt x y) :
    ∀ (fuel : Nat) (a : Nat → α) (a' : Nat → β) (i : Nat), (∀ k, a' (k + 1) = f (a k)) →
      ∀ k, siftUp lt' 1 fuel a' (i + 1) (k + 1) = f (siftUp lt 0 fuel a i k) := by
  intro fuel
  induction fuel with
  | zero => intro a a' i h k; exact h k
  | succ fuel ih =>
    intro a a' i h k
    unfold siftUp
    by_cases hi : 0 < i
    · have hc : lt' (a' (i + 1)) (a' (par 1 (i + 1))) = lt (a i) (a (par 0 i)) := by
        rw [par_shift i hi, h, h, hlt]
      by_cases hl : lt (a i) (a (par 0 i)) = true
      · rw [if_pos ⟨by omega, by rw [hc]; exact hl⟩, if_pos ⟨hi, hl⟩, par_shift i hi]
        exact ih _ _ _ (swap_shift f a a' h i (par 0 i)) k
      · rw [if_neg (fun hh => hl (by rw [← hc]; exact hh.2)), if_neg (fun hh => hl hh.2)]
        exact h k
    · rw [if_neg (fun hh => by omega), if_neg (fun hh => hi hh.1)]
      exact h k

theorem pick_shift (lt : α → α → Bool) (lt' : β → β → Bool) (f : α → β)
    (hlt : ∀ x y, lt' (f x) (f y) = lt x y) (a : Nat → α) (a' : Nat → β)
    (h : ∀ k, a' (k + 1) = f (a k)) (lim c s : Nat) :
    pick lt' a' (lim + 1) (c + 1) (s + 1) = pick lt a lim c s + 1 := by
  unfold pick
  rw [h, h, hlt]
  by_cases hc : c < lim ∧ lt (a c) (a s) = true
  · rw [if_pos ⟨by omega, hc.2⟩, if_pos hc]
  · rw [if_neg (fun hh => hc ⟨by omega, hh.2⟩), if_neg hc]

/-- Sift-down with the root at 1 is sift-down with the root at 0, one index up. -/
theorem siftDown_shift (lt : α → α → Bool) (lt' : β → β → Bool) (f : α → β)
    (hlt : ∀ x y, lt' (f x) (f y) = lt x y) (n : Nat) :
    ∀ (fuel : Nat) (a : Nat → α) (a' : Nat → β) (i : Nat), (∀ k, a' (k + 1) = f (a k)) →
      ∀ k, siftDown lt' 1 fuel a' n (i + 1) (k + 1) = f (siftDown lt 0 fuel a n i k) := by
  intro fuel
  induction fuel with
  | zero => intro a a' i h k; exact h k
  | succ fuel ih =>
    intro a a' i h k
    unfold siftDown
    have e1 : 2 * (i + 1) + 1 - 1 = (2 * i + 1 - 0) + 1 := by omega
    have e2 : 2 * (i + 1) + 2 - 1 = (2 * i + 2 - 0) + 1 := by omega
    have hp : pick lt' a' (n + 1) (2 * (i + 1) + 2 - 1)
        (pick lt' a' (n + 1) (2 * (i + 1) + 1 - 1) (i + 1)) =
        pick lt a (n + 0) (2 * i + 2 - 0) (pick lt a (n + 0) (2 * i + 1 - 0) i) + 1 := by
      rw [e1, e2, pick_shift lt lt' f hlt a a' h, pick_shift lt lt' f hlt a a' h]
      rfl
    rw [hp]
    by_cases hs : pick lt a (n + 0) (2 * i + 2 - 0) (pick lt a (n + 0) (2 * i + 1 - 0) i) = i
    · rw [if_pos (by rw [hs]), if_pos hs]
      exact h k
    · rw [if_neg (fun hh => hs (by omega)), if_neg hs]
      exact ih _ _ _ (swap_shift f a a' h i _) k

/-- One more unit of fuel does not change a sift-up that had enough. -/
theorem siftUp_fuel_succ (lt : α → α → Bool) {b : Nat} (hb : b ≤ 1) :
    ∀ (fuel : Nat) (a : Nat → α) (i : Nat), i ≤ fuel + b →
      siftUp lt b (fuel + 1) a i = siftUp lt b fuel a i := by
  intro fuel
  induction fuel with
  | zero =>
    intro a i hi
    unfold siftUp
    rw [if_neg (fun hh => by omega)]
  | succ fuel ih =>
    intro a i hi
    rw [siftUp.eq_def lt b (fuel + 1 + 1), siftUp.eq_def lt b (fuel + 1)]
    dsimp only
    by_cases hc : b < i ∧ lt (a i) (a (par b i)) = true
    · rw [if_pos hc, if_pos hc]
      exact ih _ _ (by unfold par; omega)
    · rw [if_neg hc, if_neg hc]

/-- One more unit of fuel does not change a sift-down that had enough. -/
theorem siftDown_fuel_succ (lt : α → α → Bool) {b n : Nat} :
    ∀ (fuel : Nat) (a : Nat → α) (i : Nat), b ≤ i → n + b ≤ fuel + i →
      siftDown lt b (fuel + 1) a n i = siftDown lt b fuel a n i := by
  intro fuel
  induction fuel with
  | zero =>
    intro a i hbi hi
    rw [siftDown.eq_def lt b (0 + 1)]
    dsimp only
    have h1 : pick lt a (n + b) (2 * i + 1 - b) i = i := by
      unfold pick
      rw [if_neg (fun hh => by omega)]
    have h2 : pick lt a (n + b) (2 * i + 2 - b) i = i := by
      unfold pick
      rw [if_neg (fun hh => by omega)]
    rw [h1, h2, if_pos rfl]
    rfl
  | succ fuel ih =>
    intro a i hbi hi
    rw [siftDown.eq_def lt b (fuel + 1 + 1), siftDown.eq_def lt b (fuel + 1)]
    dsimp only
    by_cases hp : pick lt a (n + b) (2 * i + 2 - b) (pick lt a (n + b) (2 * i + 1 - b) i) = i
    · rw [if_pos hp, if_pos hp]
    · rw [if_neg hp, if_neg hp]
      have hge : i + 1 ≤
          pick lt a (n + b) (2 * i + 2 - b) (pick lt a (n + b) (2 * i + 1 - b) i) := by
        rcases pick_cases lt a (n + b) (2 * i + 2 - b) (pick lt a (n + b) (2 * i + 1 - b) i)
          with h | ⟨h, _⟩
        · rw [h] at hp ⊢
          rcases pick_cases lt a (n + b) (2 * i + 1 - b) i with h' | ⟨h', _⟩
          · exact absurd h' hp
          · rw [h']; omega
        · rw [h]; omega
      exact ih _ _ (by omega) (by omega)

end BinHeap

namespace MainC

/-! ### queue.c and main.c keep the same heap -/

theorem compare_conv (a b : QueueC.Call) :
    compare_calls (conv a) (conv b) = QueueC.high_pr a b := rfl

theorem shifted_init : Shifted QueueC.init heap_init := ⟨rfl, fun _ => rfl⟩

/-- An accepted `insert` of queue.c and `insert_call` of main.c keep the
arrays one index apart. -/
theorem insert_shifted (q : QueueC.QState) (h : HeapState) (hs : Shifted q h) (c : QueueC.Call)
    (hlt : q.heapSize < 100) : Shifted (QueueC.insert q c) (insert_call h (conv c)) := by
  obtain ⟨h1, h2⟩ := hs
  have hq : QueueC.insert q c =
      { heap := QueueC.up q.heapSize (Function.update q.heap q.heapSize c) q.heapSize
        heapSize := q.heapSize + 1 } := by
    unfold QueueC.insert
    rw [if_neg (by unfold QueueC.MAX; omega)]
  have hm : insert_call h (conv c) =
      { heapQ := insert_loop (h.heap_size + 1) (Function.update h.heapQ (h.heap_size + 1) (conv c))
          (h.heap_size + 1)
        heap_size := h.heap_size + 1 } := by
    unfold insert_call
    rw [if_neg (by unfold HEAP_MAX; omega)]
  rw [hq, hm]
  refine ⟨by show h.heap_size + 1 = q.heapSize + 1; rw [h1], ?_⟩
  intro k
  show insert_loop (h.heap_size + 1) _ (h.heap_size + 1) (k + 1) =
    conv (QueueC.up q.heapSize _ q.heapSize k)
  rw [insert_loop_eq_siftUp, QueueC.up_eq_siftUp, h1,
    ← BinHeap.siftUp_fuel_succ QueueC.high_pr (Nat.zero_le 1) q.heapSize _ q.heapSize (by omega)]
  apply BinHeap.siftUp_shift QueueC.high_pr compare_calls conv compare_conv
  intro j
  by_cases hj : j = q.heapSize
  · subst hj
    rw [Function.update_same, Function.update_same]
  · rw [Function.update_noteq (by omega), Function.update_noteq hj, h2]

/-- The two extractions return the same call and keep the arrays one index
apart. -/
theorem extract_shifted (q : QueueC.QState) (h : HeapState) (hs : Shifted q h) :
    Shifted (QueueC.extract q).2 (extract_call h).2 ∧
    (extract_call h).1 = conv (QueueC.extract q).1 := by
  obtain ⟨h1, h2⟩ := hs
  by_cases hz : q.heapSize = 0
  · have hq : QueueC.extract q = (QueueC.empty, q) := by
      unfold QueueC.extract
      rw [if_pos hz]
    have hm : extract_call h = (nullC, h) := by
      unfold extract_call
      rw [if_pos (by rw [h1]; exact hz)]
    rw [hq, hm]
    exact ⟨⟨h1, h2⟩, rfl⟩
  · have hq : QueueC.extract q =
        (q.heap 0,
          { heap := if q.heapSize - 1 > 0 then
              QueueC.down (q.heapSize - 1) (Function.update q.heap 0 (q.heap (q.heapSize - 1)))
                (q.heapSize - 1) 0
              else Function.update q.heap 0 (q.heap (q.heapSize - 1))
            heapSize := q.heapSize - 1 }) := by
      unfold QueueC.extract
      rw [if_neg hz]
    have hm : extract_call h =
        (h.heapQ 1,
          { heapQ := extract_loop (h.heap_size - 1)
              (Function.update h.heapQ 1 (h.heapQ h.heap_size)) (h.heap_size - 1) 1
            heap_size := h.heap_size - 1 }) := by
      unfold extract_call
      rw [if_neg (by rw [h1]; exact hz)]
    rw [hq, hm]
    have hB : ∀ j, Function.update h.heapQ 1 (h.heapQ h.heap_size) (j + 1) =
        conv (Function.update q.heap 0 (q.heap (q.heapSize - 1)) j) := by
      intro j
      by_cases hj : j = 0
      · subst hj
        rw [Function.update_same, Function.update_same, h1,
          show q.heapSize = (q.heapSize - 1) + 1 by omega, h2]
        rfl
      · rw [Function.update_noteq (by omega), Function.update_noteq hj, h2]
    refine ⟨⟨by show h.heap_size - 1 = q.heapSize - 1; rw [h1], ?_⟩, h2 0⟩
    intro k
    dsimp only
    rw [extract_loop_eq_siftDown, h1]
    have key := BinHeap.siftDown_shift QueueC.high_pr compare_calls conv compare_conv
      (q.heapSize - 1) (q.heapSize - 1) _ _ 0 hB k
    rw [Nat.zero_add, h1] at key
    rw [key]
    by_cases hn : q.heapSize - 1 > 0
    · rw [if_pos hn, QueueC.down_eq_siftDown]
    · rw [if_neg hn]
      have : q.heapSize - 1 = 0 := by omega
      rw [this]
      rfl

theorem run_append (l l' : List QueueC.Op) : ∀ q : QueueC.QState,
    QueueC.run (l ++ l') q = QueueC.run l' (QueueC.run l q) := by
  induction l with
  | nil => intro q; rfl
  | cons op l ih =>
    intro q
    cases op with
    | ins c => exact ih _
    | ext => exact ih _

theorem outputs_append (l l' : List QueueC.Op) : ∀ q : QueueC.QState,
    QueueC.outputs (l ++ l') q = QueueC.outputs l q ++ QueueC.outputs l' (QueueC.run l q) := by
  induction l with
  | nil => intro q; rfl
  | cons op l ih =>
    intro q
    cases op with
    | ins c => exact ih _
    | ext => exact congrArg (fun t => (QueueC.extract q).1 :: t) (ih _)

theorem qrun_append (l l' : List QOp) : ∀ h : HeapState,
    qrun (l ++ l') h = qrun l' (qrun l h) := by
  induction l with
  | nil => intro h; rfl
  | cons op l ih =>
    intro h
    cases op with
    | ins c => exact ih _
    | ext => exact ih _

theorem qoutputs_append (l l' : List QOp) : ∀ h : HeapState,
    qoutputs (l ++ l') h = qoutputs l h ++ qoutputs l' (qrun l h) := by
  induction l with
  | nil => intro h; rfl
  | cons op l ih =>
    intro h
    cases op with
    | ins c => exact ih _
    | ext => exact congrArg (fun t => (extract_call h).1 :: t) (ih _)

/-- The two heaps after the same operations, as long as main.c never holds
more than 100 calls. -/
theorem heaps_run (l : List QueueC.Op) :
    (∀ pre, pre <+: l → (qrun (pre.map qop) heap_init).heap_size ≤ 100) →
    Shifted (QueueC.run l QueueC.init) (qrun (l.map qop) heap_init) ∧
    qoutputs (l.map qop) heap_init = (QueueC.outputs l QueueC.init).map conv := by
  induction l using List.reverseRecOn with
  | nil => intro _; exact ⟨shifted_init, rfl⟩
  | append_singleton l op ih =>
    intro hb
    obtain ⟨hs, ho⟩ := ih (fun pre hp => hb pre (hp.trans (List.prefix_append l [op])))
    have hlast := hb (l ++ [op]) (List.prefix_refl _)
    rw [List.map_append, qrun_append, qoutputs_append, run_append, outputs_append, ho,
      List.map_append]
    rw [List.map_append, qrun_append] at hlast
    cases op with
    | ins c =>
      have hlt : (QueueC.run l QueueC.init).heapSize < 100 := by
        have hsz : (insert_call (qrun (l.map qop) heap_init) (conv c)).heap_size =
            (qrun (l.map qop) heap_init).heap_size + 1 := by
          have := hb l (List.prefix_append l _)
          unfold insert_call
          rw [if_neg (by unfold HEAP_MAX; omega)]
        have h1 : (insert_call (qrun (l.map qop) heap_init) (conv c)).heap_size ≤ 100 := hlast
        rw [hsz, hs.1] at h1
        omega
      exact ⟨insert_shifted _ _ hs c hlt, rfl⟩
    | ext =>
      obtain ⟨e1, e2⟩ := extract_shifted _ _ hs
      refine ⟨e1, ?_⟩
      show _ ++ [(extract_call _).1] = _ ++ [conv (QueueC.extract _).1]
      rw [e2]

theorem qrun_size_le : ∀ (l : List QOp) (h : HeapState),
    (qrun l h).heap_size ≤ h.heap_size + l.length := by
  intro l
  induction l with
  | nil => intro h; exact le_refl _
  | cons op l ih =>
    intro h
    cases op with
    | ins c =>
      have h1 := ih (insert_call h c)
      have h2 : (insert_call h c).heap_size ≤ h.heap_size + 1 := by
        unfold insert_call
        split_ifs
        · omega
        · exact le_refl _
      show (qrun l (insert_call h c)).heap_size ≤ h.heap_size + (l.length + 1)
      omega
    | ext =>
      have h1 := ih (extract_call h).2
      have h2 : (extract_call h).2.heap_size ≤ h.heap_size := by
        unfold extract_call
        split_ifs
        · exact le_refl _
        · exact Nat.sub_le _ _
      show (qrun l (extract_call h).2).heap_size ≤ h.heap_size + (l.length + 1)
      omega

/-- C29. While main.c holds at most 100 calls, after every operation of a
sequence of inserts and extracts started on the empty heaps the two heaps
have the same size, the array of main.c is the array of queue.c one index
up, and the extractions so far returned the same calls (same id, location,
severity and time), ties between calls included. -/
theorem heaps_agree (ops : List QueueC.Op)
    (hb : ∀ pre, pre <+: ops → (qrun (pre.map qop) heap_init).heap_size ≤ 100) :
    ∀ pre, pre <+: ops →
      (qrun (pre.map qop) heap_init).heap_size = (QueueC.run pre QueueC.init).heapSize ∧
      (∀ k, (qrun (pre.map qop) heap_init).heapQ (k + 1) =
        conv ((QueueC.run pre QueueC.init).heap k)) ∧
      qoutputs (pre.map qop) heap_init = (QueueC.outputs pre QueueC.init).map conv ∧
      (QueueC.run pre QueueC.init).heapSize ≤ 100 := by
  intro pre hp
  obtain ⟨hs, ho⟩ := heaps_run pre (fun p' hp' => hb p' (hp'.trans hp))
  exact ⟨hs.1, hs.2, ho, by rw [← hs.1]; exact hb pre hp⟩

theorem heaps_agree_witness :
    qoutputs
        ([QueueC.Op.ins ⟨1, 3, 1, "a"⟩, QueueC.Op.ins ⟨2, 3, 1, "b"⟩, QueueC.Op.ins ⟨3, 5, 2, "c"⟩,
          QueueC.Op.ext, QueueC.Op.ext].map qop) heap_init =
      (QueueC.outputs
        [QueueC.Op.ins ⟨1, 3, 1, "a"⟩, QueueC.Op.ins ⟨2, 3, 1, "b"⟩, QueueC.Op.ins ⟨3, 5, 2, "c"⟩,
          QueueC.Op.ext, QueueC.Op.ext] QueueC.init).map conv ∧
    QueueC.outputs
        [QueueC.Op.ins ⟨1, 3, 1, "a"⟩, QueueC.Op.ins ⟨2, 3, 1, "b"⟩, QueueC.Op.ins ⟨3, 5, 2, "c"⟩,
          QueueC.Op.ext, QueueC.Op.ext] QueueC.init =
      [⟨3, 5, 2, "c"⟩, ⟨1, 3, 1, "a"⟩] :=
  ⟨(heaps_agree
      [QueueC.Op.ins ⟨1, 3, 1, "a"⟩, QueueC.Op.ins ⟨2, 3, 1, "b"⟩, QueueC.Op.ins ⟨3, 5, 2, "c"⟩,
        QueueC.Op.ext, QueueC.Op.ext]
      (fun pre hp => by
        have h1 := qrun_size_le (pre.map qop) heap_init
        have h2 := hp.length_le
        rw [List.length_map] at h1
        have h3 : heap_init.heap_size = 0 := rfl
        simp only [List.length_cons, List.length_nil] at h2
        omega)
      _ (List.prefix_refl _)).2.2.1,
    by decide!⟩

end MainC

namespace MainC

/-! ### main.c: the rounds of `dijkstra` -/

/-- The inner scan of `dijkstra`: nothing below the sentinel is left, or the
scan yields the first unvisited node of least distance. -/
theorem select_min_spec (s : DState) : ∀ n : Nat,
    ((select_min n s).2 = -1 ∧ (select_min n s).1 = INF ∧
      ∀ v, v < n → s.visited v = false → INF ≤ s.dist v) ∨
    (∃ u : Nat, (select_min n s).2 = (u : Int) ∧ (select_min n s).1 = s.dist u ∧ u < n ∧
      s.visited u = false ∧ s.dist u < INF ∧
      ∀ v, v < n → s.visited v = false → s.dist u ≤ s.dist v) := by
  intro n
  induction n with
  | zero =>
    left
    exact ⟨rfl, rfl, fun v hv => absurd hv (Nat.not_lt_zero v)⟩
  | succ n ih =>
    unfold select_min at ih ⊢
    rw [List.range_succ, List.foldl_append, List.foldl_cons, List.foldl_nil]
    generalize (List.range n).foldl
      (fun (acc : ℚ × Int) v =>
        if s.visited v = false ∧ s.dist v < acc.1 then (s.dist v, (v : Int)) else acc)
      (INF, -1) = acc at ih
    by_cases hc : s.visited n = false ∧ s.dist n < acc.1
    · rw [if_pos hc]
      right
      refine ⟨n, rfl, rfl, Nat.lt_succ_self n, hc.1, ?_, ?_⟩
      · rcases ih with ⟨_, h1, _⟩ | ⟨u, _, h1, _, _, h2, _⟩
        · rw [h1] at hc; exact hc.2
        · rw [h1] at hc; exact lt_trans hc.2 h2
      · intro v hv hvis
        rcases Nat.lt_succ_iff_lt_or_eq.mp hv with hv | hv
        · rcases ih with ⟨_, h1, h2⟩ | ⟨u, _, h1, _, _, _, h2⟩
          · rw [h1] at hc; exact le_trans (le_of_lt hc.2) (h2 v hv hvis)
          · rw [h1] at hc; exact le_trans (le_of_lt hc.2) (h2 v hv hvis)
        · rw [hv]
    · rw [if_neg hc]
      rcases ih with ⟨h0, h1, h2⟩ | ⟨u, h0, h1, hu, hvu, hdu, h2⟩
      · left
        refine ⟨h0, h1, ?_⟩
        intro v hv hvis
        rcases Nat.lt_succ_iff_lt_or_eq.mp hv with hv | hv
        · exact h2 v hv hvis
        · rw [hv] at hvis ⊢
          rw [← h1]
          exact not_lt.mp (fun h => hc ⟨hvis, h⟩)
      · right
        refine ⟨u, h0, h1, Nat.lt_succ_of_lt hu, hvu, hdu, ?_⟩
        intro v hv hvis
        rcases Nat.lt_succ_iff_lt_or_eq.mp hv with hv | hv
        · exact h2 v hv hvis
        · rw [hv] at hvis ⊢
          rw [← h1]
          exact not_lt.mp (fun h => hc ⟨hvis, h⟩)

/-- What the relaxation of the roads `l` leaving the visited node `u` does:
the visited flags stay; a node keeps its distance and parent, or it is an
unvisited end of one of the roads, gets `u` as parent and a strictly smaller
distance through that road; and every unvisited end of a road is relaxed. -/
theorem relax_fold_spec (u : Nat) : ∀ (l : List Edge) (s : DState), s.visited u = true →
    (l.foldl (relax_edge u) s).visited = s.visited ∧
    (∀ v, ((l.foldl (relax_edge u) s).dist v = s.dist v ∧
        (l.foldl (relax_edge u) s).parent v = s.parent v) ∨
      (s.visited v = false ∧ (l.foldl (relax_edge u) s).parent v = (u : Int) ∧
        (l.foldl (relax_edge u) s).dist v < s.dist v ∧
        ∃ e, e ∈ l ∧ e.dest = v ∧ (l.foldl (relax_edge u) s).dist v = s.dist u + e.weight)) ∧
    (∀ e, e ∈ l → s.visited e.dest = false →
      (l.foldl (relax_edge u) s).dist e.dest ≤ s.dist u + e.weight) := by
  intro l
  induction l with
  | nil =>
    intro s _
    exact ⟨rfl, fun v => Or.inl ⟨rfl, rfl⟩, fun e he => absurd he (List.not_mem_nil e)⟩
  | cons e l ih =>
    intro s hu
    rw [List.foldl_cons]
    have hstep : (relax_edge u s e).visited = s.visited ∧
        (∀ v, ((relax_edge u s e).dist v = s.dist v ∧ (relax_edge u s e).parent v = s.parent v) ∨
          (s.visited v = false ∧ e.dest = v ∧ (relax_edge u s e).parent v = (u : Int) ∧
            (relax_edge u s e).dist v = s.dist u + e.weight ∧
            (relax_edge u s e).dist v < s.dist v)) ∧
        (s.visited e.dest = false → (relax_edge u s e).dist e.dest ≤ s.dist u + e.weight) := by
      unfold relax_edge
      by_cases hc : s.visited e.dest = false ∧ s.dist u + e.weight < s.dist e.dest
      · rw [if_pos hc]
        refine ⟨rfl, ?_, fun _ => ?_⟩
        · intro v
          by_cases hv : v = e.dest
          · right
            subst hv
            refine ⟨hc.1, rfl, Function.update_same _ _ _, Function.update_same _ _ _, ?_⟩
            show Function.update s.dist e.dest _ e.dest < _
            rw [Function.update_same]
            exact hc.2
          · left
            exact ⟨Function.update_noteq hv _ _, Function.update_noteq hv _ _⟩
        · show Function.update s.dist e.dest _ e.dest ≤ _
          rw [Function.update_same]
      · rw [if_neg hc]
        refine ⟨rfl, fun v => Or.inl ⟨rfl, rfl⟩, fun hvis => ?_⟩
        exact not_lt.mp (fun h => hc ⟨hvis, h⟩)
    obtain ⟨s1, s2, s3⟩ := hstep
    have hu' : (relax_edge u s e).visited u = true := by rw [s1]; exact hu
    have hdu : (relax_edge u s e).dist u = s.dist u := by
      rcases s2 u with ⟨h, _⟩ | ⟨h, _⟩
      · exact h
      · rw [hu] at h; cases h
    obtain ⟨i1, i2, i3⟩ := ih (relax_edge u s e) hu'
    have hmono : ∀ v, (l.foldl (relax_edge u) (relax_edge u s e)).dist v ≤
        (relax_edge u s e).dist v := by
      intro v
      rcases i2 v with ⟨h, _⟩ | ⟨_, _, h, _⟩
      · rw [h]
      · exact le_of_lt h
    refine ⟨by rw [i1, s1], ?_, ?_⟩
    · intro v
      rcases i2 v with ⟨a1, a2⟩ | ⟨a1, a2, a3, e', he', hd', hw'⟩
      · rcases s2 v with ⟨b1, b2⟩ | ⟨b1, b2, b3, b4, b5⟩
        · left
          exact ⟨by rw [a1, b1], by rw [a2, b2]⟩
        · right
          exact ⟨b1, by rw [a2, b3], by rw [a1]; exact b5, e, List.mem_cons_self _ _, b2,
            by rw [a1, b4]⟩
      · right
        rw [s1] at a1
        refine ⟨a1, a2, ?_, e', List.mem_cons_of_mem _ he', hd', by rw [hw', hdu]⟩
        rcases s2 v with ⟨b1, _⟩ | ⟨_, _, _, _, b5⟩
        · rw [← b1]; exact a3
        · exact lt_trans a3 b5
    · intro e0 he0 hvis
      rcases List.mem_cons.mp he0 with h | h
      · subst h
        exact le_trans (hmono _) (s3 hvis)
      · have := i3 e0 h (by rw [s1]; exact hvis)
        rw [hdu] at this
        exact this

theorem card_visit (n : Nat) (vis : Nat → Bool) (u : Nat) (hu : u < n) (hv : vis u = false) :
    ((Finset.range n).filter (fun v => Function.update vis u true v = true)).card =
      ((Finset.range n).filter (fun v => vis v = true)).card + 1 := by
  have hset : (Finset.range n).filter (fun v => Function.update vis u true v = true) =
      insert u ((Finset.range n).filter (fun v => vis v = true)) := by
    ext x
    simp only [Finset.mem_filter, Finset.mem_range, Finset.mem_insert]
    by_cases hx : x = u
    · rw [hx, Function.update_same]
      simp [hu]
    · rw [Function.update_noteq hx]
      simp [hx]
  rw [hset, Finset.card_insert_of_not_mem]
  simp [hv]

/-- One round of `dijkstra` keeps the invariant of `visited[]` and `parent[]`. -/
theorem rank_round (g : Graph) (src : Nat) (s : DState) (k : Nat) (r : Nat → Nat)
    (hinv : RankInv g src s k r) (u : Nat) (hu : u < g.V) (hvis : s.visited u = false)
    (hd : s.dist u < INF) :
    ∃ r', RankInv g src
      ((g.nodes u).adj.foldl (relax_edge u)
        { s with visited := Function.update s.visited u true }) (k + 1) r' := by
  have hu1 : ({ s with visited := Function.update s.visited u true } : DState).visited u = true :=
    Function.update_same _ _ _
  obtain ⟨f1, f2, _⟩ := relax_fold_spec u (g.nodes u).adj
    { s with visited := Function.update s.visited u true } hu1
  generalize (g.nodes u).adj.foldl (relax_edge u)
    { s with visited := Function.update s.visited u true } = s2 at f1 f2
  have hv2 : ∀ v, s2.visited v = true ↔ (v = u ∨ s.visited v = true) := by
    intro v
    rw [f1]
    show Function.update s.visited u true v = true ↔ _
    by_cases hvu : v = u
    · rw [hvu, Function.update_same]; simp
    · rw [Function.update_noteq hvu]; simp [hvu]
  have hkeep : ∀ v, (v = u ∨ s.visited v = true) →
      s2.dist v = s.dist v ∧ s2.parent v = s.parent v := by
    intro v hv
    rcases f2 v with h | ⟨h, _⟩
    · exact h
    · have h' : Function.update s.visited u true v = false := h
      rcases hv with hv | hv
      · rw [hv, Function.update_same] at h'; cases h'
      · by_cases hvu : v = u
        · rw [hvu, Function.update_same] at h'; cases h'
        · rw [Function.update_noteq hvu, hv] at h'; cases h'
  refine ⟨fun v => if s2.visited v = true then r v else k + 1, ?_, ?_, ?_, ?_, ?_, ?_⟩
  · rw [f1]
    show ((Finset.range g.V).filter (fun v => Function.update s.visited u true v = true)).card = _
    rw [card_visit g.V s.visited u hu hvis, hinv.count]
  · intro v hv
    have hv' := (hv2 v).mp hv
    rw [(hkeep v hv').1]
    rcases hv' with h | h
    · rw [h]; exact ⟨hu, hd⟩
    · exact hinv.vis_lt v h
  · intro v hv
    show (if s2.visited v = true then r v else k + 1) < k + 1
    rw [if_pos hv]
    rcases (hv2 v).mp hv with h | h
    · rw [h, hinv.rank_new u hvis]; omega
    · have := hinv.rank_vis v h; omega
  · intro v hv
    show (if s2.visited v = true then r v else k + 1) = k + 1
    rw [if_neg (by rw [hv]; decide)]
  · intro v hp
    rcases f2 v with ⟨_, h2⟩ | ⟨h1, h2, _⟩
    · rw [h2] at hp ⊢
      obtain ⟨p, hp1, hp2, hp3⟩ := hinv.parent_ok v hp
      refine ⟨p, hp1, (hv2 p).mpr (Or.inr hp2), ?_⟩
      show (if s2.visited p = true then r p else k + 1) <
        (if s2.visited v = true then r v else k + 1)
      rw [if_pos ((hv2 p).mpr (Or.inr hp2))]
      have hpk := hinv.rank_vis p hp2
      split_ifs
      · exact hp3
      · omega
    · refine ⟨u, h2, (hv2 u).mpr (Or.inl rfl), ?_⟩
      show (if s2.visited u = true then r u else k + 1) <
        (if s2.visited v = true then r v else k + 1)
      have hvf : s2.visited v = false := by rw [f1]; exact h1
      rw [if_pos ((hv2 u).mpr (Or.inl rfl)), if_neg (by rw [hvf]; decide),
        hinv.rank_new u hvis]
      omega
  · intro v hp hdv
    rcases f2 v with ⟨h1, h2⟩ | ⟨_, h2, _⟩
    · rw [h1] at hdv
      rw [h2] at hp
      exact hinv.parent_root v hp hdv
    · rw [h2] at hp
      omega

/-- The rounds of `dijkstra` keep the invariant of `visited[]` and `parent[]`;
they end after the last round or when nothing below the sentinel is left. -/
theorem rank_rounds (g : Graph) (src : Nat) : ∀ (j : Nat) (s : DState) (k : Nat) (r : Nat → Nat),
    RankInv g src s k r →
    ∃ k' r', k' ≤ k + j ∧ RankInv g src (dijkstra_rounds g j s) k' r' ∧
      (k' = k + j ∨ ∀ v, v < g.V → (dijkstra_rounds g j s).visited v = false →
        INF ≤ (dijkstra_rounds g j s).dist v) := by
  intro j
  induction j with
  | zero =>
    intro s k r h
    exact ⟨k, r, le_refl _, h, Or.inl rfl⟩
  | succ j ih =>
    intro s k r h
    unfold dijkstra_rounds
    rcases select_min_spec s g.V with ⟨h0, _, h2⟩ | ⟨u, h0, _, hu, hvu, hdu, _⟩
    · rw [if_pos h0]
      exact ⟨k, r, by omega, h, Or.inr h2⟩
    · rw [if_neg (by rw [h0]; omega), h0, Int.toNat_ofNat]
      obtain ⟨r1, hr1⟩ := rank_round g src s k r h u hu hvu hdu
      obtain ⟨k', r', a1, a2, a3⟩ := ih _ (k + 1) r1 hr1
      refine ⟨k', r', by omega, a2, ?_⟩
      rcases a3 with a3 | a3
      · left; omega
      · right; exact a3

/-- The state in which `dijkstra` enters its rounds. -/
theorem rank_init (g : Graph) (src : Nat) :
    RankInv g src
      { dist := Function.update (fun _ => INF) src 0, parent := fun _ => -1,
        visited := fun _ => false } 0 (fun _ => 0) := by
  refine ⟨?_, ?_, ?_, ?_, ?_, ?_⟩
  · simp
  · intro v hv; cases hv
  · intro v hv; cases hv
  · intro v _; rfl
  · intro v hp; exact absurd rfl hp
  · intro v _ hd
    by_contra hne
    have : Function.update (fun _ => INF) src (0 : ℚ) v = INF := Function.update_noteq hne _ _
    have hd' : Function.update (fun _ => INF) src (0 : ℚ) v < INF := hd
    rw [this] at hd'
    exact lt_irrefl _ hd'

/-- After `dijkstra` the arrays satisfy the invariant with fewer than `V`
visited nodes. -/
theorem dijkstra_rank (g : Graph) (src : Nat) (hsrc : src < g.V) :
    ∃ k r, k ≤ g.V - 1 ∧ RankInv g src (dijkstra g src) k r := by
  have hd : dijkstra g (src : Int) = dijkstra_rounds g (g.V - 1)
      { dist := Function.update (fun _ => INF) src 0, parent := fun _ => -1,
        visited := fun _ => false } := by
    unfold dijkstra
    dsimp only
    rw [if_neg (by omega), Int.toNat_ofNat]
  obtain ⟨k, r, h1, h2, _⟩ := rank_rounds g src (g.V - 1) _ 0 (fun _ => 0) (rank_init g src)
  rw [← hd] at h2
  exact ⟨k, r, by omega, h2⟩

/-- The recursion of `print_path` ends within `fuel` nodes when the rank of
the node is below `fuel`; the names written end with the name of the node,
and begin with the name of the source when the distance of the node is below
the sentinel. -/
theorem print_path_rank (g : Graph) (src : Nat) (s : DState) (k : Nat) (r : Nat → Nat)
    (hinv : RankInv g src s k r) : ∀ (fuel v : Nat), r v < fuel →
    ∃ names, print_path g s.parent fuel (v : Int) = some names ∧
      names.getLast? = some (g.nodes v).name ∧
      (s.dist v < INF → names.head? = some (g.nodes src).name) := by
  have hnil : ∀ fuel, print_path g s.parent fuel (-1) = some [] := by
    intro fuel
    cases fuel with
    | zero => rfl
    | succ f => unfold print_path; rw [if_pos rfl]
  intro fuel
  induction fuel with
  | zero => intro v hv; exact absurd hv (Nat.not_lt_zero _)
  | succ fuel ih =>
    intro v hv
    unfold print_path
    rw [if_neg (by omega), Int.toNat_ofNat]
    by_cases hp : s.parent v = -1
    · rw [hp, hnil]
      refine ⟨[(g.nodes v).name], rfl, rfl, ?_⟩
      intro hd
      rw [hinv.parent_root v hp hd]
      rfl
    · obtain ⟨u, hu1, hu2, hu3⟩ := hinv.parent_ok v hp
      obtain ⟨names, hn1, hn2, hn3⟩ := ih u (by omega)
      rw [hu1, hn1]
      refine ⟨names ++ [(g.nodes v).name], rfl, by simp, ?_⟩
      intro _
      have hne : names ≠ [] := by
        intro h
        rw [h] at hn2
        cases hn2
      rw [List.head?_append_of_ne_nil _ hne]
      exact hn3 (hinv.vis_lt u hu2).2

end MainC

namespace MainC

/-! ### main.c: `dijkstra` computes the lightest paths below the sentinel -/

theorem road_path_facts (g : Graph) (hwf : WF g) (hnn : NonNeg g) (src : Nat) (hsrc : src < g.V) :
    ∀ v d, IsPath g src v d → v < g.V ∧ 0 ≤ d := by
  intro v d h
  induction h with
  | nil => exact ⟨hsrc, le_refl _⟩
  | @snoc x d e _ he ih =>
    exact ⟨hwf x ih.1 e he, add_nonneg ih.2 (hnn x ih.1 e he)⟩

end MainC

namespace MainC

/-! ### main.c: what `dispatch_all` reports -/

/-- The scan of `find_node_fuzzy` yields `-1` or a node index. -/
theorem find_from_range (g : Graph) (low : List Char) : ∀ (k i : Nat),
    find_node_fuzzy_from g low k i = -1 ∨
    ∃ t : Nat, find_node_fuzzy_from g low k i = (t : Int) ∧ i ≤ t ∧ t < i + k := by
  intro k
  induction k with
  | zero => intro i; left; rfl
  | succ k ih =>
    intro i
    unfold find_node_fuzzy_from
    split_ifs
    · right; exact ⟨i, rfl, le_refl _, by omega⟩
    · rcases ih (i + 1) with h | ⟨t, h1, h2, h3⟩
      · left; exact h
      · right; exact ⟨t, h1, by omega, by omega⟩

theorem find_node_fuzzy_range (g : Graph) (input : String) :
    find_node_fuzzy g input = -1 ∨
    ∃ t : Nat, find_node_fuzzy g input = (t : Int) ∧ t < g.V := by
  unfold find_node_fuzzy
  rcases find_from_range g (CStr.lower (CStr.bounded 256 input)) g.V 0 with h | ⟨t, h1, _, h3⟩
  · left; exact h
  · right; exact ⟨t, h1, by omega⟩

/-- From a home index outside the store `dijkstra` leaves every distance at
the sentinel. -/
theorem dijkstra_invalid (g : Graph) (src : Int) (h : src < 0 ∨ src ≥ g.V) (v : Nat) :
    (dijkstra g src).dist v = INF := by
  unfold dijkstra
  dsimp only
  rw [if_pos h]

/-- The walk of `print_path` over the parents left by `dijkstra` ends within
`V` nodes; the names written end with the name of the node, and begin with
the name of the source when the distance of the node is below the sentinel. -/
theorem print_path_dijkstra (g : Graph) (src target : Nat) (hsrc : src < g.V)
    (ht : target < g.V) :
    ∃ names, print_path g (dijkstra g src).parent g.V (target : Int) = some names ∧
      names.getLast? = some (g.nodes target).name ∧
      ((dijkstra g src).dist target < INF → names.head? = some (g.nodes src).name) := by
  obtain ⟨k, r, hk, hinv⟩ := dijkstra_rank g src hsrc
  apply print_path_rank g src (dijkstra g src) k r hinv g.V target
  cases hv : (dijkstra g src).visited target
  · rw [hinv.rank_new target hv]; omega
  · have := hinv.rank_vis target hv; omega

/-- A report of an assignment carries a route: the names from the home node of
the assigned unit to the node of the call. -/
theorem process_call_route (g : Graph) (U : Units) (inc : Call) (ty : String) (id : Int)
    (name : String) (d eta : ℚ) (route : Option (List String))
    (h : (process_call g U inc).1 = Outcome.dispatched ty id name d eta route) :
    ∃ (names : List String) (k home target : Nat),
      route = some names ∧ find_node_fuzzy g inc.loc = (target : Int) ∧ target < g.V ∧
      k < U.unit_count ∧ (U.units k).id = id ∧ (U.units k).node_idx = (home : Int) ∧
      home < g.V ∧ name = (g.nodes target).name ∧
      names.head? = some (g.nodes home).name ∧ names.getLast? = some (g.nodes target).name := by
  rcases find_node_fuzzy_range g inc.loc with hf | ⟨target, hf, ht⟩
  · have := (process_call_not_found g U inc).mpr hf
    rw [this] at h
    cases h
  · rcases select_prefix g U target (required_type inc.sev) U.unit_count with
      ⟨h1, _, _⟩ | ⟨k, h1, h2, h3, _, h5, _, _⟩
    · exfalso
      have hsel : (select_unit g U target (required_type inc.sev)).2 = -1 := h1
      unfold process_call at h
      rw [if_neg (by rw [hf]; omega)] at h
      simp only [hf, Int.toNat_ofNat] at h
      rw [if_pos hsel] at h
      cases h
    · have hsel : (select_unit g U target (required_type inc.sev)).2 = (k : Int) := h1
      rw [process_call_dispatched g U inc target k hf hsel] at h
      injection h with e1 e2 e3 e4 e5 e6
      have hhome : ∃ home : Nat, (U.units k).node_idx = (home : Int) ∧ home < g.V := by
        by_contra hno
        have hbad : (U.units k).node_idx < 0 ∨ (U.units k).node_idx ≥ g.V := by
          by_contra hin
          apply hno
          refine ⟨(U.units k).node_idx.toNat, ?_, ?_⟩ <;> omega
        have := dijkstra_invalid g _ hbad target
        unfold dist_to at h5
        rw [this] at h5
        exact lt_irrefl _ h5
      obtain ⟨home, hh1, hh2⟩ := hhome
      obtain ⟨names, n1, n2, n3⟩ := print_path_dijkstra g home target hh2 ht
      unfold dist_to at h5
      rw [hh1] at h5 e6
      refine ⟨names, k, home, target, by rw [← e6, n1], hf, ht, h2, e2, hh1, hh2, e3.symm,
        n3 h5, n2⟩

/-- C21 (amended). In scenario A the severity-5 call at `A` is reported with
the route `Hospital, B, A`; in general the route reported with an assignment
is written in full and runs from the home node of the assigned unit to the
node of the call. -/
theorem route_from_unit :
    (dispatch_all scenarioA 1 (insert_call heap_init ⟨1, "A", 5, 1⟩)
        (init_units_from_graph scenarioA)).1 =
      [Outcome.dispatched "ambulance" 1002 "A" 2 3 (some ["Hospital", "B", "A"])] ∧
    (∀ (g : Graph) (U : Units) (inc : Call) (ty : String) (id : Int) (name : String)
      (d eta : ℚ) (route : Option (List String)),
      (process_call g U inc).1 = Outcome.dispatched ty id name d eta route →
      ∃ (names : List String) (k home target : Nat),
        route = some names ∧ find_node_fuzzy g inc.loc = (target : Int) ∧ target < g.V ∧
        k < U.unit_count ∧ (U.units k).id = id ∧ (U.units k).node_idx = (home : Int) ∧
        home < g.V ∧ name = (g.nodes target).name ∧
        names.head? = some (g.nodes home).name ∧
        names.getLast? = some (g.nodes target).name) :=
  ⟨by decide!, process_call_route⟩

/-- Counterexample to C21 as stated: in scenario A the route reported for the severity-5
call at `A` is `Hospital, B, A`, not `A, B, Hospital`. -/
theorem route_not_from_call :
    (dispatch_all scenarioA 1 (insert_call heap_init ⟨1, "A", 5, 1⟩)
        (init_units_from_graph scenarioA)).1.map reported_route =
      [some ["Hospital", "B", "A"]] ∧
    (dispatch_all scenarioA 1 (insert_call heap_init ⟨1, "A", 5, 1⟩)
        (init_units_from_graph scenarioA)).1.map reported_route ≠
      [some ["A", "B", "Hospital"]] := by
  have h : (dispatch_all scenarioA 1 (insert_call heap_init ⟨1, "A", 5, 1⟩)
      (init_units_from_graph scenarioA)).1 =
      [Outcome.dispatched "ambulance" 1002 "A" 2 3 (some ["Hospital", "B", "A"])] := by decide!
  rw [h]
  exact ⟨rfl, by decide⟩

theorem extract_call_size (h : HeapState) (hne : h.heap_size ≠ 0) :
    (extract_call h).2.heap_size = h.heap_size - 1 := by
  unfold extract_call
  rw [if_neg hne]

/-- The loop of `dispatch_all` with fuel for every queued call. -/
theorem dispatch_all_drain (g : Graph) (U : Units) : ∀ (fuel : Nat) (h : HeapState),
    h.heap_size ≤ fuel →
    (dispatch_all g fuel h U).1 = (drain fuel h).map (fun c => (process_call g U c).1) ∧
    (drain fuel h).length = h.heap_size ∧
    (dispatch_all g fuel h U).2.1.heap_size = 0 ∧
    (dispatch_all g fuel h U).2.2 = U := by
  intro fuel
  induction fuel with
  | zero =>
    intro h hf
    have hz : h.heap_size = 0 := by omega
    unfold dispatch_all drain
    exact ⟨rfl, by rw [hz]; rfl, hz, rfl⟩
  | succ fuel ih =>
    intro h hf
    by_cases hz : h.heap_size = 0
    · have he : is_queue_empty h = true := by unfold is_queue_empty; rw [hz]; rfl
      unfold dispatch_all drain
      rw [if_pos he, if_pos he]
      exact ⟨rfl, by rw [hz]; rfl, hz, rfl⟩
    · have he : is_queue_empty h = false := by
        unfold is_queue_empty
        simpa using hz
      have hsz := extract_call_size h hz
      obtain ⟨i1, i2, i3, i4⟩ := ih (extract_call h).2 (by rw [hsz]; omega)
      rw [dispatch_all_succ g fuel h U he, process_call_units]
      unfold drain
      rw [if_neg (by rw [he]; decide)]
      refine ⟨?_, ?_, i3, i4⟩
      · rw [List.map_cons, i1]
      · rw [List.length_cons, i2, hsz]; omega

/-- More fuel than queued calls changes nothing. -/
theorem dispatch_all_fuel (g : Graph) : ∀ (fuel : Nat) (h : HeapState) (U : Units),
    h.heap_size ≤ fuel → dispatch_all g fuel h U = dispatch_all g h.heap_size h U := by
  intro fuel
  induction fuel with
  | zero =>
    intro h U hf
    have hz : h.heap_size = 0 := by omega
    rw [hz]
  | succ fuel ih =>
    intro h U hf
    by_cases hz : h.heap_size = 0
    · have he : is_queue_empty h = true := by unfold is_queue_empty; rw [hz]; rfl
      rw [hz]
      unfold dispatch_all
      rw [if_pos he]
    · have he : is_queue_empty h = false := by
        unfold is_queue_empty
        simpa using hz
      have hsz := extract_call_size h hz
      obtain ⟨n, hn⟩ : ∃ n, h.heap_size = n + 1 := ⟨h.heap_size - 1, by omega⟩
      rw [hn, dispatch_all_succ g fuel h U he, dispatch_all_succ g n h U he,
        ih _ _ (by rw [hsz]; omega)]
      have : (extract_call h).2.heap_size = n := by rw [hsz]; omega
      rw [this]

/-- The loop of `extract_call` is over within as many rounds as calls are
left: more fuel gives the same array. -/
theorem extract_loop_fuel (heapQ : Nat → Call) (n extra : Nat) :
    extract_loop (n + extra) heapQ n 1 = extract_loop n heapQ n 1 := by
  rw [extract_loop_eq_siftDown, extract_loop_eq_siftDown]
  induction extra with
  | zero => rfl
  | succ extra ih =>
    rw [← ih, ← Nat.add_assoc]
    exact BinHeap.siftDown_fuel_succ compare_calls (n + extra) heapQ 1 (le_refl 1)
      (by omega)

/-- C22. With fuel for every queued call, the loop of `dispatch_all` ends on
the empty heap with one report per queued call, in the order in which
`extract_call` returns the calls; the report of a call is the report it gets
on its own with the registry the loop started with (so no earlier call,
failed or not, changes it); every report of an assignment carries its route
in full (the recursion of `print_path` ends); the loop of `extract_call`
needs no more rounds than calls are left; and the registry is returned as it
was. -/
theorem dispatch_all_outcomes (g : Graph) (U : Units) (h : HeapState) (fuel : Nat)
    (hf : h.heap_size ≤ fuel) :
    (dispatch_all g fuel h U).1 = (drain fuel h).map (fun c => (process_call g U c).1) ∧
    (dispatch_all g fuel h U).1.length = h.heap_size ∧
    (drain fuel h).length = h.heap_size ∧
    (dispatch_all g fuel h U).2.1.heap_size = 0 ∧
    is_queue_empty (dispatch_all g fuel h U).2.1 = true ∧
    (dispatch_all g fuel h U).2.2 = U ∧
    dispatch_all g fuel h U = dispatch_all g h.heap_size h U ∧
    (∀ (heapQ : Nat → Call) (n extra : Nat),
      extract_loop (n + extra) heapQ n 1 = extract_loop n heapQ n 1) ∧
    (∀ o ∈ (dispatch_all g fuel h U).1,
      (∃ loc, o = Outcome.not_found loc) ∨ (∃ req loc, o = Outcome.busy req loc) ∨
      (∃ ty id name d eta names, o = Outcome.dispatched ty id name d eta (some names))) := by
  obtain ⟨a1, a2, a3, a4⟩ := dispatch_all_drain g U fuel h hf
  refine ⟨a1, by rw [a1, List.length_map, a2], a2, a3, ?_, a4, ?_, extract_loop_fuel, ?_⟩
  · unfold is_queue_empty
    rw [a3]
    rfl
  · exact dispatch_all_fuel g fuel h U hf
  · intro o ho
    rw [a1, List.mem_map] at ho
    obtain ⟨c, _, hc⟩ := ho
    cases ho' : (process_call g U c).1 with
    | not_found loc => rw [ho'] at hc; left; exact ⟨loc, hc.symm⟩
    | busy req loc => rw [ho'] at hc; right; left; exact ⟨req, loc, hc.symm⟩
    | dispatched ty id name d eta route =>
      rw [ho'] at hc
      obtain ⟨names, _, _, _, hr, _⟩ := process_call_route g U c ty id name d eta route ho'
      right; right
      exact ⟨ty, id, name, d, eta, names, by rw [← hc, hr]⟩

theorem dispatch_all_outcomes_witness :
    queueE.heap_size ≤ 2 ∧
    (dispatch_all scenarioE 2 queueE unitsE).1.length = queueE.heap_size ∧
    (dispatch_all scenarioE 2 queueE unitsE).2.1.heap_size = 0 :=
  ⟨by decide!, (dispatch_all_outcomes scenarioE unitsE queueE 2 (by decide!)).2.1,
    (dispatch_all_outcomes scenarioE unitsE queueE 2 (by decide!)).2.2.2.1⟩

end MainC

namespace MainC

/-! ### main.c and graph.c: the two `dijkstra` on the same roads -/

/-- A road of the store of main.c is a stored edge of the store of graph.c. -/
theorem road_to_edge (gm : Graph) (gc : GraphC.Graph) (hs : SameRoads gm gc) (u : Nat)
    (hu : u < gm.V) (e : Edge) (he : e ∈ (gm.nodes u).adj) :
    ∃ e', e' ∈ GraphC.out_edges gc u ∧ (gc.edges e').to_ = e.dest ∧
      (gc.edges e').weight = e.weight := by
  have h1 : (e.dest, e.weight) ∈ (gm.nodes u).adj.map (fun e => (e.dest, e.weight)) :=
    List.mem_map.mpr ⟨e, he, rfl⟩
  rw [hs.2 u hu] at h1
  unfold GraphC.out_list at h1
  obtain ⟨e', he', heq⟩ := List.mem_map.mp h1
  exact ⟨e', he', (Prod.mk.inj heq).1, (Prod.mk.inj heq).2⟩

/-- A stored edge of the store of graph.c is a road of the store of main.c. -/
theorem edge_to_road (gm : Graph) (gc : GraphC.Graph) (hs : SameRoads gm gc) (u : Nat)
    (hu : u < gm.V) (e' : Nat) (he' : e' ∈ GraphC.out_edges gc u) :
    ∃ e, e ∈ (gm.nodes u).adj ∧ e.dest = (gc.edges e').to_ ∧
      e.weight = (gc.edges e').weight := by
  have h1 : ((gc.edges e').to_, (gc.edges e').weight) ∈ GraphC.out_list gc u := by
    unfold GraphC.out_list
    exact List.mem_map.mpr ⟨e', he', rfl⟩
  rw [← hs.2 u hu] at h1
  obtain ⟨e, he, heq⟩ := List.mem_map.mp h1
  exact ⟨e, he, (Prod.mk.inj heq).1, (Prod.mk.inj heq).2⟩

theorem same_roads_wf (gm : Graph) (gc : GraphC.Graph) (hs : SameRoads gm gc)
    (hwf : GraphC.WF gc) (hnn : GraphC.NonNeg gc) : WF gm ∧ NonNeg gm := by
  constructor
  · intro u hu e he
    obtain ⟨e', he', h1, _⟩ := road_to_edge gm gc hs u hu e he
    have hlt := GraphC.out_edges_lt gc hwf u (by rw [← hs.1]; exact hu) e' he'
    rw [← h1, hs.1]
    exact (hwf.2 e' hlt).1
  · intro u hu e he
    obtain ⟨e', he', _, h2⟩ := road_to_edge gm gc hs u hu e he
    have hlt := GraphC.out_edges_lt gc hwf u (by rw [← hs.1]; exact hu) e' he'
    rw [← h2]
    exact hnn e' hlt

/-- The two stores have the same paths. -/
theorem same_paths (gm : Graph) (gc : GraphC.Graph) (hs : SameRoads gm gc)
    (hwf : GraphC.WF gc) (hnn : GraphC.NonNeg gc) (src : Nat) (hsrc : src < gc.V) (v : Nat)
    (d : ℚ) : IsPath gm src v d ↔ GraphC.IsPath gc src v d := by
  obtain ⟨mwf, mnn⟩ := same_roads_wf gm gc hs hwf hnn
  have hsrc' : src < gm.V := by rw [hs.1]; exact hsrc
  constructor
  · intro h
    induction h with
    | nil => exact GraphC.IsPath.nil
    | @snoc x d e hp he ih =>
      have hx := (road_path_facts gm mwf mnn src hsrc' x d hp).1
      obtain ⟨e', he', h1, h2⟩ := road_to_edge gm gc hs x hx e he
      rw [← h1, ← h2]
      exact GraphC.IsPath.snoc e' ih he'
  · intro h
    induction h with
    | nil => exact IsPath.nil
    | @snoc x d e' hp he' ih =>
      have hx := (road_path_facts gm mwf mnn src hsrc' x d ih).1
      obtain ⟨e, he, h1, h2⟩ := edge_to_road gm gc hs x hx e' he'
      rw [← h1, ← h2]
      exact IsPath.snoc e ih he

end MainC

namespace GraphC

/-! ### The identifier map after any sequence of `llmap_put` -/

theorem puts_snoc (cap : Nat) (l : List (Int × Int)) (p : Int × Int) :
    llmap_puts cap (l ++ [p]) = llmap_put (llmap_puts cap l) p.1 p.2 := by
  unfold llmap_puts
  rw [List.foldl_append]
  rfl

/-- After `llmap_create` with a request of at least 2 and any calls of
`llmap_put`, the table is well formed, it stores exactly the keys that were
put, and `size` is the number of distinct keys put. -/
theorem puts_spec (cap : Nat) (h2 : 2 ≤ cap) : ∀ l : List (Int × Int),
    MapOK (llmap_puts cap l) ∧
    (∀ k, (∃ v, Holds (llmap_puts cap l) k v) ↔ k ∈ l.map Prod.fst) ∧
    (llmap_puts cap l).size = (l.map Prod.fst).toFinset.card := by
  intro l
  induction l using List.reverseRecOn with
  | nil =>
    obtain ⟨hok, habs⟩ := create_ok cap h2
    refine ⟨hok, ?_, rfl⟩
    intro k
    constructor
    · rintro ⟨v, j, hj, hu, hk, _⟩
      exact absurd hk (habs k j hj hu)
    · intro h
      simp at h
  | append_singleton l p ih =>
    obtain ⟨hok, hkeys, hsize⟩ := ih
    obtain ⟨q1, q2, q3, q4⟩ := put_holds (llmap_puts cap l) hok p.1 p.2
    rw [puts_snoc]
    refine ⟨q1, ?_, ?_⟩
    · intro k
      rw [List.map_append, List.mem_append, ← hkeys k]
      constructor
      · rintro ⟨v, hv⟩
        rcases (q2 k v).mp hv with ⟨hk, _⟩ | ⟨_, hh⟩
        · right; rw [hk]; simp
        · left; exact ⟨v, hh⟩
      · rintro (⟨v, hv⟩ | hk)
        · by_cases hkp : k = p.1
          · exact ⟨p.2, (q2 k p.2).mpr (Or.inl ⟨hkp, rfl⟩)⟩
          · exact ⟨v, (q2 k v).mpr (Or.inr ⟨hkp, hv⟩)⟩
        · have hkp : k = p.1 := by simpa using hk
          exact ⟨p.2, (q2 k p.2).mpr (Or.inl ⟨hkp, rfl⟩)⟩
    · rw [List.map_append, List.toFinset_append]
      have hsing : ([p].map Prod.fst).toFinset = {p.1} := by simp
      rw [hsing]
      by_cases hin : p.1 ∈ l.map Prod.fst
      · rw [q4 ((hkeys p.1).mpr hin), hsize]
        congr 1
        ext x
        simp only [Finset.mem_union, List.mem_toFinset, Finset.mem_singleton]
        constructor
        · intro h; exact Or.inl h
        · rintro (h | h)
          · exact h
          · rw [h]; exact hin
      · have habs : Absent (llmap_puts cap l) p.1 := by
          rcases holds_or_absent (llmap_puts cap l) p.1 with h | h
          · exact absurd ((hkeys p.1).mp h) hin
          · exact h
        rw [q3 habs, hsize, Finset.union_comm, ← Finset.insert_eq,
          Finset.card_insert_of_not_mem (by rw [List.mem_toFinset]; exact hin)]

/-! ### The probe loops are left within `cap` rounds -/

theorem find_run_sound (m : LLMap) (k : Int) : ∀ (fuel idx : Nat) (r : Int),
    llmap_find_run m k fuel idx = some r → llmap_find_from m k fuel idx = r := by
  intro fuel
  induction fuel with
  | zero => intro idx r h; cases h
  | succ fuel ih =>
    intro idx r h
    unfold llmap_find_run at h
    unfold llmap_find_from
    split_ifs at h ⊢ with hu hk
    · exact Option.some.inj h
    · exact ih _ r h
    · exact Option.some.inj h

theorem put_run_sound (m : LLMap) (k v : Int) : ∀ (fuel idx : Nat) (r : LLMap),
    llmap_put_from_run m k v fuel idx = some r → llmap_put_from m k v fuel idx = r := by
  intro fuel
  induction fuel with
  | zero => intro idx r h; cases h
  | succ fuel ih =>
    intro idx r h
    unfold llmap_put_from_run at h
    unfold llmap_put_from
    split_ifs at h ⊢ with hu hk
    · exact Option.some.inj h
    · exact ih _ r h
    · exact Option.some.inj h

theorem free_run_sound (m : LLMap) : ∀ (fuel idx r : Nat),
    llmap_free_slot_run m fuel idx = some r → llmap_free_slot m fuel idx = r := by
  intro fuel
  induction fuel with
  | zero => intro idx r h; cases h
  | succ fuel ih =>
    intro idx r h
    unfold llmap_free_slot_run at h
    unfold llmap_free_slot
    split_ifs at h ⊢ with hu
    · exact ih _ r h
    · exact Option.some.inj h

theorem find_run_walk (m : LLMap) (hp : ∃ n, 1 ≤ n ∧ m.cap = 2 ^ n) (k : Int) :
    ∀ (d t fuel : Nat),
    (∀ t', t ≤ t' → t' < t + d →
      (m.table (probe_slot m k t')).used = true ∧ (m.table (probe_slot m k t')).key ≠ k) →
    llmap_find_run m k (fuel + d) (probe_slot m k t) =
      llmap_find_run m k fuel (probe_slot m k (t + d)) := by
  intro d
  induction d with
  | zero => intro t fuel _; rfl
  | succ d ih =>
    intro t fuel hw
    have h0 := hw t (le_refl _) (by omega)
    have hf : fuel + (d + 1) = (fuel + d) + 1 := by omega
    rw [hf, llmap_find_run, if_pos h0.1, if_neg h0.2, probe_next m hp,
      ih (t + 1) fuel (fun t' h1 h2 => hw t' (by omega) (by omega))]
    have ht : t + 1 + d = t + (d + 1) := by omega
    rw [ht]

theorem put_run_walk (m : LLMap) (hp : ∃ n, 1 ≤ n ∧ m.cap = 2 ^ n) (k v : Int) :
    ∀ (d t fuel : Nat),
    (∀ t', t ≤ t' → t' < t + d →
      (m.table (probe_slot m k t')).used = true ∧ (m.table (probe_slot m k t')).key ≠ k) →
    llmap_put_from_run m k v (fuel + d) (probe_slot m k t) =
      llmap_put_from_run m k v fuel (probe_slot m k (t + d)) := by
  intro d
  induction d with
  | zero => intro t fuel _; rfl
  | succ d ih =>
    intro t fuel hw
    have h0 := hw t (le_refl _) (by omega)
    have hf : fuel + (d + 1) = (fuel + d) + 1 := by omega
    rw [hf, llmap_put_from_run, if_pos h0.1, if_neg h0.2, probe_next m hp,
      ih (t + 1) fuel (fun t' h1 h2 => hw t' (by omega) (by omega))]
    have ht : t + 1 + d = t + (d + 1) := by omega
    rw [ht]

theorem free_run_walk (m : LLMap) (hp : ∃ n, 1 ≤ n ∧ m.cap = 2 ^ n) (k : Int) :
    ∀ (d t fuel : Nat),
    (∀ t', t ≤ t' → t' < t + d → (m.table (probe_slot m k t')).used = true) →
    llmap_free_slot_run m (fuel + d) (probe_slot m k t) =
      llmap_free_slot_run m fuel (probe_slot m k (t + d)) := by
  intro d
  induction d with
  | zero => intro t fuel _; rfl
  | succ d ih =>
    intro t fuel hw
    have h0 := hw t (le_refl _) (by omega)
    have hf : fuel + (d + 1) = (fuel + d) + 1 := by omega
    rw [hf, llmap_free_slot_run, if_pos h0, probe_next m hp,
      ih (t + 1) fuel (fun t' h1 h2 => hw t' (by omega) (by omega))]
    have ht : t + 1 + d = t + (d + 1) := by omega
    rw [ht]

/-- The probe for any key meets, within `cap` steps, a slot that is unused or
holds the key, after used slots holding other keys only. -/
theorem probe_stops (m : LLMap) (hc : MapCore m) (k : Int) :
    ∃ t, t < m.cap ∧
      (∀ t', t' < t →
        (m.table (probe_slot m k t')).used = true ∧ (m.table (probe_slot m k t')).key ≠ k) ∧
      ((m.table (probe_slot m k t)).used = false ∨
        ((m.table (probe_slot m k t)).used = true ∧ (m.table (probe_slot m k t)).key = k)) := by
  rcases holds_or_absent m k with ⟨v0, j, hj, hu, hk, _⟩ | habs
  · obtain ⟨t, ht, htj, hw⟩ := hc.path j hj hu
    rw [hk] at htj hw
    exact ⟨t, ht, hw, Or.inr (by rw [htj]; exact ⟨hu, hk⟩)⟩
  · obtain ⟨t, ht, hu, hw⟩ := exists_free m hc k
    exact ⟨t, ht, fun t' ht' => ⟨hw t' ht', habs _ (probe_lt m hc.pow k t') (hw t' ht')⟩,
      Or.inl hu⟩

/-- On a well-formed table the probe loop of `llmap_find` is left within
`cap` rounds. -/
theorem find_run_total (m : LLMap) (hc : MapCore m) (k : Int) :
    llmap_find_run m k m.cap (hash_u64 (to_u64 k) &&& (m.cap - 1)) = some (llmap_find m k) := by
  obtain ⟨t, ht, hw, hstop⟩ := probe_stops m hc k
  have hwalk := find_run_walk m hc.pow k t 0 (m.cap - t - 1 + 1) (fun t' _ h2 => hw t' (by omega))
  have hf : m.cap - t - 1 + 1 + t = m.cap := by omega
  rw [hf, Nat.zero_add] at hwalk
  have hex : ∃ r, llmap_find_run m k m.cap (probe_slot m k 0) = some r := by
    rw [hwalk, llmap_find_run]
    rcases hstop with hu | ⟨hu, hk⟩
    · rw [if_neg (by rw [hu]; decide)]; exact ⟨_, rfl⟩
    · rw [if_pos hu, if_pos hk]; exact ⟨_, rfl⟩
  obtain ⟨r, hr⟩ := hex
  rw [probe_start m hc.pow, hr]
  have := find_run_sound m k _ _ r hr
  rw [← probe_start m hc.pow] at this
  unfold llmap_find
  rw [this]

/-- On a well-formed table the probe loop of `llmap_put` is left within
`cap` rounds. -/
theorem put_from_run_total (m : LLMap) (hc : MapCore m) (k v : Int) :
    llmap_put_from_run m k v m.cap (hash_u64 (to_u64 k) &&& (m.cap - 1)) =
      some (llmap_put_from m k v m.cap (hash_u64 (to_u64 k) &&& (m.cap - 1))) := by
  obtain ⟨t, ht, hw, hstop⟩ := probe_stops m hc k
  have hwalk := put_run_walk m hc.pow k v t 0 (m.cap - t - 1 + 1)
    (fun t' _ h2 => hw t' (by omega))
  have hf : m.cap - t - 1 + 1 + t = m.cap := by omega
  rw [hf, Nat.zero_add] at hwalk
  have hex : ∃ r, llmap_put_from_run m k v m.cap (probe_slot m k 0) = some r := by
    rw [hwalk, llmap_put_from_run]
    rcases hstop with hu | ⟨hu, hk⟩
    · rw [if_neg (by rw [hu]; decide)]; exact ⟨_, rfl⟩
    · rw [if_pos hu, if_pos hk]; exact ⟨_, rfl⟩
  obtain ⟨r, hr⟩ := hex
  rw [probe_start m hc.pow, hr]
  have := put_run_sound m k v _ _ r hr
  rw [this]

/-- On a well-formed table the probe loop of the rehash is left within `cap`
rounds. -/
theorem free_run_total (m : LLMap) (hc : MapCore m) (k : Int) :
    llmap_free_slot_run m m.cap (hash_u64 (to_u64 k) &&& (m.cap - 1)) =
      some (llmap_free_slot m m.cap (hash_u64 (to_u64 k) &&& (m.cap - 1))) := by
  obtain ⟨t, ht, hu, hw⟩ := exists_free m hc k
  have hwalk := free_run_walk m hc.pow k t 0 (m.cap - t - 1 + 1) (fun t' _ h2 => hw t' (by omega))
  have hf : m.cap - t - 1 + 1 + t = m.cap := by omega
  rw [hf, Nat.zero_add] at hwalk
  have hr : llmap_free_slot_run m m.cap (probe_slot m k 0) = some (probe_slot m k t) := by
    rw [hwalk, llmap_free_slot_run, if_neg (by rw [hu]; decide)]
  rw [probe_start m hc.pow, hr]
  have := free_run_sound m _ _ _ hr
  rw [this]

theorem rehash_run_total (m : LLMap) (hc : MapCore m) (old : LLMapEntry) :
    llmap_rehash_step_run m old = some (llmap_rehash_step m old) := by
  unfold llmap_rehash_step_run llmap_rehash_step
  by_cases hu : old.used = true
  · rw [if_pos hu, if_pos hu, free_run_total m hc old.key]
    rfl
  · rw [if_neg hu, if_neg hu]

theorem grow_run_fold (m : LLMap) (hc : MapCore m) : ∀ n, n ≤ m.cap →
    (List.range n).foldl
      (fun r i => r.bind (fun m' => llmap_rehash_step_run m' (m.table i)))
      (some { table := fun _ => ⟨0, 0, false⟩, cap := m.cap * 2, size := 0 }) =
    some ((List.range n).foldl (fun m' i => llmap_rehash_step m' (m.table i))
      { table := fun _ => ⟨0, 0, false⟩, cap := m.cap * 2, size := 0 }) := by
  intro n
  induction n with
  | zero => intro _; rfl
  | succ n ih =>
    intro hn
    rw [List.range_succ, List.foldl_append, List.foldl_append, ih (by omega)]
    simp only [List.foldl_cons, List.foldl_nil, Option.some_bind]
    exact rehash_run_total _ (grow_fold m hc n (by omega)).1 _

theorem grow_run_total (m : LLMap) (hc : MapCore m) :
    llmap_grow_run m = some (llmap_grow m) := by
  unfold llmap_grow_run llmap_grow
  by_cases hg : m.size * 2 ≥ m.cap
  · rw [if_pos hg, if_pos hg]
    exact grow_run_fold m hc m.cap (le_refl _)
  · rw [if_neg hg, if_neg hg]

/-- On a well-formed table every probe loop of `llmap_put` is left within the
capacity of the table it scans. -/
theorem put_run_total (m : LLMap) (hok : MapOK m) (k v : Int) :
    llmap_put_run m k v = some (llmap_put m k v) := by
  unfold llmap_put_run
  rw [grow_run_total m hok.1, Option.some_bind,
    put_from_run_total (llmap_grow m) (grow_spec m hok).1 k v]
  rfl

/-- A well-formed table has an unused slot. -/
theorem free_slot_exists (m : LLMap) (hc : MapCore m) :
    ∃ j, j < m.cap ∧ (m.table j).used = false := by
  obtain ⟨t, _, hu, _⟩ := exists_free m hc 0
  exact ⟨probe_slot m 0 t, probe_lt m hc.pow 0 t, hu⟩

/-- C34. After `llmap_create` with a request of at least 2 and any sequence
of `llmap_put` calls, one more `llmap_put(m, k, v)` makes `llmap_find(m, k)`
return `v` and leaves the result of `llmap_find` for every other key as it
was; a key that was never put is answered `-1`, before and after.  The put
sequence and the key are arbitrary, so the calls that double and rehash the
table are covered. -/
theorem put_then_find (cap : Nat) (hcap : 2 ≤ cap) (l : List (Int × Int)) (k v : Int) :
    llmap_find (llmap_put (llmap_puts cap l) k v) k = v ∧
    (∀ k', k' ≠ k →
      llmap_find (llmap_put (llmap_puts cap l) k v) k' = llmap_find (llmap_puts cap l) k') ∧
    (∀ k', k' ∉ l.map Prod.fst → llmap_find (llmap_puts cap l) k' = -1) ∧
    (∀ k', k' ≠ k → k' ∉ l.map Prod.fst →
      llmap_find (llmap_put (llmap_puts cap l) k v) k' = -1) := by
  obtain ⟨hok, hkeys, _⟩ := puts_spec cap hcap l
  have hnever : ∀ k', k' ∉ l.map Prod.fst → llmap_find (llmap_puts cap l) k' = -1 := by
    intro k' hk'
    apply find_absent _ hok.1
    rcases holds_or_absent (llmap_puts cap l) k' with h | h
    · exact absurd ((hkeys k').mp h) hk'
    · exact h
  refine ⟨find_put_same _ hok k v, fun k' hne => find_put_other _ hok k v k' hne, hnever, ?_⟩
  intro k' hne hk'
  rw [find_put_other _ hok k v k' hne]
  exact hnever k' hk'

theorem put_then_find_witness :
    2 ≤ 2 ∧ (llmap_puts 2 [(7, 0)]).cap = 2 ∧ (llmap_put (llmap_puts 2 [(7, 0)]) 9 1).cap = 4 ∧
    llmap_find (llmap_put (llmap_puts 2 [(7, 0)]) 9 1) 9 = 1 ∧
    llmap_find (llmap_put (llmap_puts 2 [(7, 0)]) 9 1) 7 = llmap_find (llmap_puts 2 [(7, 0)]) 7 :=
  ⟨by decide, by decide!, by decide!, (put_then_find 2 (by decide) [(7, 0)] 9 1).1,
    (put_then_find 2 (by decide) [(7, 0)] 9 1).2.1 7 (by decide)⟩

/-- C35. After `llmap_create` with a request of at least 2 and any sequence
of `llmap_put` calls: the capacity is a power of two, the table stores
exactly the keys that were put, each in one slot, `size` is the number of
used slots and the number of distinct keys put, `2 * size <= cap`, some slot
is unused, and the probe loops of `llmap_find` and of `llmap_put` (the rehash
loops included) are left within `cap` rounds for every key. -/
theorem map_invariant (cap : Nat) (hcap : 2 ≤ cap) (l : List (Int × Int)) :
    (∃ n, (llmap_puts cap l).cap = 2 ^ n) ∧
    (∀ k, (∃ v, Holds (llmap_puts cap l) k v) ↔ k ∈ l.map Prod.fst) ∧
    (∀ j1 j2, j1 < (llmap_puts cap l).cap → j2 < (llmap_puts cap l).cap →
      ((llmap_puts cap l).table j1).used = true → ((llmap_puts cap l).table j2).used = true →
      ((llmap_puts cap l).table j1).key = ((llmap_puts cap l).table j2).key → j1 = j2) ∧
    (llmap_puts cap l).size = used_count (llmap_puts cap l) ∧
    (llmap_puts cap l).size = (l.map Prod.fst).toFinset.card ∧
    2 * (llmap_puts cap l).size ≤ (llmap_puts cap l).cap ∧
    (∃ j, j < (llmap_puts cap l).cap ∧ ((llmap_puts cap l).table j).used = false) ∧
    (∀ k, llmap_find_run (llmap_puts cap l) k (llmap_puts cap l).cap
      (hash_u64 (to_u64 k) &&& ((llmap_puts cap l).cap - 1)) =
        some (llmap_find (llmap_puts cap l) k)) ∧
    (∀ k v, llmap_put_run (llmap_puts cap l) k v = some (llmap_put (llmap_puts cap l) k v)) := by
  obtain ⟨hok, hkeys, hsize⟩ := puts_spec cap hcap l
  obtain ⟨n, _, hn⟩ := hok.1.pow
  exact ⟨⟨n, hn⟩, hkeys, fun j1 j2 h1 h2 hu1 hu2 hk => key_unique _ hok.1 j1 j2 h1 h2 hu1 hu2 hk,
    hok.1.count, hsize, hok.2, free_slot_exists _ hok.1, fun k => find_run_total _ hok.1 k,
    fun k v => put_run_total _ hok k v⟩

theorem map_invariant_witness :
    2 ≤ 2 ∧ (llmap_puts 2 [(7, 0), (9, 1), (7, 5)]).cap = 8 ∧
    (llmap_puts 2 [(7, 0), (9, 1), (7, 5)]).size =
      ([((7 : Int), (0 : Int)), (9, 1), (7, 5)].map Prod.fst).toFinset.card ∧
    2 * (llmap_puts 2 [(7, 0), (9, 1), (7, 5)]).size ≤ (llmap_puts 2 [(7, 0), (9, 1), (7, 5)]).cap :=
  ⟨by decide, by decide!, (map_invariant 2 (by decide) [(7, 0), (9, 1), (7, 5)]).2.2.2.2.1,
    (map_invariant 2 (by decide) [(7, 0), (9, 1), (7, 5)]).2.2.2.2.2.1⟩

end GraphC

namespace GraphC

/-! ### A matching start node is its own nearest facility -/

theorem positive_nonneg (g : Graph) (hpos : Positive g) : NonNeg g :=
  fun e he => le_of_lt (hpos e he)

/-- With strictly positive weights every path that leaves the source has a
strictly positive weight. -/
theorem isPath_pos (g : Graph) (hwf : WF g) (hpos : Positive g) (src : Nat) (hsrc : src < g.V) :
    ∀ v d, IsPath g src v d → v < g.V ∧ 0 ≤ d ∧ (v ≠ src → 0 < d) := by
  intro v d h
  induction h with
  | nil => exact ⟨hsrc, le_refl _, fun hne => absurd rfl hne⟩
  | snoc e _ he ih =>
    have helt := out_edges_lt g hwf _ ih.1 e he
    have hw := hpos e helt
    exact ⟨(hwf.2 e helt).1, le_of_lt (add_pos_of_nonneg_of_pos ih.2.1 hw),
      fun _ => add_pos_of_nonneg_of_pos ih.2.1 hw⟩

/-- C31. On a graph with strictly positive weights, when the node at a valid
start index matches the request, `find_nearest_of_type_from` returns the
start index itself, at distance 0; no other node is at distance 0, so the
scan cannot prefer one.  The caller in `main` passes the destination as the
start and takes the result as the source. -/
theorem nearest_is_start (g : Graph) (start : Nat) (r : Option String) (hwf : WF g)
    (hpos : Positive g) (hs : start < g.V)
    (hm : node_matches_type_or_name g start r = true) :
    find_nearest_of_type_from g (start : Int) r = (start : Int) ∧
    (dijkstra g start).dist start = 0 ∧
    ∀ i, i ≠ start → 0 < (dijkstra g start).dist i := by
  have hnn := positive_nonneg g hpos
  obtain ⟨hinv, _⟩ := dijkstra_final g hwf hnn start hs
  have hfar : ∀ i, i ≠ start → 0 < (dijkstra g start).dist i := by
    intro i hi
    by_cases hd : (dijkstra g start).dist i < INF
    · exact (isPath_pos g hwf hpos start hs i _ (dijkstra_isPath g hwf hnn start hs i hd)).2.2 hi
    · exact lt_of_lt_of_le INF_pos (not_lt.mp hd)
  have h0 : (dijkstra g start).dist start = 0 := hinv.dist_src
  refine ⟨?_, h0, hfar⟩
  have hfn : find_nearest_of_type_from g (start : Int) r =
      ((List.range g.V).foldl (nearest_step g (dijkstra g start).dist r) (INF, -1)).2 := by
    unfold find_nearest_of_type_from
    rw [if_neg (by omega), Int.toNat_ofNat]
  rw [hfn]
  rcases nearest_scan g (dijkstra g start).dist r g.V with
    ⟨_, _, h2⟩ | ⟨k, _, hk, _, _, _, h2, _⟩
  · have := h2 start hs hm
    rw [h0] at this
    exact absurd INF_pos (not_lt.mpr this)
  · have hle := h2 start hs hm
    rw [h0] at hle
    by_cases hks : k = start
    · rw [hk, hks]
    · exact absurd (hfar k hks) (not_lt.mpr hle)

theorem nearest_is_start_witness :
    WF lineGraph ∧ Positive lineGraph ∧ 2 < lineGraph.V ∧
    node_matches_type_or_name lineGraph 2 (some "hospital") = true ∧
    find_nearest_of_type_from lineGraph ((2 : Nat) : Int) (some "hospital") = ((2 : Nat) : Int) :=
  ⟨by decide!, by decide!, by decide!, by decide!,
    (nearest_is_start lineGraph 2 (some "hospital") (by decide!) (by decide!) (by decide!)
      (by decide!)).1⟩

/-! ### The parent array of `dijkstra` has no cycle -/

theorem branch_chain (g : Graph) (src : Nat) (dist : Nat → ℚ) (parent : Nat → Int) :
    ∀ v st, Branch g src dist parent v st →
      List.Chain' (fun a b => parent a = (b : Int)) st := by
  intro v st h
  induction h with
  | root => exact List.chain'_singleton _
  | step e _ hp _ _ _ ih => exact List.Chain'.cons hp ih

/-- C32. On a graph with nonnegative weights and a valid source, for every
node `dest` the walk `cur = dest; while (cur != -1) cur = parent[cur]` over
the parent array of `dijkstra` is left after pushing a list `st` of pairwise
distinct nodes, at most `V` of them: `st` starts at `dest`, each entry is
followed by its parent, the parent of the last entry is `-1`; `top` ends at
the length of `st`, so the stack of `V` slots is not overrun and
`print_path` writes the nodes of `st` in reverse. -/
theorem parent_acyclic (g : Graph) (src dest : Nat) (hwf : WF g) (hnn : NonNeg g)
    (hsrc : src < g.V) (hdest : dest < g.V) :
    ∃ st : List Nat,
      path_stack (dijkstra g src).parent g.V (dest : Int) = some st ∧
      st.head? = some dest ∧
      List.Chain' (fun a b => (dijkstra g src).parent a = (b : Int)) st ∧
      (∀ x, st.getLast? = some x → (dijkstra g src).parent x = -1) ∧
      st.Nodup ∧ (∀ x, x ∈ st → x < g.V) ∧ st.length ≤ g.V ∧
      path_nodes g (dijkstra g src).parent (dest : Int) = some st.reverse ∧
      print_path g (dijkstra g src).parent (dest : Int) =
        some (st.reverse.map (node_label g)) := by
  obtain ⟨hinv, _⟩ := dijkstra_final g hwf hnn src hsrc
  have hfin : ∀ st : List Nat,
      path_stack (dijkstra g src).parent g.V (dest : Int) = some st →
      path_nodes g (dijkstra g src).parent (dest : Int) = some st.reverse ∧
      print_path g (dijkstra g src).parent (dest : Int) =
        some (st.reverse.map (node_label g)) := by
    intro st hst
    have hpn : path_nodes g (dijkstra g src).parent (dest : Int) = some st.reverse := by
      unfold path_nodes
      rw [if_neg (by omega), hst]
      rfl
    refine ⟨hpn, ?_⟩
    unfold print_path
    rw [hpn]
    rfl
  by_cases hd : (dijkstra g src).dist dest < INF
  · obtain ⟨st, hb, hnd, hlt, _⟩ := hinv.tree dest hd
    obtain ⟨tl, htl⟩ := branch_head g src _ _ dest st hb
    have hlen := nodup_length_le st g.V hnd hlt
    have hst := branch_stack g src _ _ hinv.parent_src dest st hb g.V hlen
    refine ⟨st, hst, by rw [htl]; rfl, branch_chain g src _ _ dest st hb, ?_, hnd, hlt, hlen,
      hfin st hst⟩
    intro x hx
    rw [branch_last g src _ _ dest st hb] at hx
    rw [← Option.some.inj hx]
    exact hinv.parent_src
  · have hI : (dijkstra g src).dist dest = INF := le_antisymm (hinv.dist_le dest) (not_lt.mp hd)
    have hp := hinv.parent_inf dest hI
    have hst : path_stack (dijkstra g src).parent g.V (dest : Int) = some [dest] := by
      obtain ⟨n, hn⟩ : ∃ n, g.V = n + 1 := ⟨g.V - 1, by omega⟩
      rw [hn]
      unfold path_stack
      rw [if_neg (by omega), Int.toNat_ofNat, hp]
      cases n <;> simp [path_stack]
    refine ⟨[dest], hst, rfl, List.chain'_singleton _, ?_, List.nodup_singleton _, ?_, ?_,
      hfin [dest] hst⟩
    · intro x hx
      have : dest = x := by simpa using hx
      rw [← this]
      exact hp
    · intro x hx
      have : x = dest := by simpa using hx
      rw [this]
      exact hdest
    · show 1 ≤ g.V
      omega

theorem parent_acyclic_witness :
    WF zeroCycleGraph ∧ NonNeg zeroCycleGraph ∧ 0 < zeroCycleGraph.V ∧ 2 < zeroCycleGraph.V ∧
    path_stack (dijkstra zeroCycleGraph 0).parent zeroCycleGraph.V ((2 : Nat) : Int) =
      some [2, 1, 0] ∧
    ∃ st : List Nat,
      path_stack (dijkstra zeroCycleGraph 0).parent zeroCycleGraph.V ((2 : Nat) : Int) =
        some st ∧
      st.head? = some 2 ∧
      List.Chain' (fun a b => (dijkstra zeroCycleGraph 0).parent a = (b : Int)) st ∧
      (∀ x, st.getLast? = some x → (dijkstra zeroCycleGraph 0).parent x = -1) ∧
      st.Nodup ∧ (∀ x, x ∈ st → x < zeroCycleGraph.V) ∧ st.length ≤ zeroCycleGraph.V ∧
      path_nodes zeroCycleGraph (dijkstra zeroCycleGraph 0).parent ((2 : Nat) : Int) =
        some st.reverse ∧
      print_path zeroCycleGraph (dijkstra zeroCycleGraph 0).parent ((2 : Nat) : Int) =
        some (st.reverse.map (node_label zeroCycleGraph)) :=
  ⟨by decide!, by decide!, by decide!, by decide!, by decide!,
    parent_acyclic zeroCycleGraph 0 2 (by decide!) (by decide!) (by decide!) (by decide!)⟩

end GraphC

namespace MainC

/-! ### Capacity of the call queue and the slots it touches -/

/-- The queue stays in heap order and below `HEAP_MAX` under every sequence
of operations. -/
theorem qrun_bound : ∀ (l : List QOp) (h : HeapState),
    h.heap_size < HEAP_MAX → Ordered h →
    (qrun l h).heap_size < HEAP_MAX ∧ Ordered (qrun l h) := by
  intro l
  induction l with
  | nil => intro h hb ho; exact ⟨hb, ho⟩
  | cons op l ih =>
    intro h hb ho
    cases op with
    | ins c =>
      show (qrun l (insert_call h c)).heap_size < HEAP_MAX ∧ Ordered (qrun l (insert_call h c))
      by_cases hroom : h.heap_size + 1 < HEAP_MAX
      · obtain ⟨o1, _, o3⟩ := insert_call_spec h c hroom ho
        exact ih _ (by rw [o3]; exact hroom) o1
      · have hsame : insert_call h c = h := by
          unfold insert_call
          rw [if_pos (by omega)]
        rw [hsame]
        exact ih h hb ho
    | ext =>
      show (qrun l (extract_call h).2).heap_size < HEAP_MAX ∧ Ordered (qrun l (extract_call h).2)
      by_cases hz : h.heap_size = 0
      · have hsame : (extract_call h).2 = h := by
          unfold extract_call
          rw [if_pos hz]
        rw [hsame]
        exact ih h hb ho
      · obtain ⟨o1, _, o3, _⟩ := extract_call_spec h hz ho
        exact ih _ (by rw [o3]; omega) o1

/-- The loop of `insert_call` started at slot `i` touches slots `1 .. i` only. -/
theorem insert_loop_slots_range : ∀ (fuel : Nat) (heapQ : Nat → Call) (i j : Nat),
    j ∈ insert_loop_slots fuel heapQ i → 1 ≤ j ∧ j ≤ i := by
  intro fuel
  induction fuel with
  | zero => intro heapQ i j hj; simp [insert_loop_slots] at hj
  | succ fuel ih =>
    intro heapQ i j hj
    unfold insert_loop_slots at hj
    by_cases hi : i > 1
    · rw [if_pos hi] at hj
      rcases List.mem_cons.mp hj with h | hj
      · omega
      · rcases List.mem_cons.mp hj with h | hj
        · have : 1 ≤ i / 2 := Nat.div_pos (by omega) (by decide)
          have : i / 2 ≤ i := Nat.div_le_self i 2
          omega
        · by_cases hc : compare_calls (heapQ i) (heapQ (i / 2)) = true
          · rw [if_pos hc] at hj
            have := ih _ _ j hj
            have : i / 2 ≤ i := Nat.div_le_self i 2
            omega
          · rw [if_neg hc] at hj
            cases hj
    · rw [if_neg hi] at hj
      cases hj

/-- The loop of `extract_call` started at slot `i` touches, besides `i`,
slots `1 .. heap_size` only. -/
theorem extract_loop_slots_range : ∀ (fuel : Nat) (heapQ : Nat → Call) (n i j : Nat),
    1 ≤ i → j ∈ extract_loop_slots fuel heapQ n i → 1 ≤ j ∧ (j ≤ n ∨ j = i) := by
  intro fuel
  induction fuel with
  | zero => intro heapQ n i j _ hj; simp [extract_loop_slots] at hj
  | succ fuel ih =>
    intro heapQ n i j hi hj
    unfold extract_loop_slots at hj
    dsimp only at hj
    have hl1 : (if 2 * i ≤ n ∧ compare_calls (heapQ (2 * i)) (heapQ i) = true then 2 * i else i)
        = 2 * i ∧ 2 * i ≤ n ∨
        (if 2 * i ≤ n ∧ compare_calls (heapQ (2 * i)) (heapQ i) = true then 2 * i else i) = i := by
      split_ifs with h
      · exact Or.inl ⟨rfl, h.1⟩
      · exact Or.inr rfl
    generalize (if 2 * i ≤ n ∧ compare_calls (heapQ (2 * i)) (heapQ i) = true then 2 * i else i)
      = a at hj hl1
    have hl2 : (if 2 * i + 1 ≤ n ∧ compare_calls (heapQ (2 * i + 1)) (heapQ a) = true
        then 2 * i + 1 else a) = 2 * i + 1 ∧ 2 * i + 1 ≤ n ∨
        (if 2 * i + 1 ≤ n ∧ compare_calls (heapQ (2 * i + 1)) (heapQ a) = true
        then 2 * i + 1 else a) = a := by
      split_ifs with h
      · exact Or.inl ⟨rfl, h.1⟩
      · exact Or.inr rfl
    generalize (if 2 * i + 1 ≤ n ∧ compare_calls (heapQ (2 * i + 1)) (heapQ a) = true
        then 2 * i + 1 else a) = b at hj hl2
    rcases List.mem_append.mp hj with hj | hj
    · by_cases hl : 2 * i ≤ n
      · rw [if_pos hl] at hj
        simp only [List.mem_cons, List.mem_singleton, List.not_mem_nil, or_false] at hj
        omega
      · rw [if_neg hl] at hj
        cases hj
    · rcases List.mem_append.mp hj with hj | hj
      · by_cases hr : 2 * i + 1 ≤ n
        · rw [if_pos hr] at hj
          simp only [List.mem_cons, List.mem_singleton, List.not_mem_nil, or_false] at hj
          omega
        · rw [if_neg hr] at hj
          cases hj
      · by_cases hb : b = i
        · rw [if_pos hb] at hj
          cases hj
        · rw [if_neg hb] at hj
          have hbn : 1 ≤ b ∧ b ≤ n := by omega
          rcases List.mem_cons.mp hj with h | hj
          · omega
          · rcases List.mem_cons.mp hj with h | hj
            · omega
            · have := ih _ n b j hbn.1 hj
              omega

/-- C33. In every state reached from the empty queue by calls of
`insert_call` and `extract_call` the size is at most 999 (`HEAP_MAX - 1`).
In such a state `insert_call` takes the call, the size growing by one and the
resident calls gaining exactly that call, if and only if fewer than 999 calls
are resident; with 999 resident it returns with `heapQ` and `heap_size` as
they were.  Every slot of `heapQ` that `insert_call` or `extract_call` reads
or writes, however many rounds their loops run, has an index from 1 to 999. -/
theorem queue_bounds (ops : List QOp) (c : Call) :
    HEAP_MAX = 1000 ∧
    (qrun ops heap_init).heap_size ≤ 999 ∧
    ((qrun ops heap_init).heap_size < 999 →
      (insert_call (qrun ops heap_init) c).heap_size = (qrun ops heap_init).heap_size + 1 ∧
      resident (insert_call (qrun ops heap_init) c) = c ::ₘ resident (qrun ops heap_init)) ∧
    (insert_call (qrun ops heap_init) c = qrun ops heap_init ↔
      (qrun ops heap_init).heap_size = 999) ∧
    (∀ fuel j, j ∈ insert_call_slots fuel (qrun ops heap_init) c → 1 ≤ j ∧ j ≤ 999) ∧
    (∀ fuel j, j ∈ extract_call_slots fuel (qrun ops heap_init) → 1 ≤ j ∧ j ≤ 999) := by
  obtain ⟨hb, ho⟩ := qrun_bound ops heap_init (by decide) heap_init_ordered
  generalize qrun ops heap_init = h at hb ho
  have hmax : HEAP_MAX = 1000 := rfl
  rw [hmax] at hb
  have hacc : h.heap_size < 999 →
      (insert_call h c).heap_size = h.heap_size + 1 ∧
      resident (insert_call h c) = c ::ₘ resident h := by
    intro hlt
    obtain ⟨_, o2, o3⟩ := insert_call_spec h c (by rw [hmax]; omega) ho
    exact ⟨o3, o2⟩
  refine ⟨rfl, by omega, hacc, ⟨fun hsame => ?_, fun hfull => ?_⟩, ?_, ?_⟩
  · by_contra hne
    have := (hacc (by omega)).1
    rw [hsame] at this
    omega
  · unfold insert_call
    rw [if_pos (by rw [hmax]; omega)]
  · intro fuel j hj
    unfold insert_call_slots at hj
    by_cases hfull : h.heap_size + 1 ≥ HEAP_MAX
    · rw [if_pos hfull] at hj
      cases hj
    · rw [if_neg hfull] at hj
      rw [hmax] at hfull
      rcases List.mem_cons.mp hj with hj | hj
      · omega
      · have := insert_loop_slots_range fuel _ _ j hj
        omega
  · intro fuel j hj
    unfold extract_call_slots at hj
    by_cases hz : h.heap_size = 0
    · rw [if_pos hz] at hj
      cases hj
    · rw [if_neg hz] at hj
      rcases List.mem_cons.mp hj with hj | hj
      · omega
      · rcases List.mem_cons.mp hj with hj | hj
        · omega
        · have := extract_loop_slots_range fuel _ _ 1 j (le_refl 1) hj
          omega

theorem queue_bounds_witness :
    (qrun [QOp.ins ⟨1, "A", 5, 1⟩] heap_init).heap_size < 999 ∧
    (insert_call (qrun [QOp.ins ⟨1, "A", 5, 1⟩] heap_init) ⟨2, "B", 3, 2⟩).heap_size =
      (qrun [QOp.ins ⟨1, "A", 5, 1⟩] heap_init).heap_size + 1 ∧
    resident (insert_call (qrun [QOp.ins ⟨1, "A", 5, 1⟩] heap_init) ⟨2, "B", 3, 2⟩) =
      ⟨2, "B", 3, 2⟩ ::ₘ resident (qrun [QOp.ins ⟨1, "A", 5, 1⟩] heap_init) :=
  ⟨by decide!, (queue_bounds [QOp.ins ⟨1, "A", 5, 1⟩] ⟨2, "B", 3, 2⟩).2.2.1 (by decide!)⟩

end MainC

namespace Dbl

/-! ### Rounding to the nearest double -/

theorem round_even_mono {m m' : ℚ} (h : m ≤ m') : round_even m ≤ round_even m' := by
  have hf : ⌊m⌋ ≤ ⌊m'⌋ := Int.floor_le_floor h
  have hlo : ∀ x : ℚ, ⌊x⌋ ≤ round_even x := by
    intro x; unfold round_even; split_ifs <;> omega
  have hhi : ∀ x : ℚ, round_even x ≤ ⌊x⌋ + 1 := by
    intro x; unfold round_even; split_ifs <;> omega
  rcases lt_or_eq_of_le hf with hlt | heq
  · exact le_trans (hhi m) (le_trans (by omega) (hlo m'))
  · have hr : m - ⌊m⌋ ≤ m' - ⌊m'⌋ := by rw [heq]; linarith
    unfold round_even
    rw [heq]
    split_ifs <;> first | omega | (exfalso; linarith)

theorem round_even_int (k : Int) : round_even (k : ℚ) = k := by
  unfold round_even
  rw [Int.floor_intCast]
  simp

theorem round_even_nonneg {m : ℚ} (h : 0 ≤ m) : 0 ≤ round_even m := by
  have := round_even_mono h
  rw [show (0 : ℚ) = ((0 : Int) : ℚ) by simp, round_even_int] at this
  exact this

theorem round_even_small {m : ℚ} (h0 : 0 ≤ m) (h : m < 1 / 2) : round_even m = 0 := by
  have hf : ⌊m⌋ = 0 := by
    rw [Int.floor_eq_iff]
    constructor
    · simpa using h0
    · simp; linarith
  unfold round_even
  rw [hf]
  simp
  intro h'
  linarith

theorem log2_loop_spec : ∀ (fuel n : Nat), n ≤ fuel → 1 ≤ n →
    2 ^ log2_loop fuel n ≤ n ∧ n < 2 ^ (log2_loop fuel n + 1) := by
  intro fuel
  induction fuel with
  | zero => intro n h1 h2; omega
  | succ fuel ih =>
    intro n hn h1
    unfold log2_loop
    by_cases h2 : 2 ≤ n
    · rw [if_pos h2]
      obtain ⟨i1, i2⟩ := ih (n / 2) (by omega) (by omega)
      constructor
      · rw [pow_succ]
        have := Nat.div_mul_le_self n 2
        calc 2 ^ log2_loop fuel (n / 2) * 2 ≤ n / 2 * 2 := Nat.mul_le_mul_right 2 i1
          _ ≤ n := this
      · rw [pow_succ]
        have : n < (n / 2 + 1) * 2 := by omega
        calc n < (n / 2 + 1) * 2 := this
          _ ≤ 2 ^ (log2_loop fuel (n / 2) + 1) * 2 := Nat.mul_le_mul_right 2 i2
    · rw [if_neg h2]
      simp
      omega

theorem nlog2_spec (n : Nat) (h : 1 ≤ n) : 2 ^ nlog2 n ≤ n ∧ n < 2 ^ (nlog2 n + 1) :=
  log2_loop_spec n n (le_refl n) h

theorem two_zpow_pos (z : Int) : (0 : ℚ) < (2 : ℚ) ^ z := zpow_pos (by norm_num) z

theorem two_zpow_mono {a b : Int} (h : a ≤ b) : (2 : ℚ) ^ a ≤ (2 : ℚ) ^ b :=
  zpow_le_zpow_right₀ (by norm_num) h

/-- The exponent `ilog2 x` brackets `x` between two powers of two. -/
theorem ratio_bracket (n d a b : Nat) (hd : 1 ≤ d)
    (a1 : 2 ^ a ≤ n) (a2 : n < 2 ^ (a + 1)) (b1 : 2 ^ b ≤ d) (b2 : d < 2 ^ (b + 1)) :
    (2 : ℚ) ^ ((a : Int) - (b : Int) - 1) ≤ (n : ℚ) / (d : ℚ) ∧
    (n : ℚ) / (d : ℚ) < (2 : ℚ) ^ ((a : Int) - (b : Int) + 1) := by
  have hdpos : (0 : ℚ) < (d : ℚ) := by exact_mod_cast hd
  have A1 : (2 : ℚ) ^ (a : Int) ≤ (n : ℚ) := by
    rw [zpow_natCast]; exact_mod_cast a1
  have A2 : (n : ℚ) < (2 : ℚ) ^ ((a : Int) + 1) := by
    have : (n : ℚ) < (2 : ℚ) ^ (a + 1) := by exact_mod_cast a2
    rw [← zpow_natCast] at this
    simpa using this
  have B1 : (2 : ℚ) ^ (b : Int) ≤ (d : ℚ) := by
    rw [zpow_natCast]; exact_mod_cast b1
  have B2 : (d : ℚ) < (2 : ℚ) ^ ((b : Int) + 1) := by
    have : (d : ℚ) < (2 : ℚ) ^ (b + 1) := by exact_mod_cast b2
    rw [← zpow_natCast] at this
    simpa using this
  constructor
  · have e1 : (2 : ℚ) ^ ((a : Int) - (b : Int) - 1) =
        (2 : ℚ) ^ (a : Int) / (2 : ℚ) ^ ((b : Int) + 1) := by
      rw [← zpow_sub₀ (by norm_num : (2 : ℚ) ≠ 0)]
      congr 1
      omega
    rw [e1]
    exact div_le_div₀ (le_trans (le_of_lt (two_zpow_pos _)) A1) A1 hdpos (le_of_lt B2)
  · have e1 : (2 : ℚ) ^ ((a : Int) - (b : Int) + 1) =
        (2 : ℚ) ^ ((a : Int) + 1) / (2 : ℚ) ^ (b : Int) := by
      rw [← zpow_sub₀ (by norm_num : (2 : ℚ) ≠ 0)]
      congr 1
      omega
    rw [e1]
    exact div_lt_div₀ A2 B1 (le_of_lt (two_zpow_pos _)) (two_zpow_pos _)

/-- The exponent `ilog2 x` brackets `x` between two powers of two. -/
theorem ilog2_spec (x : ℚ) (hx : 0 < x) :
    (2 : ℚ) ^ ilog2 x ≤ x ∧ x < (2 : ℚ) ^ (ilog2 x + 1) := by
  have hn : 0 < x.num := Rat.num_pos.mpr hx
  have hnat : (x.num.natAbs : Int) = x.num := Int.natAbs_of_nonneg (le_of_lt hn)
  have hn1 : 1 ≤ x.num.natAbs := by omega
  have hd1 : 1 ≤ x.den := x.den_pos
  obtain ⟨a1, a2⟩ := nlog2_spec x.num.natAbs hn1
  obtain ⟨b1, b2⟩ := nlog2_spec x.den hd1
  have hxe : (x.num.natAbs : ℚ) / (x.den : ℚ) = x := by
    have h1 : (x.num.natAbs : ℚ) = (x.num : ℚ) := by
      rw [← Int.cast_natCast, hnat]
    rw [h1]
    exact Rat.num_div_den x
  obtain ⟨hlow, hhigh⟩ := ratio_bracket x.num.natAbs x.den _ _ hd1 a1 a2 b1 b2
  rw [hxe] at hlow hhigh
  unfold ilog2
  split_ifs with hc
  · exact ⟨hc, hhigh⟩
  · refine ⟨hlow, ?_⟩
    have : (nlog2 x.num.natAbs : Int) - (nlog2 x.den : Int) - 1 + 1 =
        (nlog2 x.num.natAbs : Int) - (nlog2 x.den : Int) := by omega
    rw [this]
    exact not_le.mp hc

/-- For positive `x` the exponent is the integer logarithm. -/
theorem ilog2_eq_log (x : ℚ) (hx : 0 < x) : ilog2 x = Int.log 2 x := by
  obtain ⟨h1, h2⟩ := ilog2_spec x hx
  have h1' : ((2 : Nat) : ℚ) ^ ilog2 x ≤ x := by simpa using h1
  have h2' : x < ((2 : Nat) : ℚ) ^ (ilog2 x + 1) := by simpa using h2
  have a := (Int.zpow_le_iff_le_log (by norm_num : 1 < 2) hx).mp h1'
  have b := (Int.lt_zpow_iff_log_lt (by norm_num : 1 < 2) hx).mp h2'
  omega

theorem quantum_pos_eq (x : ℚ) (hx : 0 < x) : quantum x = max (Int.log 2 x - 52) (-1074) := by
  unfold quantum
  rw [abs_of_pos hx, ilog2_eq_log x hx]

theorem log_bracket (x : ℚ) (hx : 0 < x) :
    (2 : ℚ) ^ Int.log 2 x ≤ x ∧ x < (2 : ℚ) ^ (Int.log 2 x + 1) := by
  rw [← ilog2_eq_log x hx]
  exact ilog2_spec x hx

theorem log_lt_of_lt_zpow (x : ℚ) (hx : 0 < x) (z : Int) (h : x < (2 : ℚ) ^ z) :
    Int.log 2 x < z := by
  have h' : x < ((2 : Nat) : ℚ) ^ z := by simpa using h
  exact (Int.lt_zpow_iff_log_lt (by norm_num : 1 < 2) hx).mp h'

theorem log_two_zpow (z : Int) : Int.log 2 ((2 : ℚ) ^ z) = z := by
  have h : Int.log 2 (((2 : Nat) : ℚ) ^ z) = z := Int.log_zpow (by norm_num : 1 < 2) z
  simpa using h

end Dbl

namespace Dbl

theorem round_double_zero : round_double 0 = 0 := by
  unfold round_double
  rw [if_pos rfl]

theorem round_double_pos_eq (x : ℚ) (hx : 0 < x) :
    round_double x = (round_even (x / (2 : ℚ) ^ quantum x) : ℚ) * (2 : ℚ) ^ quantum x := by
  unfold round_double
  rw [if_neg (ne_of_gt hx)]

theorem round_double_nonneg {x : ℚ} (hx : 0 ≤ x) : 0 ≤ round_double x := by
  rcases eq_or_lt_of_le hx with h | h
  · rw [← h, round_double_zero]
  · rw [round_double_pos_eq x h]
    apply mul_nonneg _ (le_of_lt (two_zpow_pos _))
    have := round_even_nonneg (div_nonneg hx (le_of_lt (two_zpow_pos (quantum x))))
    exact_mod_cast this

/-- A power of two on the grid of spacing `2^q` is an integer multiple of the spacing. -/
theorem zpow_on_grid (q z : Int) (h : q ≤ z) :
    (2 : ℚ) ^ z / (2 : ℚ) ^ q = (((2 : Int) ^ (z - q).toNat : Int) : ℚ) := by
  rw [← zpow_sub₀ (by norm_num : (2 : ℚ) ≠ 0)]
  have : z - q = ((z - q).toNat : Int) := (Int.toNat_of_nonneg (by omega)).symm
  rw [this, zpow_natCast]
  push_cast
  rw [← this]

theorem grid_round_le (q z : Int) (h : q ≤ z) (x : ℚ) (hx : x ≤ (2 : ℚ) ^ z) :
    (round_even (x / (2 : ℚ) ^ q) : ℚ) * (2 : ℚ) ^ q ≤ (2 : ℚ) ^ z := by
  have h1 : x / (2 : ℚ) ^ q ≤ (2 : ℚ) ^ z / (2 : ℚ) ^ q :=
    div_le_div_of_nonneg_right hx (le_of_lt (two_zpow_pos q))
  have h2 := round_even_mono h1
  rw [zpow_on_grid q z h, round_even_int] at h2
  have h3 : (round_even (x / (2 : ℚ) ^ q) : ℚ) ≤ (((2 : Int) ^ (z - q).toNat : Int) : ℚ) := by
    exact_mod_cast h2
  rw [← zpow_on_grid q z h] at h3
  have := mul_le_mul_of_nonneg_right h3 (le_of_lt (two_zpow_pos q))
  rwa [div_mul_cancel₀ _ (ne_of_gt (two_zpow_pos q))] at this

theorem grid_round_ge (q z : Int) (h : q ≤ z) (x : ℚ) (hx : (2 : ℚ) ^ z ≤ x) :
    (2 : ℚ) ^ z ≤ (round_even (x / (2 : ℚ) ^ q) : ℚ) * (2 : ℚ) ^ q := by
  have h1 : (2 : ℚ) ^ z / (2 : ℚ) ^ q ≤ x / (2 : ℚ) ^ q :=
    div_le_div_of_nonneg_right hx (le_of_lt (two_zpow_pos q))
  have h2 := round_even_mono h1
  rw [zpow_on_grid q z h, round_even_int] at h2
  have h3 : (((2 : Int) ^ (z - q).toNat : Int) : ℚ) ≤ (round_even (x / (2 : ℚ) ^ q) : ℚ) := by
    exact_mod_cast h2
  rw [← zpow_on_grid q z h] at h3
  have := mul_le_mul_of_nonneg_right h3 (le_of_lt (two_zpow_pos q))
  rwa [div_mul_cancel₀ _ (ne_of_gt (two_zpow_pos q))] at this

/-- Rounding to the nearest double is monotone on the nonnegative rationals. -/
theorem round_double_mono {x y : ℚ} (hx : 0 ≤ x) (hxy : x ≤ y) :
    round_double x ≤ round_double y := by
  rcases eq_or_lt_of_le hx with h0 | hxp
  · rw [← h0, round_double_zero]
    exact round_double_nonneg (le_trans hx hxy)
  have hyp : 0 < y := lt_of_lt_of_le hxp hxy
  have hlog : Int.log 2 x ≤ Int.log 2 y := Int.log_mono_right hxp hxy
  rw [round_double_pos_eq x hxp, round_double_pos_eq y hyp, quantum_pos_eq x hxp,
    quantum_pos_eq y hyp]
  rcases lt_or_eq_of_le (max_le_max (Int.sub_le_sub_right hlog 52) (le_refl (-1074 : Int)))
    with hq | hq
  · -- different spacings: a power of two lies between
    have hqy : max (Int.log 2 y - 52) (-1074) = Int.log 2 y - 52 := by
      rcases le_total (Int.log 2 y - 52) (-1074) with h | h
      · rw [max_eq_right h] at hq
        have := le_max_right (Int.log 2 x - 52) (-1074)
        omega
      · exact max_eq_left h
    have hqx1 : Int.log 2 x - 52 ≤ max (Int.log 2 x - 52) (-1074) := le_max_left _ _
    have hlt : Int.log 2 x + 1 ≤ Int.log 2 y := by rw [hqy] at hq; omega
    have hxa : x ≤ (2 : ℚ) ^ Int.log 2 y :=
      le_trans (le_of_lt (log_bracket x hxp).2) (two_zpow_mono hlt)
    have hay : (2 : ℚ) ^ Int.log 2 y ≤ y := (log_bracket y hyp).1
    have hA := grid_round_le (max (Int.log 2 x - 52) (-1074)) (Int.log 2 y)
      (by rw [hqy] at hq; omega) x hxa
    have hB := grid_round_ge (max (Int.log 2 y - 52) (-1074)) (Int.log 2 y)
      (by rw [hqy]; omega) y hay
    exact le_trans hA hB
  · rw [hq]
    apply mul_le_mul_of_nonneg_right _ (le_of_lt (two_zpow_pos _))
    have := round_even_mono
      (div_le_div_of_nonneg_right hxy (le_of_lt (two_zpow_pos (max (Int.log 2 y - 52) (-1074)))))
    exact_mod_cast this

/-- A positive rational that is an integer multiple of its own spacing is a double. -/
theorem round_double_of_grid (z : ℚ) (hz : 0 < z) (q j : Int) (hq : quantum z = q)
    (h : z / (2 : ℚ) ^ q = (j : ℚ)) : round_double z = z := by
  rw [round_double_pos_eq z hz, hq, h, round_even_int, ← h,
    div_mul_cancel₀ _ (ne_of_gt (two_zpow_pos _))]

/-- The result of rounding is a double. -/
theorem round_double_idem {x : ℚ} (hx : 0 ≤ x) : round_double (round_double x) = round_double x := by
  rcases eq_or_lt_of_le hx with h0 | hxp
  · rw [← h0, round_double_zero, round_double_zero]
  have hk0 : 0 ≤ round_even (x / (2 : ℚ) ^ quantum x) :=
    round_even_nonneg (div_nonneg hx (le_of_lt (two_zpow_pos _)))
  rcases eq_or_lt_of_le hk0 with hk | hk
  · rw [round_double_pos_eq x hxp, ← hk]
    simp [round_double_zero]
  -- the rounded value `z = k * 2^q` with `k >= 1`
  have hq := quantum_pos_eq x hxp
  have hzdef := round_double_pos_eq x hxp
  generalize hzz : round_double x = z at hzdef ⊢
  generalize hkk : round_even (x / (2 : ℚ) ^ quantum x) = k at hzdef hk
  have hk1 : (1 : ℚ) ≤ (k : ℚ) := by exact_mod_cast hk
  have hzpos : 0 < z := by
    rw [hzdef]
    exact mul_pos (by linarith) (two_zpow_pos _)
  have hzq : (2 : ℚ) ^ quantum x ≤ z := by
    rw [hzdef]
    have := mul_le_mul_of_nonneg_right hk1 (le_of_lt (two_zpow_pos (quantum x)))
    simpa using this
  -- the exponent of `x` is at least the spacing exponent minus one
  have hex : quantum x ≤ Int.log 2 x + 1 := by
    by_contra hcon
    have hlt : Int.log 2 x + 1 ≤ quantum x - 1 := by omega
    have h1 : x < (2 : ℚ) ^ (quantum x - 1) :=
      lt_of_lt_of_le (log_bracket x hxp).2 (two_zpow_mono hlt)
    have h2 : x / (2 : ℚ) ^ quantum x < 1 / 2 := by
      rw [div_lt_iff₀ (two_zpow_pos _)]
      have : (2 : ℚ) ^ (quantum x - 1) = 1 / 2 * (2 : ℚ) ^ quantum x := by
        rw [zpow_sub₀ (by norm_num : (2 : ℚ) ≠ 0), zpow_one]
        ring
      rw [← this]
      exact h1
    have := round_even_small (div_nonneg hx (le_of_lt (two_zpow_pos _))) h2
    rw [hkk] at this
    omega
  have hzle : z ≤ (2 : ℚ) ^ (Int.log 2 x + 1) := by
    rw [hzdef, ← hkk]
    exact grid_round_le (quantum x) (Int.log 2 x + 1) hex x (le_of_lt (log_bracket x hxp).2)
  have hqz := quantum_pos_eq z hzpos
  generalize hqq : quantum z = qz at hqz
  rcases eq_or_lt_of_le hzle with heq | hlt
  · -- `z` is the power of two above `x`
    have hlz : Int.log 2 z = Int.log 2 x + 1 := by rw [heq]; exact log_two_zpow _
    have hq1074 : (-1074 : Int) ≤ quantum x := by rw [hq]; exact le_max_right _ _
    have hqzle : qz ≤ Int.log 2 x + 1 := by
      rw [hqz, hlz]
      exact max_le (by omega) (by omega)
    apply round_double_of_grid z hzpos qz ((2 : Int) ^ (Int.log 2 x + 1 - qz).toNat) hqq
    rw [heq]
    exact zpow_on_grid _ _ hqzle
  · -- `z` has the exponent of `x` at most, so its spacing is not coarser
    have hlz : Int.log 2 z ≤ Int.log 2 x := by
      have := log_lt_of_lt_zpow z hzpos _ hlt
      omega
    have hqzle : qz ≤ quantum x := by
      rw [hqz, hq]
      exact max_le_max (by omega) (le_refl _)
    apply round_double_of_grid z hzpos qz (k * (2 : Int) ^ (quantum x - qz).toNat) hqq
    rw [hzdef, mul_div_assoc, zpow_on_grid _ _ hqzle]
    push_cast
    rfl

/-! ### The machine sum -/

theorem add_nonneg_dbl {x y : ℚ} (hx : 0 ≤ x) (hy : 0 ≤ y) : 0 ≤ add x y :=
  round_double_nonneg (add_nonneg hx hy)

theorem add_isDouble {x y : ℚ} (hx : 0 ≤ x) (hy : 0 ≤ y) : IsDouble (add x y) :=
  round_double_idem (add_nonneg hx hy)

/-- The machine sum is monotone in its first operand. -/
theorem add_mono_left {x x' y : ℚ} (hx : 0 ≤ x) (hy : 0 ≤ y) (h : x ≤ x') :
    add x y ≤ add x' y :=
  round_double_mono (add_nonneg hx hy) (by linarith)

/-- Adding a nonnegative number to a double does not give less. -/
theorem le_add_left {x y : ℚ} (hd : IsDouble x) (hx : 0 ≤ x) (hy : 0 ≤ y) : x ≤ add x y := by
  have := round_double_mono hx (show x ≤ x + y by linarith)
  rw [hd] at this
  exact this

theorem zero_add_dbl {y : ℚ} (hd : IsDouble y) : add 0 y = y := by
  unfold add
  rw [zero_add]
  exact hd

theorem isDouble_zero : IsDouble 0 := round_double_zero

end Dbl

/-! ### graph.c: correctness of `dijkstra` in double arithmetic -/

namespace GraphC

theorem relax_from_eq_foldl_fp (g : Graph) (u : Nat) : ∀ (fuel : Nat) (e : Int) (s : DState),
    relax_from_fp g u fuel e s = (chain g fuel e).foldl (relax_edge_fp g u) s := by
  intro fuel
  induction fuel with
  | zero => intro e s; rfl
  | succ fuel ih =>
    intro e s
    unfold relax_from_fp chain
    split_ifs
    · rfl
    · rw [ih]; rfl

/-- An accumulated path weight is a nonnegative double, and the path ends at
a node. -/
theorem isPath_facts_fp (g : Graph) (hwf : WF g) (hnn : NonNeg g) (src : Nat) (hsrc : src < g.V) :
    ∀ v d, IsPathFp g src v d → v < g.V ∧ 0 ≤ d ∧ Dbl.IsDouble d := by
  intro v d h
  induction h with
  | nil => exact ⟨hsrc, le_refl _, Dbl.isDouble_zero⟩
  | snoc e _ he ih =>
    have helt := out_edges_lt g hwf _ ih.1 e he
    exact ⟨(hwf.2 e helt).1, Dbl.add_nonneg_dbl ih.2.1 (hnn e helt),
      Dbl.add_isDouble ih.2.1 (hnn e helt)⟩

theorem relax_edge_vis_fp (g : Graph) (u : Nat) (s : DState) (e : Nat) :
    (relax_edge_fp g u s e).vis = s.vis := by
  unfold relax_edge_fp; split_ifs <;> rfl

theorem relax_edge_size_fp (g : Graph) (u : Nat) (s : DState) (e : Nat) :
    (relax_edge_fp g u s e).pq.size ≤ s.pq.size + 1 := by
  unfold relax_edge_fp
  split_ifs
  · simp [heap_push]
  · omega

theorem relax_list_measure_fp (g : Graph) (u : Nat) : ∀ (l : List Nat) (s : DState),
    (l.foldl (relax_edge_fp g u) s).vis = s.vis ∧
      (l.foldl (relax_edge_fp g u) s).pq.size ≤ s.pq.size + l.length := by
  intro l
  induction l with
  | nil => intro s; exact ⟨rfl, le_refl _⟩
  | cons e l ih =>
    intro s
    obtain ⟨h1, h2⟩ := ih (relax_edge_fp g u s e)
    simp only [List.foldl_cons, List.length_cons]
    refine ⟨by rw [h1, relax_edge_vis_fp], ?_⟩
    have := relax_edge_size_fp g u s e
    omega

theorem branch_congr_fp (g : Graph) (src : Nat) (dist dist' : Nat → ℚ) (parent parent' : Nat → Int) :
    ∀ v st, BranchFp g src dist parent v st →
      (∀ x, x ∈ st → dist' x = dist x ∧ parent' x = parent x) →
      BranchFp g src dist' parent' v st := by
  intro v st h
  induction h with
  | root => intro _; exact BranchFp.root
  | step e _ hp he ht hd ih =>
    intro hx
    have hv := hx _ (List.mem_cons_self _ _)
    have hu := hx _ (List.mem_cons_of_mem _ (List.mem_cons_self _ _))
    refine BranchFp.step e (ih (fun x hm => hx x (List.mem_cons_of_mem _ hm))) ?_ he ht ?_
    · rw [hv.2]; exact hp
    · rw [hv.1, hu.1]; exact hd

theorem branch_head_fp (g : Graph) (src : Nat) (dist : Nat → ℚ) (parent : Nat → Int) :
    ∀ v st, BranchFp g src dist parent v st → ∃ tl, st = v :: tl := by
  intro v st h
  cases h with
  | root => exact ⟨[], rfl⟩
  | step e _ _ _ _ _ => exact ⟨_, rfl⟩

theorem branch_isPath_fp (g : Graph) (src : Nat) (dist : Nat → ℚ) (parent : Nat → Int)
    (h0 : dist src = 0) : ∀ v st, BranchFp g src dist parent v st → IsPathFp g src v (dist v) := by
  intro v st h
  induction h with
  | root => rw [h0]; exact IsPathFp.nil
  | step e _ _ he ht hd ih =>
    have := IsPathFp.snoc e ih he
    rw [ht, hd] at this
    exact this

theorem branch_isRoute_fp (g : Graph) (src : Nat) (dist : Nat → ℚ) (parent : Nat → Int)
    (h0 : dist src = 0) : ∀ v st, BranchFp g src dist parent v st → IsRouteFp g st (dist v) := by
  intro v st h
  induction h with
  | root => rw [h0]; exact IsRouteFp.single src
  | step e _ _ he ht hd ih =>
    have := IsRouteFp.step e ih he
    rw [ht, hd] at this
    exact this

theorem branch_last_fp (g : Graph) (src : Nat) (dist : Nat → ℚ) (parent : Nat → Int) :
    ∀ v st, BranchFp g src dist parent v st → st.getLast? = some src := by
  intro v st h
  induction h with
  | root => rfl
  | step e _ _ _ _ _ ih =>
    rw [List.getLast?_cons_cons]; exact ih

theorem branch_stack_fp (g : Graph) (src : Nat) (dist : Nat → ℚ) (parent : Nat → Int)
    (hps : parent src = -1) :
    ∀ v st, BranchFp g src dist parent v st →
      ∀ room, st.length ≤ room → path_stack parent room (v : Int) = some st := by
  intro v st h
  induction h with
  | root =>
    intro room hr
    obtain ⟨r, rfl⟩ : ∃ r, room = r + 1 := ⟨room - 1, by simp at hr; omega⟩
    unfold path_stack
    rw [if_neg (by omega), Int.toNat_ofNat, hps]
    cases r <;> simp [path_stack]
  | step e _ hp _ _ _ ih =>
    intro room hr
    obtain ⟨r, rfl⟩ : ∃ r, room = r + 1 := ⟨room - 1, by simp at hr; omega⟩
    unfold path_stack
    rw [if_neg (by omega), Int.toNat_ofNat, hp, ih r (by simp at hr ⊢; omega)]
    rfl

end GraphC

namespace GraphC


theorem inv_rehead_fp {g : Graph} {src : Nat} {s : DState} {u : Nat}
    (h : InvFp g src s u (out_edges g u)) (u' : Nat) (done : List Nat) :
    InvFp g src s u' done :=
  { h with
    relaxed := fun x hx e he _ => by
      apply h.relaxed x hx e he
      by_cases hxu : x = u
      · right; rw [← hxu]; exact he
      · left; exact hxu }

theorem inv_init_fp (g : Graph) (src : Nat) (hsrc : src < g.V) (pq : MinHeap) (hpq : HeapOK pq)
    (hent : entries pq = 0) :
    InvFp g src
      { dist := Function.update (fun _ => INF) src 0
        parent := fun _ => -1
        pq := heap_push pq src 0
        vis := fun _ => false } src (out_edges g src) := by
  obtain ⟨hpo, hpe, _⟩ := heap_push_spec pq src 0 hpq
  rw [hent] at hpe
  have hfin : ∀ v, Function.update (fun _ => INF) src (0 : ℚ) v < INF → v = src := by
    intro v hv
    by_contra hne
    rw [Function.update_noteq hne] at hv
    exact lt_irrefl _ hv
  constructor
  · simp
  · intro v
    by_cases hv : v = src
    · subst hv; simp only [Function.update_same]; exact le_of_lt INF_pos
    · simp only [Function.update_noteq hv]; exact le_refl _
  · rfl
  · intro _ _; rfl
  · intro u hu; simp at hu
  · intro u hu; simp at hu
  · intro u hu; simp at hu
  · intro u hu; simp at hu
  · intro v _ hv
    have := hfin v hv
    subst this
    simp only [Function.update_same, hpe]
    exact Multiset.mem_cons_self _ _
  · intro x hx
    simp only [hpe, Multiset.cons_zero, Multiset.mem_singleton] at hx
    subst hx; simp
  · intro x hx
    simp only [hpe, Multiset.cons_zero, Multiset.mem_singleton] at hx
    subst hx; exact hsrc
  · intro x hx
    simp only [hpe, Multiset.cons_zero, Multiset.mem_singleton] at hx
    subst hx; exact INF_pos
  · exact hpo
  · intro v hv
    have := hfin v hv
    subst this
    refine ⟨[v], BranchFp.root, by simp, ?_, by simp⟩
    intro x hx
    simp only [List.mem_singleton] at hx
    rw [hx]; exact hsrc

theorem inv_relax_edge_fp (g : Graph) (hwf : WF g) (hnn : NonNeg g) (src : Nat) (hsrc : src < g.V)
    (s : DState) (u : Nat) (done : List Nat) (e : Nat)
    (hinv : InvFp g src s u done) (hu : s.vis u = true) (he : e ∈ out_edges g u) :
    InvFp g src (relax_edge_fp g u s e) u (done ++ [e]) := by
  have hultV := hinv.vis_lt u hu
  have helt := out_edges_lt g hwf u hultV e he
  have hvV := (hwf.2 e helt).1
  have hw := hnn e helt
  obtain ⟨stu, hbu, hndu, hltu, hvisu⟩ := hinv.tree u (hinv.vis_fin u hu)
  have hpu : IsPathFp g src u (s.dist u) := branch_isPath_fp g src _ _ hinv.dist_src u stu hbu
  have hdu0 : 0 ≤ s.dist u := (isPath_facts_fp g hwf hnn src hsrc u _ hpu).2.1
  have hstu_vis : ∀ y, y ∈ stu → s.vis y = true := by
    intro y hy
    obtain ⟨tl, htl⟩ := branch_head_fp g src _ _ u stu hbu
    rw [htl] at hy hvisu
    rcases List.mem_cons.mp hy with h | h
    · rw [h]; exact hu
    · exact hvisu y h
  unfold relax_edge_fp
  by_cases hc : Dbl.add (s.dist u) (g.edges e).weight < s.dist (g.edges e).to_
  · rw [if_pos hc]
    have hvnv : s.vis (g.edges e).to_ = false := by
      cases hv : s.vis (g.edges e).to_
      · rfl
      · have := hinv.vis_min _ hv _ (IsPathFp.snoc e hpu he)
        linarith
    have hvsrc : src ≠ (g.edges e).to_ := by
      intro h; rw [← h, hinv.dist_src] at hc
      exact absurd hc (not_lt.mpr (Dbl.add_nonneg_dbl hdu0 hw))
    have hvis_ne : ∀ y, s.vis y = true → y ≠ (g.edges e).to_ := by
      intro y hy h; rw [h, hvnv] at hy; cases hy
    have hle := hinv.dist_le (g.edges e).to_
    have hdle : ∀ x, Function.update s.dist (g.edges e).to_ (Dbl.add (s.dist u) (g.edges e).weight) x
        ≤ s.dist x := by
      intro x
      by_cases hx : x = (g.edges e).to_
      · rw [hx, Function.update_same]; exact le_of_lt hc
      · rw [Function.update_noteq hx]
    obtain ⟨hpo, hpe, _⟩ := heap_push_spec s.pq (g.edges e).to_
      (Dbl.add (s.dist u) (g.edges e).weight) hinv.heap_ok
    constructor
    · simp only [Function.update_noteq hvsrc]; exact hinv.dist_src
    · intro x; exact le_trans (hdle x) (hinv.dist_le x)
    · simp only [Function.update_noteq hvsrc]; exact hinv.parent_src
    · intro x hx
      by_cases hxv : x = (g.edges e).to_
      · exfalso
        subst hxv
        simp only [Function.update_same] at hx
        linarith
      · simp only [Function.update_noteq hxv] at hx ⊢; exact hinv.parent_inf x hx
    · exact hinv.vis_lt
    · intro y hy
      simp only [Function.update_noteq (hvis_ne y hy)]; exact hinv.vis_fin y hy
    · intro y hy
      simp only [Function.update_noteq (hvis_ne y hy)]; exact hinv.vis_min y hy
    · intro y hy e' he' hcond
      simp only [Function.update_noteq (hvis_ne y hy)]
      by_cases hold : y ≠ u ∨ e' ∈ done
      · exact le_trans (hdle _) (hinv.relaxed y hy e' he' hold)
      · have hyu : y = u := by by_contra h; exact hold (Or.inl h)
        have he'e : e' = e := by
          rcases hcond with h | h
          · exact absurd hyu h
          · rcases List.mem_append.mp h with h | h
            · exact absurd (Or.inr h) hold
            · simpa using h
        subst hyu; subst he'e
        simp only [Function.update_same]; exact le_refl _
    · intro x hx hfin
      simp only at hx hfin ⊢
      rw [hpe]
      by_cases hxv : x = (g.edges e).to_
      · rw [hxv, Function.update_same]; exact Multiset.mem_cons_self _ _
      · rw [Function.update_noteq hxv] at hfin ⊢
        exact Multiset.mem_cons_of_mem (hinv.queued x hx hfin)
    · intro x hx
      simp only at hx ⊢
      rw [hpe] at hx
      rcases Multiset.mem_cons.mp hx with h | h
      · rw [h]; simp only [Function.update_same]; exact le_refl _
      · exact le_trans (hdle _) (hinv.entry_ge x h)
    · intro x hx
      simp only at hx
      rw [hpe] at hx
      rcases Multiset.mem_cons.mp hx with h | h
      · rw [h]; exact hvV
      · exact hinv.entry_lt x h
    · intro x hx
      simp only at hx
      rw [hpe] at hx
      rcases Multiset.mem_cons.mp hx with h | h
      · rw [h]; exact lt_of_lt_of_le hc hle
      · exact hinv.entry_fin x h
    · exact hpo
    · intro x hx
      simp only at hx ⊢
      by_cases hxv : x = (g.edges e).to_
      · obtain ⟨tl, htl⟩ := branch_head_fp g src _ _ u stu hbu
        subst htl
        refine ⟨(g.edges e).to_ :: u :: tl, ?_, ?_, ?_, ?_⟩
        · rw [hxv]
          refine BranchFp.step e ?_ (Function.update_same _ _ _) he rfl ?_
          · apply branch_congr_fp g src _ _ _ _ u _ hbu
            intro y hy
            have := hvis_ne y (hstu_vis y hy)
            exact ⟨Function.update_noteq this _ _, Function.update_noteq this _ _⟩
          · rw [Function.update_same, Function.update_noteq (hvis_ne u hu)]
        · rw [List.nodup_cons]
          exact ⟨fun hm => hvis_ne _ (hstu_vis _ hm) rfl, hndu⟩
        · intro y hy
          rcases List.mem_cons.mp hy with h | h
          · rw [h]; exact hvV
          · exact hltu y h
        · intro y hy
          exact hstu_vis y hy
      · rw [Function.update_noteq hxv] at hx
        obtain ⟨st, hb, hnd, hlt, hvis⟩ := hinv.tree x hx
        refine ⟨st, ?_, hnd, hlt, hvis⟩
        apply branch_congr_fp g src _ _ _ _ x _ hb
        intro y hy
        obtain ⟨tl, htl⟩ := branch_head_fp g src _ _ x st hb
        have hyv : y ≠ (g.edges e).to_ := by
          rw [htl] at hy hvis
          rcases List.mem_cons.mp hy with h | h
          · rw [h]; exact hxv
          · exact hvis_ne y (hvis y h)
        exact ⟨Function.update_noteq hyv _ _, Function.update_noteq hyv _ _⟩
  · rw [if_neg hc]
    exact
      { hinv with
        relaxed := fun y hy e' he' hcond => by
          by_cases hold : y ≠ u ∨ e' ∈ done
          · exact hinv.relaxed y hy e' he' hold
          · have hyu : y = u := by by_contra h; exact hold (Or.inl h)
            have he'e : e' = e := by
              rcases hcond with h | h
              · exact absurd hyu h
              · rcases List.mem_append.mp h with h | h
                · exact absurd (Or.inr h) hold
                · simpa using h
            subst hyu; subst he'e
            exact not_lt.mp hc }

theorem inv_relax_list_fp (g : Graph) (hwf : WF g) (hnn : NonNeg g) (src : Nat) (hsrc : src < g.V)
    (u : Nat) : ∀ (todo done : List Nat) (s : DState),
    InvFp g src s u done → s.vis u = true → (∀ e, e ∈ todo → e ∈ out_edges g u) →
    InvFp g src (todo.foldl (relax_edge_fp g u) s) u (done ++ todo) := by
  intro todo
  induction todo with
  | nil => intro done s h _ _; simpa using h
  | cons e todo ih =>
    intro done s h hu hsub
    have h1 := inv_relax_edge_fp g hwf hnn src hsrc s u done e h hu (hsub e (List.mem_cons_self _ _))
    have h2 := ih (done ++ [e]) (relax_edge_fp g u s e) h1 (by rw [relax_edge_vis_fp]; exact hu)
      (fun e' he' => hsub e' (List.mem_cons_of_mem _ he'))
    simpa using h2

end GraphC

namespace GraphC


/-- A `dist` entry below the sentinel is the accumulated weight of a path. -/
theorem inv_dist_path_fp (g : Graph) (src : Nat) (s : DState) (u₀ : Nat) (done : List Nat)
    (hinv : InvFp g src s u₀ done) (v : Nat) (h : s.dist v < INF) :
    IsPathFp g src v (s.dist v) := by
  obtain ⟨st, hb, _⟩ := hinv.tree v h
  exact branch_isPath_fp g src _ _ hinv.dist_src v st hb

/-- Every path either ends at an expanded node whose `dist` it does not
undercut, or passes a node that is not yet expanded and whose `dist` it does
not undercut. -/
theorem cut_fp (g : Graph) (hwf : WF g) (hnn : NonNeg g) (src : Nat) (hsrc : src < g.V)
    (s : DState) (hinv : InvFp g src s src (out_edges g src)) :
    ∀ v d, IsPathFp g src v d →
      (s.vis v = true ∧ s.dist v ≤ d) ∨ (∃ y, s.vis y = false ∧ s.dist y ≤ d) := by
  intro v d h
  induction h with
  | nil =>
    cases hv : s.vis src
    · right; exact ⟨src, hv, le_of_eq hinv.dist_src⟩
    · left; exact ⟨rfl, le_of_eq hinv.dist_src⟩
  | @snoc x d1 e hp he ih =>
    have hx := isPath_facts_fp g hwf hnn src hsrc x d1 hp
    have hw := hnn e (out_edges_lt g hwf x hx.1 e he)
    rcases ih with ⟨hvx, hdx⟩ | ⟨y, hy1, hy2⟩
    · have hr := hinv.relaxed x hvx e he (by
        by_cases hxs : x = src
        · right; rw [← hxs]; exact he
        · left; exact hxs)
      have hx0 : 0 ≤ s.dist x :=
        (isPath_facts_fp g hwf hnn src hsrc x _
          (inv_dist_path_fp g src s _ _ hinv x (hinv.vis_fin x hvx))).2.1
      have hm : s.dist (g.edges e).to_ ≤ Dbl.add d1 (g.edges e).weight :=
        le_trans hr (Dbl.add_mono_left hx0 hw hdx)
      cases hv : s.vis (g.edges e).to_
      · right; exact ⟨_, hv, hm⟩
      · left; exact ⟨rfl, hm⟩
    · right; exact ⟨y, hy1, le_trans hy2 (Dbl.le_add_left hx.2.2 hx.2.1 hw)⟩

theorem inv_skip_fp (g : Graph) (src : Nat) (s : DState)
    (hinv : InvFp g src s src (out_edges g src)) (hne : s.pq.size ≠ 0)
    (hskip : (heap_pop s.pq).1.dist > s.dist (heap_pop s.pq).1.node ∨
      s.vis (heap_pop s.pq).1.node = true) :
    InvFp g src { s with pq := (heap_pop s.pq).2 } src (out_edges g src) := by
  obtain ⟨hpo, hpe, _, _⟩ := heap_pop_spec s.pq hne hinv.heap_ok
  have hsub : ∀ x, x ∈ entries (heap_pop s.pq).2 → x ∈ entries s.pq := by
    intro x hx; rw [hpe]; exact Multiset.mem_cons_of_mem hx
  exact
    { hinv with
      queued := fun x hx hfin => by
        have hm := hinv.queued x hx hfin
        rw [hpe] at hm
        rcases Multiset.mem_cons.mp hm with h | h
        · exfalso
          rw [← h] at hskip
          simp only at hskip
          rcases hskip with h1 | h1
          · exact lt_irrefl _ h1
          · rw [hx] at h1; cases h1
        · exact h
      entry_ge := fun x hx => hinv.entry_ge x (hsub x hx)
      entry_lt := fun x hx => hinv.entry_lt x (hsub x hx)
      entry_fin := fun x hx => hinv.entry_fin x (hsub x hx)
      heap_ok := hpo }

theorem inv_visit_fp (g : Graph) (hwf : WF g) (hnn : NonNeg g) (src : Nat) (hsrc : src < g.V)
    (s : DState) (hinv : InvFp g src s src (out_edges g src)) (hne : s.pq.size ≠ 0)
    (h1 : ¬ (heap_pop s.pq).1.dist > s.dist (heap_pop s.pq).1.node)
    (h2 : s.vis (heap_pop s.pq).1.node = false) :
    InvFp g src
      { s with pq := (heap_pop s.pq).2, vis := Function.update s.vis (heap_pop s.pq).1.node true }
      (heap_pop s.pq).1.node [] := by
  obtain ⟨hpo, hpe, _, hmin⟩ := heap_pop_spec s.pq hne hinv.heap_ok
  have hsub : ∀ x, x ∈ entries (heap_pop s.pq).2 → x ∈ entries s.pq := by
    intro x hx; rw [hpe]; exact Multiset.mem_cons_of_mem hx
  have hmem : (heap_pop s.pq).1 ∈ entries s.pq := by rw [hpe]; exact Multiset.mem_cons_self _ _
  have hd : (heap_pop s.pq).1.dist = s.dist (heap_pop s.pq).1.node :=
    le_antisymm (not_lt.mp h1) (hinv.entry_ge _ hmem)
  have hfin : s.dist (heap_pop s.pq).1.node < INF := by rw [← hd]; exact hinv.entry_fin _ hmem
  have hvis : ∀ y, Function.update s.vis (heap_pop s.pq).1.node true y = true →
      y = (heap_pop s.pq).1.node ∨ s.vis y = true := by
    intro y hy
    by_cases hyu : y = (heap_pop s.pq).1.node
    · left; exact hyu
    · right; rw [Function.update_noteq hyu] at hy; exact hy
  constructor
  · exact hinv.dist_src
  · exact hinv.dist_le
  · exact hinv.parent_src
  · exact hinv.parent_inf
  · intro y hy
    rcases hvis y hy with h | h
    · rw [h]; exact hinv.entry_lt _ hmem
    · exact hinv.vis_lt y h
  · intro y hy
    rcases hvis y hy with h | h
    · rw [h]; exact hfin
    · exact hinv.vis_fin y h
  · intro y hy d hp
    rcases hvis y hy with h | h
    · subst h
      by_contra hlt
      have hlt' : d < s.dist (heap_pop s.pq).1.node := not_le.mp hlt
      rcases cut_fp g hwf hnn src hsrc s hinv _ d hp with ⟨hv, _⟩ | ⟨z, hz1, hz2⟩
      · rw [h2] at hv; cases hv
      · have hzq := hinv.queued z hz1 (by linarith)
        have := hmin _ hzq
        simp only at this
        linarith
    · exact hinv.vis_min y h d hp
  · intro y hy e he hcond
    rcases hcond with h | h
    · rcases hvis y hy with h' | h'
      · exact absurd h' h
      · apply hinv.relaxed y h' e he
        by_cases hys : y = src
        · right; rw [← hys]; exact he
        · left; exact hys
    · simp at h
  · intro x hx hxfin
    simp only at hx hxfin ⊢
    have hxu : x ≠ (heap_pop s.pq).1.node := by
      intro h; rw [h, Function.update_same] at hx; cases hx
    rw [Function.update_noteq hxu] at hx
    have hm := hinv.queued x hx hxfin
    rw [hpe] at hm
    rcases Multiset.mem_cons.mp hm with h | h
    · exfalso; apply hxu; rw [← h]
    · exact h
  · exact fun x hx => hinv.entry_ge x (hsub x hx)
  · exact fun x hx => hinv.entry_lt x (hsub x hx)
  · exact fun x hx => hinv.entry_fin x (hsub x hx)
  · exact hpo
  · intro v hv
    obtain ⟨st, hb, hnd, hlt, hvs⟩ := hinv.tree v hv
    refine ⟨st, hb, hnd, hlt, fun x hx => ?_⟩
    simp only
    by_cases hxu : x = (heap_pop s.pq).1.node
    · rw [hxu, Function.update_same]
    · rw [Function.update_noteq hxu]; exact hvs x hx

/-- The main loop stops on the empty queue before its fuel runs out, and the
invariant holds at that point. -/
theorem dijkstra_loop_spec_fp (g : Graph) (hwf : WF g) (hnn : NonNeg g) (src : Nat)
    (hsrc : src < g.V) : ∀ (fuel : Nat) (s : DState),
    InvFp g src s src (out_edges g src) →
    s.pq.size + g.edge_count * unvisited g s < fuel →
    InvFp g src (dijkstra_loop_fp g fuel s) src (out_edges g src) ∧
      (dijkstra_loop_fp g fuel s).pq.size = 0 := by
  intro fuel
  induction fuel with
  | zero => intro s _ h; omega
  | succ fuel ih =>
    intro s hinv hm
    unfold dijkstra_loop_fp
    by_cases hemp : s.pq.size = 0
    · have : heap_empty s.pq = true := by simp [heap_empty, hemp]
      rw [if_pos this]
      exact ⟨hinv, hemp⟩
    · have : ¬ heap_empty s.pq = true := by simp [heap_empty, hemp]
      rw [if_neg this]
      obtain ⟨_, _, hsz, _⟩ := heap_pop_spec s.pq hemp hinv.heap_ok
      simp only
      by_cases h1 : (heap_pop s.pq).1.dist > s.dist (heap_pop s.pq).1.node
      · rw [if_pos h1]
        apply ih _ (inv_skip_fp g src s hinv hemp (Or.inl h1))
        have : unvisited g { s with pq := (heap_pop s.pq).2 } = unvisited g s := rfl
        rw [this]; simp only [hsz]; omega
      · rw [if_neg h1]
        by_cases h2 : s.vis (heap_pop s.pq).1.node = true
        · rw [if_pos h2]
          apply ih _ (inv_skip_fp g src s hinv hemp (Or.inr h2))
          have : unvisited g { s with pq := (heap_pop s.pq).2 } = unvisited g s := rfl
          rw [this]; simp only [hsz]; omega
        · rw [if_neg h2]
          have h2' : s.vis (heap_pop s.pq).1.node = false := by simpa using h2
          have hv := inv_visit_fp g hwf hnn src hsrc s hinv hemp h1 h2'
          have huV : (heap_pop s.pq).1.node < g.V :=
            hv.vis_lt _ (by simp)
          rw [relax_from_eq_foldl_fp]
          have hr := inv_relax_list_fp g hwf hnn src hsrc (heap_pop s.pq).1.node
            (chain g g.edge_count (g.head (heap_pop s.pq).1.node)) [] _ hv (by simp)
            (fun e he => he)
          obtain ⟨m1, m2⟩ := relax_list_measure_fp g (heap_pop s.pq).1.node
            (chain g g.edge_count (g.head (heap_pop s.pq).1.node))
            { s with pq := (heap_pop s.pq).2, vis := Function.update s.vis (heap_pop s.pq).1.node true }
          apply ih _ (inv_rehead_fp (by simpa [out_edges] using hr) src _)
          have hu := unvisited_visit g s (heap_pop s.pq).2 (heap_pop s.pq).1.node huV h2'
          have hcl := chain_length g g.edge_count (g.head (heap_pop s.pq).1.node)
          have huv : unvisited g
              (List.foldl (relax_edge_fp g (heap_pop s.pq).1.node)
                { s with pq := (heap_pop s.pq).2, vis := Function.update s.vis (heap_pop s.pq).1.node true }
                (chain g g.edge_count (g.head (heap_pop s.pq).1.node))) =
              unvisited g { s with pq := (heap_pop s.pq).2, vis := Function.update s.vis (heap_pop s.pq).1.node true } := by
            unfold unvisited; rw [m1]
          rw [huv]
          simp only [hsz] at m2
          have hmul : g.edge_count * unvisited g s =
              g.edge_count * unvisited g { s with pq := (heap_pop s.pq).2, vis := Function.update s.vis (heap_pop s.pq).1.node true } +
              g.edge_count := by
            rw [← hu, Nat.mul_add, Nat.mul_one]
          omega

/-- The loop of `dijkstra_fp` is left on the empty queue, with the invariant. -/
theorem dijkstra_final_fp (g : Graph) (hwf : WF g) (hnn : NonNeg g) (src : Nat) (hsrc : src < g.V) :
    InvFp g src (dijkstra_fp g src) src (out_edges g src) ∧ (dijkstra_fp g src).pq.size = 0 := by
  unfold dijkstra_fp
  obtain ⟨hc1, hc2⟩ := heap_create_ok (if g.V > 16 then g.V else 16)
  apply dijkstra_loop_spec_fp g hwf hnn src hsrc _ _ (inv_init_fp g src hsrc _ hc1 hc2)
  have hsz : (heap_push (heap_create (if g.V > 16 then g.V else 16)) src 0).size = 1 := rfl
  have hun : unvisited g
      { dist := Function.update (fun _ => INF) src 0
        parent := fun _ => -1
        pq := heap_push (heap_create (if g.V > 16 then g.V else 16)) src 0
        vis := fun _ => false } = g.V := by
    unfold unvisited; simp
  rw [hun]
  simp only [hsz]
  rw [Nat.mul_comm]
  omega

end GraphC

namespace GraphC

/-- After `dijkstra_fp`, a node with a finite `dist` has been expanded. -/
theorem dijkstra_settled_fp (g : Graph) (hwf : WF g) (hnn : NonNeg g) (src : Nat) (hsrc : src < g.V)
    (v : Nat) (h : (dijkstra_fp g src).dist v < INF) : (dijkstra_fp g src).vis v = true := by
  obtain ⟨hinv, hsz⟩ := dijkstra_final_fp g hwf hnn src hsrc
  cases hv : (dijkstra_fp g src).vis v
  · have := hinv.queued v hv h
    have he : entries (dijkstra_fp g src).pq = 0 := by
      unfold entries; rw [hsz]; simp [BinHeap.contents]
    rw [he] at this
    exact absurd this (Multiset.not_mem_zero _)
  · rfl

/-- After `dijkstra_fp`, `dist[v]` does not exceed the weight of any path to `v`. -/
theorem dijkstra_le_path_fp (g : Graph) (hwf : WF g) (hnn : NonNeg g) (src : Nat) (hsrc : src < g.V)
    (v : Nat) (d : ℚ) (hp : IsPathFp g src v d) : (dijkstra_fp g src).dist v ≤ d := by
  obtain ⟨hinv, _⟩ := dijkstra_final_fp g hwf hnn src hsrc
  by_cases hd : (dijkstra_fp g src).dist v < INF
  · exact hinv.vis_min v (dijkstra_settled_fp g hwf hnn src hsrc v hd) d hp
  · have hvI : (dijkstra_fp g src).dist v = INF := le_antisymm (hinv.dist_le v) (not_lt.mp hd)
    rcases cut_fp g hwf hnn src hsrc _ hinv v d hp with ⟨_, h⟩ | ⟨y, hy1, hy2⟩
    · exact h
    · have hyI : ¬ (dijkstra_fp g src).dist y < INF := by
        intro h
        rw [dijkstra_settled_fp g hwf hnn src hsrc y h] at hy1
        cases hy1
      rw [hvI]
      exact le_trans (not_lt.mp hyI) hy2

/-- After `dijkstra_fp`, a finite `dist[v]` is the weight of a path to `v`. -/
theorem dijkstra_isPath_fp (g : Graph) (hwf : WF g) (hnn : NonNeg g) (src : Nat) (hsrc : src < g.V)
    (v : Nat) (h : (dijkstra_fp g src).dist v < INF) : IsPathFp g src v ((dijkstra_fp g src).dist v) := by
  obtain ⟨hinv, _⟩ := dijkstra_final_fp g hwf hnn src hsrc
  obtain ⟨st, hb, _⟩ := hinv.tree v h
  exact branch_isPath_fp g src _ _ hinv.dist_src v st hb

/-- All paths of `roundGraph` from node 0, with their exact total weights. -/
theorem round_paths : ∀ v d, IsPath roundGraph 0 v d →
    (v = 0 ∧ d = 0) ∨ (v = 1 ∧ d = 999999999999999872) ∨ (v = 2 ∧ d = 999999999999999937) := by
  intro v d h
  induction h with
  | nil => left; exact ⟨rfl, rfl⟩
  | @snoc x d1 e _ he ih =>
    have h0 : out_edges roundGraph 0 = [0] := by decide!
    have h1 : out_edges roundGraph 1 = [1] := by decide!
    have h2 : out_edges roundGraph 2 = [] := by decide!
    have ht0 : (roundGraph.edges 0).to_ = 1 := by decide!
    have hw0 : (roundGraph.edges 0).weight = 999999999999999872 := by decide!
    have ht1 : (roundGraph.edges 1).to_ = 2 := by decide!
    have hw1 : (roundGraph.edges 1).weight = 65 := by decide!
    rcases ih with ⟨hx, hd⟩ | ⟨hx, hd⟩ | ⟨hx, _⟩
    · subst hx
      rw [h0, List.mem_singleton] at he
      subst he
      right; left
      rw [ht0, hw0, hd]
      exact ⟨rfl, by norm_num⟩
    · subst hx
      rw [h1, List.mem_singleton] at he
      subst he
      right; right
      rw [ht1, hw1, hd]
      exact ⟨rfl, by norm_num⟩
    · subst hx
      rw [h2] at he
      exact absurd he (List.not_mem_nil _)

/-- In `roundGraph` node 2 is reachable from node 0 and the minimum total
weight of its paths is 999999999999999937, below the sentinel. -/
theorem round_min : IsMinWeight roundGraph 0 2 999999999999999937 := by
  constructor
  · have h1 : IsPath roundGraph 0 (roundGraph.edges 0).to_ (0 + (roundGraph.edges 0).weight) :=
      IsPath.snoc 0 IsPath.nil (by decide!)
    have ht0 : (roundGraph.edges 0).to_ = 1 := by decide!
    have hw0 : (roundGraph.edges 0).weight = 999999999999999872 := by decide!
    rw [ht0, hw0] at h1
    have h2 := IsPath.snoc 1 h1 (by decide!)
    have ht1 : (roundGraph.edges 1).to_ = 2 := by decide!
    have hw1 : (roundGraph.edges 1).weight = 65 := by decide!
    rw [ht1, hw1] at h2
    have e : (0 : ℚ) + 999999999999999872 + 65 = 999999999999999937 := by norm_num
    rw [e] at h2
    exact h2
  · intro d hd
    rcases round_paths 2 d hd with ⟨h, _⟩ | ⟨h, _⟩ | ⟨_, h⟩
    · exact absurd h (by decide)
    · exact absurd h (by decide)
    · exact le_of_eq h.symm

/-- C1 (amended). On a graph with nonnegative weights and a valid source,
`dijkstra`, its sums taken in double arithmetic, empties its queue; `dist[v]`
is the minimum, over all paths from `src` to `v`, of the weight accumulated
along the path (the weights added to `0.0` one by one in path order, each sum
rounded to the nearest double), for every `v` that has a path whose
accumulated weight is below the sentinel `INF`; and `dist[v]` is `INF` for
every other `v` (no path, or only paths of accumulated weight `INF` or more). -/
theorem dijkstra_dist_fp (g : Graph) (src : Nat) (hwf : WF g) (hnn : NonNeg g)
    (hsrc : src < g.V) :
    heap_empty (dijkstra_fp g src).pq = true ∧
    ∀ v, ((∃ d, IsPathFp g src v d ∧ d < INF) →
        IsMinWeightFp g src v ((dijkstra_fp g src).dist v)) ∧
      ((∀ d, IsPathFp g src v d → INF ≤ d) → (dijkstra_fp g src).dist v = INF) := by
  obtain ⟨hinv, hsz⟩ := dijkstra_final_fp g hwf hnn src hsrc
  refine ⟨by simp [heap_empty, hsz], fun v => ⟨?_, ?_⟩⟩
  · rintro ⟨d, hp, hd⟩
    have hle := dijkstra_le_path_fp g hwf hnn src hsrc v d hp
    exact ⟨dijkstra_isPath_fp g hwf hnn src hsrc v (lt_of_le_of_lt hle hd),
      fun d' hp' => dijkstra_le_path_fp g hwf hnn src hsrc v d' hp'⟩
  · intro hall
    by_contra hne
    have hlt : (dijkstra_fp g src).dist v < INF := lt_of_le_of_ne (hinv.dist_le v) hne
    have := hall _ (dijkstra_isPath_fp g hwf hnn src hsrc v hlt)
    exact absurd hlt (not_lt.mpr this)

theorem dijkstra_dist_fp_witness :
    WF tenthsGraph ∧ NonNeg tenthsGraph ∧ Doubles tenthsGraph ∧ 0 < tenthsGraph.V ∧
    (dijkstra_fp tenthsGraph 0).dist 2 = 1351079888211149 / 4503599627370496 ∧
    heap_empty (dijkstra_fp tenthsGraph 0).pq = true ∧
    ∀ v, ((∃ d, IsPathFp tenthsGraph 0 v d ∧ d < INF) →
        IsMinWeightFp tenthsGraph 0 v ((dijkstra_fp tenthsGraph 0).dist v)) ∧
      ((∀ d, IsPathFp tenthsGraph 0 v d → INF ≤ d) → (dijkstra_fp tenthsGraph 0).dist v = INF) :=
  ⟨by decide!, by decide!, by decide!, by decide!, by decide!,
    dijkstra_dist_fp tenthsGraph 0 (by decide!) (by decide!) (by decide!)⟩

/-- Counterexample to C1 as stated.  On `roundGraph` node 2 is reachable from
node 0 and the minimum total weight of its paths is 999999999999999937, yet
`dist[2]` is the sentinel `1e18`: the machine sum of 999999999999999872 and
65 is `1e18`, which is not below `dist[2]`.  On `heavyGraph` node 1 is
reachable by an edge of weight `2e18` and `dist[1]` is the sentinel too. -/
theorem dijkstra_dist_round :
    WF roundGraph ∧ NonNeg roundGraph ∧ Doubles roundGraph ∧ 0 < roundGraph.V ∧
    IsMinWeight roundGraph 0 2 999999999999999937 ∧
    (dijkstra_fp roundGraph 0).dist 2 = INF ∧
    ¬ IsMinWeight roundGraph 0 2 ((dijkstra_fp roundGraph 0).dist 2) ∧
    WF heavyGraph ∧ NonNeg heavyGraph ∧ Doubles heavyGraph ∧ Reachable heavyGraph 0 1 ∧
    ¬ IsMinWeight heavyGraph 0 1 ((dijkstra_fp heavyGraph 0).dist 1) := by
  have hd : (dijkstra_fp roundGraph 0).dist 2 = INF := by decide!
  have hh : (dijkstra_fp heavyGraph 0).dist 1 = INF := by decide!
  refine ⟨by decide!, by decide!, by decide!, by decide!, round_min, hd, ?_, by decide!,
    by decide!, by decide!, heavy_reachable, ?_⟩
  · rw [hd]
    rintro ⟨hp, _⟩
    rcases round_paths 2 INF hp with ⟨h, _⟩ | ⟨h, _⟩ | ⟨_, h⟩
    · exact absurd h (by decide)
    · exact absurd h (by decide)
    · unfold INF at h; norm_num at h
  · rw [hh]
    rintro ⟨hp, _⟩
    rcases heavy_paths 1 INF hp with ⟨h, _⟩ | ⟨_, h⟩
    · exact absurd h (by decide)
    · unfold INF at h; norm_num at h

/-- C2 (amended). On a graph with nonnegative weights and a valid source,
for every node `v` that has a path whose weight accumulated in double
arithmetic is below `INF`, the walk of `print_path` over the parent array of
`dijkstra` fits its stack and writes a node sequence that starts at `src`,
ends at `v`, follows stored edges, and whose weights, added one by one in
double arithmetic from `src` on, give `dist[v]`; for `v = src` the sequence
is `[src]`. -/
theorem print_path_route_fp (g : Graph) (src : Nat) (hwf : WF g) (hnn : NonNeg g)
    (hsrc : src < g.V) :
    path_nodes g (dijkstra_fp g src).parent src = some [src] ∧
    ∀ v, (∃ d, IsPathFp g src v d ∧ d < INF) →
      ∃ l, path_nodes g (dijkstra_fp g src).parent v = some l ∧ l.head? = some src ∧
        l.getLast? = some v ∧ IsRouteFp g l.reverse ((dijkstra_fp g src).dist v) := by
  obtain ⟨hinv, _⟩ := dijkstra_final_fp g hwf hnn src hsrc
  have key : ∀ v, (dijkstra_fp g src).dist v < INF →
      ∃ st, BranchFp g src (dijkstra_fp g src).dist (dijkstra_fp g src).parent v st ∧
        path_nodes g (dijkstra_fp g src).parent v = some st.reverse := by
    intro v hv
    obtain ⟨st, hb, hnd, hlt, _⟩ := hinv.tree v hv
    refine ⟨st, hb, ?_⟩
    obtain ⟨tl, htl⟩ := branch_head_fp g src _ _ v st hb
    have hvV : v < g.V := hlt v (by rw [htl]; exact List.mem_cons_self _ _)
    unfold path_nodes
    rw [if_neg (by omega),
      branch_stack_fp g src _ _ hinv.parent_src v st hb g.V (nodup_length_le st g.V hnd hlt)]
    rfl
  constructor
  · obtain ⟨st, hb, hpn⟩ := key src (by rw [hinv.dist_src]; exact INF_pos)
    cases hb with
    | root => exact hpn
    | step e _ hp _ _ _ =>
      rw [hinv.parent_src] at hp
      omega
  · rintro v ⟨d, hp, hd⟩
    have hv : (dijkstra_fp g src).dist v < INF :=
      lt_of_le_of_lt (dijkstra_le_path_fp g hwf hnn src hsrc v d hp) hd
    obtain ⟨st, hb, hpn⟩ := key v hv
    obtain ⟨tl, htl⟩ := branch_head_fp g src _ _ v st hb
    refine ⟨st.reverse, hpn, ?_, ?_, ?_⟩
    · rw [List.head?_reverse]; exact branch_last_fp g src _ _ v st hb
    · rw [List.getLast?_reverse, htl]; rfl
    · rw [List.reverse_reverse]
      exact branch_isRoute_fp g src _ _ hinv.dist_src v st hb

theorem print_path_route_fp_witness :
    WF tenthsGraph ∧ NonNeg tenthsGraph ∧ 0 < tenthsGraph.V ∧
    path_nodes tenthsGraph (dijkstra_fp tenthsGraph 0).parent 2 = some [0, 1, 2] ∧
    path_nodes tenthsGraph (dijkstra_fp tenthsGraph 0).parent 0 = some [0] ∧
    ∀ v, (∃ d, IsPathFp tenthsGraph 0 v d ∧ d < INF) →
      ∃ l, path_nodes tenthsGraph (dijkstra_fp tenthsGraph 0).parent v = some l ∧
        l.head? = some 0 ∧ l.getLast? = some v ∧
        IsRouteFp tenthsGraph l.reverse ((dijkstra_fp tenthsGraph 0).dist v) :=
  ⟨by decide!, by decide!, by decide!, by decide!,
    print_path_route_fp tenthsGraph 0 (by decide!) (by decide!) (by decide!)⟩

/-- Counterexample to C2 as stated.  On `roundGraph` node 2 is reachable from
node 0 by a path of total weight 999999999999999937, yet the sequence written
for it is `[2]`, which does not start at the source; the same on `heavyGraph`
for node 1. -/
theorem print_path_round :
    WF roundGraph ∧ NonNeg roundGraph ∧ Doubles roundGraph ∧
    IsMinWeight roundGraph 0 2 999999999999999937 ∧
    path_nodes roundGraph (dijkstra_fp roundGraph 0).parent 2 = some [2] ∧
    ([2] : List Nat).head? ≠ some 0 ∧
    WF heavyGraph ∧ NonNeg heavyGraph ∧ Reachable heavyGraph 0 1 ∧
    path_nodes heavyGraph (dijkstra_fp heavyGraph 0).parent 1 = some [1] ∧
    ([1] : List Nat).head? ≠ some 0 :=
  ⟨by decide!, by decide!, by decide!, round_min, by decide!, by decide,
    by decide!, by decide!, heavy_reachable, by decide!, by decide⟩

/-- C3 (amended). On a graph with nonnegative weights and a valid source,
after `dijkstra`, its sums taken in double arithmetic: `dist[src] = 0` and
`parent[src] = -1`; `parent[v] = -1` wherever `dist[v]` is the sentinel; and
every node `v` other than `src` that has a path whose accumulated weight is
below `INF` has as `parent[v]` a node `u` with a stored edge `u -> v` of
weight `w` such that the machine sum `dist[u] + w` is `dist[v]`. -/
theorem dijkstra_parent_fp (g : Graph) (src : Nat) (hwf : WF g) (hnn : NonNeg g)
    (hsrc : src < g.V) :
    (dijkstra_fp g src).dist src = 0 ∧ (dijkstra_fp g src).parent src = -1 ∧
    (∀ v, (dijkstra_fp g src).dist v = INF → (dijkstra_fp g src).parent v = -1) ∧
    ∀ v, v ≠ src → (∃ d, IsPathFp g src v d ∧ d < INF) →
      ∃ (u e : Nat), (dijkstra_fp g src).parent v = (u : Int) ∧ u < g.V ∧ e ∈ out_edges g u ∧
        (g.edges e).to_ = v ∧
        Dbl.add ((dijkstra_fp g src).dist u) (g.edges e).weight = (dijkstra_fp g src).dist v := by
  obtain ⟨hinv, _⟩ := dijkstra_final_fp g hwf hnn src hsrc
  refine ⟨hinv.dist_src, hinv.parent_src, hinv.parent_inf, ?_⟩
  rintro v hvs ⟨d, hp, hd⟩
  have hv : (dijkstra_fp g src).dist v < INF :=
    lt_of_le_of_lt (dijkstra_le_path_fp g hwf hnn src hsrc v d hp) hd
  obtain ⟨st, hb, _, hlt, _⟩ := hinv.tree v hv
  cases hb with
  | root => exact absurd rfl hvs
  | @step u _ tl e _ hpar he ht hdist =>
    exact ⟨u, e, hpar, hlt u (List.mem_cons_of_mem _ (List.mem_cons_self _ _)), he, ht, hdist⟩

theorem dijkstra_parent_fp_witness :
    WF tenthsGraph ∧ NonNeg tenthsGraph ∧ 0 < tenthsGraph.V ∧
    (dijkstra_fp tenthsGraph 0).parent 2 = 1 ∧
    (dijkstra_fp tenthsGraph 0).dist 0 = 0 ∧ (dijkstra_fp tenthsGraph 0).parent 0 = -1 ∧
    (∀ v, (dijkstra_fp tenthsGraph 0).dist v = INF → (dijkstra_fp tenthsGraph 0).parent v = -1) ∧
    ∀ v, v ≠ 0 → (∃ d, IsPathFp tenthsGraph 0 v d ∧ d < INF) →
      ∃ (u e : Nat), (dijkstra_fp tenthsGraph 0).parent v = (u : Int) ∧ u < tenthsGraph.V ∧
        e ∈ out_edges tenthsGraph u ∧ (tenthsGraph.edges e).to_ = v ∧
        Dbl.add ((dijkstra_fp tenthsGraph 0).dist u) (tenthsGraph.edges e).weight =
          (dijkstra_fp tenthsGraph 0).dist v :=
  ⟨by decide!, by decide!, by decide!, by decide!,
    dijkstra_parent_fp tenthsGraph 0 (by decide!) (by decide!) (by decide!)⟩

/-- Counterexample to C3 as stated.  On `roundGraph` node 2 is reachable from
node 0 (by a path of total weight 999999999999999937) and differs from it,
yet `parent[2]` is `-1`, not a node; the same on `heavyGraph` for node 1. -/
theorem dijkstra_parent_round :
    WF roundGraph ∧ NonNeg roundGraph ∧ Doubles roundGraph ∧
    IsMinWeight roundGraph 0 2 999999999999999937 ∧ (2 : Nat) ≠ 0 ∧
    (dijkstra_fp roundGraph 0).parent 2 = -1 ∧
    WF heavyGraph ∧ NonNeg heavyGraph ∧ Reachable heavyGraph 0 1 ∧ (1 : Nat) ≠ 0 ∧
    (dijkstra_fp heavyGraph 0).parent 1 = -1 :=
  ⟨by decide!, by decide!, by decide!, round_min, by decide, by decide!,
    by decide!, by decide!, heavy_reachable, by decide, by decide!⟩

end GraphC

namespace GraphC

/-- After `dijkstra_fp`, `dist[v]` is below the sentinel exactly when `v` has a
path lighter than the sentinel. -/
theorem dijkstra_light_fp (g : Graph) (hwf : WF g) (hnn : NonNeg g) (src : Nat) (hsrc : src < g.V)
    (v : Nat) : (dijkstra_fp g src).dist v < INF ↔ LightFp g src v := by
  constructor
  · intro h
    exact ⟨_, dijkstra_isPath_fp g hwf hnn src hsrc v h, h⟩
  · rintro ⟨d, hp, hd⟩
    exact lt_of_le_of_lt (dijkstra_le_path_fp g hwf hnn src hsrc v d hp) hd

/-- C11 (amended). On a graph with nonnegative weights and a valid start,
the distances being those of `dijkstra` in double arithmetic: when
`find_nearest_of_type_from` returns an index `k`, node `k` matches the
request, `dist[k]` is below the sentinel and is the minimum accumulated path
weight from the start to `k`, no path from the start to a matching node has a
smaller accumulated weight, and every matching node of lower index is
strictly farther; the result is `-1` exactly when no matching node has a path
whose accumulated weight is below the sentinel `INF`; the result is `-1` or a
node index; and an out-of-range start gives `-1`. -/
theorem nearest_of_type_fp (g : Graph) (start : Nat) (r : Option String) (hwf : WF g)
    (hnn : NonNeg g) (hs : start < g.V) :
    (∀ k : Nat, find_nearest_of_type_from_fp g (start : Int) r = (k : Int) →
      k < g.V ∧ node_matches_type_or_name g k r = true ∧
      (dijkstra_fp g start).dist k < INF ∧
      IsMinWeightFp g start k ((dijkstra_fp g start).dist k) ∧
      (∀ i d, i < g.V → node_matches_type_or_name g i r = true → IsPathFp g start i d →
        (dijkstra_fp g start).dist k ≤ d) ∧
      (∀ i, i < g.V → node_matches_type_or_name g i r = true →
        (dijkstra_fp g start).dist k ≤ (dijkstra_fp g start).dist i) ∧
      (∀ i, i < k → node_matches_type_or_name g i r = true →
        (dijkstra_fp g start).dist k < (dijkstra_fp g start).dist i)) ∧
    (find_nearest_of_type_from_fp g (start : Int) r = -1 ↔
      ∀ i, i < g.V → node_matches_type_or_name g i r = true → ¬ LightFp g start i) ∧
    (find_nearest_of_type_from_fp g (start : Int) r = -1 ∨
      ∃ k : Nat, find_nearest_of_type_from_fp g (start : Int) r = (k : Int)) ∧
    (∀ s : Int, s < 0 ∨ s ≥ g.V → find_nearest_of_type_from_fp g s r = -1) := by
  have hfn : find_nearest_of_type_from_fp g (start : Int) r =
      ((List.range g.V).foldl (nearest_step g (dijkstra_fp g start).dist r) (INF, -1)).2 := by
    unfold find_nearest_of_type_from_fp
    rw [if_neg (by omega), Int.toNat_ofNat]
  have hscan := nearest_scan g (dijkstra_fp g start).dist r g.V
  rw [← hfn] at hscan
  refine ⟨?_, ?_, ?_, ?_⟩
  · intro k hk
    rcases hscan with ⟨h0, _, _⟩ | ⟨k', hk', h0, _, hm, hI, h2, h3⟩
    · rw [hk] at h0; omega
    · have hkk : k = k' := by rw [hk] at h0; omega
      subst hkk
      have hmin : IsMinWeightFp g start k ((dijkstra_fp g start).dist k) :=
        ⟨dijkstra_isPath_fp g hwf hnn start hs k hI,
          fun d hp => dijkstra_le_path_fp g hwf hnn start hs k d hp⟩
      refine ⟨hk', hm, hI, hmin, ?_, h2, h3⟩
      intro i d hi hmi hp
      exact le_trans (h2 i hi hmi) (dijkstra_le_path_fp g hwf hnn start hs i d hp)
  · constructor
    · intro hneg i hi hmi hl
      rcases hscan with ⟨_, _, h2⟩ | ⟨k', _, h0, _⟩
      · exact absurd ((dijkstra_light_fp g hwf hnn start hs i).mpr hl) (not_lt.mpr (h2 i hi hmi))
      · rw [hneg] at h0; omega
    · intro hall
      rcases hscan with ⟨h0, _, _⟩ | ⟨k', hk', _, _, hm, hI, _⟩
      · exact h0
      · exact absurd ((dijkstra_light_fp g hwf hnn start hs k').mp hI) (hall k' hk' hm)
  · rcases hscan with ⟨h0, _, _⟩ | ⟨k', _, h0, _⟩
    · left; exact h0
    · right; exact ⟨k', h0⟩
  · intro s hsr
    unfold find_nearest_of_type_from_fp
    rw [if_pos hsr]


theorem nearest_of_type_fp_witness :
    WF lineGraph ∧ NonNeg lineGraph ∧ 0 < lineGraph.V ∧
    find_nearest_of_type_from_fp lineGraph ((0 : Nat) : Int) (some "HOSPITAL") =
      ((2 : Nat) : Int) ∧
    (dijkstra_fp lineGraph 0).dist 2 = 2 ∧
    IsMinWeightFp lineGraph 0 2 ((dijkstra_fp lineGraph 0).dist 2) :=
  ⟨by decide!, by decide!, by decide!, by decide!, by decide!,
    ((nearest_of_type_fp lineGraph 0 (some "HOSPITAL") (by decide!) (by decide!) (by decide!)).1 2
      (by decide!)).2.2.2.1⟩

/-- Counterexample to C11 as stated.  On `roundGraph` node 2 matches the
request `C` and is reachable from node 0 by a path of total weight
999999999999999937, yet the result is `-1`; on `heavyGraph` node 1 matches
the request `B` and is reachable, and the result is `-1` too. -/
theorem nearest_of_type_round :
    WF roundGraph ∧ NonNeg roundGraph ∧ Doubles roundGraph ∧ 0 < roundGraph.V ∧
    2 < roundGraph.V ∧ node_matches_type_or_name roundGraph 2 (some "C") = true ∧
    IsMinWeight roundGraph 0 2 999999999999999937 ∧
    find_nearest_of_type_from_fp roundGraph 0 (some "C") = -1 ∧
    WF heavyGraph ∧ NonNeg heavyGraph ∧ 0 < heavyGraph.V ∧ 1 < heavyGraph.V ∧
    node_matches_type_or_name heavyGraph 1 (some "B") = true ∧ Reachable heavyGraph 0 1 ∧
    find_nearest_of_type_from_fp heavyGraph 0 (some "B") = -1 :=
  ⟨by decide!, by decide!, by decide!, by decide!, by decide!, by decide!, round_min,
    by decide!, by decide!, by decide!, by decide!, by decide!, by decide!, heavy_reachable,
    by decide!⟩

end GraphC

namespace MainC

/-- What the relaxation of the roads `l` leaving the visited node `u` does:
the visited flags stay; a node keeps its distance and parent, or it is an
unvisited end of one of the roads, gets `u` as parent and a strictly smaller
distance through that road; and every unvisited end of a road is relaxed. -/
theorem relax_fold_spec_fp (u : Nat) : ∀ (l : List Edge) (s : DState), s.visited u = true →
    (l.foldl (relax_edge_fp u) s).visited = s.visited ∧
    (∀ v, ((l.foldl (relax_edge_fp u) s).dist v = s.dist v ∧
        (l.foldl (relax_edge_fp u) s).parent v = s.parent v) ∨
      (s.visited v = false ∧ (l.foldl (relax_edge_fp u) s).parent v = (u : Int) ∧
        (l.foldl (relax_edge_fp u) s).dist v < s.dist v ∧
        ∃ e, e ∈ l ∧ e.dest = v ∧ (l.foldl (relax_edge_fp u) s).dist v = Dbl.add (s.dist u) e.weight)) ∧
    (∀ e, e ∈ l → s.visited e.dest = false →
      (l.foldl (relax_edge_fp u) s).dist e.dest ≤ Dbl.add (s.dist u) e.weight) := by
  intro l
  induction l with
  | nil =>
    intro s _
    exact ⟨rfl, fun v => Or.inl ⟨rfl, rfl⟩, fun e he => absurd he (List.not_mem_nil e)⟩
  | cons e l ih =>
    intro s hu
    rw [List.foldl_cons]
    have hstep : (relax_edge_fp u s e).visited = s.visited ∧
        (∀ v, ((relax_edge_fp u s e).dist v = s.dist v ∧ (relax_edge_fp u s e).parent v = s.parent v) ∨
          (s.visited v = false ∧ e.dest = v ∧ (relax_edge_fp u s e).parent v = (u : Int) ∧
            (relax_edge_fp u s e).dist v = Dbl.add (s.dist u) e.weight ∧
            (relax_edge_fp u s e).dist v < s.dist v)) ∧
        (s.visited e.dest = false → (relax_edge_fp u s e).dist e.dest ≤ Dbl.add (s.dist u) e.weight) := by
      unfold relax_edge_fp
      by_cases hc : s.visited e.dest = false ∧ Dbl.add (s.dist u) e.weight < s.dist e.dest
      · rw [if_pos hc]
        refine ⟨rfl, ?_, fun _ => ?_⟩
        · intro v
          by_cases hv : v = e.dest
          · right
            subst hv
            refine ⟨hc.1, rfl, Function.update_same _ _ _, Function.update_same _ _ _, ?_⟩
            show Function.update s.dist e.dest _ e.dest < _
            rw [Function.update_same]
            exact hc.2
          · left
            exact ⟨Function.update_noteq hv _ _, Function.update_noteq hv _ _⟩
        · show Function.update s.dist e.dest _ e.dest ≤ _
          rw [Function.update_same]
      · rw [if_neg hc]
        refine ⟨rfl, fun v => Or.inl ⟨rfl, rfl⟩, fun hvis => ?_⟩
        exact not_lt.mp (fun h => hc ⟨hvis, h⟩)
    obtain ⟨s1, s2, s3⟩ := hstep
    have hu' : (relax_edge_fp u s e).visited u = true := by rw [s1]; exact hu
    have hdu : (relax_edge_fp u s e).dist u = s.dist u := by
      rcases s2 u with ⟨h, _⟩ | ⟨h, _⟩
      · exact h
      · rw [hu] at h; cases h
    obtain ⟨i1, i2, i3⟩ := ih (relax_edge_fp u s e) hu'
    have hmono : ∀ v, (l.foldl (relax_edge_fp u) (relax_edge_fp u s e)).dist v ≤
        (relax_edge_fp u s e).dist v := by
      intro v
      rcases i2 v with ⟨h, _⟩ | ⟨_, _, h, _⟩
      · rw [h]
      · exact le_of_lt h
    refine ⟨by rw [i1, s1], ?_, ?_⟩
    · intro v
      rcases i2 v with ⟨a1, a2⟩ | ⟨a1, a2, a3, e', he', hd', hw'⟩
      · rcases s2 v with ⟨b1, b2⟩ | ⟨b1, b2, b3, b4, b5⟩
        · left
          exact ⟨by rw [a1, b1], by rw [a2, b2]⟩
        · right
          exact ⟨b1, by rw [a2, b3], by rw [a1]; exact b5, e, List.mem_cons_self _ _, b2,
            by rw [a1, b4]⟩
      · right
        rw [s1] at a1
        refine ⟨a1, a2, ?_, e', List.mem_cons_of_mem _ he', hd', by rw [hw', hdu]⟩
        rcases s2 v with ⟨b1, _⟩ | ⟨_, _, _, _, b5⟩
        · rw [← b1]; exact a3
        · exact lt_trans a3 b5
    · intro e0 he0 hvis
      rcases List.mem_cons.mp he0 with h | h
      · subst h
        exact le_trans (hmono _) (s3 hvis)
      · have := i3 e0 h (by rw [s1]; exact hvis)
        rw [hdu] at this
        exact this

/-- One round of `dijkstra_fp` keeps the invariant of `visited[]` and `parent[]`. -/
theorem rank_round_fp (g : Graph) (src : Nat) (s : DState) (k : Nat) (r : Nat → Nat)
    (hinv : RankInv g src s k r) (u : Nat) (hu : u < g.V) (hvis : s.visited u = false)
    (hd : s.dist u < INF) :
    ∃ r', RankInv g src
      ((g.nodes u).adj.foldl (relax_edge_fp u)
        { s with visited := Function.update s.visited u true }) (k + 1) r' := by
  have hu1 : ({ s with visited := Function.update s.visited u true } : DState).visited u = true :=
    Function.update_same _ _ _
  obtain ⟨f1, f2, _⟩ := relax_fold_spec_fp u (g.nodes u).adj
    { s with visited := Function.update s.visited u true } hu1
  generalize (g.nodes u).adj.foldl (relax_edge_fp u)
    { s with visited := Function.update s.visited u true } = s2 at f1 f2
  have hv2 : ∀ v, s2.visited v = true ↔ (v = u ∨ s.visited v = true) := by
    intro v
    rw [f1]
    show Function.update s.visited u true v = true ↔ _
    by_cases hvu : v = u
    · rw [hvu, Function.update_same]; simp
    · rw [Function.update_noteq hvu]; simp [hvu]
  have hkeep : ∀ v, (v = u ∨ s.visited v = true) →
      s2.dist v = s.dist v ∧ s2.parent v = s.parent v := by
    intro v hv
    rcases f2 v with h | ⟨h, _⟩
    · exact h
    · have h' : Function.update s.visited u true v = false := h
      rcases hv with hv | hv
      · rw [hv, Function.update_same] at h'; cases h'
      · by_cases hvu : v = u
        · rw [hvu, Function.update_same] at h'; cases h'
        · rw [Function.update_noteq hvu, hv] at h'; cases h'
  refine ⟨fun v => if s2.visited v = true then r v else k + 1, ?_, ?_, ?_, ?_, ?_, ?_⟩
  · rw [f1]
    show ((Finset.range g.V).filter (fun v => Function.update s.visited u true v = true)).card = _
    rw [card_visit g.V s.visited u hu hvis, hinv.count]
  · intro v hv
    have hv' := (hv2 v).mp hv
    rw [(hkeep v hv').1]
    rcases hv' with h | h
    · rw [h]; exact ⟨hu, hd⟩
    · exact hinv.vis_lt v h
  · intro v hv
    show (if s2.visited v = true then r v else k + 1) < k + 1
    rw [if_pos hv]
    rcases (hv2 v).mp hv with h | h
    · rw [h, hinv.rank_new u hvis]; omega
    · have := hinv.rank_vis v h; omega
  · intro v hv
    show (if s2.visited v = true then r v else k + 1) = k + 1
    rw [if_neg (by rw [hv]; decide)]
  · intro v hp
    rcases f2 v with ⟨_, h2⟩ | ⟨h1, h2, _⟩
    · rw [h2] at hp ⊢
      obtain ⟨p, hp1, hp2, hp3⟩ := hinv.parent_ok v hp
      refine ⟨p, hp1, (hv2 p).mpr (Or.inr hp2), ?_⟩
      show (if s2.visited p = true then r p else k + 1) <
        (if s2.visited v = true then r v else k + 1)
      rw [if_pos ((hv2 p).mpr (Or.inr hp2))]
      have hpk := hinv.rank_vis p hp2
      split_ifs
      · exact hp3
      · omega
    · refine ⟨u, h2, (hv2 u).mpr (Or.inl rfl), ?_⟩
      show (if s2.visited u = true then r u else k + 1) <
        (if s2.visited v = true then r v else k + 1)
      have hvf : s2.visited v = false := by rw [f1]; exact h1
      rw [if_pos ((hv2 u).mpr (Or.inl rfl)), if_neg (by rw [hvf]; decide),
        hinv.rank_new u hvis]
      omega
  · intro v hp hdv
    rcases f2 v with ⟨h1, h2⟩ | ⟨_, h2, _⟩
    · rw [h1] at hdv
      rw [h2] at hp
      exact hinv.parent_root v hp hdv
    · rw [h2] at hp
      omega

/-! ### main.c: `dijkstra_fp` computes the lightest paths below the sentinel -/

theorem road_path_facts_fp (g : Graph) (hwf : WF g) (hnn : NonNeg g) (src : Nat) (hsrc : src < g.V) :
    ∀ v d, IsPathFp g src v d → v < g.V ∧ 0 ≤ d ∧ Dbl.IsDouble d := by
  intro v d h
  induction h with
  | nil => exact ⟨hsrc, le_refl _, Dbl.isDouble_zero⟩
  | @snoc x d e _ he ih =>
    exact ⟨hwf x ih.1 e he, Dbl.add_nonneg_dbl ih.2.1 (hnn x ih.1 e he),
      Dbl.add_isDouble ih.2.1 (hnn x ih.1 e he)⟩

/-- A path leads to a visited node or passes an unvisited node whose `dist`
does not exceed the weight of the path. -/
theorem frontier_cut_fp (g : Graph) (hwf : WF g) (hnn : NonNeg g) (src : Nat) (hsrc : src < g.V)
    (s : DState) (hd : DistInvFp g src s) :
    ∀ v d, IsPathFp g src v d →
      s.visited v = true ∨ ∃ y, y < g.V ∧ s.visited y = false ∧ s.dist y ≤ d := by
  intro v d h
  induction h with
  | nil =>
    cases hv : s.visited src
    · right; exact ⟨src, hsrc, hv, by rw [hd.dist_src]⟩
    · left; rfl
  | @snoc x d e hp he ih =>
    have hx := road_path_facts_fp g hwf hnn src hsrc x d hp
    have hw := hnn x hx.1 e he
    rcases ih with hvx | ⟨y, hy1, hy2, hy3⟩
    · cases hv : s.visited e.dest
      · right
        refine ⟨e.dest, hwf x hx.1 e he, hv, ?_⟩
        have h1 := hd.relaxed x hvx e he
        have h2 := hd.vis_min x hvx d hp
        have h0 : 0 ≤ s.dist x := by
          by_cases hlt : s.dist x < INF
          · exact (road_path_facts_fp g hwf hnn src hsrc x _ (hd.reach x hlt)).2.1
          · exact le_trans (by unfold INF; norm_num) (not_lt.mp hlt)
        exact le_trans h1 (Dbl.add_mono_left h0 hw h2)
      · left; rfl
    · right
      exact ⟨y, hy1, hy2, le_trans hy3 (Dbl.le_add_left hx.2.2 hx.2.1 hw)⟩

/-- One round of `dijkstra_fp` keeps the invariant of `dist[]`. -/
theorem dist_round_fp (g : Graph) (hwf : WF g) (hnn : NonNeg g) (src : Nat) (hsrc : src < g.V)
    (s : DState) (k : Nat) (r : Nat → Nat) (hr : RankInv g src s k r) (hd : DistInvFp g src s)
    (u : Nat) (hvis : s.visited u = false) (hdu : s.dist u < INF)
    (hmin : ∀ v, v < g.V → s.visited v = false → s.dist u ≤ s.dist v) :
    DistInvFp g src
      ((g.nodes u).adj.foldl (relax_edge_fp u)
        { s with visited := Function.update s.visited u true }) := by
  have hu1 : ({ s with visited := Function.update s.visited u true } : DState).visited u = true :=
    Function.update_same _ _ _
  obtain ⟨f1, f2, f3⟩ := relax_fold_spec_fp u (g.nodes u).adj
    { s with visited := Function.update s.visited u true } hu1
  generalize (g.nodes u).adj.foldl (relax_edge_fp u)
    { s with visited := Function.update s.visited u true } = s2 at f1 f2 f3
  have hv2 : ∀ v, s2.visited v = true ↔ (v = u ∨ s.visited v = true) := by
    intro v
    rw [f1]
    show Function.update s.visited u true v = true ↔ _
    by_cases hvu : v = u
    · rw [hvu, Function.update_same]; simp
    · rw [Function.update_noteq hvu]; simp [hvu]
  have hkeep : ∀ v, (v = u ∨ s.visited v = true) → s2.dist v = s.dist v := by
    intro v hv
    rcases f2 v with h | ⟨h, _⟩
    · exact h.1
    · have h' : Function.update s.visited u true v = false := h
      rcases hv with hv | hv
      · rw [hv, Function.update_same] at h'; cases h'
      · by_cases hvu : v = u
        · rw [hvu, Function.update_same] at h'; cases h'
        · rw [Function.update_noteq hvu, hv] at h'; cases h'
  have hmono : ∀ v, s2.dist v ≤ s.dist v := by
    intro v
    rcases f2 v with h | ⟨_, _, h, _⟩
    · rw [h.1]
    · exact le_of_lt h
  have hpu : IsPathFp g src u (s.dist u) := hd.reach u hdu
  have humin : ∀ d, IsPathFp g src u d → s.dist u ≤ d := by
    intro d hp
    rcases frontier_cut_fp g hwf hnn src hsrc s hd u d hp with h | ⟨y, hy1, hy2, hy3⟩
    · rw [hvis] at h; cases h
    · exact le_trans (hmin y hy1 hy2) hy3
  have hvmin : ∀ v, (v = u ∨ s.visited v = true) → ∀ d, IsPathFp g src v d → s.dist v ≤ d := by
    intro v hv d hp
    rcases hv with hv | hv
    · rw [hv] at hp ⊢; exact humin d hp
    · exact hd.vis_min v hv d hp
  refine ⟨?_, ?_, ?_, ?_, ?_⟩
  · rcases f2 src with h | ⟨_, _, h, e, _, _, hw⟩
    · rw [h.1]; exact hd.dist_src
    · exfalso
      have h0 : s.dist src = 0 := hd.dist_src
      have h1 : s2.dist src < 0 := by rw [← h0]; exact h
      have h2 := (road_path_facts_fp g hwf hnn src hsrc u _ hpu).2.1
      have hup := (road_path_facts_fp g hwf hnn src hsrc u _ hpu).1
      have hw2 : s2.dist src = Dbl.add (s.dist u) e.weight := hw
      have he : e ∈ (g.nodes u).adj := by assumption
      have h3 := hnn u hup e he
      have h4 := Dbl.add_nonneg_dbl h2 h3
      rw [← hw2] at h4
      exact absurd h1 (not_lt.mpr h4)
  · intro v
    exact le_trans (hmono v) (hd.dist_le v)
  · intro v hv
    rcases f2 v with h | ⟨_, _, _, e, he, hed, hw⟩
    · rw [h.1] at hv ⊢
      exact hd.reach v hv
    · have hw2 : s2.dist v = Dbl.add (s.dist u) e.weight := hw
      rw [hw2, ← hed]
      exact IsPathFp.snoc e hpu he
  · intro v hv d hp
    have hv' := (hv2 v).mp hv
    rw [hkeep v hv']
    exact hvmin v hv' d hp
  · intro x hx e he
    have hx' := (hv2 x).mp hx
    rw [hkeep x hx']
    cases hde : s2.visited e.dest
    · rcases hx' with hxu | hxv
      · have h3 := f3 e (by rw [← hxu]; exact he) (by rw [← f1]; exact hde)
        have h3' : s2.dist e.dest ≤ Dbl.add (s.dist u) e.weight := h3
        rw [hxu]
        exact h3'
      · exact le_trans (hmono _) (hd.relaxed x hxv e he)
    · have hd' := (hv2 e.dest).mp hde
      rw [hkeep _ hd']
      have hxd : s.dist x < INF := by
        rcases hx' with hxu | hxv
        · rw [hxu]; exact hdu
        · exact (hr.vis_lt x hxv).2
      exact hvmin _ hd' _ (IsPathFp.snoc e (hd.reach x hxd) he)

/-- The rounds of `dijkstra_fp` keep both invariants. -/
theorem dist_rounds_fp (g : Graph) (hwf : WF g) (hnn : NonNeg g) (src : Nat) (hsrc : src < g.V) :
    ∀ (j : Nat) (s : DState) (k : Nat) (r : Nat → Nat),
    RankInv g src s k r → DistInvFp g src s →
    ∃ k' r', RankInv g src (dijkstra_rounds_fp g j s) k' r' ∧
      DistInvFp g src (dijkstra_rounds_fp g j s) ∧
      (k' = k + j ∨ ∀ v, v < g.V → (dijkstra_rounds_fp g j s).visited v = false →
        INF ≤ (dijkstra_rounds_fp g j s).dist v) := by
  intro j
  induction j with
  | zero =>
    intro s k r h hd
    exact ⟨k, r, h, hd, Or.inl rfl⟩
  | succ j ih =>
    intro s k r h hd
    unfold dijkstra_rounds_fp
    rcases select_min_spec s g.V with ⟨h0, _, h2⟩ | ⟨u, h0, _, hu, hvu, hdu, hmin⟩
    · rw [if_pos h0]
      exact ⟨k, r, h, hd, Or.inr h2⟩
    · rw [if_neg (by rw [h0]; omega), h0, Int.toNat_ofNat]
      obtain ⟨r1, hr1⟩ := rank_round_fp g src s k r h u hu hvu hdu
      have hd1 := dist_round_fp g hwf hnn src hsrc s k r h hd u hvu hdu hmin
      obtain ⟨k', r', a1, a2, a3⟩ := ih _ (k + 1) r1 hr1 hd1
      refine ⟨k', r', a1, a2, ?_⟩
      rcases a3 with a3 | a3
      · left; omega
      · right; exact a3

theorem dist_init_fp (g : Graph) (src : Nat) :
    DistInvFp g src
      { dist := Function.update (fun _ => INF) src 0, parent := fun _ => -1,
        visited := fun _ => false } := by
  have hI : (0 : ℚ) ≤ INF := by unfold INF; norm_num
  refine ⟨?_, ?_, ?_, ?_, ?_⟩
  · show Function.update (fun _ => INF) src (0 : ℚ) src = 0
    rw [Function.update_same]
  · intro v
    show Function.update (fun _ => INF) src (0 : ℚ) v ≤ INF
    by_cases hv : v = src
    · rw [hv, Function.update_same]; exact hI
    · rw [Function.update_noteq hv]
  · intro v hv
    have hv' : Function.update (fun _ => INF) src (0 : ℚ) v < INF := hv
    show IsPathFp g src v (Function.update (fun _ => INF) src (0 : ℚ) v)
    by_cases hvs : v = src
    · rw [hvs, Function.update_same]; exact IsPathFp.nil
    · rw [Function.update_noteq hvs] at hv'
      exact absurd hv' (lt_irrefl _)
  · intro v hv; cases hv
  · intro v hv; cases hv

/-- After `dijkstra_fp`, `dist[v]` does not exceed the weight of any path to `v`,
never exceeds the sentinel, and is the weight of a path when it is below the
sentinel. -/
theorem dijkstra_dist_facts_fp (g : Graph) (hwf : WF g) (hnn : NonNeg g) (src : Nat)
    (hsrc : src < g.V) :
    (∀ v d, IsPathFp g src v d → (dijkstra_fp g src).dist v ≤ d) ∧
    (∀ v, (dijkstra_fp g src).dist v ≤ INF) ∧
    (∀ v, (dijkstra_fp g src).dist v < INF → IsPathFp g src v ((dijkstra_fp g src).dist v)) := by
  have hdj : dijkstra_fp g (src : Int) = dijkstra_rounds_fp g (g.V - 1)
      { dist := Function.update (fun _ => INF) src 0, parent := fun _ => -1,
        visited := fun _ => false } := by
    unfold dijkstra_fp
    dsimp only
    rw [if_neg (by omega), Int.toNat_ofNat]
  obtain ⟨k, r, hr, hd, hstop⟩ := dist_rounds_fp g hwf hnn src hsrc (g.V - 1) _ 0 (fun _ => 0)
    (rank_init g src) (dist_init_fp g src)
  rw [← hdj] at hr hd hstop
  refine ⟨?_, hd.dist_le, hd.reach⟩
  intro v d hp
  rcases frontier_cut_fp g hwf hnn src hsrc _ hd v d hp with hv | ⟨y, hy1, hy2, hy3⟩
  · exact hd.vis_min v hv d hp
  · rcases hstop with hk | hs
    · have hvV := (road_path_facts_fp g hwf hnn src hsrc v d hp).1
      cases hvv : (dijkstra_fp g src).visited v
      · by_cases hvy : v = y
        · rw [hvy]; exact hy3
        · exfalso
          have hsub : (Finset.range g.V).filter (fun x => (dijkstra_fp g src).visited x = true) ⊆
              ((Finset.range g.V).erase v).erase y := by
            intro x hx
            rw [Finset.mem_filter, Finset.mem_range] at hx
            rw [Finset.mem_erase, Finset.mem_erase, Finset.mem_range]
            refine ⟨?_, ?_, hx.1⟩
            · intro h; rw [h, hy2] at hx; cases hx.2
            · intro h; rw [h, hvv] at hx; cases hx.2
          have hc := Finset.card_le_card hsub
          rw [hr.count, Finset.card_erase_of_mem (by
            rw [Finset.mem_erase, Finset.mem_range]; exact ⟨fun h => hvy h.symm, hy1⟩),
            Finset.card_erase_of_mem (Finset.mem_range.mpr hvV), Finset.card_range] at hc
          omega
      · exact hd.vis_min v hvv d hp
    · have := hs y hy1 hy2
      exact le_trans (hd.dist_le v) (le_trans this hy3)


end MainC

namespace GraphC

/-- Reachability does not depend on how the weights are added. -/
theorem reachable_iff_fp (g : Graph) (src v : Nat) :
    Reachable g src v ↔ ∃ d, IsPathFp g src v d := by
  constructor
  · rintro ⟨d, h⟩
    induction h with
    | nil => exact ⟨0, IsPathFp.nil⟩
    | snoc e _ he ih =>
      obtain ⟨d', h'⟩ := ih
      exact ⟨_, IsPathFp.snoc e h' he⟩
  · rintro ⟨d, h⟩
    induction h with
    | nil => exact ⟨0, IsPath.nil⟩
    | snoc e _ he ih =>
      obtain ⟨d', h'⟩ := ih
      exact ⟨_, IsPath.snoc e h' he⟩

/-- All paths of `chainC` from node 0, with their exact total weights. -/
theorem chain_paths : ∀ v d, IsPath chainC 0 v d →
    (v = 0 ∧ d = 0) ∨ (v = 1 ∧ d = 1000000000 - 1 / 4194304) ∨
    (v = 2 ∧ d = 1000000000 - 1 / 4194304 + 9 / 134217728) ∨
    (v = 3 ∧ d = 1000000000 - 1 / 4194304 + 18 / 134217728) ∨
    (v = 4 ∧ d = 1000000000 - 1 / 4194304 + 27 / 134217728) := by
  intro v d h
  induction h with
  | nil => left; exact ⟨rfl, rfl⟩
  | @snoc x d1 e _ he ih =>
    have h0 : out_edges chainC 0 = [0] := by decide!
    have h1 : out_edges chainC 1 = [1] := by decide!
    have h2 : out_edges chainC 2 = [2] := by decide!
    have h3 : out_edges chainC 3 = [3] := by decide!
    have h4 : out_edges chainC 4 = [] := by decide!
    have ht0 : (chainC.edges 0).to_ = 1 := by decide!
    have hw0 : (chainC.edges 0).weight = 1000000000 - 1 / 4194304 := by decide!
    have ht1 : (chainC.edges 1).to_ = 2 := by decide!
    have hw1 : (chainC.edges 1).weight = 9 / 134217728 := by decide!
    have ht2 : (chainC.edges 2).to_ = 3 := by decide!
    have hw2 : (chainC.edges 2).weight = 9 / 134217728 := by decide!
    have ht3 : (chainC.edges 3).to_ = 4 := by decide!
    have hw3 : (chainC.edges 3).weight = 9 / 134217728 := by decide!
    rcases ih with ⟨hx, hd⟩ | ⟨hx, hd⟩ | ⟨hx, hd⟩ | ⟨hx, hd⟩ | ⟨hx, _⟩
    · subst hx
      rw [h0, List.mem_singleton] at he
      subst he
      right; left
      rw [ht0, hw0, hd]
      exact ⟨rfl, by norm_num⟩
    · subst hx
      rw [h1, List.mem_singleton] at he
      subst he
      right; right; left
      rw [ht1, hw1, hd]
      exact ⟨rfl, by norm_num⟩
    · subst hx
      rw [h2, List.mem_singleton] at he
      subst he
      right; right; right; left
      rw [ht2, hw2, hd]
      exact ⟨rfl, by norm_num⟩
    · subst hx
      rw [h3, List.mem_singleton] at he
      subst he
      right; right; right; right
      rw [ht3, hw3, hd]
      exact ⟨rfl, by norm_num⟩
    · subst hx
      rw [h4] at he
      exact absurd he (List.not_mem_nil _)

/-- The exact total weights of the paths of `chainC` to its four later nodes;
each is the minimum for its node and lies below `1e9`. -/
theorem chain_min :
    IsMinWeight chainC 0 1 (1000000000 - 1 / 4194304) ∧
    IsMinWeight chainC 0 2 (1000000000 - 1 / 4194304 + 9 / 134217728) ∧
    IsMinWeight chainC 0 3 (1000000000 - 1 / 4194304 + 18 / 134217728) ∧
    IsMinWeight chainC 0 4 (1000000000 - 1 / 4194304 + 27 / 134217728) := by
  have ht0 : (chainC.edges 0).to_ = 1 := by decide!
  have hw0 : (chainC.edges 0).weight = 1000000000 - 1 / 4194304 := by decide!
  have ht1 : (chainC.edges 1).to_ = 2 := by decide!
  have hw1 : (chainC.edges 1).weight = 9 / 134217728 := by decide!
  have ht2 : (chainC.edges 2).to_ = 3 := by decide!
  have hw2 : (chainC.edges 2).weight = 9 / 134217728 := by decide!
  have ht3 : (chainC.edges 3).to_ = 4 := by decide!
  have hw3 : (chainC.edges 3).weight = 9 / 134217728 := by decide!
  have p1 : IsPath chainC 0 1 (1000000000 - 1 / 4194304) := by
    have h : IsPath chainC 0 (chainC.edges 0).to_ (0 + (chainC.edges 0).weight) :=
      IsPath.snoc 0 IsPath.nil (by decide!)
    rw [ht0, hw0, zero_add] at h
    exact h
  have p2 : IsPath chainC 0 2 (1000000000 - 1 / 4194304 + 9 / 134217728) := by
    have h := IsPath.snoc 1 p1 (by decide!)
    rw [ht1, hw1] at h
    exact h
  have p3 : IsPath chainC 0 3 (1000000000 - 1 / 4194304 + 18 / 134217728) := by
    have h := IsPath.snoc 2 p2 (by decide!)
    rw [ht2, hw2] at h
    have e : (1000000000 : ℚ) - 1 / 4194304 + 9 / 134217728 + 9 / 134217728 =
        1000000000 - 1 / 4194304 + 18 / 134217728 := by norm_num
    rw [e] at h
    exact h
  have p4 : IsPath chainC 0 4 (1000000000 - 1 / 4194304 + 27 / 134217728) := by
    have h := IsPath.snoc 3 p3 (by decide!)
    rw [ht3, hw3] at h
    have e : (1000000000 : ℚ) - 1 / 4194304 + 18 / 134217728 + 9 / 134217728 =
        1000000000 - 1 / 4194304 + 27 / 134217728 := by norm_num
    rw [e] at h
    exact h
  refine ⟨⟨p1, ?_⟩, ⟨p2, ?_⟩, ⟨p3, ?_⟩, ⟨p4, ?_⟩⟩
  · intro d hd
    rcases chain_paths 1 d hd with ⟨h, _⟩ | ⟨_, h⟩ | ⟨h, _⟩ | ⟨h, _⟩ | ⟨h, _⟩
    · exact absurd h (by decide)
    · exact le_of_eq h.symm
    · exact absurd h (by decide)
    · exact absurd h (by decide)
    · exact absurd h (by decide)
  · intro d hd
    rcases chain_paths 2 d hd with ⟨h, _⟩ | ⟨h, _⟩ | ⟨_, h⟩ | ⟨h, _⟩ | ⟨h, _⟩
    · exact absurd h (by decide)
    · exact absurd h (by decide)
    · exact le_of_eq h.symm
    · exact absurd h (by decide)
    · exact absurd h (by decide)
  · intro d hd
    rcases chain_paths 3 d hd with ⟨h, _⟩ | ⟨h, _⟩ | ⟨h, _⟩ | ⟨_, h⟩ | ⟨h, _⟩
    · exact absurd h (by decide)
    · exact absurd h (by decide)
    · exact absurd h (by decide)
    · exact le_of_eq h.symm
    · exact absurd h (by decide)
  · intro d hd
    rcases chain_paths 4 d hd with ⟨h, _⟩ | ⟨h, _⟩ | ⟨h, _⟩ | ⟨h, _⟩ | ⟨_, h⟩
    · exact absurd h (by decide)
    · exact absurd h (by decide)
    · exact absurd h (by decide)
    · exact absurd h (by decide)
    · exact le_of_eq h.symm

end GraphC

namespace MainC

/-! ### main.c and graph.c: the two `dijkstra` on the same roads, in double arithmetic -/

/-- The two stores have the same paths, with the same accumulated weights. -/
theorem same_paths_fp (gm : Graph) (gc : GraphC.Graph) (hs : SameRoads gm gc)
    (hwf : GraphC.WF gc) (hnn : GraphC.NonNeg gc) (src : Nat) (hsrc : src < gc.V) (v : Nat)
    (d : ℚ) : IsPathFp gm src v d ↔ GraphC.IsPathFp gc src v d := by
  obtain ⟨mwf, mnn⟩ := same_roads_wf gm gc hs hwf hnn
  have hsrc' : src < gm.V := by rw [hs.1]; exact hsrc
  constructor
  · intro h
    induction h with
    | nil => exact GraphC.IsPathFp.nil
    | @snoc x d e hp he ih =>
      have hx := (road_path_facts_fp gm mwf mnn src hsrc' x d hp).1
      obtain ⟨e', he', h1, h2⟩ := road_to_edge gm gc hs x hx e he
      rw [← h1, ← h2]
      exact GraphC.IsPathFp.snoc e' ih he'
  · intro h
    induction h with
    | nil => exact IsPathFp.nil
    | @snoc x d e' hp he' ih =>
      have hx := (road_path_facts_fp gm mwf mnn src hsrc' x d ih).1
      obtain ⟨e, he, h1, h2⟩ := edge_to_road gm gc hs x hx e' he'
      rw [← h1, ← h2]
      exact IsPathFp.snoc e ih he

/-- C28 (amended). On the same nodes and roads with nonnegative weights, from
a valid source, when every reachable node has a path whose weight accumulated
in double arithmetic is below `1e9`: for every reachable node the array-scan
`dijkstra` of main.c and the heap `dijkstra` of graph.c write the same `dist`,
the minimum accumulated path weight; for every other node main.c writes its
sentinel `1e9` and graph.c its sentinel `1e18`. -/
theorem dijkstra_agree_fp (gm : Graph) (gc : GraphC.Graph) (src : Nat) (hs : SameRoads gm gc)
    (hwf : GraphC.WF gc) (hnn : GraphC.NonNeg gc) (hsrc : src < gc.V)
    (hfin : ∀ v, GraphC.Reachable gc src v → ∃ d, GraphC.IsPathFp gc src v d ∧ d < INF) :
    ∀ v,
      (GraphC.Reachable gc src v →
        (dijkstra_fp gm src).dist v = (GraphC.dijkstra_fp gc src).dist v ∧
        GraphC.IsMinWeightFp gc src v ((dijkstra_fp gm src).dist v) ∧
        (dijkstra_fp gm src).dist v < INF) ∧
      (¬ GraphC.Reachable gc src v →
        (dijkstra_fp gm src).dist v = INF ∧ (GraphC.dijkstra_fp gc src).dist v = GraphC.INF) := by
  obtain ⟨mwf, mnn⟩ := same_roads_wf gm gc hs hwf hnn
  have hsrc' : src < gm.V := by rw [hs.1]; exact hsrc
  obtain ⟨m1, m2, m3⟩ := dijkstra_dist_facts_fp gm mwf mnn src hsrc'
  have hII : INF < GraphC.INF := by unfold INF GraphC.INF; norm_num
  intro v
  constructor
  · intro hr
    obtain ⟨d0, hp0, hd0⟩ := hfin v hr
    have hm_lt : (dijkstra_fp gm src).dist v < INF :=
      lt_of_le_of_lt (m1 v d0 ((same_paths_fp gm gc hs hwf hnn src hsrc v d0).mpr hp0)) hd0
    have hm_path : GraphC.IsPathFp gc src v ((dijkstra_fp gm src).dist v) :=
      (same_paths_fp gm gc hs hwf hnn src hsrc v _).mp (m3 v hm_lt)
    have hm_min : ∀ d, GraphC.IsPathFp gc src v d → (dijkstra_fp gm src).dist v ≤ d :=
      fun d hp => m1 v d ((same_paths_fp gm gc hs hwf hnn src hsrc v d).mpr hp)
    have hc_lt : (GraphC.dijkstra_fp gc src).dist v < GraphC.INF :=
      lt_of_le_of_lt (GraphC.dijkstra_le_path_fp gc hwf hnn src hsrc v d0 hp0)
        (lt_trans hd0 hII)
    have hc_path := GraphC.dijkstra_isPath_fp gc hwf hnn src hsrc v hc_lt
    refine ⟨le_antisymm (hm_min _ hc_path) ?_, ⟨hm_path, hm_min⟩, hm_lt⟩
    exact GraphC.dijkstra_le_path_fp gc hwf hnn src hsrc v _ hm_path
  · intro hnr
    have hnr' : ¬ ∃ d, GraphC.IsPathFp gc src v d :=
      fun h => hnr ((GraphC.reachable_iff_fp gc src v).mpr h)
    constructor
    · by_contra hne
      have hlt := lt_of_le_of_ne (m2 v) hne
      exact hnr' ⟨_, (same_paths_fp gm gc hs hwf hnn src hsrc v _).mp (m3 v hlt)⟩
    · obtain ⟨hinv, _⟩ := GraphC.dijkstra_final_fp gc hwf hnn src hsrc
      by_contra hne
      have hlt := lt_of_le_of_ne (hinv.dist_le v) hne
      exact hnr' ⟨_, GraphC.dijkstra_isPath_fp gc hwf hnn src hsrc v hlt⟩

theorem dijkstra_agree_fp_witness :
    SameRoads tenthsM GraphC.tenthsGraph ∧ GraphC.WF GraphC.tenthsGraph ∧
    GraphC.NonNeg GraphC.tenthsGraph ∧ 0 < GraphC.tenthsGraph.V ∧
    (dijkstra_fp tenthsM ((0 : Nat) : Int)).dist 2 =
      (GraphC.dijkstra_fp GraphC.tenthsGraph 0).dist 2 ∧
    (dijkstra_fp tenthsM ((0 : Nat) : Int)).dist 2 = 1351079888211149 / 4503599627370496 :=
  ⟨by unfold SameRoads; decide!, by decide!, by decide!, by decide!,
    ((dijkstra_agree_fp tenthsM GraphC.tenthsGraph 0 (by unfold SameRoads; decide!) (by decide!)
      (by decide!) (by decide!)
      (fun v hr => by
        obtain ⟨d, hp⟩ := (GraphC.reachable_iff_fp GraphC.tenthsGraph 0 v).mp hr
        have hv := (GraphC.isPath_facts_fp GraphC.tenthsGraph (by decide!) (by decide!) 0
          (by decide!) v d hp).1
        have hall : ∀ v, v < GraphC.tenthsGraph.V →
            (GraphC.dijkstra_fp GraphC.tenthsGraph 0).dist v < INF := by decide!
        have hII : INF < GraphC.INF := by unfold INF GraphC.INF; norm_num
        exact ⟨_, GraphC.dijkstra_isPath_fp GraphC.tenthsGraph (by decide!) (by decide!) 0
          (by decide!) v (lt_trans (hall v hv) hII), hall v hv⟩) 2).1
      ((GraphC.reachable_iff_fp GraphC.tenthsGraph 0 2).mpr
        ⟨_, GraphC.dijkstra_isPath_fp GraphC.tenthsGraph (by decide!) (by decide!) 0 (by decide!)
          2 (by decide!)⟩)).1,
    by decide!⟩

/-- Counterexample to C28 as stated.  On the chain of five places (the same
roads in both stores, nonnegative double weights) every node is reachable
from node 0 and its minimum total path weight is below `1e9`; yet at node 4
main.c leaves its sentinel `1e9` while graph.c writes `1e9 + 2^-23`: the
machine sum for node 3 is exactly `1e9`, which is not below the sentinel of
main.c, so main.c never expands node 3. -/
theorem dijkstra_agree_chain :
    SameRoads chainM GraphC.chainC ∧ GraphC.WF GraphC.chainC ∧ GraphC.NonNeg GraphC.chainC ∧
    GraphC.Doubles GraphC.chainC ∧ GraphC.chainC.V = 5 ∧
    GraphC.IsMinWeight GraphC.chainC 0 1 (1000000000 - 1 / 4194304) ∧
    GraphC.IsMinWeight GraphC.chainC 0 2 (1000000000 - 1 / 4194304 + 9 / 134217728) ∧
    GraphC.IsMinWeight GraphC.chainC 0 3 (1000000000 - 1 / 4194304 + 18 / 134217728) ∧
    GraphC.IsMinWeight GraphC.chainC 0 4 (1000000000 - 1 / 4194304 + 27 / 134217728) ∧
    (1000000000 - 1 / 4194304 + 27 / 134217728 : ℚ) < INF ∧
    (dijkstra_fp chainM ((0 : Nat) : Int)).dist 4 = INF ∧
    (GraphC.dijkstra_fp GraphC.chainC 0).dist 4 = 1000000000 + 1 / 8388608 ∧
    (dijkstra_fp chainM ((0 : Nat) : Int)).dist 4 ≠ (GraphC.dijkstra_fp GraphC.chainC 0).dist 4 :=
  ⟨by unfold SameRoads; decide!, by decide!, by decide!, by decide!, by decide!,
    GraphC.chain_min.1, GraphC.chain_min.2.1, GraphC.chain_min.2.2.1, GraphC.chain_min.2.2.2,
    by unfold INF; norm_num, by decide!, by decide!, by decide!⟩

end MainC

namespace GraphC

/-! ### A matching start node is its own nearest facility -/

/-- With strictly positive double weights every path that leaves the source
has a strictly positive accumulated weight: the machine sum of a nonnegative
number and a positive double is at least that double. -/
theorem isPath_pos_fp (g : Graph) (hwf : WF g) (hpos : Positive g) (hdbl : Doubles g)
    (src : Nat) (hsrc : src < g.V) :
    ∀ v d, IsPathFp g src v d → v < g.V ∧ 0 ≤ d ∧ (v ≠ src → 0 < d) := by
  intro v d h
  induction h with
  | nil => exact ⟨hsrc, le_refl _, fun hne => absurd rfl hne⟩
  | snoc e _ he ih =>
    have helt := out_edges_lt g hwf _ ih.1 e he
    have hw := hpos e helt
    have hge := Dbl.add_mono_left (le_refl 0) (le_of_lt hw) ih.2.1
    rw [Dbl.zero_add_dbl (hdbl e helt)] at hge
    exact ⟨(hwf.2 e helt).1, le_of_lt (lt_of_lt_of_le hw hge), fun _ => lt_of_lt_of_le hw hge⟩

/-- A matching start is its own nearest facility also when the sums of
`dijkstra` are taken in double arithmetic: on a graph with strictly positive
double weights, when the node at a valid start index matches the request, the
result is the start index itself, at distance 0, and every other node is at a
positive distance. -/
theorem start_is_nearest_fp (g : Graph) (start : Nat) (r : Option String) (hwf : WF g)
    (hpos : Positive g) (hdbl : Doubles g) (hs : start < g.V)
    (hm : node_matches_type_or_name g start r = true) :
    find_nearest_of_type_from_fp g (start : Int) r = (start : Int) ∧
    (dijkstra_fp g start).dist start = 0 ∧
    ∀ i, i ≠ start → 0 < (dijkstra_fp g start).dist i := by
  have hnn := positive_nonneg g hpos
  obtain ⟨hinv, _⟩ := dijkstra_final_fp g hwf hnn start hs
  have hfar : ∀ i, i ≠ start → 0 < (dijkstra_fp g start).dist i := by
    intro i hi
    by_cases hd : (dijkstra_fp g start).dist i < INF
    · exact (isPath_pos_fp g hwf hpos hdbl start hs i _
        (dijkstra_isPath_fp g hwf hnn start hs i hd)).2.2 hi
    · exact lt_of_lt_of_le INF_pos (not_lt.mp hd)
  have h0 : (dijkstra_fp g start).dist start = 0 := hinv.dist_src
  refine ⟨?_, h0, hfar⟩
  have hfn : find_nearest_of_type_from_fp g (start : Int) r =
      ((List.range g.V).foldl (nearest_step g (dijkstra_fp g start).dist r) (INF, -1)).2 := by
    unfold find_nearest_of_type_from_fp
    rw [if_neg (by omega), Int.toNat_ofNat]
  rw [hfn]
  rcases nearest_scan g (dijkstra_fp g start).dist r g.V with
    ⟨_, _, h2⟩ | ⟨k, _, hk, _, _, _, h2, _⟩
  · have := h2 start hs hm
    rw [h0] at this
    exact absurd INF_pos (not_lt.mpr this)
  · have hle := h2 start hs hm
    rw [h0] at hle
    by_cases hks : k = start
    · rw [hk, hks]
    · exact absurd (hfar k hks) (not_lt.mpr hle)

/-! ### The parent array of `dijkstra_fp` has no cycle -/

theorem branch_chain_fp (g : Graph) (src : Nat) (dist : Nat → ℚ) (parent : Nat → Int) :
    ∀ v st, BranchFp g src dist parent v st →
      List.Chain' (fun a b => parent a = (b : Int)) st := by
  intro v st h
  induction h with
  | root => exact List.chain'_singleton _
  | step e _ hp _ _ _ ih => exact List.Chain'.cons hp ih

/-- The parent array has no cycle also when the sums of `dijkstra` are taken
in double arithmetic: for every node `dest` the walk over the parent array is
left after pushing a list of pairwise distinct nodes, at most `V` of them,
each followed by its parent, and `print_path` writes them in reverse. -/
theorem parent_walk_fp (g : Graph) (src dest : Nat) (hwf : WF g) (hnn : NonNeg g)
    (hsrc : src < g.V) (hdest : dest < g.V) :
    ∃ st : List Nat,
      path_stack (dijkstra_fp g src).parent g.V (dest : Int) = some st ∧
      st.head? = some dest ∧
      List.Chain' (fun a b => (dijkstra_fp g src).parent a = (b : Int)) st ∧
      (∀ x, st.getLast? = some x → (dijkstra_fp g src).parent x = -1) ∧
      st.Nodup ∧ (∀ x, x ∈ st → x < g.V) ∧ st.length ≤ g.V ∧
      path_nodes g (dijkstra_fp g src).parent (dest : Int) = some st.reverse ∧
      print_path g (dijkstra_fp g src).parent (dest : Int) =
        some (st.reverse.map (node_label g)) := by
  obtain ⟨hinv, _⟩ := dijkstra_final_fp g hwf hnn src hsrc
  have hfin : ∀ st : List Nat,
      path_stack (dijkstra_fp g src).parent g.V (dest : Int) = some st →
      path_nodes g (dijkstra_fp g src).parent (dest : Int) = some st.reverse ∧
      print_path g (dijkstra_fp g src).parent (dest : Int) =
        some (st.reverse.map (node_label g)) := by
    intro st hst
    have hpn : path_nodes g (dijkstra_fp g src).parent (dest : Int) = some st.reverse := by
      unfold path_nodes
      rw [if_neg (by omega), hst]
      rfl
    refine ⟨hpn, ?_⟩
    unfold print_path
    rw [hpn]
    rfl
  by_cases hd : (dijkstra_fp g src).dist dest < INF
  · obtain ⟨st, hb, hnd, hlt, _⟩ := hinv.tree dest hd
    obtain ⟨tl, htl⟩ := branch_head_fp g src _ _ dest st hb
    have hlen := nodup_length_le st g.V hnd hlt
    have hst := branch_stack_fp g src _ _ hinv.parent_src dest st hb g.V hlen
    refine ⟨st, hst, by rw [htl]; rfl, branch_chain_fp g src _ _ dest st hb, ?_, hnd, hlt, hlen,
      hfin st hst⟩
    intro x hx
    rw [branch_last_fp g src _ _ dest st hb] at hx
    rw [← Option.some.inj hx]
    exact hinv.parent_src
  · have hI : (dijkstra_fp g src).dist dest = INF := le_antisymm (hinv.dist_le dest) (not_lt.mp hd)
    have hp := hinv.parent_inf dest hI
    have hst : path_stack (dijkstra_fp g src).parent g.V (dest : Int) = some [dest] := by
      obtain ⟨n, hn⟩ : ∃ n, g.V = n + 1 := ⟨g.V - 1, by omega⟩
      rw [hn]
      unfold path_stack
      rw [if_neg (by omega), Int.toNat_ofNat, hp]
      cases n <;> simp [path_stack]
    refine ⟨[dest], hst, rfl, List.chain'_singleton _, ?_, List.nodup_singleton _, ?_, ?_,
      hfin [dest] hst⟩
    · intro x hx
      have : dest = x := by simpa using hx
      rw [← this]
      exact hp
    · intro x hx
      have : x = dest := by simpa using hx
      rw [this]
      exact hdest
    · show 1 ≤ g.V
      omega

end GraphC
